import Mathlib

/-!
# catbase babbler: a shallow embedding of `plugins/babbler/babbler.go`

The babbler keeps four tables (`babblers`, `babblerWords`, `babblerNodes`,
`babblerArcs`) in an SQLite database.  The embedding represents every table as
the list of its rows in insertion order (which is the order of ascending
`id`, the one in which SQLite enumerates a table scan), and every Go method as
a function that takes the store and returns the new store together with the Go
return values.

Conventions
* The first sections keep a word as its text and an `int64` counter as a
  natural number.  They are the code as long as SQLite keeps every word as text
  and no counter reaches `2^63`.  The section "SQLite values" embeds the same
  methods together with the typing of the store: the NUMERIC affinity of the
  columns declared `string`, the floating-point value that SQLite keeps of a
  sum outside the range of `int64`, the `Scan` that fails on it and the sums
  of Go that wrap around.  A theorem about the first sections that depends on
  one of the two conditions has it as a hypothesis (`keptAsText`,
  `Int64Store`).
* Failures of the storage itself (a failing `Exec`, a lost connection) are not
  modelled; the `sql.ErrNoRows` outcomes are, and so is the failing `Scan` of
  the section "SQLite values".
* A Go string is a Lean `String`, a sequence of runes; `strings.ToLower` maps
  every rune through `unicode.ToLower`, the simple lower-case mapping of
  Unicode.
* `math/rand` is an explicit stream of raw values `rnd : Nat → Nat`;
  `rand.Int63n n` is `Int63n n r` for the next raw value `r`.
* Of the method `Message` of the babbler the embedding has the dispatch, the
  handler that the if-chain selects; the handlers are not among the sources.

The last section embeds `LeftpadPlugin.Message` of `plugins/leftpad/leftpad.go`,
with the network request as a parameter.
-/

namespace Catbase

/-! ## Go strings -/

/-- Go `unicode.IsSpace`. -/
def isSpace (c : Char) : Bool :=
  c.val = 0x09 || c.val = 0x0A || c.val = 0x0B || c.val = 0x0C || c.val = 0x0D ||
  c.val = 0x20 || c.val = 0x85 || c.val = 0xA0 || c.val = 0x1680 ||
  (0x2000 ≤ c.val && c.val ≤ 0x200A) || c.val = 0x2028 || c.val = 0x2029 ||
  c.val = 0x202F || c.val = 0x205F || c.val = 0x3000

/-- A run of runes with a lower-case mapping, as in the table `CaseRanges` of
Go package `unicode`: in `(lo, hi, stride, to)` the runes `lo`, `lo + stride`,
... up to `hi` map to `to`, `to + stride`, ... -/
abbrev CaseRange := Nat × Nat × Nat × Nat

/-- The lower-case mappings of the runes above ASCII (the simple lower-case
mapping of the Unicode character database, version 15.0). -/
def caseRanges : List CaseRange :=
  [(0xC0, 0xD6, 1, 0xE0), (0xD8, 0xDE, 1, 0xF8), (0x100, 0x12E, 2, 0x101),
   (0x130, 0x130, 1, 0x69), (0x132, 0x136, 2, 0x133), (0x139, 0x147, 2, 0x13A),
   (0x14A, 0x176, 2, 0x14B), (0x178, 0x178, 1, 0xFF), (0x179, 0x17D, 2, 0x17A),
   (0x181, 0x181, 1, 0x253), (0x182, 0x184, 2, 0x183), (0x186, 0x186, 1, 0x254),
   (0x187, 0x187, 1, 0x188), (0x189, 0x18A, 1, 0x256), (0x18B, 0x18B, 1, 0x18C),
   (0x18E, 0x18E, 1, 0x1DD), (0x18F, 0x18F, 1, 0x259), (0x190, 0x190, 1, 0x25B),
   (0x191, 0x191, 1, 0x192), (0x193, 0x193, 1, 0x260), (0x194, 0x194, 1, 0x263),
   (0x196, 0x196, 1, 0x269), (0x197, 0x197, 1, 0x268), (0x198, 0x198, 1, 0x199),
   (0x19C, 0x19C, 1, 0x26F), (0x19D, 0x19D, 1, 0x272), (0x19F, 0x19F, 1, 0x275),
   (0x1A0, 0x1A4, 2, 0x1A1), (0x1A6, 0x1A6, 1, 0x280), (0x1A7, 0x1A7, 1, 0x1A8),
   (0x1A9, 0x1A9, 1, 0x283), (0x1AC, 0x1AC, 1, 0x1AD), (0x1AE, 0x1AE, 1, 0x288),
   (0x1AF, 0x1AF, 1, 0x1B0), (0x1B1, 0x1B2, 1, 0x28A), (0x1B3, 0x1B5, 2, 0x1B4),
   (0x1B7, 0x1B7, 1, 0x292), (0x1B8, 0x1B8, 1, 0x1B9), (0x1BC, 0x1BC, 1, 0x1BD),
   (0x1C4, 0x1C4, 1, 0x1C6), (0x1C5, 0x1C5, 1, 0x1C6), (0x1C7, 0x1C7, 1, 0x1C9),
   (0x1C8, 0x1C8, 1, 0x1C9), (0x1CA, 0x1CA, 1, 0x1CC), (0x1CB, 0x1DB, 2, 0x1CC),
   (0x1DE, 0x1EE, 2, 0x1DF), (0x1F1, 0x1F1, 1, 0x1F3), (0x1F2, 0x1F4, 2, 0x1F3),
   (0x1F6, 0x1F6, 1, 0x195), (0x1F7, 0x1F7, 1, 0x1BF), (0x1F8, 0x21E, 2, 0x1F9),
   (0x220, 0x220, 1, 0x19E), (0x222, 0x232, 2, 0x223), (0x23A, 0x23A, 1, 0x2C65),
   (0x23B, 0x23B, 1, 0x23C), (0x23D, 0x23D, 1, 0x19A), (0x23E, 0x23E, 1, 0x2C66),
   (0x241, 0x241, 1, 0x242), (0x243, 0x243, 1, 0x180), (0x244, 0x244, 1, 0x289),
   (0x245, 0x245, 1, 0x28C), (0x246, 0x24E, 2, 0x247), (0x370, 0x372, 2, 0x371),
   (0x376, 0x376, 1, 0x377), (0x37F, 0x37F, 1, 0x3F3), (0x386, 0x386, 1, 0x3AC),
   (0x388, 0x38A, 1, 0x3AD), (0x38C, 0x38C, 1, 0x3CC), (0x38E, 0x38F, 1, 0x3CD),
   (0x391, 0x3A1, 1, 0x3B1), (0x3A3, 0x3AB, 1, 0x3C3), (0x3CF, 0x3CF, 1, 0x3D7),
   (0x3D8, 0x3EE, 2, 0x3D9), (0x3F4, 0x3F4, 1, 0x3B8), (0x3F7, 0x3F7, 1, 0x3F8),
   (0x3F9, 0x3F9, 1, 0x3F2), (0x3FA, 0x3FA, 1, 0x3FB), (0x3FD, 0x3FF, 1, 0x37B),
   (0x400, 0x40F, 1, 0x450), (0x410, 0x42F, 1, 0x430), (0x460, 0x480, 2, 0x461),
   (0x48A, 0x4BE, 2, 0x48B), (0x4C0, 0x4C0, 1, 0x4CF), (0x4C1, 0x4CD, 2, 0x4C2),
   (0x4D0, 0x52E, 2, 0x4D1), (0x531, 0x556, 1, 0x561), (0x10A0, 0x10C5, 1, 0x2D00),
   (0x10C7, 0x10C7, 1, 0x2D27), (0x10CD, 0x10CD, 1, 0x2D2D), (0x13A0, 0x13EF, 1, 0xAB70),
   (0x13F0, 0x13F5, 1, 0x13F8), (0x1C90, 0x1CBA, 1, 0x10D0), (0x1CBD, 0x1CBF, 1, 0x10FD),
   (0x1E00, 0x1E94, 2, 0x1E01), (0x1E9E, 0x1E9E, 1, 0xDF), (0x1EA0, 0x1EFE, 2, 0x1EA1),
   (0x1F08, 0x1F0F, 1, 0x1F00), (0x1F18, 0x1F1D, 1, 0x1F10), (0x1F28, 0x1F2F, 1, 0x1F20),
   (0x1F38, 0x1F3F, 1, 0x1F30), (0x1F48, 0x1F4D, 1, 0x1F40), (0x1F59, 0x1F5F, 2, 0x1F51),
   (0x1F68, 0x1F6F, 1, 0x1F60), (0x1F88, 0x1F8F, 1, 0x1F80), (0x1F98, 0x1F9F, 1, 0x1F90),
   (0x1FA8, 0x1FAF, 1, 0x1FA0), (0x1FB8, 0x1FB9, 1, 0x1FB0), (0x1FBA, 0x1FBB, 1, 0x1F70),
   (0x1FBC, 0x1FBC, 1, 0x1FB3), (0x1FC8, 0x1FCB, 1, 0x1F72), (0x1FCC, 0x1FCC, 1, 0x1FC3),
   (0x1FD8, 0x1FD9, 1, 0x1FD0), (0x1FDA, 0x1FDB, 1, 0x1F76), (0x1FE8, 0x1FE9, 1, 0x1FE0),
   (0x1FEA, 0x1FEB, 1, 0x1F7A), (0x1FEC, 0x1FEC, 1, 0x1FE5), (0x1FF8, 0x1FF9, 1, 0x1F78),
   (0x1FFA, 0x1FFB, 1, 0x1F7C), (0x1FFC, 0x1FFC, 1, 0x1FF3), (0x2126, 0x2126, 1, 0x3C9),
   (0x212A, 0x212A, 1, 0x6B), (0x212B, 0x212B, 1, 0xE5), (0x2132, 0x2132, 1, 0x214E),
   (0x2160, 0x216F, 1, 0x2170), (0x2183, 0x2183, 1, 0x2184), (0x24B6, 0x24CF, 1, 0x24D0),
   (0x2C00, 0x2C2F, 1, 0x2C30), (0x2C60, 0x2C60, 1, 0x2C61), (0x2C62, 0x2C62, 1, 0x26B),
   (0x2C63, 0x2C63, 1, 0x1D7D), (0x2C64, 0x2C64, 1, 0x27D), (0x2C67, 0x2C6B, 2, 0x2C68),
   (0x2C6D, 0x2C6D, 1, 0x251), (0x2C6E, 0x2C6E, 1, 0x271), (0x2C6F, 0x2C6F, 1, 0x250),
   (0x2C70, 0x2C70, 1, 0x252), (0x2C72, 0x2C72, 1, 0x2C73), (0x2C75, 0x2C75, 1, 0x2C76),
   (0x2C7E, 0x2C7F, 1, 0x23F), (0x2C80, 0x2CE2, 2, 0x2C81), (0x2CEB, 0x2CED, 2, 0x2CEC),
   (0x2CF2, 0x2CF2, 1, 0x2CF3), (0xA640, 0xA66C, 2, 0xA641), (0xA680, 0xA69A, 2, 0xA681),
   (0xA722, 0xA72E, 2, 0xA723), (0xA732, 0xA76E, 2, 0xA733), (0xA779, 0xA77B, 2, 0xA77A),
   (0xA77D, 0xA77D, 1, 0x1D79), (0xA77E, 0xA786, 2, 0xA77F), (0xA78B, 0xA78B, 1, 0xA78C),
   (0xA78D, 0xA78D, 1, 0x265), (0xA790, 0xA792, 2, 0xA791), (0xA796, 0xA7A8, 2, 0xA797),
   (0xA7AA, 0xA7AA, 1, 0x266), (0xA7AB, 0xA7AB, 1, 0x25C), (0xA7AC, 0xA7AC, 1, 0x261),
   (0xA7AD, 0xA7AD, 1, 0x26C), (0xA7AE, 0xA7AE, 1, 0x26A), (0xA7B0, 0xA7B0, 1, 0x29E),
   (0xA7B1, 0xA7B1, 1, 0x287), (0xA7B2, 0xA7B2, 1, 0x29D), (0xA7B3, 0xA7B3, 1, 0xAB53),
   (0xA7B4, 0xA7C2, 2, 0xA7B5), (0xA7C4, 0xA7C4, 1, 0xA794), (0xA7C5, 0xA7C5, 1, 0x282),
   (0xA7C6, 0xA7C6, 1, 0x1D8E), (0xA7C7, 0xA7C9, 2, 0xA7C8), (0xA7D0, 0xA7D0, 1, 0xA7D1),
   (0xA7D6, 0xA7D8, 2, 0xA7D7), (0xA7F5, 0xA7F5, 1, 0xA7F6), (0xFF21, 0xFF3A, 1, 0xFF41),
   (0x10400, 0x10427, 1, 0x10428), (0x104B0, 0x104D3, 1, 0x104D8),
   (0x10570, 0x1057A, 1, 0x10597), (0x1057C, 0x1058A, 1, 0x105A3),
   (0x1058C, 0x10592, 1, 0x105B3), (0x10594, 0x10595, 1, 0x105BB),
   (0x10C80, 0x10CB2, 1, 0x10CC0), (0x118A0, 0x118BF, 1, 0x118C0),
   (0x16E40, 0x16E5F, 1, 0x16E60), (0x1E900, 0x1E921, 1, 0x1E922)]

/-- Whether the rune `n` is one of the run `q`. -/
def inRange (q : CaseRange) (n : Nat) : Bool :=
  q.1 ≤ n && n ≤ q.2.1 && (n - q.1) % q.2.2.1 == 0

/-- Go `unicode.ToLower`: an ASCII rune is mapped by the test
`'A' <= r && r <= 'Z'`, any other rune through the case table. -/
def unicode.ToLower (r : Char) : Char :=
  if r.val < 0x80 then Char.toLower r
  else
    match caseRanges.find? (fun q => inRange q r.toNat) with
    | some q => Char.ofNat (q.2.2.2 + (r.toNat - q.1))
    | none => r

/-- Go `strings.ToLower`: every rune through `unicode.ToLower`. -/
def ToLower (s : String) : String := String.mk (s.data.map unicode.ToLower)

/-- The runes of `unicode.IsSpace`. -/
def spaceRunes : List Nat :=
  [0x09, 0x0A, 0x0B, 0x0C, 0x0D, 0x20, 0x85, 0xA0, 0x1680, 0x2000, 0x2001, 0x2002, 0x2003,
   0x2004, 0x2005, 0x2006, 0x2007, 0x2008, 0x2009, 0x200A, 0x2028, 0x2029, 0x202F, 0x205F,
   0x3000]

/-- A check on one run of the case table: its runes are above ASCII, the
runes it maps to are valid and no upper-case ASCII letter, and neither side
holds a white-space rune. -/
def soundRange (q : CaseRange) : Bool :=
  0x80 ≤ q.1 && q.1 ≤ q.2.1 && 0 < q.2.2.1 &&
  (q.2.2.2 + (q.2.1 - q.1) < 0x41 || (0x5A < q.2.2.2 && q.2.2.2 + (q.2.1 - q.1) < 0xD800) ||
    (0xDFFF < q.2.2.2 && q.2.2.2 + (q.2.1 - q.1) < 0x110000)) &&
  spaceRunes.all (fun s => (s < q.1 || q.2.1 < s) && (s < q.2.2.2 || q.2.2.2 + (q.2.1 - q.1) < s))

/-- A check on two runs of the case table: the runes that `r` maps to are not
among the runes of `q` (they lie before it, after it, or between its runes). -/
def clearOf (r q : CaseRange) : Bool :=
  r.2.2.2 + (r.2.1 - r.1) < q.1 || q.2.1 < r.2.2.2 ||
    ((r.2.2.1 == 2 || r.1 == r.2.1) && q.2.2.1 == 2 && (r.2.2.2 + q.1) % 2 == 1)

/-- The scanning loop of Go `strings.Fields`: `cur` is the field being read (in
reverse), the result is the list of maximal runs of non-space runes. -/
def fieldsLoop : List Char → List Char → List String
  | [], [] => []
  | [], cur => [String.mk cur.reverse]
  | c :: cs, cur =>
    if isSpace c then
      (match cur with
       | [] => fieldsLoop cs []
       | _ :: _ => String.mk cur.reverse :: fieldsLoop cs [])
    else fieldsLoop cs (c :: cur)

/-- Go `strings.Fields`. -/
def Fields (s : String) : List String := fieldsLoop s.data []

/-- Go `strings.Join`. -/
def Join (elems : List String) (sep : String) : String :=
  String.mk (List.intercalate sep.data (elems.map String.data))

/-- Go `strings.TrimSpace`. -/
def TrimSpace (s : String) : String :=
  String.mk ((s.data.dropWhile isSpace).reverse.dropWhile isSpace).reverse

/-! ## Rows and store -/

/-- The error values the babbler returns; `ErrNoRows` is `sql.ErrNoRows`
leaving a raw query, `FATAL` the `log.Fatalf("shouldn't happen")` exits and
`PANIC` a Go run-time panic. -/
inductive Error where
  | NO_BABBLER
  | SAID_NOTHING
  | NEVER_SAID
  | MISSING_ARCS
  | ErrNoRows
  | FATAL
  | PANIC
  deriving DecidableEq, Repr

deriving instance DecidableEq for Except

structure Babbler where
  BabblerId : Nat
  Name : String
  deriving DecidableEq, Repr

structure BabblerWord where
  WordId : Nat
  Word : String
  deriving DecidableEq, Repr

structure BabblerNode where
  NodeId : Nat
  BabblerId : Nat
  WordId : Nat
  Root : Nat
  RootFrequency : Nat
  deriving DecidableEq, Repr

structure BabblerArc where
  ArcId : Nat
  FromNodeId : Nat
  ToNodeId : Nat
  Frequency : Nat
  deriving DecidableEq, Repr

/-- The database: the four tables created by `New`. -/
structure DB where
  babblers : List Babbler
  babblerWords : List BabblerWord
  babblerNodes : List BabblerNode
  babblerArcs : List BabblerArc
  deriving DecidableEq, Repr

/-- The row id SQLite gives to a row inserted in a table with an
`integer primary key` column whose present ids are `ids`: one more than the
largest. -/
def lastInsertId (ids : List Nat) : Nat := ids.foldr max 0 + 1

/-- The store after `New` on a fresh database: the four empty tables and the
word `""` inserted by `plugin.createNewWord("")`. -/
def New : DB :=
  { babblers := [], babblerWords := [⟨1, ""⟩], babblerNodes := [], babblerArcs := [] }

/-! ## Speakers and words -/

def makeBabbler (db : DB) (name : String) : DB × Babbler :=
  let id := lastInsertId (db.babblers.map (·.BabblerId))
  ({ db with babblers := db.babblers ++ [⟨id, name⟩] }, ⟨id, name⟩)

def getBabbler (db : DB) (name : String) : Except Error Babbler :=
  match db.babblers.find? (fun b => b.Name = name) with
  | some b => .ok b
  | none => .error .NO_BABBLER

def getWord (db : DB) (word : String) : Except Error BabblerWord :=
  match db.babblerWords.find? (fun w => w.Word = word) with
  | some w => .ok w
  | none => .error .NEVER_SAID

def createNewWord (db : DB) (word : String) : DB × BabblerWord :=
  let id := lastInsertId (db.babblerWords.map (·.WordId))
  ({ db with babblerWords := db.babblerWords ++ [⟨id, word⟩] }, ⟨id, word⟩)

def getOrCreateWord (db : DB) (word : String) : DB × BabblerWord :=
  match getWord db word with
  | .ok w => (db, w)
  | .error _ => createNewWord db word

/-! ## Nodes -/

def getBabblerNode (db : DB) (babbler : Babbler) (word : String) : Except Error BabblerNode :=
  match getWord db word with
  | .error e => .error e
  | .ok w =>
    match db.babblerNodes.find?
        (fun n => n.BabblerId = babbler.BabblerId ∧ n.WordId = w.WordId) with
    | some node => .ok node
    | none => .error .NEVER_SAID

/-- The node value returned is the Go struct literal, which leaves `BabblerId`
at its zero value. -/
def createBabblerNode (db : DB) (babbler : Babbler) (word : String) : DB × BabblerNode :=
  let (db1, w) := getOrCreateWord db word
  let id := lastInsertId (db1.babblerNodes.map (·.NodeId))
  ({ db1 with babblerNodes := db1.babblerNodes ++ [⟨id, babbler.BabblerId, w.WordId, 0, 0⟩] },
   ⟨id, 0, w.WordId, 0, 0⟩)

def getOrCreateBabblerNode (db : DB) (babbler : Babbler) (word : String) : DB × BabblerNode :=
  match getBabblerNode db babbler word with
  | .ok node => (db, node)
  | .error _ => createBabblerNode db babbler word

/-- The statement
`update babblerNodes set rootFrequency = rootFrequency + 1, root = 1 where id = ?`. -/
def updateRootById (nodes : List BabblerNode) (id : Nat) : List BabblerNode :=
  nodes.map fun n =>
    if n.NodeId = id then { n with RootFrequency := n.RootFrequency + 1, Root := 1 } else n

/-- The node value returned is the one read before the update with only
`RootFrequency` incremented, as in the Go code. -/
def incrementRootWordFrequency (db : DB) (babbler : Babbler) (word : String) :
    DB × BabblerNode :=
  let (db1, node) := getOrCreateBabblerNode db babbler word
  ({ db1 with babblerNodes := updateRootById db1.babblerNodes node.NodeId },
   { node with RootFrequency := node.RootFrequency + 1 })

/-! ## Arcs -/

def getBabblerArc (db : DB) (fromNode toNode : BabblerNode) : Except Error BabblerArc :=
  match db.babblerArcs.find?
      (fun a => a.FromNodeId = fromNode.NodeId ∧ a.ToNodeId = toNode.NodeId) with
  | some arc => .ok arc
  | none => .error .NEVER_SAID

/-- The statement `update babblerArcs set frequency = frequency + 1
where fromNodeId = ? and toNodeId = ?`. -/
def updateArcFrequency (arcs : List BabblerArc) (fromId toId : Nat) : List BabblerArc :=
  arcs.map fun a =>
    if a.FromNodeId = fromId ∧ a.ToNodeId = toId then { a with Frequency := a.Frequency + 1 }
    else a

/-- The number of rows the update statement of `incrementWordArc` affects. -/
def affectedArcRows (arcs : List BabblerArc) (fromId toId : Nat) : Nat :=
  (arcs.filter fun a => a.FromNodeId = fromId ∧ a.ToNodeId = toId).length

def incrementWordArc (db : DB) (fromNode toNode : BabblerNode) :
    DB × Except Error BabblerArc :=
  let affectedRows := affectedArcRows db.babblerArcs fromNode.NodeId toNode.NodeId
  let db1 := { db with
    babblerArcs := updateArcFrequency db.babblerArcs fromNode.NodeId toNode.NodeId }
  let db2 :=
    if affectedRows = 0 then
      { db1 with babblerArcs := db1.babblerArcs ++
          [⟨lastInsertId (db1.babblerArcs.map (·.ArcId)), fromNode.NodeId, toNode.NodeId, 1⟩] }
    else db1
  (db2, getBabblerArc db2 fromNode toNode)

def incrementFinalWordArcHelper (db : DB) (babbler : Babbler) (node : BabblerNode) :
    DB × Except Error BabblerArc :=
  let (db1, nextNode) := getOrCreateBabblerNode db babbler " "
  incrementWordArc db1 node nextNode

/-! ## Learning -/

/-- The loop `for i := 1; i < len(words); i++` of `addToMarkovChain` followed by
the final call of `incrementFinalWordArcHelper`; `words` is `words[i:]`. -/
def addLoop (babbler : Babbler) : DB → BabblerNode → List String → DB × Option Error
  | db, curNode, [] =>
    match incrementFinalWordArcHelper db babbler curNode with
    | (db1, .ok _) => (db1, none)
    | (db1, .error e) => (db1, some e)
  | db, curNode, word :: rest =>
    let (db1, nextNode) := getOrCreateBabblerNode db babbler word
    match incrementWordArc db1 curNode nextNode with
    | (db2, .error e) => (db2, some e)
    | (db2, .ok _) => addLoop babbler db2 nextNode rest

def addToMarkovChain (db : DB) (babbler : Babbler) (phrase : String) : DB × Option Error :=
  match Fields (ToLower phrase) with
  | [] => (db, none)
  | word :: rest =>
    let (db1, curNode) := incrementRootWordFrequency db babbler word
    addLoop babbler db1 curNode rest

/-! ## Generation -/

/-- Go `rand.Int63n(n)` when the random source yields the raw value `r`: a
value in `[0, n)`, every one of which is obtained from some `r`; the call
panics when `n ≤ 0`. -/
def Int63n (n r : Nat) : Except Error Nat :=
  if n = 0 then .error .PANIC else .ok (r % n)

/-- The query `select * from babblerWords where id = ? LIMIT 1`. -/
def getWordById (db : DB) (id : Nat) : Except Error BabblerWord :=
  match db.babblerWords.find? (fun w => w.WordId = id) with
  | some w => .ok w
  | none => .error .ErrNoRows

/-- The query `select * from babblerNodes where id = ? LIMIT 1`. -/
def getNodeById (db : DB) (id : Nat) : Except Error BabblerNode :=
  match db.babblerNodes.find? (fun n => n.NodeId = id) with
  | some n => .ok n
  | none => .error .ErrNoRows

/-- The selection loop of `getWeightedRootNode`: `total` is the running sum
before the node at the head of the list. -/
def rootLoop (db : DB) (which : Nat) : Nat → List BabblerNode →
    Except Error (BabblerNode × BabblerWord)
  | _, [] => .error .FATAL
  | total, node :: rest =>
    if total + node.RootFrequency ≥ which then
      (match getWordById db node.WordId with
       | .error e => .error e
       | .ok w => .ok (node, w))
    else rootLoop db which (total + node.RootFrequency) rest

def getWeightedRootNode (db : DB) (babbler : Babbler) (r : Nat) :
    Except Error (BabblerNode × BabblerWord) :=
  let rootNodes := db.babblerNodes.filter
    (fun n => n.BabblerId = babbler.BabblerId ∧ n.Root = 1)
  let total := (rootNodes.map (·.RootFrequency)).sum
  if rootNodes.length = 0 then .error .SAID_NOTHING
  else
    match Int63n total r with
    | .error e => .error e
    | .ok which => rootLoop db which 0 rootNodes

/-- The selection loop of `getWeightedNextWord`. -/
def arcLoop (db : DB) (which : Nat) : Nat → List BabblerArc →
    Except Error (BabblerNode × BabblerWord)
  | _, [] => .error .FATAL
  | total, arc :: rest =>
    if total + arc.Frequency ≥ which then
      (match getNodeById db arc.ToNodeId with
       | .error e => .error e
       | .ok node =>
         match getWordById db node.WordId with
         | .error e => .error e
         | .ok w => .ok (node, w))
    else arcLoop db which (total + arc.Frequency) rest

def getWeightedNextWord (db : DB) (fromNode : BabblerNode) (r : Nat) :
    Except Error (BabblerNode × BabblerWord) :=
  let arcs := db.babblerArcs.filter (fun a => a.FromNodeId = fromNode.NodeId)
  let total := (arcs.map (·.Frequency)).sum
  if arcs.length = 0 then .error .MISSING_ARCS
  else
    match Int63n total r with
    | .error e => .error e
    | .ok which => arcLoop db which 0 arcs

/-- The seed validation loop `for i := 1; i < len(seed); i++` of `babbleSeed`. -/
def seedLoop (db : DB) (babbler : Babbler) : BabblerNode → List String →
    Except Error BabblerNode
  | curNode, [] => .ok curNode
  | curNode, word :: rest =>
    match getBabblerNode db babbler word with
    | .error e => .error e
    | .ok nextNode =>
      match getBabblerArc db curNode nextNode with
      | .error e => .error e
      | .ok _ => seedLoop db babbler nextNode rest

/-- The walk loop `for { ... }` of `babbleSeed`.  Every iteration takes one
unit of `fuel` and the raw random value `rnd i`; the result is `none` when the
fuel is used up before the loop is left. -/
def babbleLoop (db : DB) (rnd : Nat → Nat) : Nat → Nat → BabblerNode → List String →
    Option (String × Option Error)
  | 0, _, _, _ => none
  | fuel + 1, i, curNode, words =>
    match getWeightedNextWord db curNode (rnd i) with
    | .error e => some ("", some e)
    | .ok (node, w) =>
      if w.Word = " " then some (TrimSpace (Join words " "), none)
      else babbleLoop db rnd fuel (i + 1) node (words ++ [w.Word])

/-- The Go method `babbleSeed`: the returned pair is `(string, error)`, with
`none` for a `nil` error. -/
def babbleSeed (db : DB) (babblerName : String) (seed : List String)
    (rnd : Nat → Nat) (fuel : Nat) : Option (String × Option Error) :=
  match getBabbler db babblerName with
  | .error _ => some ("", none)
  | .ok babbler =>
    match seed with
    | [] =>
      (match getWeightedRootNode db babbler (rnd 0) with
       | .error e => some ("", some e)
       | .ok (curNode, curWord) => babbleLoop db rnd fuel 1 curNode (seed ++ [curWord.Word]))
    | word :: rest =>
      match getBabblerNode db babbler word with
      | .error e => some ("", some e)
      | .ok firstNode =>
        match seedLoop db babbler firstNode rest with
        | .error e => some ("", some e)
        | .ok curNode => babbleLoop db rnd fuel 0 curNode seed

/-- A Go `map[int64]*BabblerNode`, as the list of its entries. -/
abbrev Mapping := List (Nat × BabblerNode)

/-- The map read `mapping[k]`; `none` is the `nil` pointer of an absent key. -/
def mapGet (mapping : Mapping) (k : Nat) : Option BabblerNode :=
  (mapping.find? (fun e => e.1 = k)).map (·.2)

/-- The map write `mapping[k] = v`. -/
def mapSet (mapping : Mapping) (k : Nat) (v : BabblerNode) : Mapping :=
  if mapping.any (fun e => e.1 = k) then
    mapping.map (fun e => if e.1 = k then (k, v) else e)
  else mapping ++ [(k, v)]

/-- The two update statements of the node loop of `mergeBabblers`:
`rootFrequency = rootFrequency + ?` on the rows of `(babblerId, wordId)`, with
`root = 1` as well when `setRoot` holds. -/
def updateMerged (nodes : List BabblerNode) (setRoot : Bool)
    (rootFrequency babblerId wordId : Nat) : List BabblerNode :=
  nodes.map fun n =>
    if n.BabblerId = babblerId ∧ n.WordId = wordId then
      { n with RootFrequency := n.RootFrequency + rootFrequency
               Root := (if setRoot then 1 else n.Root) }
    else n

/-- The query
`select * from babblerNodes where babblerId = ? and wordId = ? LIMIT 1`. -/
def findNode (db : DB) (babblerId wordId : Nat) : Option BabblerNode :=
  db.babblerNodes.find? (fun n => n.BabblerId = babblerId ∧ n.WordId = wordId)

/-- The redirection at the head of the node loop of `mergeBabblers`:
`if node.NodeId == otherNode.NodeId { node.WordId = intoNode.WordId }`. -/
def redirect (intoNode otherNode node : BabblerNode) : BabblerNode :=
  if node.NodeId = otherNode.NodeId then { node with WordId := intoNode.WordId } else node

/-- The statements of one iteration of the node loop of `mergeBabblers` for the
(redirected) node `node`: the update of the rows of `intoBabbler` for the word
of `node`, and the insertion of such a row when the update affected none. -/
def mergeNode (intoBabbler : Babbler) (db : DB) (node : BabblerNode) : DB :=
  let rowsAffected := (db.babblerNodes.filter
    (fun n => n.BabblerId = intoBabbler.BabblerId ∧ n.WordId = node.WordId)).length
  let updated := updateMerged db.babblerNodes (decide (node.Root > 0)) node.RootFrequency
    intoBabbler.BabblerId node.WordId
  if rowsAffected = 0 then
    { db with babblerNodes := updated ++
        [⟨lastInsertId (updated.map (·.NodeId)), intoBabbler.BabblerId,
          node.WordId, node.Root, node.RootFrequency⟩] }
  else { db with babblerNodes := updated }

/-- The loop `for _, node := range nodes` of `mergeBabblers`. -/
def mergeNodeLoop (intoBabbler : Babbler) (intoNode otherNode : BabblerNode) :
    DB → Mapping → List BabblerNode → DB × Except Error Mapping
  | db, mapping, [] => (db, .ok mapping)
  | db, mapping, node0 :: rest =>
    let node := redirect intoNode otherNode node0
    let db1 := mergeNode intoBabbler db node
    match findNode db1 intoBabbler.BabblerId node.WordId with
    | none => (db1, .error .ErrNoRows)
    | some updatedNode =>
      mergeNodeLoop intoBabbler intoNode otherNode db1 (mapSet mapping node.NodeId updatedNode) rest

/-- The inner loop `for _, arc := range arcs` of the replay: a target that is
missing from the mapping is a `nil` node, whose dereference panics. -/
def replayArcs (mapping : Mapping) (newNode : BabblerNode) :
    DB → List BabblerArc → DB × Option Error
  | db, [] => (db, none)
  | db, arc :: rest =>
    match mapGet mapping arc.ToNodeId with
    | none => (db, some .PANIC)
    | some toNode =>
      match incrementWordArc db newNode toNode with
      | (db1, .error e) => (db1, some e)
      | (db1, .ok _) => replayArcs mapping newNode db1 rest

/-- The loop `for oldNodeId, newNode := range mapping` of `mergeBabblers`, over
the entries in the order in which `range` yields them. -/
def replayLoop (mapping : Mapping) : DB → List (Nat × BabblerNode) → DB × Option Error
  | db, [] => (db, none)
  | db, (oldNodeId, newNode) :: rest =>
    match replayArcs mapping newNode db
        (db.babblerArcs.filter (fun a => a.FromNodeId = oldNodeId)) with
    | (db1, some e) => (db1, some e)
    | (db1, none) => replayLoop mapping db1 rest

/-- The Go method `mergeBabblers`.  Go leaves the iteration order of a map
unspecified: `order` gives, for the final mapping, the order in which `range`
enumerates its entries (a permutation of them). -/
def mergeBabblers (order : Mapping → Mapping) (db : DB) (intoBabbler otherBabbler : Babbler)
    (intoName otherName : String) : DB × Option Error :=
  let (db1, intoNode) := getOrCreateBabblerNode db intoBabbler ("<" ++ intoName ++ ">")
  let (db2, otherNode) := getOrCreateBabblerNode db1 otherBabbler ("<" ++ otherName ++ ">")
  let nodes := db2.babblerNodes.filter (fun n => n.BabblerId = otherBabbler.BabblerId)
  match mergeNodeLoop intoBabbler intoNode otherNode db2 [] nodes with
  | (db3, .error e) => (db3, some e)
  | (db3, .ok mapping) => replayLoop mapping db3 (order mapping)

/-! ## Observations and the words of the specification -/

/-- The lower-cased tokens of an utterance, as `addToMarkovChain` computes them. -/
def tokens (phrase : String) : List String := Fields (ToLower phrase)

/-- The pairs of neighbours of a word sequence. -/
def adjacentPairs : List String → List (String × String)
  | a :: b :: rest => (a, b) :: adjacentPairs (b :: rest)
  | _ => []

/-- The transitions of an utterance: the pairs of neighbours of its token
sequence extended with a final terminal marker (none for an utterance without
tokens). -/
def transitions (phrase : String) : List (String × String) :=
  match tokens phrase with
  | [] => []
  | word :: rest => adjacentPairs (word :: rest ++ [" "])

/-- The words of an utterance as learning counts them: its tokens followed by
the terminal marker (none for an utterance without tokens). -/
def spokenWords (phrase : String) : List String :=
  match tokens phrase with
  | [] => []
  | word :: rest => word :: rest ++ [" "]

/-- How many times `v` immediately follows `u` in the utterances `us`, each
extended with a final terminal marker. -/
def followCount (us : List String) (u v : String) : Nat :=
  (us.map fun phrase => (transitions phrase).count (u, v)).sum

/-- How many times the word `u` occurs in the utterances `us`. -/
def occurrences (us : List String) (u : String) : Nat :=
  (us.map fun phrase => (tokens phrase).count u).sum

/-- How many of the utterances `us` have `w` as their first token. -/
def startCount (us : List String) (w : String) : Nat :=
  (us.filter fun phrase => (tokens phrase).head? = some w).length

/-- How many of the utterances `us` have at least one token. -/
def spokenCount (us : List String) : Nat :=
  (us.filter fun phrase => (tokens phrase).length ≠ 0).length

/-- The calls that build a store by learning: `makeBabbler name`, which
registers a speaker, and `addToMarkovChain babbler phrase`. -/
inductive Op where
  | register (name : String)
  | learn (babbler : Babbler) (phrase : String)
  deriving DecidableEq, Repr

/-- A history of calls. -/
abbrev History := List Op

/-- The store after one call. -/
def Op.apply (db : DB) : Op → DB
  | .register name => (makeBabbler db name).1
  | .learn babbler phrase => (addToMarkovChain db babbler phrase).1

/-- The store after the calls of a history, in order. -/
def learnAll (db : DB) (hist : History) : DB :=
  hist.foldl Op.apply db

/-- The utterances a history has learned for the speaker `s`, in order. -/
def utterancesOf (hist : History) (s : Babbler) : List String :=
  hist.filterMap fun op =>
    match op with
    | .learn babbler phrase => if babbler.BabblerId = s.BabblerId then some phrase else none
    | .register _ => none

/-- The store after learning the utterance `phrase` `n` times in a row. -/
def learnTimes (db : DB) (babbler : Babbler) (phrase : String) : Nat → DB
  | 0 => db
  | n + 1 => learnTimes (addToMarkovChain db babbler phrase).1 babbler phrase n

/-- The arc row between the nodes of `s` for the words `u` and `v`, if both
nodes and the arc exist. -/
def arcOf (db : DB) (s : Babbler) (u v : String) : Option BabblerArc :=
  match getBabblerNode db s u, getBabblerNode db s v with
  | .ok fromNode, .ok toNode =>
    (match getBabblerArc db fromNode toNode with
     | .ok arc => some arc
     | .error _ => none)
  | _, _ => none

/-- The frequency of the arc row between two nodes, `0` when there is none. -/
def nodeArcFrequency (db : DB) (fromNode toNode : BabblerNode) : Nat :=
  match getBabblerArc db fromNode toNode with
  | .ok arc => arc.Frequency
  | .error _ => 0

/-- The frequency of the arc between the nodes of `s` for `u` and `v`, `0`
when there is no such arc. -/
def arcFrequency (db : DB) (s : Babbler) (u v : String) : Nat :=
  match arcOf db s u v with
  | some arc => arc.Frequency
  | none => 0

/-- The `rootFrequency` of the node of `s` for the word `w`, `0` when `s` has
no node for `w`. -/
def rootFrequencyOf (db : DB) (s : Babbler) (w : String) : Nat :=
  match getBabblerNode db s w with
  | .ok node => node.RootFrequency
  | .error _ => 0

/-- The sum of the frequencies of the arc rows that leave the node `nodeId`. -/
def outSum (db : DB) (nodeId : Nat) : Nat :=
  ((db.babblerArcs.filter fun a => a.FromNodeId = nodeId).map (·.Frequency)).sum

/-- The sum of the outgoing arc frequencies of the node of `s` for the word
`u`, `0` when `s` has no node for `u`. -/
def outFrequency (db : DB) (s : Babbler) (u : String) : Nat :=
  match getBabblerNode db s u with
  | .ok node => outSum db node.NodeId
  | .error _ => 0

/-- The sum of `rootFrequency` over the root nodes of `s`, the rows that
`getWeightedRootNode` enumerates. -/
def rootSum (db : DB) (s : Babbler) : Nat :=
  ((db.babblerNodes.filter fun n => n.BabblerId = s.BabblerId ∧ n.Root = 1).map
    (·.RootFrequency)).sum

/-- The transition `p` was learned for the speaker `s`: some utterance of `s`
in the history makes it. -/
def learnedTransition (hist : History) (s : Babbler) (p : String × String) : Prop :=
  ∃ phrase ∈ utterancesOf hist s, p ∈ transitions phrase

/-- A Go string that can be a token: not empty and without a space rune. -/
def isToken (w : String) : Prop := w.data ≠ [] ∧ ∀ c ∈ w.data, isSpace c = false

/-! ## Example stores -/

def alice : Babbler := ⟨1, "alice"⟩

def bob : Babbler := ⟨2, "bob"⟩

/-- The store of the scenario `learn("alice", "hello world")`,
`learn("alice", "hello there")`. -/
def helloStore : DB :=
  learnAll New [.register "alice", .learn alice "hello world", .learn alice "hello there"]

/-- A store in which `alice` has learned the one-word utterances `a` and `b`. -/
def rootsStore : DB :=
  learnAll New [.register "alice", .learn alice "a", .learn alice "b"]

/-- A store in which `bob` has learned `x y` twice and `alice` nothing. -/
def mergeStore : DB :=
  learnAll New [.register "alice", .register "bob", .learn bob "x y", .learn bob "x y"]

/-- A store in which `bob` has learned the one-word utterances `<alice>` and
`<bob>`, the boundary words of a merge of `bob` into `alice`. -/
def boundaryStore : DB :=
  learnAll New [.register "alice", .register "bob", .learn bob "<alice>", .learn bob "<bob>"]

/-- A store in which `bob` was registered and never taught, next to `alice`
who has learned `hello world`. -/
def freshStore : DB :=
  learnAll New [.register "alice", .register "bob", .learn alice "hello world"]

/-- A store in which `alice` has learned the utterance `a`. -/
def oneWordStore : DB :=
  learnAll New [.register "alice", .learn alice "a"]

/-- A store in which `alice` has learned the utterance `a a`. -/
def loopStore : DB :=
  learnAll New [.register "alice", .learn alice "a a"]

/-- The word under which the target speaker of a merge holds the word `w` of
the other speaker: the boundary word of the other speaker becomes that of the
target speaker. -/
def boundaryRenamed (intoName otherName w : String) : String :=
  if w = "<" ++ otherName ++ ">" then "<" ++ intoName ++ ">" else w

/-! ## Well-formed stores -/

def wordIds (db : DB) : List Nat := db.babblerWords.map (·.WordId)

def nodeIds (db : DB) : List Nat := db.babblerNodes.map (·.NodeId)

/-- The integrity conditions of the store: the primary keys are keys, there
is one word row per text, one node row per (speaker, word) and one arc row per
(from, to), nodes refer to words and arcs to nodes of one speaker, arcs have
been counted at least once, and a node is flagged as root exactly when it has
been counted as one. -/
structure WF (db : DB) : Prop where
  wordIds_nodup : (wordIds db).Nodup
  wordTexts_nodup : (db.babblerWords.map (·.Word)).Nodup
  nodeIds_nodup : (nodeIds db).Nodup
  nodeKeys_nodup : (db.babblerNodes.map fun n => (n.BabblerId, n.WordId)).Nodup
  node_word : ∀ n ∈ db.babblerNodes, n.WordId ∈ wordIds db
  node_root : ∀ n ∈ db.babblerNodes,
    (n.Root = 1 ∧ 0 < n.RootFrequency) ∨ (n.Root = 0 ∧ n.RootFrequency = 0)
  arcKeys_nodup : (db.babblerArcs.map fun a => (a.FromNodeId, a.ToNodeId)).Nodup
  arc_closed : ∀ a ∈ db.babblerArcs, a.FromNodeId ∈ nodeIds db ∧ a.ToNodeId ∈ nodeIds db
  arc_pos : ∀ a ∈ db.babblerArcs, 0 < a.Frequency
  arc_speaker : ∀ a ∈ db.babblerArcs, ∀ n1 ∈ db.babblerNodes, ∀ n2 ∈ db.babblerNodes,
    n1.NodeId = a.FromNodeId → n2.NodeId = a.ToNodeId → n1.BabblerId = n2.BabblerId

/-- The id of the node row of `s` for the word `w`. -/
def nodeIdOf (db : DB) (s : Babbler) (w : String) : Option Nat :=
  match getBabblerNode db s w with
  | .ok node => some node.NodeId
  | .error _ => none

/-- The seed is an observed path of the speaker `s`: every seed word has a
node under `s` and every two neighbouring seed words have an arc between their
nodes. -/
def observedPath (db : DB) (s : Babbler) (seed : List String) : Bool :=
  seed.all (fun w => (nodeIdOf db s w).isSome) &&
    (adjacentPairs seed).all (fun p => (arcOf db s p.1 p.2).isSome)

/-- The frequency of the arc row between the nodes with ids `i` and `j`, `0`
when there is none. -/
def idArcFrequency (db : DB) (i j : Nat) : Nat :=
  match db.babblerArcs.find? (fun a => a.FromNodeId = i ∧ a.ToNodeId = j) with
  | some arc => arc.Frequency
  | none => 0

/-- A step from `db` to `db'` that touches only the node table, finds or
creates the node `id` of the speaker `b` for `word`, and counts it `k` more
times as a root. -/
def NodeStep (db db' : DB) (b : Babbler) (word : String) (id k : Nat) : Prop :=
  WF db' ∧ db'.babblerArcs = db.babblerArcs ∧ db'.babblers = db.babblers ∧
  (∀ (s : Babbler) (w : String), (s.BabblerId ≠ b.BabblerId ∨ w ≠ word) →
    nodeIdOf db' s w = nodeIdOf db s w) ∧
  nodeIdOf db' b word = some id ∧ id ∈ nodeIds db' ∧
  (nodeIdOf db b word = some id ∨ (nodeIdOf db b word = none ∧ id ∉ nodeIds db)) ∧
  (∀ i ∈ nodeIds db, i ∈ nodeIds db') ∧
  (∀ (s : Babbler) (w : String), rootFrequencyOf db' s w =
    rootFrequencyOf db s w + (if s.BabblerId = b.BabblerId ∧ w = word then k else 0)) ∧
  (∀ s : Babbler, rootSum db' s = rootSum db s + (if s.BabblerId = b.BabblerId then k else 0))

/-- The store `db'` differs from the well-formed store `db` by what learning
does for the speaker `b`: the transitions `pairs` and the word occurrences `ws`
are counted on the arcs of `b`, the words `roots` are counted as roots of `b`,
and nothing else is observable. -/
def Learns (db db' : DB) (b : Babbler) (pairs : List (String × String))
    (ws roots : List String) : Prop :=
  WF db' ∧ db'.babblers = db.babblers ∧
  (∀ (s : Babbler) (w : String) (i : Nat), nodeIdOf db s w = some i → nodeIdOf db' s w = some i) ∧
  (∀ (s : Babbler) (u v : String), arcFrequency db' s u v =
    arcFrequency db s u v + (if s.BabblerId = b.BabblerId then pairs.count (u, v) else 0)) ∧
  (∀ (s : Babbler) (u : String), outFrequency db' s u =
    outFrequency db s u + (if s.BabblerId = b.BabblerId then ws.count u else 0)) ∧
  (∀ (s : Babbler) (w : String), rootFrequencyOf db' s w =
    rootFrequencyOf db s w + (if s.BabblerId = b.BabblerId then roots.count w else 0)) ∧
  (∀ s : Babbler, rootSum db' s =
    rootSum db s + (if s.BabblerId = b.BabblerId then roots.length else 0))

/-- The store `db'` comes from `db` by node-loop iterations of a merge into the
speaker `a`: it is well formed, only node rows of `a` were rewritten or added,
and the rows that `a` had keep their ids. -/
def NodesMerged (a : Babbler) (db db' : DB) : Prop :=
  WF db' ∧ db'.babblerWords = db.babblerWords ∧ db'.babblerArcs = db.babblerArcs ∧
  db'.babblers = db.babblers ∧
  (∀ n ∈ db.babblerNodes, n.BabblerId ≠ a.BabblerId → n ∈ db'.babblerNodes) ∧
  (∀ i ∈ nodeIds db, i ∈ nodeIds db') ∧
  (∀ (x : Nat) (n : BabblerNode), findNode db a.BabblerId x = some n →
    ∃ n', findNode db' a.BabblerId x = some n' ∧ n'.NodeId = n.NodeId) ∧
  (∀ bid x : Nat, bid ≠ a.BabblerId → findNode db' bid x = findNode db bid x)

/-- The node id `k` is not the id of a node row of the speaker `a`. -/
def ForeignId (a : Babbler) (db : DB) (k : Nat) : Prop :=
  ∀ n ∈ db.babblerNodes, n.NodeId = k → n.BabblerId ≠ a.BabblerId

/-- The node id `k` is the id of a node row of the speaker `a`. -/
def OwnId (a : Babbler) (db : DB) (k : Nat) : Prop :=
  ∃ n ∈ db.babblerNodes, n.NodeId = k ∧ n.BabblerId = a.BabblerId

/-- The store `db'` comes from `db` by arc increments between nodes of the
speaker `a`: it is well formed, only the arc table changed, the arcs that leave
the nodes of other speakers are the same, and no arc count went down. -/
def Replayed (a : Babbler) (db db' : DB) : Prop :=
  WF db' ∧ db'.babblerNodes = db.babblerNodes ∧ db'.babblerWords = db.babblerWords ∧
  db'.babblers = db.babblers ∧
  (∀ k : Nat, ForeignId a db k →
    db'.babblerArcs.filter (fun x => x.FromNodeId = k) =
      db.babblerArcs.filter (fun x => x.FromNodeId = k)) ∧
  (∀ i j : Nat, idArcFrequency db i j ≤ idArcFrequency db' i j)

/-- The stages of a run of `mergeBabblers order db a b intoName otherName` on a
well-formed store: `db2` is the store after the two boundary nodes `intoNode`
and `otherNode` were found or created, `db3` the store and `mapping` the map
after the node loop; the replay then ends without error. -/
structure MergeRun (order : Mapping → Mapping) (db : DB) (a b : Babbler)
    (intoName otherName : String) (db2 db3 : DB) (intoNode otherNode : BabblerNode)
    (mapping : Mapping) : Prop where
  wf2 : WF db2
  words2 : ∀ w ∈ db.babblerWords, w ∈ db2.babblerWords
  nodes2 : ∀ n ∈ db.babblerNodes, n ∈ db2.babblerNodes
  arcs2 : db2.babblerArcs = db.babblerArcs
  lookup2 : ∀ (s : Babbler) (w : String) (n : BabblerNode),
    getBabblerNode db s w = .ok n → getBabblerNode db2 s w = .ok n
  frame2 : ∀ (s : Babbler) (w : String),
    (s.BabblerId ≠ a.BabblerId ∨ w ≠ "<" ++ intoName ++ ">") →
    (s.BabblerId ≠ b.BabblerId ∨ w ≠ "<" ++ otherName ++ ">") →
    getBabblerNode db2 s w = getBabblerNode db s w
  intoWord : ∃ w, getWord db2 ("<" ++ intoName ++ ">") = .ok w ∧ w.WordId = intoNode.WordId
  otherId : nodeIdOf db2 b ("<" ++ otherName ++ ">") = some otherNode.NodeId
  loop : mergeNodeLoop a intoNode otherNode db2 []
    (db2.babblerNodes.filter (fun n => n.BabblerId = b.BabblerId)) = (db3, .ok mapping)
  merged : NodesMerged a db2 db3
  replayed : Replayed a db3 (mergeBabblers order db a b intoName otherName).1
  noError : (mergeBabblers order db a b intoName otherName).2 = none
  mapped : ∀ m ∈ db2.babblerNodes, m.BabblerId = b.BabblerId →
    ∃ v v', mapGet mapping m.NodeId = some v ∧
      findNode db3 a.BabblerId (redirect intoNode otherNode m).WordId = some v' ∧
      v'.NodeId = v.NodeId
  closed : ∀ m ∈ db2.babblerNodes, m.BabblerId = b.BabblerId →
    ∀ x ∈ db2.babblerArcs, x.FromNodeId = m.NodeId →
      ∃ m2 ∈ db2.babblerNodes, m2.BabblerId = b.BabblerId ∧ m2.NodeId = x.ToNodeId
  counted : ∀ m ∈ db2.babblerNodes, m.BabblerId = b.BabblerId →
    ∀ x ∈ db2.babblerArcs, x.FromNodeId = m.NodeId →
      ∀ v1 v2, mapGet mapping m.NodeId = some v1 → mapGet mapping x.ToNodeId = some v2 →
        1 ≤ idArcFrequency (mergeBabblers order db a b intoName otherName).1
          v1.NodeId v2.NodeId

/-! ## Reachable stores -/

/-- The terminal-marker condition: a node row whose word is the terminal marker
`" "` is not a root, and no arc row leaves it. -/
def TerminalOK (db : DB) : Prop :=
  ∀ n ∈ db.babblerNodes, ∀ w ∈ db.babblerWords, w.WordId = n.WordId → w.Word = " " →
    n.Root = 0 ∧ n.RootFrequency = 0 ∧ ∀ x ∈ db.babblerArcs, x.FromNodeId ≠ n.NodeId

/-- The stores that calls of `makeBabbler`, `addToMarkovChain` and
`mergeBabblers` produce from the store that `New` creates.  The calls take any
speakers and names; each merge has its own enumeration order of the map. -/
inductive Reachable : DB → Prop where
  | init : Reachable New
  | register {db : DB} (name : String) : Reachable db → Reachable (makeBabbler db name).1
  | learn {db : DB} (b : Babbler) (phrase : String) :
      Reachable db → Reachable (addToMarkovChain db b phrase).1
  | merge {db : DB} (order : Mapping → Mapping) (a b : Babbler) (intoName otherName : String) :
      (∀ m, (order m).Perm m) → Reachable db →
      Reachable (mergeBabblers order db a b intoName otherName).1

/-- The store after `bob`, who has learned `x y` twice, is merged into `alice`,
and `alice` is then merged into herself. -/
def mergedStore : DB :=
  (mergeBabblers id (mergeBabblers id mergeStore alice bob "alice" "bob").1 alice alice
    "alice" "alice").1

/-! ## The dispatch of chat lines -/

/-- The search loop of Go `strings.Index`: `i` is the offset of the text that is
left. -/
def indexLoop (sub : List Char) : List Char → Nat → Int
  | [], i => if sub = [] then (i : Int) else -1
  | c :: cs, i => if sub.isPrefixOf (c :: cs) then (i : Int) else indexLoop sub cs (i + 1)

/-- Go `strings.Index(s, substr)`: the offset of the first occurrence of
`substr` in `s`, `-1` when there is none.  The offset is counted in runes; the
babbler only compares it with `0`. -/
def Index (s substr : String) : Int := indexLoop substr.data s.data 0

/-- The handlers that the babbler's `Message` passes a chat line to.  They are
methods of the plugin in a file that is not among the sources. -/
inductive Handler where
  | getBabble
  | initializeBabbler
  | batchLearn
  | merge
  | addToBabbler
  deriving DecidableEq, Repr

/-- The dispatch of the Go method `BabblerPlugin.Message`: the handler that the
if-chain calls for a message with the body `body`.  (What `Message` sends and
returns is what that handler returns.) -/
def Message (body : String) : Handler :=
  let lowercase := ToLower body
  let tokens := Fields lowercase
  let numTokens := tokens.length
  if numTokens ≥ 2 ∧ tokens[1]? = some "says" then .getBabble
  else if tokens.length = 4 ∧ Index lowercase "initialize babbler for " = 0 then
    .initializeBabbler
  else if Index lowercase "batch learn for " = 0 then .batchLearn
  else if tokens.length = 5 ∧ Index lowercase "merge babbler" = 0 then .merge
  else .addToBabbler

/-! ## The leftpad plugin (`plugins/leftpad/leftpad.go`) -/

/-- The scanning loop of Go `strings.Split` for a separator of one rune: `cur`
is the part being read (in reverse). -/
def splitLoop (sep : Char) : List Char → List Char → List String
  | [], cur => [String.mk cur.reverse]
  | c :: cs, cur =>
    if c = sep then String.mk cur.reverse :: splitLoop sep cs []
    else splitLoop sep cs (c :: cur)

/-- Go `strings.Split(s, sep)` for a separator of one rune; the plugin splits
at `" "`. -/
def Split (s : String) (sep : Char) : List String := splitLoop sep s.data []

/-- The fields of Go `bot.Message` that the plugin reads. -/
structure bot.Message where
  Channel : String
  Body : String
  Command : Bool
  deriving DecidableEq, Repr

/-- What the request `http.Get` to `api.left-pad.io` and the decoding of its
answer come to: an error of the request, of reading the body, of decoding the
JSON, or the decoded `Str`. -/
inductive Fetched where
  | getError (text : String)
  | readError
  | decodeError
  | ok (str : String)
  deriving DecidableEq, Repr

/-- The Go method `LeftpadPlugin.Message`.  The network is the parameter
`fetch`, which gives the outcome of the request for the query values `str`,
`len` and `ch`; the result is the list of the messages sent with
`SendMessage`, as (channel, text), and the returned boolean. -/
def LeftpadPlugin.Message (fetch : String → String → String → Fetched) (message : bot.Message) :
    List (String × String) × Bool :=
  if !message.Command then ([], false)
  else
    let parts := Split message.Body ' '
    if parts.length > 3 ∧ parts[0]? = some "leftpad" then
      let padchar := parts[1]?.getD ""
      let length := parts[2]?.getD ""
      let text := Join (parts.drop 3) " "
      match fetch text length padchar with
      | .getError e => ([(message.Channel, e)], true)
      | .readError => ([(message.Channel, "I can\x27t leftpad right now :(")], true)
      | .decodeError => ([(message.Channel, "I can\x27t leftpad right now :(")], true)
      | .ok str => ([(message.Channel, str)], true)
    else ([], false)

/-! ## SQLite values

The functions above keep a word as its text and count with natural numbers.
That is what the code does as long as SQLite keeps every word as text and every
counter stays below `2^63`.  This section embeds the same Go methods together
with what the store does to the values themselves.

* `New` declares the columns `word` and `babbler` as `string`, a type name that
  gives a column NUMERIC affinity: a text that is a well-formed number is
  stored, and compared, as that number.  An integer literal within the range of
  `int64` is stored as the integer, and a `Scan` into the Go string reads its
  decimal text back.  A literal with a point or an exponent, or an integer
  literal outside that range, goes through the floating-point arithmetic of
  SQLite (which keeps `1e3` as the integer `1000` and `1.5` as a floating-point
  number).  That arithmetic is left open: the functions that store or look up
  a word take as first argument a conversion `real`, which gives for such a
  literal the text that a `Scan` reads back.  The theorems are stated for every
  conversion; the examples, in which no word goes through it, are evaluated
  with `asWritten`.
* The counters are `int64` in Go and INTEGER in SQLite.  A sum that leaves the
  range of `int64` is stored as a floating-point number, and a `Scan` of such a
  row into the `int64` field fails.  A row keeps its counter as a natural
  number; a value of `2^63` or more stands for the floating-point number.  The
  sums that Go computes wrap around.
-/

/-- The white space of SQLite (`sqlite3Isspace`). -/
def asciiSpace (c : Char) : Bool :=
  c.val = 0x20 || c.val = 0x09 || c.val = 0x0A || c.val = 0x0B || c.val = 0x0C || c.val = 0x0D

/-- The text after an optional sign. -/
def dropSign : List Char → List Char
  | '-' :: rest => rest
  | '+' :: rest => rest
  | z => z

/-- The exponent of a number text: for the text `z` after the digits (and the
fraction), whether an exponent is present, whether it is well-formed (`e` or
`E`, an optional sign, at least one digit), and the text after it. -/
def exponentPart (z : List Char) : Bool × Bool × List Char :=
  let exp (rest : List Char) : Bool × Bool × List Char :=
    let digits := (dropSign rest).takeWhile Char.isDigit
    (true, decide (digits ≠ []), (dropSign rest).dropWhile Char.isDigit)
  match z with
  | 'e' :: rest => exp rest
  | 'E' :: rest => exp rest
  | _ => (false, true, z)

/-- The scan of a text by `sqlite3AtoF`: white space, an optional sign, digits,
an optional point with digits, an optional exponent, white space.  The result
is `0` for a text that is not a well-formed number, `1` for an integer literal
and `2` or `3` for a literal with a point or an exponent. -/
def atofType (text : String) : Nat :=
  let z := dropSign (text.data.dropWhile asciiSpace)
  let d1 := z.takeWhile Char.isDigit
  let z1 := z.dropWhile Char.isDigit
  let (point, d2, z2) :=
    match z1 with
    | '.' :: rest => (true, rest.takeWhile Char.isDigit, rest.dropWhile Char.isDigit)
    | _ => (false, [], z1)
  let (exponent, eValid, z3) := exponentPart z2
  let z4 := z3.dropWhile asciiSpace
  if z4 = [] ∧ (d1 ≠ [] ∨ d2 ≠ []) ∧ eValid = true then
    1 + (if point then 1 else 0) + (if exponent then 1 else 0)
  else 0

/-- The value of an integer literal. -/
def integerOf (text : String) : Int :=
  let z := text.data.dropWhile asciiSpace
  let n : Nat := ((dropSign z).takeWhile Char.isDigit).foldl
    (fun a c => 10 * a + (c.toNat - 48)) 0
  match z with
  | '-' :: _ => -(n : Int)
  | _ => (n : Int)

/-- SQLite keeps the text `text` as text in a column of NUMERIC affinity. -/
def keptAsText (text : String) : Prop := atofType text = 0

instance (text : String) : Decidable (keptAsText text) := by
  unfold keptAsText; infer_instance

/-- The failures of the methods on SQLite values: an error value of the
babbler, and the error of a `Scan` of a floating-point number into an `int64`
field. -/
inductive Failure where
  | go (e : Error)
  | scan
  deriving DecidableEq, Repr

/-- A conversion of the literals that go through the floating-point arithmetic
of SQLite: the text that a `Scan` into a Go string reads back for the
literal. -/
abbrev Conversion := String → String

/-- What a column of NUMERIC affinity keeps of the text `text`, given as the
text that a `Scan` into a Go string reads back. -/
def numericAffinity (real : Conversion) (text : String) : String :=
  match atofType text with
  | 0 => text
  | 1 =>
    let i := integerOf text
    if -(2 : Int) ^ 63 ≤ i ∧ i < (2 : Int) ^ 63 then toString i else real text
  | _ => real text

/-- A conversion for the examples, which have no word that goes through it. -/
def asWritten : Conversion := fun text => text

/-- The value of an `int64` after an addition in Go: two's complement. -/
def wrapInt64 (i : Int) : Int := (i + 2 ^ 63) % 2 ^ 64 - 2 ^ 63

namespace Sqlite

/-- The `StructScan` of a node row: it fails when `rootFrequency` holds a
floating-point number. -/
def scanNode (node : BabblerNode) : Except Failure BabblerNode :=
  if node.RootFrequency < 2 ^ 63 then .ok node else .error .scan

/-- The `StructScan` of an arc row. -/
def scanArc (arc : BabblerArc) : Except Failure BabblerArc :=
  if arc.Frequency < 2 ^ 63 then .ok arc else .error .scan

/-- The loop `for rows.Next() { rows.StructScan(&node) ... }`. -/
def scanNodes : List BabblerNode → Except Failure (List BabblerNode)
  | [] => .ok []
  | row :: rows =>
    match scanNode row with
    | .error e => .error e
    | .ok node =>
      match scanNodes rows with
      | .error e => .error e
      | .ok nodes => .ok (node :: nodes)

/-- The loop `for rows.Next() { rows.StructScan(&arc) ... }`. -/
def scanArcs : List BabblerArc → Except Failure (List BabblerArc)
  | [] => .ok []
  | row :: rows =>
    match scanArc row with
    | .error e => .error e
    | .ok arc =>
      match scanArcs rows with
      | .error e => .error e
      | .ok arcs => .ok (arc :: arcs)

/-- The row holds what the column keeps of `name`; the value returned is the
Go struct literal, with `name` itself. -/
def makeBabbler (real : Conversion) (db : DB) (name : String) : DB × Babbler :=
  let id := lastInsertId (db.babblers.map (·.BabblerId))
  ({ db with babblers := db.babblers ++ [⟨id, numericAffinity real name⟩] }, ⟨id, name⟩)

def getBabbler (real : Conversion) (db : DB) (name : String) : Except Failure Babbler :=
  match db.babblers.find? (fun b => b.Name = numericAffinity real name) with
  | some b => .ok b
  | none => .error (.go .NO_BABBLER)

def getWord (real : Conversion) (db : DB) (word : String) : Except Failure BabblerWord :=
  match db.babblerWords.find? (fun w => w.Word = numericAffinity real word) with
  | some w => .ok w
  | none => .error (.go .NEVER_SAID)

/-- The row holds what the column keeps of `word`; the value returned is the
Go struct literal, with `word` itself. -/
def createNewWord (real : Conversion) (db : DB) (word : String) : DB × BabblerWord :=
  let id := lastInsertId (db.babblerWords.map (·.WordId))
  ({ db with babblerWords := db.babblerWords ++ [⟨id, numericAffinity real word⟩] },
   ⟨id, word⟩)

def getOrCreateWord (real : Conversion) (db : DB) (word : String) :
    DB × Except Failure BabblerWord :=
  match getWord real db word with
  | .error (.go .NEVER_SAID) =>
    let (db1, w) := createNewWord real db word
    (db1, .ok w)
  | r => (db, r)

def getBabblerNode (real : Conversion) (db : DB) (babbler : Babbler) (word : String) :
    Except Failure BabblerNode :=
  match getWord real db word with
  | .error e => .error e
  | .ok w =>
    match db.babblerNodes.find?
        (fun n => n.BabblerId = babbler.BabblerId ∧ n.WordId = w.WordId) with
    | some row => scanNode row
    | none => .error (.go .NEVER_SAID)

def createBabblerNode (real : Conversion) (db : DB) (babbler : Babbler) (word : String) :
    DB × Except Failure BabblerNode :=
  match getOrCreateWord real db word with
  | (db1, .error e) => (db1, .error e)
  | (db1, .ok w) =>
    let id := lastInsertId (db1.babblerNodes.map (·.NodeId))
    ({ db1 with babblerNodes := db1.babblerNodes ++ [⟨id, babbler.BabblerId, w.WordId, 0, 0⟩] },
     .ok ⟨id, 0, w.WordId, 0, 0⟩)

/-- The node is created on every error of `getBabblerNode`, that of a failing
`Scan` included: `if err != nil { return p.createBabblerNode(babbler, word) }`. -/
def getOrCreateBabblerNode (real : Conversion) (db : DB) (babbler : Babbler)
    (word : String) : DB × Except Failure BabblerNode :=
  match getBabblerNode real db babbler word with
  | .ok node => (db, .ok node)
  | .error _ => createBabblerNode real db babbler word

/-- The returned node has the Go sum `node.RootFrequency + 1` (which wraps
around for a counter of `2^63 - 1`; the field is not read again). -/
def incrementRootWordFrequency (real : Conversion) (db : DB) (babbler : Babbler)
    (word : String) : DB × Except Failure BabblerNode :=
  match getOrCreateBabblerNode real db babbler word with
  | (db1, .error e) => (db1, .error e)
  | (db1, .ok node) =>
    ({ db1 with babblerNodes := updateRootById db1.babblerNodes node.NodeId },
     .ok { node with RootFrequency := node.RootFrequency + 1 })

def getBabblerArc (db : DB) (fromNode toNode : BabblerNode) : Except Failure BabblerArc :=
  match db.babblerArcs.find?
      (fun a => a.FromNodeId = fromNode.NodeId ∧ a.ToNodeId = toNode.NodeId) with
  | some row => scanArc row
  | none => .error (.go .NEVER_SAID)

/-- The arc row between the nodes of `s` for the words `u` and `v`, if both
nodes and the arc exist and are read without error. -/
def arcOf (real : Conversion) (db : DB) (s : Babbler) (u v : String) : Option BabblerArc :=
  match getBabblerNode real db s u, getBabblerNode real db s v with
  | .ok fromNode, .ok toNode =>
    (match getBabblerArc db fromNode toNode with
     | .ok arc => some arc
     | .error _ => none)
  | _, _ => none

/-- The frequency of the arc between the nodes of `s` for `u` and `v`, `0`
when no such arc is read. -/
def arcFrequency (real : Conversion) (db : DB) (s : Babbler) (u v : String) : Nat :=
  match arcOf real db s u v with
  | some arc => arc.Frequency
  | none => 0

/-- The `rootFrequency` of the node of `s` for the word `w`, `0` when no node
of `s` for `w` is read. -/
def rootFrequencyOf (real : Conversion) (db : DB) (s : Babbler) (w : String) : Nat :=
  match getBabblerNode real db s w with
  | .ok node => node.RootFrequency
  | .error _ => 0

/-- The transitions of an utterance between the words as the column keeps them:
the pairs of neighbours of what the column keeps of its tokens, extended with a
final terminal marker (none for an utterance without tokens). -/
def transitions (real : Conversion) (phrase : String) : List (String × String) :=
  match (tokens phrase).map (numericAffinity real) with
  | [] => []
  | word :: rest => adjacentPairs (word :: rest ++ [" "])

/-- The word under which the target speaker of a merge holds the word `w` of
the other speaker: a word that the column keeps as the boundary word of the
other speaker becomes the boundary word of the target speaker. -/
def boundaryRenamed (real : Conversion) (intoName otherName w : String) : String :=
  if numericAffinity real w = "<" ++ otherName ++ ">" then "<" ++ intoName ++ ">" else w

def incrementWordArc (db : DB) (fromNode toNode : BabblerNode) :
    DB × Except Failure BabblerArc :=
  let affectedRows := affectedArcRows db.babblerArcs fromNode.NodeId toNode.NodeId
  let db1 := { db with
    babblerArcs := updateArcFrequency db.babblerArcs fromNode.NodeId toNode.NodeId }
  let db2 :=
    if affectedRows = 0 then
      { db1 with babblerArcs := db1.babblerArcs ++
          [⟨lastInsertId (db1.babblerArcs.map (·.ArcId)), fromNode.NodeId, toNode.NodeId, 1⟩] }
    else db1
  (db2, getBabblerArc db2 fromNode toNode)

def incrementFinalWordArcHelper (real : Conversion) (db : DB) (babbler : Babbler)
    (node : BabblerNode) : DB × Except Failure BabblerArc :=
  match getOrCreateBabblerNode real db babbler " " with
  | (db1, .error e) => (db1, .error e)
  | (db1, .ok nextNode) => incrementWordArc db1 node nextNode

/-- The loop `for i := 1; i < len(words); i++` of `addToMarkovChain` followed by
the final call of `incrementFinalWordArcHelper`. -/
def addLoop (real : Conversion) (babbler : Babbler) :
    DB → BabblerNode → List String → DB × Option Failure
  | db, curNode, [] =>
    match incrementFinalWordArcHelper real db babbler curNode with
    | (db1, .ok _) => (db1, none)
    | (db1, .error e) => (db1, some e)
  | db, curNode, word :: rest =>
    match getOrCreateBabblerNode real db babbler word with
    | (db1, .error e) => (db1, some e)
    | (db1, .ok nextNode) =>
      match incrementWordArc db1 curNode nextNode with
      | (db2, .error e) => (db2, some e)
      | (db2, .ok _) => addLoop real babbler db2 nextNode rest

def addToMarkovChain (real : Conversion) (db : DB) (babbler : Babbler) (phrase : String) :
    DB × Option Failure :=
  match Fields (ToLower phrase) with
  | [] => (db, none)
  | word :: rest =>
    match incrementRootWordFrequency real db babbler word with
    | (db1, .error e) => (db1, some e)
    | (db1, .ok curNode) => addLoop real babbler db1 curNode rest

/-- The store after learning the utterances `phrases` in order, up to the first
call that returns an error, with that error. -/
def learned (real : Conversion) (babbler : Babbler) : DB → List String → DB × Option Failure
  | db, [] => (db, none)
  | db, phrase :: rest =>
    match addToMarkovChain real db babbler phrase with
    | (db1, none) => learned real babbler db1 rest
    | (db1, some e) => (db1, some e)

/-- The store after `n` calls of `addToMarkovChain` with one utterance. -/
def learnTimes (real : Conversion) (db : DB) (babbler : Babbler) (phrase : String) :
    Nat → DB
  | 0 => db
  | n + 1 => learnTimes real (addToMarkovChain real db babbler phrase).1 babbler phrase n

/-- Go `rand.Int63n(n)` for the raw value `r`; the call panics when `n ≤ 0`. -/
def Int63n (n : Int) (r : Nat) : Except Failure Int :=
  if n ≤ 0 then .error (.go .PANIC) else .ok ((r : Int) % n)

def getWordById (db : DB) (id : Nat) : Except Failure BabblerWord :=
  match db.babblerWords.find? (fun w => w.WordId = id) with
  | some w => .ok w
  | none => .error (.go .ErrNoRows)

def getNodeById (db : DB) (id : Nat) : Except Failure BabblerNode :=
  match db.babblerNodes.find? (fun n => n.NodeId = id) with
  | some row => scanNode row
  | none => .error (.go .ErrNoRows)

/-- The Go sum `total` of the counters `xs`, an `int64`. -/
def total64 (xs : List Nat) : Int := wrapInt64 ((xs.sum : Nat) : Int)

/-- The selection loop of `getWeightedRootNode`: `total` is the `int64` running
sum before the node at the head of the list. -/
def rootLoop (db : DB) (which : Int) : Int → List BabblerNode →
    Except Failure (BabblerNode × BabblerWord)
  | _, [] => .error (.go .FATAL)
  | total, node :: rest =>
    if wrapInt64 (total + node.RootFrequency) ≥ which then
      (match getWordById db node.WordId with
       | .error e => .error e
       | .ok w => .ok (node, w))
    else rootLoop db which (wrapInt64 (total + node.RootFrequency)) rest

def getWeightedRootNode (db : DB) (babbler : Babbler) (r : Nat) :
    Except Failure (BabblerNode × BabblerWord) :=
  match scanNodes (db.babblerNodes.filter
      (fun n => n.BabblerId = babbler.BabblerId ∧ n.Root = 1)) with
  | .error e => .error e
  | .ok rootNodes =>
    let total := total64 (rootNodes.map (·.RootFrequency))
    if rootNodes.length = 0 then .error (.go .SAID_NOTHING)
    else
      match Int63n total r with
      | .error e => .error e
      | .ok which => rootLoop db which 0 rootNodes

/-- The selection loop of `getWeightedNextWord`. -/
def arcLoop (db : DB) (which : Int) : Int → List BabblerArc →
    Except Failure (BabblerNode × BabblerWord)
  | _, [] => .error (.go .FATAL)
  | total, arc :: rest =>
    if wrapInt64 (total + arc.Frequency) ≥ which then
      (match getNodeById db arc.ToNodeId with
       | .error e => .error e
       | .ok node =>
         match getWordById db node.WordId with
         | .error e => .error e
         | .ok w => .ok (node, w))
    else arcLoop db which (wrapInt64 (total + arc.Frequency)) rest

def getWeightedNextWord (db : DB) (fromNode : BabblerNode) (r : Nat) :
    Except Failure (BabblerNode × BabblerWord) :=
  match scanArcs (db.babblerArcs.filter (fun a => a.FromNodeId = fromNode.NodeId)) with
  | .error e => .error e
  | .ok arcs =>
    let total := total64 (arcs.map (·.Frequency))
    if arcs.length = 0 then .error (.go .MISSING_ARCS)
    else
      match Int63n total r with
      | .error e => .error e
      | .ok which => arcLoop db which 0 arcs

/-- The seed validation loop of `babbleSeed`. -/
def seedLoop (real : Conversion) (db : DB) (babbler : Babbler) :
    BabblerNode → List String → Except Failure BabblerNode
  | curNode, [] => .ok curNode
  | curNode, word :: rest =>
    match getBabblerNode real db babbler word with
    | .error e => .error e
    | .ok nextNode =>
      match getBabblerArc db curNode nextNode with
      | .error e => .error e
      | .ok _ => seedLoop real db babbler nextNode rest

/-- The walk loop of `babbleSeed`, with `fuel` and the raw values `rnd i` as
above. -/
def babbleLoop (db : DB) (rnd : Nat → Nat) : Nat → Nat → BabblerNode → List String →
    Option (String × Option Failure)
  | 0, _, _, _ => none
  | fuel + 1, i, curNode, words =>
    match getWeightedNextWord db curNode (rnd i) with
    | .error e => some ("", some e)
    | .ok (node, w) =>
      if w.Word = " " then some (TrimSpace (Join words " "), none)
      else babbleLoop db rnd fuel (i + 1) node (words ++ [w.Word])

def babbleSeed (real : Conversion) (db : DB) (babblerName : String) (seed : List String)
    (rnd : Nat → Nat) (fuel : Nat) : Option (String × Option Failure) :=
  match getBabbler real db babblerName with
  | .error _ => some ("", none)
  | .ok babbler =>
    match seed with
    | [] =>
      (match getWeightedRootNode db babbler (rnd 0) with
       | .error e => some ("", some e)
       | .ok (curNode, curWord) => babbleLoop db rnd fuel 1 curNode (seed ++ [curWord.Word]))
    | word :: rest =>
      match getBabblerNode real db babbler word with
      | .error e => some ("", some e)
      | .ok firstNode =>
        match seedLoop real db babbler firstNode rest with
        | .error e => some ("", some e)
        | .ok curNode => babbleLoop db rnd fuel 0 curNode seed

/-- The loop `for _, node := range nodes` of `mergeBabblers`; the statements of
one iteration are those of `mergeNode`, and the row read back goes through the
`Scan`. -/
def mergeNodeLoop (intoBabbler : Babbler) (intoNode otherNode : BabblerNode) :
    DB → Mapping → List BabblerNode → DB × Except Failure Mapping
  | db, mapping, [] => (db, .ok mapping)
  | db, mapping, node0 :: rest =>
    let node := redirect intoNode otherNode node0
    let db1 := mergeNode intoBabbler db node
    match findNode db1 intoBabbler.BabblerId node.WordId with
    | none => (db1, .error (.go .ErrNoRows))
    | some row =>
      match scanNode row with
      | .error e => (db1, .error e)
      | .ok updatedNode =>
        mergeNodeLoop intoBabbler intoNode otherNode db1
          (mapSet mapping node.NodeId updatedNode) rest

/-- The inner loop `for _, arc := range arcs` of the replay. -/
def replayArcs (mapping : Mapping) (newNode : BabblerNode) :
    DB → List BabblerArc → DB × Option Failure
  | db, [] => (db, none)
  | db, arc :: rest =>
    match mapGet mapping arc.ToNodeId with
    | none => (db, some (.go .PANIC))
    | some toNode =>
      match incrementWordArc db newNode toNode with
      | (db1, .error e) => (db1, some e)
      | (db1, .ok _) => replayArcs mapping newNode db1 rest

/-- The loop `for oldNodeId, newNode := range mapping` of `mergeBabblers`. -/
def replayLoop (mapping : Mapping) : DB → List (Nat × BabblerNode) → DB × Option Failure
  | db, [] => (db, none)
  | db, (oldNodeId, newNode) :: rest =>
    match scanArcs (db.babblerArcs.filter (fun a => a.FromNodeId = oldNodeId)) with
    | .error e => (db, some e)
    | .ok arcs =>
      match replayArcs mapping newNode db arcs with
      | (db1, some e) => (db1, some e)
      | (db1, none) => replayLoop mapping db1 rest

def mergeBabblers (real : Conversion) (order : Mapping → Mapping) (db : DB)
    (intoBabbler otherBabbler : Babbler) (intoName otherName : String) : DB × Option Failure :=
  match getOrCreateBabblerNode real db intoBabbler ("<" ++ intoName ++ ">") with
  | (db1, .error e) => (db1, some e)
  | (db1, .ok intoNode) =>
    match getOrCreateBabblerNode real db1 otherBabbler ("<" ++ otherName ++ ">") with
    | (db2, .error e) => (db2, some e)
    | (db2, .ok otherNode) =>
      match scanNodes (db2.babblerNodes.filter
          (fun n => n.BabblerId = otherBabbler.BabblerId)) with
      | .error e => (db2, some e)
      | .ok nodes =>
        match mergeNodeLoop intoBabbler intoNode otherNode db2 [] nodes with
        | (db3, .error e) => (db3, some e)
        | (db3, .ok mapping) => replayLoop mapping db3 (order mapping)

/-- The store after `n` merges of the speaker `babbler` into itself (the map
enumerated in the order in which its keys were set), up to the first merge that
returns an error, with that error. -/
def selfMerged (real : Conversion) (babbler : Babbler) (name : String) :
    Nat → DB → DB × Option Failure
  | 0, db => (db, none)
  | n + 1, db =>
    match mergeBabblers real id db babbler babbler name name with
    | (db1, none) => selfMerged real babbler name n db1
    | (db1, some e) => (db1, some e)

/-- The store after `New`, `makeBabbler("alice")` and `makeBabbler("bob")`. -/
def twoSpeakers : DB := (makeBabbler asWritten (makeBabbler asWritten New "alice").1 "bob").1

/-- The stores that calls of `makeBabbler`, `addToMarkovChain` and
`mergeBabblers` produce from the store that `New` creates, on SQLite values.
The calls take any speakers, names and utterances, and each merge has its own
enumeration order of the map. -/
inductive Reachable (real : Conversion) : DB → Prop where
  | init : Reachable real New
  | register {db : DB} (name : String) :
      Reachable real db → Reachable real (makeBabbler real db name).1
  | learn {db : DB} (b : Babbler) (phrase : String) :
      Reachable real db → Reachable real (addToMarkovChain real db b phrase).1
  | merge {db : DB} (order : Mapping → Mapping) (a b : Babbler) (intoName otherName : String) :
      (∀ m, (order m).Perm m) → Reachable real db →
      Reachable real (mergeBabblers real order db a b intoName otherName).1

end Sqlite

/-- Every counter of the store is within the range of `int64`. -/
def Int64Store (db : DB) : Prop :=
  (∀ n ∈ db.babblerNodes, n.RootFrequency < 2 ^ 63) ∧
  (∀ x ∈ db.babblerArcs, x.Frequency < 2 ^ 63)

instance (db : DB) : Decidable (Int64Store db) := by
  unfold Int64Store; infer_instance

/-- No counter of `db` is greater than all counters of `db'`: every node row of
`db` has a node row in `db'` with at least its `rootFrequency`, and every arc
row an arc row with at least its frequency.  The calls below only add rows and
raise counters, so the store after a call relates to the store before it in
this way, and a store within the range of `int64` was reached through stores
within that range. -/
def Grows (db db' : DB) : Prop :=
  (∀ n ∈ db.babblerNodes, ∃ n' ∈ db'.babblerNodes, n.RootFrequency ≤ n'.RootFrequency) ∧
  (∀ x ∈ db.babblerArcs, ∃ x' ∈ db'.babblerArcs, x.Frequency ≤ x'.Frequency)

/-- The calls of `addToMarkovChain` that follow the tokenisation, for the tokens
`words`. -/
def learnWords (db : DB) (babbler : Babbler) : List String → DB × Option Error
  | [] => (db, none)
  | word :: rest =>
    let (db1, curNode) := incrementRootWordFrequency db babbler word
    addLoop babbler db1 curNode rest

/-- The part of the integrity conditions that no counter bears on: node ids
are keys, and every arc row leads between node rows of one speaker. -/
structure Scoped (db : DB) : Prop where
  nodeIds_nodup : (nodeIds db).Nodup
  arc_closed : ∀ a ∈ db.babblerArcs, a.FromNodeId ∈ nodeIds db ∧ a.ToNodeId ∈ nodeIds db
  arc_speaker : ∀ a ∈ db.babblerArcs, ∀ n1 ∈ db.babblerNodes, ∀ n2 ∈ db.babblerNodes,
    n1.NodeId = a.FromNodeId → n2.NodeId = a.ToNodeId → n1.BabblerId = n2.BabblerId

/-- The node ids of the store with the speakers of their rows. -/
def nodeOwners (db : DB) : List (Nat × Nat) :=
  db.babblerNodes.map fun n => (n.NodeId, n.BabblerId)

/-- The node row `n` is not a dead end of the store: an arc row leaves it, or it
is a row for the terminal marker that was never counted as a root. -/
def NoDeadEnd (db : DB) (n : BabblerNode) : Prop :=
  (∃ a ∈ db.babblerArcs, a.FromNodeId = n.NodeId) ∨
  (n.Root = 0 ∧ ∃ w ∈ db.babblerWords, w.WordId = n.WordId ∧ w.Word = " ")

/-- The condition that learning on SQLite values keeps, with no counter in it:
word ids are keys, arcs lead between nodes of one speaker, and no node row is a
dead end.  Between two calls `pending` is `none`; within `addToMarkovChain` it
is the id of the current node, which gets its arc at the next step. -/
structure Walkable (db : DB) (pending : Option Nat) : Prop where
  arcs_scoped : Scoped db
  wordIds_nodup : (wordIds db).Nodup
  no_dead_end : ∀ n ∈ db.babblerNodes, pending = some n.NodeId ∨ NoDeadEnd db n

namespace Sqlite

/-- The store after one call of a history, on SQLite values. -/
def applyOp (real : Conversion) (db : DB) : Op → DB
  | .register name => (makeBabbler real db name).1
  | .learn babbler phrase => (addToMarkovChain real db babbler phrase).1

/-- The store after the calls of a history, in order, on SQLite values. -/
def learnAll (real : Conversion) (db : DB) (hist : History) : DB :=
  hist.foldl (applyOp real) db

end Sqlite

/-! # Theorems -/

theorem lt_lastInsertId {ids : List Nat} {i : Nat} (h : i ∈ ids) : i < lastInsertId ids := by
  unfold lastInsertId
  induction ids with
  | nil => cases h
  | cons a l ih =>
    simp only [List.foldr_cons]
    rcases List.mem_cons.1 h with rfl | h
    · omega
    · have := ih h; omega

theorem lastInsertId_not_mem (ids : List Nat) : lastInsertId ids ∉ ids :=
  fun h => Nat.lt_irrefl _ (lt_lastInsertId h)

theorem getWord_ok {db : DB} {word : String} {w : BabblerWord} (h : getWord db word = .ok w) :
    w ∈ db.babblerWords ∧ w.Word = word := by
  unfold getWord at h
  split at h
  · rename_i w' hw
    cases h
    exact ⟨List.mem_of_find?_eq_some hw, by simpa using List.find?_some hw⟩
  · cases h

theorem getWord_error {db : DB} {word : String} {e : Error} (h : getWord db word = .error e) :
    ∀ w ∈ db.babblerWords, w.Word ≠ word := by
  unfold getWord at h
  split at h
  · cases h
  · rename_i hw
    intro w hmem
    have := List.find?_eq_none.1 hw w hmem
    simpa using this

theorem getWord_eq_error {db : DB} {word : String} {e : Error} (h : getWord db word = .error e) :
    e = .NEVER_SAID := by
  unfold getWord at h
  split at h <;> cases h
  rfl

theorem getBabblerNode_ok {db : DB} {b : Babbler} {word : String} {n : BabblerNode}
    (h : getBabblerNode db b word = .ok n) :
    ∃ w, getWord db word = .ok w ∧ n ∈ db.babblerNodes ∧ n.BabblerId = b.BabblerId ∧
      n.WordId = w.WordId ∧
      db.babblerNodes.find? (fun n => n.BabblerId = b.BabblerId ∧ n.WordId = w.WordId) = some n := by
  unfold getBabblerNode at h
  split at h
  · cases h
  · rename_i w hw
    split at h
    · rename_i node hn
      cases h
      have := List.find?_some hn
      simp at this
      exact ⟨w, hw, List.mem_of_find?_eq_some hn, this.1, this.2, hn⟩
    · cases h

theorem getBabblerNode_eq_error {db : DB} {b : Babbler} {word : String} {e : Error}
    (h : getBabblerNode db b word = .error e) : e = .NEVER_SAID := by
  unfold getBabblerNode at h
  split at h
  · rename_i e' he
    cases h
    exact getWord_eq_error he
  · split at h <;> cases h
    rfl

theorem find?_eq_some_of_unique {α : Type} {l : List α} {p : α → Bool} {x : α}
    (hx : x ∈ l) (hp : p x = true) (huniq : ∀ y ∈ l, p y = true → y = x) :
    l.find? p = some x := by
  induction l with
  | nil => cases hx
  | cons a l ih =>
    rw [List.find?_cons]
    by_cases hpa : p a = true
    · rw [hpa]
      simp only
      rw [huniq a (List.mem_cons_self _ _) hpa]
    · have hne : a ≠ x := fun h => hpa (h ▸ hp)
      have hxl : x ∈ l := by
        rcases List.mem_cons.1 hx with h | h
        · exact absurd h.symm hne
        · exact h
      simp only [Bool.not_eq_true] at hpa
      rw [hpa]
      exact ih hxl (fun y hy => huniq y (List.mem_cons_of_mem _ hy))

/-- The node row of the speaker `b` for the word `w`, as a relation. -/
theorem getBabblerNode_ok_iff {db : DB} (hwf : WF db) {b : Babbler} {word : String}
    {n : BabblerNode} :
    getBabblerNode db b word = .ok n ↔
      n ∈ db.babblerNodes ∧ n.BabblerId = b.BabblerId ∧
        ∃ w ∈ db.babblerWords, w.Word = word ∧ w.WordId = n.WordId := by
  constructor
  · intro h
    obtain ⟨w, hw, hn, hb, hid, _⟩ := getBabblerNode_ok h
    exact ⟨hn, hb, w, (getWord_ok hw).1, (getWord_ok hw).2, hid.symm⟩
  · rintro ⟨hn, hb, w, hw, hword, hid⟩
    have hgw : getWord db word = .ok w := by
      unfold getWord
      rw [find?_eq_some_of_unique hw (by simpa using hword)]
      intro y hy hpy
      exact List.inj_on_of_nodup_map hwf.wordTexts_nodup hy hw
        (by simp only [decide_eq_true_eq] at hpy; rw [hpy, hword])
    unfold getBabblerNode
    rw [hgw]
    simp only
    rw [find?_eq_some_of_unique hn (by simp [hb, hid])]
    intro y hy hpy
    simp only [decide_eq_true_eq] at hpy
    exact List.inj_on_of_nodup_map hwf.nodeKeys_nodup hy hn
      (by simp only [Prod.mk.injEq]; exact ⟨hpy.1.trans hb.symm, hpy.2.trans hid⟩)

theorem getBabblerNode_cases (db : DB) (b : Babbler) (word : String) :
    (∃ n, getBabblerNode db b word = .ok n) ∨ getBabblerNode db b word = .error .NEVER_SAID := by
  cases h : getBabblerNode db b word with
  | ok n => exact Or.inl ⟨n, rfl⟩
  | error e => rw [getBabblerNode_eq_error h]; exact Or.inr rfl

/-- Two stores with the same node rows for every speaker and word. -/
theorem getBabblerNode_congr {db db' : DB} (hw : db'.babblerWords = db.babblerWords)
    (hn : db'.babblerNodes = db.babblerNodes) (b : Babbler) (word : String) :
    getBabblerNode db' b word = getBabblerNode db b word := by
  unfold getBabblerNode getWord
  rw [hw, hn]

/-- The two outcomes of `getOrCreateBabblerNode`: the node row is found, or a
row (and, when the word is new, a word row) is appended. -/
theorem getOrCreateBabblerNode_eq {db : DB} (hwf : WF db) (b : Babbler) (word : String) :
    (∃ n, getBabblerNode db b word = .ok n ∧ getOrCreateBabblerNode db b word = (db, n)) ∨
    (getBabblerNode db b word = .error .NEVER_SAID ∧
      ∃ (w : BabblerWord) (ws : List BabblerWord),
        ((ws = [] ∧ w ∈ db.babblerWords) ∨
          (ws = [w] ∧ w.WordId = lastInsertId (wordIds db) ∧
            ∀ x ∈ db.babblerWords, x.Word ≠ word)) ∧
        w.Word = word ∧
        (∀ n ∈ db.babblerNodes, ¬ (n.BabblerId = b.BabblerId ∧ n.WordId = w.WordId)) ∧
        getOrCreateBabblerNode db b word =
          ({ db with
              babblerWords := db.babblerWords ++ ws
              babblerNodes := db.babblerNodes ++
                [⟨lastInsertId (nodeIds db), b.BabblerId, w.WordId, 0, 0⟩] },
           ⟨lastInsertId (nodeIds db), 0, w.WordId, 0, 0⟩)) := by
  cases h : getBabblerNode db b word with
  | ok n => exact Or.inl ⟨n, rfl, by simp [getOrCreateBabblerNode, h]⟩
  | error e =>
    right
    have he := getBabblerNode_eq_error h
    subst he
    refine ⟨rfl, ?_⟩
    cases hw : getWord db word with
    | ok w =>
      refine ⟨w, [], Or.inl ⟨rfl, (getWord_ok hw).1⟩, (getWord_ok hw).2, ?_, ?_⟩
      · intro n hn hkey
        unfold getBabblerNode at h
        rw [hw] at h
        simp only at h
        split at h
        · cases h
        · rename_i hnone
          have := List.find?_eq_none.1 hnone n hn
          simp at this
          exact this hkey.1 hkey.2
      · simp [getOrCreateBabblerNode, h, createBabblerNode, getOrCreateWord, hw, nodeIds]
    | error e' =>
      refine ⟨⟨lastInsertId (wordIds db), word⟩, [⟨lastInsertId (wordIds db), word⟩],
        Or.inr ⟨rfl, rfl, getWord_error hw⟩, rfl, ?_, ?_⟩
      · intro n hn hkey
        exact lastInsertId_not_mem _ (hkey.2 ▸ hwf.node_word n hn)
      · simp [getOrCreateBabblerNode, h, createBabblerNode, getOrCreateWord, hw, createNewWord,
          nodeIds, wordIds]

theorem nodup_append_singleton {α : Type} {l : List α} {a : α} (h : l.Nodup) (ha : a ∉ l) :
    (l ++ [a]).Nodup := by
  rw [List.nodup_append]
  refine ⟨h, List.nodup_singleton a, ?_⟩
  intro x hx hx'
  rw [List.mem_singleton] at hx'
  exact ha (hx' ▸ hx)

theorem WF_add_node {db : DB} (hwf : WF db) (nd : BabblerNode) (w : BabblerWord)
    (ws : List BabblerWord)
    (hws : (ws = [] ∧ w ∈ db.babblerWords) ∨
      (ws = [w] ∧ w.WordId = lastInsertId (wordIds db) ∧
        ∀ x ∈ db.babblerWords, x.Word ≠ w.Word))
    (hid : nd.NodeId = lastInsertId (nodeIds db)) (hword : nd.WordId = w.WordId)
    (hroot : (nd.Root = 1 ∧ 0 < nd.RootFrequency) ∨ (nd.Root = 0 ∧ nd.RootFrequency = 0))
    (hkey : ∀ n ∈ db.babblerNodes, ¬ (n.BabblerId = nd.BabblerId ∧ n.WordId = w.WordId)) :
    WF { db with
      babblerWords := db.babblerWords ++ ws
      babblerNodes := db.babblerNodes ++ [nd] } := by
  have hsub : ∀ i ∈ wordIds db, i ∈ (db.babblerWords ++ ws).map (·.WordId) := by
    intro i hi
    rw [List.map_append]
    exact List.mem_append_left _ hi
  have hwmem : w.WordId ∈ (db.babblerWords ++ ws).map (·.WordId) := by
    rcases hws with ⟨rfl, hw⟩ | ⟨rfl, _, _⟩
    · exact List.mem_map_of_mem _ (by simpa using hw)
    · simp
  constructor
  · show ((db.babblerWords ++ ws).map (·.WordId)).Nodup
    rcases hws with ⟨rfl, _⟩ | ⟨rfl, hid, _⟩
    · simpa using hwf.wordIds_nodup
    · rw [List.map_append]
      exact nodup_append_singleton hwf.wordIds_nodup (by
        show w.WordId ∉ wordIds db
        rw [hid]; exact lastInsertId_not_mem _)
  · show ((db.babblerWords ++ ws).map (·.Word)).Nodup
    rcases hws with ⟨rfl, _⟩ | ⟨rfl, _, hne⟩
    · simpa using hwf.wordTexts_nodup
    · rw [List.map_append]
      refine nodup_append_singleton hwf.wordTexts_nodup ?_
      intro hmem
      obtain ⟨x, hx, hxw⟩ := List.mem_map.1 hmem
      exact hne x hx hxw
  · show ((db.babblerNodes ++ [nd]).map (·.NodeId)).Nodup
    rw [List.map_append]
    exact nodup_append_singleton hwf.nodeIds_nodup (by
      show nd.NodeId ∉ nodeIds db
      rw [hid]; exact lastInsertId_not_mem _)
  · show ((db.babblerNodes ++ [nd]).map fun n => (n.BabblerId, n.WordId)).Nodup
    rw [List.map_append]
    refine nodup_append_singleton hwf.nodeKeys_nodup ?_
    intro hmem
    obtain ⟨n, hn, hnk⟩ := List.mem_map.1 hmem
    simp only [Prod.mk.injEq] at hnk
    exact hkey n hn ⟨hnk.1, hnk.2.trans hword⟩
  · intro n hn
    show n.WordId ∈ (db.babblerWords ++ ws).map (·.WordId)
    rcases List.mem_append.1 hn with h | h
    · exact hsub _ (hwf.node_word n h)
    · rw [List.mem_singleton] at h
      subst h
      rw [hword]
      exact hwmem
  · intro n hn
    rcases List.mem_append.1 hn with h | h
    · exact hwf.node_root n h
    · rw [List.mem_singleton] at h
      subst h
      exact hroot
  · exact hwf.arcKeys_nodup
  · intro a ha
    have := hwf.arc_closed a ha
    show a.FromNodeId ∈ (db.babblerNodes ++ [nd]).map (·.NodeId) ∧
      a.ToNodeId ∈ (db.babblerNodes ++ [nd]).map (·.NodeId)
    rw [List.map_append]
    exact ⟨List.mem_append_left _ this.1, List.mem_append_left _ this.2⟩
  · exact hwf.arc_pos
  · intro a ha n1 hn1 n2 hn2 h1 h2
    have hc := hwf.arc_closed a ha
    have hfresh : nd.NodeId ∉ nodeIds db := by rw [hid]; exact lastInsertId_not_mem _
    rcases List.mem_append.1 hn1 with hn1 | hn1
    · rcases List.mem_append.1 hn2 with hn2 | hn2
      · exact hwf.arc_speaker a ha n1 hn1 n2 hn2 h1 h2
      · rw [List.mem_singleton] at hn2
        subst hn2
        exact absurd (h2 ▸ hc.2) hfresh
    · rw [List.mem_singleton] at hn1
      subst hn1
      exact absurd (h1 ▸ hc.1) hfresh

/-- The effect of `getOrCreateBabblerNode` on a well-formed store. -/
theorem getOrCreateBabblerNode_spec {db : DB} (hwf : WF db) (b : Babbler) (word : String)
    (db' : DB) (nd : BabblerNode) (h : getOrCreateBabblerNode db b word = (db', nd)) :
    WF db' ∧ db'.babblerArcs = db.babblerArcs ∧ db'.babblers = db.babblers ∧
    (∀ (b' : Babbler) (w' : String), (b'.BabblerId ≠ b.BabblerId ∨ w' ≠ word) →
      getBabblerNode db' b' w' = getBabblerNode db b' w') ∧
    (∃ nd', getBabblerNode db' b word = .ok nd' ∧ nd'.NodeId = nd.NodeId ∧
      nd.NodeId ∈ nodeIds db' ∧
      ((db' = db ∧ nd' = nd) ∨
        (getBabblerNode db b word = .error .NEVER_SAID ∧ nd.NodeId ∉ nodeIds db ∧
          db'.babblerNodes = db.babblerNodes ++ [nd'] ∧ nd'.Root = 0 ∧
          nd'.RootFrequency = 0 ∧ nd'.BabblerId = b.BabblerId))) := by
  rcases getOrCreateBabblerNode_eq hwf b word with ⟨n, hn, heq⟩ | ⟨herr, w, ws, hws, hword, hkey, heq⟩
  · rw [heq] at h
    injection h with h1 h2
    subst h1 h2
    refine ⟨hwf, rfl, rfl, fun _ _ _ => rfl, n, hn, rfl, ?_, Or.inl ⟨rfl, rfl⟩⟩
    exact List.mem_map_of_mem _ (getBabblerNode_ok hn).choose_spec.2.1
  · rw [heq] at h
    injection h with h1 h2
    subst h1 h2
    have hws' : (ws = [] ∧ w ∈ db.babblerWords) ∨
        (ws = [w] ∧ w.WordId = lastInsertId (wordIds db) ∧
          ∀ x ∈ db.babblerWords, x.Word ≠ w.Word) := by
      rw [hword]; exact hws
    have hwf' := WF_add_node hwf ⟨lastInsertId (nodeIds db), b.BabblerId, w.WordId, 0, 0⟩ w ws
      hws' rfl rfl (Or.inr ⟨rfl, rfl⟩) hkey
    have hwin : w ∈ db.babblerWords ++ ws := by
      rcases hws with ⟨_, hw⟩ | ⟨rfl, _, _⟩
      · exact List.mem_append_left _ hw
      · simp
    refine ⟨hwf', rfl, rfl, ?_, ?_⟩
    · intro b' w' hne
      rcases getBabblerNode_cases db b' w' with ⟨n, hn⟩ | herr'
      · rw [hn]
        obtain ⟨h1, h2, x, hx, h3, h4⟩ := (getBabblerNode_ok_iff hwf).1 hn
        exact (getBabblerNode_ok_iff hwf').2
          ⟨List.mem_append_left _ h1, h2, x, List.mem_append_left _ hx, h3, h4⟩
      · rw [herr']
        rcases getBabblerNode_cases
          { db with
            babblerWords := db.babblerWords ++ ws
            babblerNodes := db.babblerNodes ++
              [⟨lastInsertId (nodeIds db), b.BabblerId, w.WordId, 0, 0⟩] } b' w'
          with ⟨n', hn'⟩ | herr''
        · exfalso
          obtain ⟨h1, h2, x, hx, h3, h4⟩ := (getBabblerNode_ok_iff hwf').1 hn'
          rcases List.mem_append.1 h1 with h1 | h1
          · obtain ⟨y, hy, hyid⟩ := List.mem_map.1 (hwf.node_word n' h1)
            have hxy : x = y := List.inj_on_of_nodup_map hwf'.wordIds_nodup hx
              (List.mem_append_left _ hy) (h4.trans hyid.symm)
            have : getBabblerNode db b' w' = .ok n' :=
              (getBabblerNode_ok_iff hwf).2 ⟨h1, h2, y, hy, hxy ▸ h3, hyid⟩
            rw [herr'] at this
            cases this
          · rw [List.mem_singleton] at h1
            subst h1
            have hxw : x = w := List.inj_on_of_nodup_map hwf'.wordIds_nodup hx hwin h4
            rcases hne with hne | hne
            · exact hne h2.symm
            · exact hne (by rw [← h3, hxw, hword])
        · exact herr''
    · refine ⟨⟨lastInsertId (nodeIds db), b.BabblerId, w.WordId, 0, 0⟩, ?_, rfl, ?_, Or.inr
        ⟨herr, lastInsertId_not_mem _, rfl, rfl, rfl, rfl⟩⟩
      · exact (getBabblerNode_ok_iff hwf').2
          ⟨List.mem_append_right _ (List.mem_singleton_self _), rfl, w, hwin, hword, rfl⟩
      · simp [nodeIds]

/-! ### Arcs -/

theorem updateArcFrequency_keys (arcs : List BabblerArc) (f t : Nat) :
    (updateArcFrequency arcs f t).map (fun a => (a.FromNodeId, a.ToNodeId)) =
      arcs.map (fun a => (a.FromNodeId, a.ToNodeId)) := by
  unfold updateArcFrequency
  rw [List.map_map]
  apply List.map_congr_left
  intro a _
  simp only [Function.comp]
  split <;> rfl

theorem mem_updateArcFrequency {arcs : List BabblerArc} {f t : Nat} {a : BabblerArc}
    (h : a ∈ updateArcFrequency arcs f t) :
    ∃ a0 ∈ arcs, a.FromNodeId = a0.FromNodeId ∧ a.ToNodeId = a0.ToNodeId ∧
      a.Frequency = a0.Frequency + (if a0.FromNodeId = f ∧ a0.ToNodeId = t then 1 else 0) := by
  unfold updateArcFrequency at h
  obtain ⟨a0, ha0, rfl⟩ := List.mem_map.1 h
  refine ⟨a0, ha0, ?_⟩
  split <;> simp_all

theorem affectedArcRows_eq_zero {arcs : List BabblerArc} {f t : Nat}
    (h : affectedArcRows arcs f t = 0) :
    ∀ a ∈ arcs, ¬ (a.FromNodeId = f ∧ a.ToNodeId = t) := by
  unfold affectedArcRows at h
  rw [List.length_eq_zero, List.filter_eq_nil_iff] at h
  intro a ha
  simpa using h a ha

theorem affectedArcRows_le_one {arcs : List BabblerArc} (f t : Nat)
    (h : (arcs.map fun a => (a.FromNodeId, a.ToNodeId)).Nodup) :
    affectedArcRows arcs f t ≤ 1 := by
  unfold affectedArcRows
  induction arcs with
  | nil => simp
  | cons a l ih =>
    rw [List.map_cons, List.nodup_cons] at h
    rw [List.filter_cons]
    split
    · rename_i hk
      simp only [decide_eq_true_eq] at hk
      have : l.filter (fun a => decide (a.FromNodeId = f ∧ a.ToNodeId = t)) = [] := by
        rw [List.filter_eq_nil_iff]
        intro x hx hkx
        simp only [decide_eq_true_eq] at hkx
        apply h.1
        rw [List.mem_map]
        exact ⟨x, hx, by rw [hk.1, hk.2, hkx.1, hkx.2]⟩
      rw [this]
      simp
    · exact ih h.2

theorem outSum_updateArcFrequency (arcs : List BabblerArc) (f t i : Nat) :
    (((updateArcFrequency arcs f t).filter fun a => a.FromNodeId = i).map (·.Frequency)).sum =
      ((arcs.filter fun a => a.FromNodeId = i).map (·.Frequency)).sum +
        (if i = f then affectedArcRows arcs f t else 0) := by
  unfold affectedArcRows
  induction arcs with
  | nil => simp [updateArcFrequency]
  | cons a l ih =>
    unfold updateArcFrequency at ih ⊢
    simp only [List.map_cons, List.filter_cons]
    by_cases hif : i = f
    · subst hif
      by_cases hi : a.FromNodeId = i <;> by_cases ht : a.ToNodeId = t <;>
        simp [hi, ht, ih] <;> omega
    · by_cases hi : a.FromNodeId = i
      · have hf : a.FromNodeId ≠ f := fun h => hif (hi.symm.trans h)
        simp [hi, hf, hif, ih]
      · by_cases hk : a.FromNodeId = f ∧ a.ToNodeId = t
        · have hfi : ¬ f = i := fun h => hif h.symm
          simp [hi, hk, hif, hfi, ih]
        · simp [hi, hk, hif, ih]

theorem find?_updateArcFrequency (arcs : List BabblerArc) (f t i j : Nat) :
    (updateArcFrequency arcs f t).find? (fun a => a.FromNodeId = i ∧ a.ToNodeId = j) =
      (arcs.find? (fun a => a.FromNodeId = i ∧ a.ToNodeId = j)).map
        (fun a => if a.FromNodeId = f ∧ a.ToNodeId = t then
          { a with Frequency := a.Frequency + 1 } else a) := by
  unfold updateArcFrequency
  rw [List.find?_map]
  have hcomp : ((fun a : BabblerArc => decide (a.FromNodeId = i ∧ a.ToNodeId = j)) ∘
      fun a : BabblerArc => if a.FromNodeId = f ∧ a.ToNodeId = t then
        { a with Frequency := a.Frequency + 1 } else a) =
      fun a : BabblerArc => decide (a.FromNodeId = i ∧ a.ToNodeId = j) := by
    funext a
    simp only [Function.comp]
    split <;> rfl
  rw [hcomp]

theorem incrementWordArc_frame (db : DB) (n1 n2 : BabblerNode) :
    (incrementWordArc db n1 n2).1.babblerWords = db.babblerWords ∧
    (incrementWordArc db n1 n2).1.babblerNodes = db.babblerNodes ∧
    (incrementWordArc db n1 n2).1.babblers = db.babblers := by
  unfold incrementWordArc
  simp only
  split <;> exact ⟨rfl, rfl, rfl⟩

theorem incrementWordArc_frequency (db : DB) (n1 n2 m1 m2 : BabblerNode) :
    nodeArcFrequency (incrementWordArc db n1 n2).1 m1 m2 =
      nodeArcFrequency db m1 m2 +
        (if m1.NodeId = n1.NodeId ∧ m2.NodeId = n2.NodeId then 1 else 0) := by
  unfold nodeArcFrequency getBabblerArc incrementWordArc
  simp only
  by_cases haff : affectedArcRows db.babblerArcs n1.NodeId n2.NodeId = 0
  · rw [if_pos haff]
    simp only [List.find?_append, find?_updateArcFrequency]
    have hnone := affectedArcRows_eq_zero haff
    by_cases hk : m1.NodeId = n1.NodeId ∧ m2.NodeId = n2.NodeId
    · have : db.babblerArcs.find?
          (fun a => decide (a.FromNodeId = m1.NodeId ∧ a.ToNodeId = m2.NodeId)) = none := by
        rw [List.find?_eq_none]
        intro a ha
        rw [hk.1, hk.2]
        simpa using hnone a ha
      rw [this]
      simp [hk]
    · cases hfind : db.babblerArcs.find?
          (fun a => decide (a.FromNodeId = m1.NodeId ∧ a.ToNodeId = m2.NodeId)) with
      | none =>
        have : ¬ (n1.NodeId = m1.NodeId ∧ n2.NodeId = m2.NodeId) :=
          fun h => hk ⟨h.1.symm, h.2.symm⟩
        simp [hk, this]
      | some a =>
        have hkey := List.find?_some hfind
        simp only [decide_eq_true_eq] at hkey
        have : ¬ (a.FromNodeId = n1.NodeId ∧ a.ToNodeId = n2.NodeId) := by
          rw [hkey.1, hkey.2]; exact hk
        simp [hk, this]
  · rw [if_neg haff]
    simp only [find?_updateArcFrequency]
    cases hfind : db.babblerArcs.find?
        (fun a => decide (a.FromNodeId = m1.NodeId ∧ a.ToNodeId = m2.NodeId)) with
    | none =>
      have : ¬ (m1.NodeId = n1.NodeId ∧ m2.NodeId = n2.NodeId) := by
        intro hk
        rw [hk.1, hk.2, List.find?_eq_none] at hfind
        apply haff
        unfold affectedArcRows
        rw [List.length_eq_zero, List.filter_eq_nil_iff]
        exact hfind
      simp [this]
    | some a =>
      have hkey := List.find?_some hfind
      simp only [decide_eq_true_eq] at hkey
      by_cases hk : m1.NodeId = n1.NodeId ∧ m2.NodeId = n2.NodeId
      · have : a.FromNodeId = n1.NodeId ∧ a.ToNodeId = n2.NodeId := by
          rw [hkey.1, hkey.2]; exact hk
        simp [hk, this]
      · have : ¬ (a.FromNodeId = n1.NodeId ∧ a.ToNodeId = n2.NodeId) := by
          rw [hkey.1, hkey.2]; exact hk
        simp [hk, this]

theorem incrementWordArc_arcs (db : DB) (n1 n2 : BabblerNode) :
    (incrementWordArc db n1 n2).1.babblerArcs =
      updateArcFrequency db.babblerArcs n1.NodeId n2.NodeId ++
        (if affectedArcRows db.babblerArcs n1.NodeId n2.NodeId = 0 then
          [⟨lastInsertId ((updateArcFrequency db.babblerArcs n1.NodeId n2.NodeId).map (·.ArcId)),
            n1.NodeId, n2.NodeId, 1⟩]
        else []) := by
  unfold incrementWordArc
  simp only
  split <;> simp

theorem incrementWordArc_ok (db : DB) (n1 n2 : BabblerNode) :
    ∃ a, (incrementWordArc db n1 n2).2 = .ok a := by
  have hfreq := incrementWordArc_frequency db n1 n2 n1 n2
  have h2 : (incrementWordArc db n1 n2).2 = getBabblerArc (incrementWordArc db n1 n2).1 n1 n2 := by
    unfold incrementWordArc
    rfl
  rw [h2]
  unfold nodeArcFrequency at hfreq
  cases hg : getBabblerArc (incrementWordArc db n1 n2).1 n1 n2 with
  | ok a => exact ⟨a, rfl⟩
  | error e =>
    rw [hg] at hfreq
    simp at hfreq

theorem incrementWordArc_WF {db : DB} (hwf : WF db) (n1 n2 : BabblerNode)
    (h1 : n1.NodeId ∈ nodeIds db) (h2 : n2.NodeId ∈ nodeIds db)
    (hsp : ∀ m1 ∈ db.babblerNodes, ∀ m2 ∈ db.babblerNodes, m1.NodeId = n1.NodeId →
      m2.NodeId = n2.NodeId → m1.BabblerId = m2.BabblerId) :
    WF (incrementWordArc db n1 n2).1 := by
  obtain ⟨hw, hn, _⟩ := incrementWordArc_frame db n1 n2
  have harcs := incrementWordArc_arcs db n1 n2
  have hids : nodeIds (incrementWordArc db n1 n2).1 = nodeIds db := by
    unfold nodeIds; rw [hn]
  constructor
  · unfold wordIds; rw [hw]; exact hwf.wordIds_nodup
  · rw [hw]; exact hwf.wordTexts_nodup
  · rw [hids]; exact hwf.nodeIds_nodup
  · rw [hn]; exact hwf.nodeKeys_nodup
  · intro n hmem
    rw [hn] at hmem
    unfold wordIds; rw [hw]
    exact hwf.node_word n hmem
  · intro n hmem
    rw [hn] at hmem
    exact hwf.node_root n hmem
  · rw [harcs, List.map_append, updateArcFrequency_keys]
    split
    · rename_i haff
      refine nodup_append_singleton hwf.arcKeys_nodup ?_
      intro hmem
      obtain ⟨a, ha, hk⟩ := List.mem_map.1 hmem
      simp only [Prod.mk.injEq] at hk
      exact affectedArcRows_eq_zero haff a ha hk
    · simpa using hwf.arcKeys_nodup
  · intro a ha
    rw [hids]
    rw [harcs] at ha
    rcases List.mem_append.1 ha with ha | ha
    · obtain ⟨a0, ha0, hf, ht, _⟩ := mem_updateArcFrequency ha
      rw [hf, ht]
      exact hwf.arc_closed a0 ha0
    · split at ha
      · rw [List.mem_singleton] at ha
        subst ha
        exact ⟨h1, h2⟩
      · cases ha
  · intro a ha
    rw [harcs] at ha
    rcases List.mem_append.1 ha with ha | ha
    · obtain ⟨a0, ha0, _, _, hfq⟩ := mem_updateArcFrequency ha
      have := hwf.arc_pos a0 ha0
      omega
    · split at ha
      · rw [List.mem_singleton] at ha
        subst ha
        exact Nat.one_pos
      · cases ha
  · intro a ha m1 hm1 m2 hm2 e1 e2
    rw [hn] at hm1 hm2
    rw [harcs] at ha
    rcases List.mem_append.1 ha with ha | ha
    · obtain ⟨a0, ha0, hf, ht, _⟩ := mem_updateArcFrequency ha
      exact hwf.arc_speaker a0 ha0 m1 hm1 m2 hm2 (e1.trans hf) (e2.trans ht)
    · split at ha
      · rw [List.mem_singleton] at ha
        subst ha
        exact hsp m1 hm1 m2 hm2 e1 e2
      · cases ha

theorem incrementWordArc_outSum {db : DB} (hwf : WF db) (n1 n2 : BabblerNode) (i : Nat) :
    outSum (incrementWordArc db n1 n2).1 i =
      outSum db i + (if i = n1.NodeId then 1 else 0) := by
  unfold outSum
  rw [incrementWordArc_arcs, List.filter_append, List.map_append, List.sum_append,
    outSum_updateArcFrequency]
  have hle := affectedArcRows_le_one n1.NodeId n2.NodeId hwf.arcKeys_nodup
  by_cases haff : affectedArcRows db.babblerArcs n1.NodeId n2.NodeId = 0
  · rw [if_pos haff, haff]
    by_cases hi : i = n1.NodeId
    · simp [hi]
    · have : ¬ n1.NodeId = i := fun h => hi h.symm
      simp [hi, this]
  · rw [if_neg haff]
    have : affectedArcRows db.babblerArcs n1.NodeId n2.NodeId = 1 := by omega
    rw [this]
    simp

theorem nodeIdOf_eq_some {db : DB} {s : Babbler} {w : String} {i : Nat}
    (h : nodeIdOf db s w = some i) : ∃ n, getBabblerNode db s w = .ok n ∧ n.NodeId = i := by
  unfold nodeIdOf at h
  split at h
  · rename_i n hn
    exact ⟨n, hn, by simpa using h⟩
  · cases h

theorem nodeIdOf_of_ok {db : DB} {s : Babbler} {w : String} {n : BabblerNode}
    (h : getBabblerNode db s w = .ok n) : nodeIdOf db s w = some n.NodeId := by
  unfold nodeIdOf; rw [h]

theorem nodeIdOf_of_error {db : DB} {s : Babbler} {w : String} {e : Error}
    (h : getBabblerNode db s w = .error e) : nodeIdOf db s w = none := by
  unfold nodeIdOf; rw [h]

theorem nodeIdOf_congr_id {db : DB} {s s' : Babbler} (w : String)
    (h : s.BabblerId = s'.BabblerId) : nodeIdOf db s w = nodeIdOf db s' w := by
  unfold nodeIdOf getBabblerNode
  rw [h]

theorem nodeIdOf_mem {db : DB} {s : Babbler} {w : String} {i : Nat}
    (h : nodeIdOf db s w = some i) : i ∈ nodeIds db := by
  obtain ⟨n, hn, rfl⟩ := nodeIdOf_eq_some h
  exact List.mem_map_of_mem _ (getBabblerNode_ok hn).choose_spec.2.1

/-- Different (speaker, word) keys have different node rows. -/
theorem nodeIdOf_inj {db : DB} (hwf : WF db) {s s' : Babbler} {w w' : String} {i : Nat}
    (h : nodeIdOf db s w = some i) (h' : nodeIdOf db s' w' = some i) :
    s.BabblerId = s'.BabblerId ∧ w = w' := by
  obtain ⟨n, hn, hi⟩ := nodeIdOf_eq_some h
  obtain ⟨n', hn', hi'⟩ := nodeIdOf_eq_some h'
  obtain ⟨h1, h2, x, hx, h3, h4⟩ := (getBabblerNode_ok_iff hwf).1 hn
  obtain ⟨h1', h2', x', hx', h3', h4'⟩ := (getBabblerNode_ok_iff hwf).1 hn'
  have hnn : n = n' := List.inj_on_of_nodup_map hwf.nodeIds_nodup h1 h1' (hi.trans hi'.symm)
  subst hnn
  have hxx : x = x' := List.inj_on_of_nodup_map hwf.wordIds_nodup hx hx' (h4.trans h4'.symm)
  subst hxx
  exact ⟨h2.symm.trans h2', h3.symm.trans h3'⟩

theorem arcFrequency_eq (db : DB) (s : Babbler) (u v : String) :
    arcFrequency db s u v =
      match nodeIdOf db s u, nodeIdOf db s v with
      | some i, some j => idArcFrequency db i j
      | _, _ => 0 := by
  unfold arcFrequency arcOf nodeIdOf idArcFrequency getBabblerArc
  cases getBabblerNode db s u <;> cases getBabblerNode db s v <;> simp only
  rename_i n1 n2
  cases db.babblerArcs.find?
    (fun a => decide (a.FromNodeId = n1.NodeId ∧ a.ToNodeId = n2.NodeId)) <;> rfl

theorem outFrequency_eq (db : DB) (s : Babbler) (u : String) :
    outFrequency db s u =
      match nodeIdOf db s u with
      | some i => outSum db i
      | none => 0 := by
  unfold outFrequency nodeIdOf
  cases getBabblerNode db s u <;> rfl

theorem idArcFrequency_of_not_mem {db : DB} (hwf : WF db) {i j : Nat}
    (h : i ∉ nodeIds db ∨ j ∉ nodeIds db) : idArcFrequency db i j = 0 := by
  unfold idArcFrequency
  split
  · rename_i a ha
    exfalso
    have hk := List.find?_some ha
    simp only [decide_eq_true_eq] at hk
    have hc := hwf.arc_closed a (List.mem_of_find?_eq_some ha)
    rw [hk.1, hk.2] at hc
    rcases h with h | h
    · exact h hc.1
    · exact h hc.2
  · rfl

theorem outSum_of_not_mem {db : DB} (hwf : WF db) {i : Nat} (h : i ∉ nodeIds db) :
    outSum db i = 0 := by
  unfold outSum
  have : db.babblerArcs.filter (fun a => decide (a.FromNodeId = i)) = [] := by
    rw [List.filter_eq_nil_iff]
    intro a ha hk
    simp only [decide_eq_true_eq] at hk
    exact h (hk ▸ (hwf.arc_closed a ha).1)
  rw [this]
  rfl

/-! ### Node steps -/

theorem rootFrequencyOf_congr_id {db : DB} {s s' : Babbler} (w : String)
    (h : s.BabblerId = s'.BabblerId) : rootFrequencyOf db s w = rootFrequencyOf db s' w := by
  unfold rootFrequencyOf getBabblerNode
  rw [h]

theorem getOrCreateBabblerNode_step {db : DB} (hwf : WF db) (b : Babbler) (word : String)
    (db' : DB) (nd : BabblerNode) (h : getOrCreateBabblerNode db b word = (db', nd)) :
    NodeStep db db' b word nd.NodeId 0 := by
  obtain ⟨hwf', harcs, hbab, hframe, nd', hnd', hid, hmem, hcase⟩ :=
    getOrCreateBabblerNode_spec hwf b word db' nd h
  have hids : ∀ i ∈ nodeIds db, i ∈ nodeIds db' := by
    rcases hcase with ⟨rfl, _⟩ | ⟨_, _, hnodes, _⟩
    · exact fun i hi => hi
    · intro i hi
      unfold nodeIds
      rw [hnodes, List.map_append]
      exact List.mem_append_left _ hi
  refine ⟨hwf', harcs, hbab, ?_, ?_, hmem, ?_, hids, ?_, ?_⟩
  · intro s w hne
    unfold nodeIdOf
    rw [hframe s w hne]
  · rw [nodeIdOf_of_ok hnd', hid]
  · rcases hcase with ⟨rfl, rfl⟩ | ⟨herr, hfresh, _⟩
    · exact Or.inl (nodeIdOf_of_ok hnd')
    · exact Or.inr ⟨nodeIdOf_of_error herr, hfresh⟩
  · intro s w
    rw [Nat.add_comm]
    simp only [ite_self, Nat.zero_add]
    by_cases hk : s.BabblerId = b.BabblerId ∧ w = word
    · obtain ⟨hs, rfl⟩ := hk
      rw [rootFrequencyOf_congr_id w hs, rootFrequencyOf_congr_id w hs]
      rcases hcase with ⟨rfl, _⟩ | ⟨herr, _, _, _, hrf, _⟩
      · rfl
      · unfold rootFrequencyOf
        rw [hnd', herr]
        exact hrf
    · unfold rootFrequencyOf
      rw [hframe s w (by
        by_cases hs : s.BabblerId = b.BabblerId
        · exact Or.inr (fun hw => hk ⟨hs, hw⟩)
        · exact Or.inl hs)]
  · intro s
    simp only [ite_self, Nat.add_zero]
    rcases hcase with ⟨rfl, _⟩ | ⟨_, _, hnodes, hroot, _, _⟩
    · rfl
    · unfold rootSum
      rw [hnodes, List.filter_append]
      have : [nd'].filter (fun n => decide (n.BabblerId = s.BabblerId ∧ n.Root = 1)) = [] := by
        simp [hroot]
      rw [this, List.append_nil]

theorem getBabblerNode_updateRoot (db : DB) (id : Nat) (s : Babbler) (w : String) :
    getBabblerNode { db with babblerNodes := updateRootById db.babblerNodes id } s w =
      (getBabblerNode db s w).map (fun n =>
        if n.NodeId = id then { n with RootFrequency := n.RootFrequency + 1, Root := 1 }
        else n) := by
  unfold getBabblerNode
  have hgw : getWord { db with babblerNodes := updateRootById db.babblerNodes id } w =
      getWord db w := rfl
  rw [hgw]
  cases getWord db w with
  | error e => rfl
  | ok wd =>
    simp only
    unfold updateRootById
    rw [List.find?_map]
    have hcomp : ((fun n : BabblerNode =>
          decide (n.BabblerId = s.BabblerId ∧ n.WordId = wd.WordId)) ∘
        fun n : BabblerNode => if n.NodeId = id then
          { n with RootFrequency := n.RootFrequency + 1, Root := 1 } else n) =
        fun n : BabblerNode => decide (n.BabblerId = s.BabblerId ∧ n.WordId = wd.WordId) := by
      funext n
      simp only [Function.comp]
      split <;> rfl
    rw [hcomp]
    cases db.babblerNodes.find?
      (fun n => decide (n.BabblerId = s.BabblerId ∧ n.WordId = wd.WordId)) <;> rfl

theorem updateRootById_ids (nodes : List BabblerNode) (id : Nat) :
    (updateRootById nodes id).map (·.NodeId) = nodes.map (·.NodeId) := by
  unfold updateRootById
  rw [List.map_map]
  apply List.map_congr_left
  intro n _
  simp only [Function.comp]
  split <;> rfl

theorem updateRootById_keys (nodes : List BabblerNode) (id : Nat) :
    (updateRootById nodes id).map (fun n => (n.BabblerId, n.WordId)) =
      nodes.map (fun n => (n.BabblerId, n.WordId)) := by
  unfold updateRootById
  rw [List.map_map]
  apply List.map_congr_left
  intro n _
  simp only [Function.comp]
  split <;> rfl

theorem updateRootById_of_not_mem {nodes : List BabblerNode} {id : Nat}
    (h : id ∉ nodes.map (·.NodeId)) : updateRootById nodes id = nodes := by
  unfold updateRootById
  conv => rhs; rw [← List.map_id nodes]
  apply List.map_congr_left
  intro n hn
  have : n.NodeId ≠ id := fun hc => h (hc ▸ List.mem_map_of_mem _ hn)
  simp [this]

theorem updateRoot_WF {db : DB} (hwf : WF db) (id : Nat) :
    WF { db with babblerNodes := updateRootById db.babblerNodes id } := by
  constructor
  · exact hwf.wordIds_nodup
  · exact hwf.wordTexts_nodup
  · show ((updateRootById db.babblerNodes id).map (·.NodeId)).Nodup
    rw [updateRootById_ids]; exact hwf.nodeIds_nodup
  · show ((updateRootById db.babblerNodes id).map fun n => (n.BabblerId, n.WordId)).Nodup
    rw [updateRootById_keys]; exact hwf.nodeKeys_nodup
  · intro n hn
    obtain ⟨n0, hn0, rfl⟩ := List.mem_map.1 hn
    have := hwf.node_word n0 hn0
    split <;> exact this
  · intro n hn
    obtain ⟨n0, hn0, rfl⟩ := List.mem_map.1 hn
    split
    · exact Or.inl ⟨rfl, Nat.succ_pos _⟩
    · exact hwf.node_root n0 hn0
  · exact hwf.arcKeys_nodup
  · intro a ha
    show a.FromNodeId ∈ (updateRootById db.babblerNodes id).map (·.NodeId) ∧
      a.ToNodeId ∈ (updateRootById db.babblerNodes id).map (·.NodeId)
    rw [updateRootById_ids]
    exact hwf.arc_closed a ha
  · exact hwf.arc_pos
  · intro a ha n1 hn1 n2 hn2 h1 h2
    obtain ⟨m1, hm1, rfl⟩ := List.mem_map.1 hn1
    obtain ⟨m2, hm2, rfl⟩ := List.mem_map.1 hn2
    have := hwf.arc_speaker a ha m1 hm1 m2 hm2 (by rw [← h1]; split <;> rfl)
      (by rw [← h2]; split <;> rfl)
    split <;> split <;> exact this

theorem rootSum_updateRootById (sid id : Nat) (n0 : BabblerNode) (hid : n0.NodeId = id) :
    ∀ nodes : List BabblerNode, (nodes.map (·.NodeId)).Nodup →
      (∀ n ∈ nodes, (n.Root = 1 ∧ 0 < n.RootFrequency) ∨ (n.Root = 0 ∧ n.RootFrequency = 0)) →
      n0 ∈ nodes →
      (((updateRootById nodes id).filter fun n => n.BabblerId = sid ∧ n.Root = 1).map
          (·.RootFrequency)).sum =
        ((nodes.filter fun n => n.BabblerId = sid ∧ n.Root = 1).map (·.RootFrequency)).sum +
          (if n0.BabblerId = sid then 1 else 0) := by
  intro nodes
  induction nodes with
  | nil => intro _ _ h; cases h
  | cons a l ih =>
    intro hnd hroot hmem
    rw [List.map_cons, List.nodup_cons] at hnd
    by_cases ha : a.NodeId = id
    · have hrest : updateRootById l id = l :=
        updateRootById_of_not_mem (ha ▸ hnd.1)
      have han : n0 = a := by
        rcases List.mem_cons.1 hmem with h | h
        · exact h
        · have hin : n0.NodeId ∈ l.map (·.NodeId) := List.mem_map_of_mem (·.NodeId) h
          rw [hid, ← ha] at hin
          exact absurd hin hnd.1
      subst han
      have hupd : updateRootById (n0 :: l) id =
          { n0 with RootFrequency := n0.RootFrequency + 1, Root := 1 } :: l := by
        conv => lhs; unfold updateRootById
        rw [List.map_cons, if_pos ha]
        congr 1
      rw [hupd]
      simp only [List.filter_cons]
      rcases hroot n0 (List.mem_cons_self _ _) with ⟨h1, _⟩ | ⟨h0, hz⟩
      · by_cases hs : n0.BabblerId = sid
        · simp [hs, h1]; omega
        · simp [hs]
      · by_cases hs : n0.BabblerId = sid
        · simp [hs, h0, hz]; omega
        · simp [hs]
    · have hmem' : n0 ∈ l := by
        rcases List.mem_cons.1 hmem with h | h
        · exact absurd (h ▸ hid) ha
        · exact h
      have hupd : updateRootById (a :: l) id = a :: updateRootById l id := by
        conv => lhs; unfold updateRootById
        rw [List.map_cons, if_neg ha]
        rfl
      rw [hupd]
      have := ih hnd.2 (fun n hn => hroot n (List.mem_cons_of_mem _ hn)) hmem'
      simp only [List.filter_cons]
      split
      · simp only [List.map_cons, List.sum_cons, this]; omega
      · exact this

theorem incrementRootWordFrequency_step {db : DB} (hwf : WF db) (b : Babbler) (word : String)
    (db' : DB) (nd : BabblerNode) (h : incrementRootWordFrequency db b word = (db', nd)) :
    NodeStep db db' b word nd.NodeId 1 := by
  unfold incrementRootWordFrequency at h
  cases hg : getOrCreateBabblerNode db b word with
  | mk db1 node =>
    rw [hg] at h
    simp only at h
    injection h with h1 h2
    obtain ⟨hwf1, harcs, hbab, hframe, hid, hmem, hcase, hids, hrf, hrs⟩ :=
      getOrCreateBabblerNode_step hwf b word db1 node hg
    have hndid : nd.NodeId = node.NodeId := by rw [← h2]
    rw [hndid]
    have hidOf : ∀ (s : Babbler) (w : String), nodeIdOf db' s w = nodeIdOf db1 s w := by
      intro s w
      rw [← h1]
      unfold nodeIdOf
      rw [getBabblerNode_updateRoot]
      cases getBabblerNode db1 s w with
      | error e => rfl
      | ok n =>
        show some (if n.NodeId = node.NodeId then _ else n).NodeId = some n.NodeId
        split <;> rfl
    have hnodeIds : nodeIds db' = nodeIds db1 := by
      rw [← h1]
      exact updateRootById_ids _ _
    obtain ⟨n0, hn0, hn0id⟩ := nodeIdOf_eq_some hid
    obtain ⟨hn0mem, hn0b, _⟩ := (getBabblerNode_ok_iff hwf1).1 hn0
    refine ⟨?_, ?_, ?_, ?_, ?_, ?_, hcase, ?_, ?_, ?_⟩
    · rw [← h1]; exact updateRoot_WF hwf1 _
    · rw [← h1]; exact harcs
    · rw [← h1]; exact hbab
    · intro s w hne
      rw [hidOf, hframe s w hne]
    · rw [hidOf, hid]
    · rw [hnodeIds]; exact hmem
    · intro i hi
      rw [hnodeIds]; exact hids i hi
    · intro s w
      have hold := hrf s w
      simp only [ite_self, Nat.add_zero] at hold
      rw [← hold, ← h1]
      unfold rootFrequencyOf
      rw [getBabblerNode_updateRoot]
      cases hs : getBabblerNode db1 s w with
      | error e =>
        have : ¬ (s.BabblerId = b.BabblerId ∧ w = word) := by
          rintro ⟨hsb, rfl⟩
          have := @nodeIdOf_congr_id db1 _ _ w hsb
          rw [hid, nodeIdOf_of_error hs] at this
          cases this
        rw [if_neg this]
        rfl
      | ok n =>
        show (if n.NodeId = node.NodeId then _ else n).RootFrequency = _
        by_cases hk : s.BabblerId = b.BabblerId ∧ w = word
        · obtain ⟨hsb, rfl⟩ := hk
          have := @nodeIdOf_congr_id db1 _ _ w hsb
          rw [hid, nodeIdOf_of_ok hs] at this
          injection this with this
          rw [if_pos this, if_pos ⟨hsb, rfl⟩]
        · have hne : n.NodeId ≠ node.NodeId := by
            intro hc
            exact hk (nodeIdOf_inj hwf1 (hc ▸ nodeIdOf_of_ok hs) hid)
          rw [if_neg hne, if_neg hk]
          rfl
    · intro s
      have hold := hrs s
      simp only [ite_self, Nat.add_zero] at hold
      rw [← hold, ← h1]
      unfold rootSum
      show (((updateRootById db1.babblerNodes node.NodeId).filter _).map _).sum = _
      rw [rootSum_updateRootById s.BabblerId node.NodeId n0 hn0id db1.babblerNodes
        hwf1.nodeIds_nodup hwf1.node_root hn0mem, hn0b]
      by_cases hs : s.BabblerId = b.BabblerId
      · rw [if_pos hs, if_pos hs.symm]
      · rw [if_neg hs, if_neg (fun hc => hs hc.symm)]

/-! ### Learning steps -/

theorem learns_refl {db : DB} (hwf : WF db) (b : Babbler) : Learns db db b [] [] [] := by
  refine ⟨hwf, rfl, fun _ _ _ h => h, ?_, ?_, ?_, ?_⟩ <;> intros <;> simp

theorem learns_trans {db db1 db2 : DB} {b : Babbler} {p1 p2 : List (String × String)}
    {w1 w2 r1 r2 : List String} (h1 : Learns db db1 b p1 w1 r1)
    (h2 : Learns db1 db2 b p2 w2 r2) :
    Learns db db2 b (p1 ++ p2) (w1 ++ w2) (r1 ++ r2) := by
  obtain ⟨_, hb1, hi1, ha1, ho1, hr1, hs1⟩ := h1
  obtain ⟨hwf2, hb2, hi2, ha2, ho2, hr2, hs2⟩ := h2
  refine ⟨hwf2, hb2.trans hb1, fun s w i h => hi2 s w i (hi1 s w i h), ?_, ?_, ?_, ?_⟩
  · intro s u v
    rw [ha2, ha1, List.count_append]
    split <;> omega
  · intro s u
    rw [ho2, ho1, List.count_append]
    split <;> omega
  · intro s w
    rw [hr2, hr1, List.count_append]
    split <;> omega
  · intro s
    rw [hs2, hs1, List.length_append]
    split <;> omega

theorem nodeStep_nodeIdOf_cases {db db' : DB} {b : Babbler} {word : String} {id k : Nat}
    (h : NodeStep db db' b word id k) (s : Babbler) (w : String) :
    nodeIdOf db' s w = nodeIdOf db s w ∨
      (nodeIdOf db s w = none ∧ ∃ i, nodeIdOf db' s w = some i ∧ i ∉ nodeIds db) := by
  obtain ⟨_, _, _, hframe, hid, _, hcase, _⟩ := h
  by_cases hk : s.BabblerId = b.BabblerId ∧ w = word
  · obtain ⟨hs, rfl⟩ := hk
    rw [nodeIdOf_congr_id w hs, nodeIdOf_congr_id w hs]
    rcases hcase with hold | ⟨hnone, hfresh⟩
    · exact Or.inl (hid.trans hold.symm)
    · exact Or.inr ⟨hnone, id, hid, hfresh⟩
  · left
    apply hframe
    by_cases hs : s.BabblerId = b.BabblerId
    · exact Or.inr (fun hw => hk ⟨hs, hw⟩)
    · exact Or.inl hs

theorem idArcFrequency_congr {db db' : DB} (h : db'.babblerArcs = db.babblerArcs) (i j : Nat) :
    idArcFrequency db' i j = idArcFrequency db i j := by
  unfold idArcFrequency; rw [h]

theorem outSum_congr {db db' : DB} (h : db'.babblerArcs = db.babblerArcs) (i : Nat) :
    outSum db' i = outSum db i := by
  unfold outSum; rw [h]

theorem nodeStep_learns {db db' : DB} (hwf : WF db) {b : Babbler} {word : String} {id k : Nat}
    (h : NodeStep db db' b word id k) :
    Learns db db' b [] [] (List.replicate k word) := by
  have hcases := nodeStep_nodeIdOf_cases h
  obtain ⟨hwf', harcs, hbab, hframe, hid, hmem, hcase, hids, hrf, hrs⟩ := h
  refine ⟨hwf', hbab, ?_, ?_, ?_, ?_, ?_⟩
  · intro s w i hi
    rcases hcases s w with heq | ⟨hnone, _⟩
    · rw [heq]; exact hi
    · rw [hi] at hnone; cases hnone
  · intro s u v
    simp only [List.count_nil, ite_self, Nat.add_zero]
    rw [arcFrequency_eq, arcFrequency_eq]
    rcases hcases s u with hu | ⟨hu, i, hui, hfresh⟩
    · rcases hcases s v with hv | ⟨hv, j, hvj, hfresh⟩
      · rw [hu, hv]
        cases nodeIdOf db s u <;> cases nodeIdOf db s v <;> simp only
        exact idArcFrequency_congr harcs _ _
      · rw [hu, hv, hvj]
        cases nodeIdOf db s u <;> simp only
        rw [idArcFrequency_congr harcs]
        exact idArcFrequency_of_not_mem hwf (Or.inr hfresh)
    · rw [hu, hui]
      cases hv : nodeIdOf db' s v <;> simp only
      rw [idArcFrequency_congr harcs]
      exact idArcFrequency_of_not_mem hwf (Or.inl hfresh)
  · intro s u
    simp only [List.count_nil, ite_self, Nat.add_zero]
    rw [outFrequency_eq, outFrequency_eq]
    rcases hcases s u with hu | ⟨hu, i, hui, hfresh⟩
    · rw [hu]
      cases nodeIdOf db s u <;> simp only
      exact outSum_congr harcs _
    · rw [hu, hui]
      simp only
      rw [outSum_congr harcs]
      exact outSum_of_not_mem hwf hfresh
  · intro s w
    rw [hrf]
    by_cases hs : s.BabblerId = b.BabblerId
    · by_cases hw : w = word
      · subst hw
        simp [hs]
      · have : ¬ word = w := fun hc => hw hc.symm
        simp [hs, hw, List.count_replicate, this]
    · simp [hs]
  · intro s
    rw [hrs, List.length_replicate]

theorem nodeArcFrequency_eq (db : DB) (m1 m2 : BabblerNode) :
    nodeArcFrequency db m1 m2 = idArcFrequency db m1.NodeId m2.NodeId := by
  unfold nodeArcFrequency idArcFrequency getBabblerArc
  cases db.babblerArcs.find?
    (fun a => decide (a.FromNodeId = m1.NodeId ∧ a.ToNodeId = m2.NodeId)) <;> rfl

theorem incrementWordArc_idArcFrequency (db : DB) (n1 n2 : BabblerNode) (i j : Nat) :
    idArcFrequency (incrementWordArc db n1 n2).1 i j =
      idArcFrequency db i j + (if i = n1.NodeId ∧ j = n2.NodeId then 1 else 0) := by
  have := incrementWordArc_frequency db n1 n2 ⟨i, 0, 0, 0, 0⟩ ⟨j, 0, 0, 0, 0⟩
  rw [nodeArcFrequency_eq, nodeArcFrequency_eq] at this
  exact this

theorem incrementWordArc_learns {db : DB} (hwf : WF db) {b : Babbler} {u0 v0 : String}
    {n1 n2 : BabblerNode} (h1 : nodeIdOf db b u0 = some n1.NodeId)
    (h2 : nodeIdOf db b v0 = some n2.NodeId) :
    Learns db (incrementWordArc db n1 n2).1 b [(u0, v0)] [u0] [] := by
  obtain ⟨hw, hn, hbab⟩ := incrementWordArc_frame db n1 n2
  have hnode : ∀ (s : Babbler) (w : String),
      getBabblerNode (incrementWordArc db n1 n2).1 s w = getBabblerNode db s w :=
    getBabblerNode_congr hw hn
  have hidOf : ∀ (s : Babbler) (w : String),
      nodeIdOf (incrementWordArc db n1 n2).1 s w = nodeIdOf db s w := by
    intro s w; unfold nodeIdOf; rw [hnode]
  have hsp : ∀ m1 ∈ db.babblerNodes, ∀ m2 ∈ db.babblerNodes, m1.NodeId = n1.NodeId →
      m2.NodeId = n2.NodeId → m1.BabblerId = m2.BabblerId := by
    intro m1 hm1 m2 hm2 e1 e2
    obtain ⟨k1, hk1, hk1id⟩ := nodeIdOf_eq_some h1
    obtain ⟨k2, hk2, hk2id⟩ := nodeIdOf_eq_some h2
    obtain ⟨hk1m, hk1b, _⟩ := (getBabblerNode_ok_iff hwf).1 hk1
    obtain ⟨hk2m, hk2b, _⟩ := (getBabblerNode_ok_iff hwf).1 hk2
    have a1 : m1 = k1 := List.inj_on_of_nodup_map hwf.nodeIds_nodup hm1 hk1m (e1.trans hk1id.symm)
    have a2 : m2 = k2 := List.inj_on_of_nodup_map hwf.nodeIds_nodup hm2 hk2m (e2.trans hk2id.symm)
    rw [a1, a2, hk1b, hk2b]
  refine ⟨incrementWordArc_WF hwf n1 n2 (nodeIdOf_mem h1) (nodeIdOf_mem h2) hsp, hbab, ?_, ?_,
    ?_, ?_, ?_⟩
  · intro s w i hi
    rw [hidOf]; exact hi
  · intro s u v
    rw [arcFrequency_eq, arcFrequency_eq, hidOf, hidOf]
    have hkey : ∀ i j, nodeIdOf db s u = some i → nodeIdOf db s v = some j →
        ((i = n1.NodeId ∧ j = n2.NodeId) ↔ (s.BabblerId = b.BabblerId ∧ u = u0 ∧ v = v0)) := by
      intro i j hi hj
      constructor
      · rintro ⟨rfl, rfl⟩
        have a1 := nodeIdOf_inj hwf hi h1
        have a2 := nodeIdOf_inj hwf hj h2
        exact ⟨a1.1, a1.2, a2.2⟩
      · rintro ⟨hs, rfl, rfl⟩
        rw [nodeIdOf_congr_id _ hs] at hi hj
        rw [h1] at hi
        rw [h2] at hj
        injection hi with hi
        injection hj with hj
        exact ⟨hi.symm, hj.symm⟩
    cases hi : nodeIdOf db s u with
    | none =>
      have : ¬ (s.BabblerId = b.BabblerId ∧ (u0, v0) = (u, v)) := by
        rintro ⟨hs, hp⟩
        injection hp with hp1 hp2
        subst hp1
        rw [nodeIdOf_congr_id _ hs, h1] at hi
        cases hi
      by_cases hs : s.BabblerId = b.BabblerId
      · have hne : ¬ (u0, v0) = (u, v) := fun hp => this ⟨hs, hp⟩
        simp [hs, List.count_singleton, hne]
      · simp [hs]
    | some i =>
      cases hj : nodeIdOf db s v with
      | none =>
        have : ¬ (s.BabblerId = b.BabblerId ∧ (u0, v0) = (u, v)) := by
          rintro ⟨hs, hp⟩
          injection hp with hp1 hp2
          subst hp2
          rw [nodeIdOf_congr_id _ hs, h2] at hj
          cases hj
        by_cases hs : s.BabblerId = b.BabblerId
        · have hne : ¬ (u0, v0) = (u, v) := fun hp => this ⟨hs, hp⟩
          simp [hs, List.count_singleton, hne]
        · simp [hs]
      | some j =>
        simp only
        rw [incrementWordArc_idArcFrequency]
        have hk := hkey i j hi hj
        by_cases hc : s.BabblerId = b.BabblerId ∧ u = u0 ∧ v = v0
        · rw [if_pos (hk.2 hc), if_pos hc.1]
          obtain ⟨_, rfl, rfl⟩ := hc
          simp
        · rw [if_neg (fun h => hc (hk.1 h))]
          by_cases hs : s.BabblerId = b.BabblerId
          · have hne : ¬ (u0, v0) = (u, v) := by
              intro hp
              injection hp with hp1 hp2
              exact hc ⟨hs, hp1.symm, hp2.symm⟩
            simp [hs, List.count_singleton, hne]
          · simp [hs]
  · intro s u
    rw [outFrequency_eq, outFrequency_eq, hidOf]
    cases hi : nodeIdOf db s u with
    | none =>
      by_cases hs : s.BabblerId = b.BabblerId
      · have hne : ¬ u0 = u := by
          rintro rfl
          rw [nodeIdOf_congr_id _ hs, h1] at hi
          cases hi
        simp [hs, List.count_singleton, hne]
      · simp [hs]
    | some i =>
      simp only
      rw [incrementWordArc_outSum hwf]
      by_cases hc : s.BabblerId = b.BabblerId ∧ u = u0
      · obtain ⟨hs, rfl⟩ := hc
        rw [nodeIdOf_congr_id _ hs, h1] at hi
        injection hi with hi
        simp [hs, hi]
      · have hne : i ≠ n1.NodeId := by
          rintro rfl
          exact hc (nodeIdOf_inj hwf hi h1)
        rw [if_neg hne]
        by_cases hs : s.BabblerId = b.BabblerId
        · have hne' : ¬ u0 = u := fun hu => hc ⟨hs, hu.symm⟩
          simp [hs, List.count_singleton, hne']
        · simp [hs]
  · intro s w
    simp only [List.count_nil, ite_self, Nat.add_zero]
    unfold rootFrequencyOf
    rw [hnode]
  · intro s
    simp only [List.length_nil, ite_self, Nat.add_zero]
    unfold rootSum
    rw [hn]

theorem addLoop_learns (b : Babbler) :
    ∀ (ws : List String) (db : DB) (cur : BabblerNode) (cw : String), WF db →
      nodeIdOf db b cw = some cur.NodeId →
      Learns db (addLoop b db cur ws).1 b (adjacentPairs (cw :: ws ++ [" "])) (cw :: ws) [] ∧
        (addLoop b db cur ws).2 = none := by
  intro ws
  induction ws with
  | nil =>
    intro db cur cw hwf hcur
    cases hg : getOrCreateBabblerNode db b " " with
    | mk db1 next =>
      have hstep := getOrCreateBabblerNode_step hwf b " " db1 next hg
      have hl1 := nodeStep_learns hwf hstep
      have hcur1 := hl1.2.2.1 b cw _ hcur
      have hl2 := incrementWordArc_learns hl1.1 hcur1 hstep.2.2.2.2.1
      obtain ⟨a, ha⟩ := incrementWordArc_ok db1 cur next
      have hfst : (addLoop b db cur []).1 = (incrementWordArc db1 cur next).1 := by
        unfold addLoop incrementFinalWordArcHelper
        rw [hg]
        simp only
        cases hi : incrementWordArc db1 cur next with
        | mk db2 r => cases r <;> rfl
      have hsnd : (addLoop b db cur []).2 = none := by
        unfold addLoop incrementFinalWordArcHelper
        rw [hg]
        simp only
        cases hi : incrementWordArc db1 cur next with
        | mk db2 r =>
          rw [hi] at ha
          simp only at ha
          subst ha
          rfl
      rw [hfst]
      exact ⟨by simpa [adjacentPairs] using learns_trans hl1 hl2, hsnd⟩
  | cons w ws ih =>
    intro db cur cw hwf hcur
    cases hg : getOrCreateBabblerNode db b w with
    | mk db1 next =>
      have hstep := getOrCreateBabblerNode_step hwf b w db1 next hg
      have hl1 := nodeStep_learns hwf hstep
      have hcur1 := hl1.2.2.1 b cw _ hcur
      have hl2 := incrementWordArc_learns hl1.1 hcur1 hstep.2.2.2.2.1
      obtain ⟨a, ha⟩ := incrementWordArc_ok db1 cur next
      have hnext : nodeIdOf (incrementWordArc db1 cur next).1 b w = some next.NodeId :=
        hl2.2.2.1 b w _ hstep.2.2.2.2.1
      have hrec := ih (incrementWordArc db1 cur next).1 next w hl2.1 hnext
      have heq : addLoop b db cur (w :: ws) =
          addLoop b (incrementWordArc db1 cur next).1 next ws := by
        conv => lhs; unfold addLoop
        rw [hg]
        simp only
        cases hi : incrementWordArc db1 cur next with
        | mk db2 r =>
          rw [hi] at ha
          simp only at ha
          subst ha
          rfl
      rw [heq]
      refine ⟨?_, hrec.2⟩
      have := learns_trans (learns_trans hl1 hl2) hrec.1
      simpa [adjacentPairs] using this

/-- The effect of one learn call on a well-formed store. -/
theorem addToMarkovChain_learns {db : DB} (hwf : WF db) (b : Babbler) (phrase : String) :
    Learns db (addToMarkovChain db b phrase).1 b (transitions phrase) (tokens phrase)
        ((tokens phrase).head?.toList) ∧
      (addToMarkovChain db b phrase).2 = none := by
  unfold addToMarkovChain transitions tokens
  cases hf : Fields (ToLower phrase) with
  | nil => exact ⟨learns_refl hwf b, rfl⟩
  | cons word rest =>
    simp only
    cases hr : incrementRootWordFrequency db b word with
    | mk db1 cur =>
      have hstep := incrementRootWordFrequency_step hwf b word db1 cur hr
      have hl1 := nodeStep_learns hwf hstep
      have hrec := addLoop_learns b rest db1 cur word hl1.1 hstep.2.2.2.2.1
      refine ⟨?_, hrec.2⟩
      have := learns_trans hl1 hrec.1
      simpa using this

/-! ### Histories -/

theorem WF_New : WF New := by
  constructor <;> decide

theorem WF_makeBabbler {db : DB} (hwf : WF db) (name : String) : WF (makeBabbler db name).1 :=
  ⟨hwf.wordIds_nodup, hwf.wordTexts_nodup, hwf.nodeIds_nodup, hwf.nodeKeys_nodup,
    hwf.node_word, hwf.node_root, hwf.arcKeys_nodup, hwf.arc_closed, hwf.arc_pos,
    hwf.arc_speaker⟩

theorem utterancesOf_cons_learn (b : Babbler) (phrase : String) (hist : History) (s : Babbler) :
    utterancesOf (.learn b phrase :: hist) s =
      if s.BabblerId = b.BabblerId then phrase :: utterancesOf hist s
      else utterancesOf hist s := by
  unfold utterancesOf
  rw [List.filterMap_cons]
  by_cases h : s.BabblerId = b.BabblerId
  · simp [h]
  · have : ¬ b.BabblerId = s.BabblerId := fun hc => h hc.symm
    simp [h, this]

theorem utterancesOf_cons_register (name : String) (hist : History) (s : Babbler) :
    utterancesOf (.register name :: hist) s = utterancesOf hist s := by
  unfold utterancesOf
  rw [List.filterMap_cons]

/-- The store after a history, observed at the level of speakers and words. -/
theorem learnAll_spec (hist : History) :
    ∀ db : DB, WF db →
      WF (learnAll db hist) ∧
      (∀ (s : Babbler) (u v : String), arcFrequency (learnAll db hist) s u v =
        arcFrequency db s u v + followCount (utterancesOf hist s) u v) ∧
      (∀ (s : Babbler) (u : String), outFrequency (learnAll db hist) s u =
        outFrequency db s u + occurrences (utterancesOf hist s) u) ∧
      (∀ (s : Babbler) (w : String), rootFrequencyOf (learnAll db hist) s w =
        rootFrequencyOf db s w + startCount (utterancesOf hist s) w) ∧
      (∀ s : Babbler, rootSum (learnAll db hist) s =
        rootSum db s + spokenCount (utterancesOf hist s)) := by
  induction hist with
  | nil =>
    intro db hwf
    exact ⟨hwf, fun _ _ _ => rfl, fun _ _ => rfl, fun _ _ => rfl, fun _ => rfl⟩
  | cons op hist ih =>
    intro db hwf
    cases op with
    | register name =>
      have := ih (makeBabbler db name).1 (WF_makeBabbler hwf name)
      simp only [utterancesOf_cons_register]
      exact this
    | learn b phrase =>
      obtain ⟨⟨hwf1, _, _, ha, ho, hr, hs⟩, _⟩ := addToMarkovChain_learns hwf b phrase
      obtain ⟨hwf2, ha2, ho2, hr2, hs2⟩ := ih (addToMarkovChain db b phrase).1 hwf1
      have hfold : learnAll db (.learn b phrase :: hist) =
          learnAll (addToMarkovChain db b phrase).1 hist := rfl
      rw [hfold]
      refine ⟨hwf2, ?_, ?_, ?_, ?_⟩
      · intro s u v
        rw [ha2, ha, utterancesOf_cons_learn]
        by_cases h : s.BabblerId = b.BabblerId
        · simp only [if_pos h, followCount, List.map_cons, List.sum_cons]
          omega
        · simp only [if_neg h, Nat.add_zero]
      · intro s u
        rw [ho2, ho, utterancesOf_cons_learn]
        by_cases h : s.BabblerId = b.BabblerId
        · simp only [if_pos h, occurrences, List.map_cons, List.sum_cons]
          omega
        · simp only [if_neg h, Nat.add_zero]
      · intro s w
        rw [hr2, hr, utterancesOf_cons_learn]
        by_cases h : s.BabblerId = b.BabblerId
        · simp only [if_pos h, startCount, List.filter_cons]
          cases hh : (tokens phrase).head? with
          | none => simp
          | some x =>
            by_cases hx : x = w
            · simp [hx]; omega
            · simp [hx, List.count_singleton]
        · simp only [if_neg h, Nat.add_zero]
      · intro s
        rw [hs2, hs, utterancesOf_cons_learn]
        by_cases h : s.BabblerId = b.BabblerId
        · simp only [if_pos h, spokenCount, List.filter_cons]
          cases hh : tokens phrase with
          | nil => simp
          | cons x xs => simp; omega
        · simp only [if_neg h, Nat.add_zero]

theorem getBabblerArc_ok {db : DB} {n1 n2 : BabblerNode} {a : BabblerArc}
    (h : getBabblerArc db n1 n2 = .ok a) :
    a ∈ db.babblerArcs ∧ a.FromNodeId = n1.NodeId ∧ a.ToNodeId = n2.NodeId := by
  unfold getBabblerArc at h
  split at h
  · rename_i arc harc
    cases h
    have hk := List.find?_some harc
    simp only [decide_eq_true_eq] at hk
    exact ⟨List.mem_of_find?_eq_some harc, hk.1, hk.2⟩
  · cases h

theorem arcOf_mem {db : DB} {s : Babbler} {u v : String} {a : BabblerArc}
    (h : arcOf db s u v = some a) : a ∈ db.babblerArcs := by
  unfold arcOf at h
  split at h
  · rename_i n1 n2 _ _
    split at h
    · rename_i arc harc
      simp only [Option.some.injEq] at h
      subst h
      exact (getBabblerArc_ok harc).1
    · cases h
  · cases h

theorem getBabblerNode_New (s : Babbler) (w : String) :
    getBabblerNode New s w = .error .NEVER_SAID := by
  rcases getBabblerNode_cases New s w with ⟨n, hn⟩ | h
  · have := (getBabblerNode_ok hn).choose_spec.2.1
    cases this
  · exact h

theorem arcFrequency_New (s : Babbler) (u v : String) : arcFrequency New s u v = 0 := by
  unfold arcFrequency arcOf
  rw [getBabblerNode_New]

theorem outFrequency_New (s : Babbler) (u : String) : outFrequency New s u = 0 := by
  unfold outFrequency
  rw [getBabblerNode_New]

theorem rootFrequencyOf_New (s : Babbler) (w : String) : rootFrequencyOf New s w = 0 := by
  unfold rootFrequencyOf
  rw [getBabblerNode_New]

theorem learnTimes_spec (s : Babbler) (phrase : String) (n : Nat) :
    ∀ db : DB, WF db →
      WF (learnTimes db s phrase n) ∧
      (∀ u v : String, arcFrequency (learnTimes db s phrase n) s u v =
        arcFrequency db s u v + n * (transitions phrase).count (u, v)) ∧
      (∀ w : String, rootFrequencyOf (learnTimes db s phrase n) s w =
        rootFrequencyOf db s w + n * (tokens phrase).head?.toList.count w) := by
  induction n with
  | zero =>
    intro db hwf
    exact ⟨hwf, fun _ _ => by simp [learnTimes], fun _ => by simp [learnTimes]⟩
  | succ n ih =>
    intro db hwf
    obtain ⟨⟨hwf1, _, _, ha, _, hr, _⟩, _⟩ := addToMarkovChain_learns hwf s phrase
    obtain ⟨hwf2, ha2, hr2⟩ := ih (addToMarkovChain db s phrase).1 hwf1
    refine ⟨hwf2, ?_, ?_⟩
    · intro u v
      show arcFrequency (learnTimes (addToMarkovChain db s phrase).1 s phrase n) s u v = _
      rw [ha2, ha, if_pos rfl, Nat.succ_mul]
      omega
    · intro w
      show rootFrequencyOf (learnTimes (addToMarkovChain db s phrase).1 s phrase n) s w = _
      rw [hr2, hr, if_pos rfl, Nat.succ_mul]
      omega

/-! ### The scenario store -/

theorem helloStore_next_hello (r : Nat) :
    getWeightedNextWord helloStore ⟨1, 1, 2, 1, 2⟩ r = .ok (⟨2, 1, 3, 0, 0⟩, ⟨3, "world"⟩) := by
  have key : ∀ which < 2, arcLoop helloStore which 0 [⟨1, 1, 2, 1⟩, ⟨3, 1, 4, 1⟩] =
      .ok (⟨2, 1, 3, 0, 0⟩, ⟨3, "world"⟩) := by decide
  exact key (r % 2) (Nat.mod_lt _ (by decide))

theorem helloStore_next_world (r : Nat) :
    getWeightedNextWord helloStore ⟨2, 1, 3, 0, 0⟩ r = .ok (⟨3, 1, 4, 0, 0⟩, ⟨4, " "⟩) := by
  have key : ∀ which < 1, arcLoop helloStore which 0 [⟨2, 2, 3, 1⟩] =
      .ok (⟨3, 1, 4, 0, 0⟩, ⟨4, " "⟩) := by decide
  exact key (r % 1) (Nat.mod_lt _ (by decide))

/-- Every run of `babbleSeed(alice, ["hello"])` on the scenario store that
returns says `hello world`. -/
theorem helloStore_outcomes (rnd : Nat → Nat) (fuel : Nat) :
    babbleSeed helloStore "alice" ["hello"] rnd fuel = none ∨
      babbleSeed helloStore "alice" ["hello"] rnd fuel = some ("hello world", none) := by
  have h0 : babbleSeed helloStore "alice" ["hello"] rnd fuel =
      babbleLoop helloStore rnd fuel 0 ⟨1, 1, 2, 1, 2⟩ ["hello"] := rfl
  rw [h0]
  cases fuel with
  | zero => exact Or.inl rfl
  | succ fuel =>
    unfold babbleLoop
    rw [helloStore_next_hello]
    simp only
    rw [if_neg (by decide)]
    cases fuel with
    | zero => exact Or.inl rfl
    | succ fuel =>
      right
      unfold babbleLoop
      rw [helloStore_next_world]
      simp only
      rw [if_pos trivial]
      decide

/-! ### Generation -/

theorem followCount_pos {us : List String} {u v : String} (h : 0 < followCount us u v) :
    ∃ phrase ∈ us, (u, v) ∈ transitions phrase := by
  unfold followCount at h
  induction us with
  | nil => simp at h
  | cons p us ih =>
    rw [List.map_cons, List.sum_cons] at h
    by_cases hp : 0 < (transitions p).count (u, v)
    · exact ⟨p, List.mem_cons_self _ _, List.count_pos_iff.1 hp⟩
    · obtain ⟨q, hq, hmem⟩ := ih (by omega)
      exact ⟨q, List.mem_cons_of_mem _ hq, hmem⟩

theorem startCount_pos {us : List String} {w : String} (h : 0 < startCount us w) :
    ∃ phrase ∈ us, (tokens phrase).head? = some w := by
  unfold startCount at h
  obtain ⟨p, hp⟩ := List.exists_mem_of_length_pos h
  rw [List.mem_filter] at hp
  exact ⟨p, hp.1, by simpa using hp.2⟩

theorem getNodeById_ok {db : DB} {id : Nat} {n : BabblerNode} (h : getNodeById db id = .ok n) :
    n ∈ db.babblerNodes ∧ n.NodeId = id := by
  unfold getNodeById at h
  split at h
  · rename_i n' hn
    cases h
    exact ⟨List.mem_of_find?_eq_some hn, by simpa using List.find?_some hn⟩
  · cases h

theorem getWordById_ok {db : DB} {id : Nat} {w : BabblerWord} (h : getWordById db id = .ok w) :
    w ∈ db.babblerWords ∧ w.WordId = id := by
  unfold getWordById at h
  split at h
  · rename_i w' hw
    cases h
    exact ⟨List.mem_of_find?_eq_some hw, by simpa using List.find?_some hw⟩
  · cases h

theorem arcLoop_ok {db : DB} {which : Nat} {node : BabblerNode} {w : BabblerWord} :
    ∀ (arcs : List BabblerArc) (total : Nat), arcLoop db which total arcs = .ok (node, w) →
      ∃ a ∈ arcs, getNodeById db a.ToNodeId = .ok node ∧ getWordById db node.WordId = .ok w := by
  intro arcs
  induction arcs with
  | nil => intro total h; cases h
  | cons a rest ih =>
    intro total h
    unfold arcLoop at h
    split at h
    · cases hn : getNodeById db a.ToNodeId with
      | error e => rw [hn] at h; cases h
      | ok n =>
        rw [hn] at h
        simp only at h
        cases hw : getWordById db n.WordId with
        | error e => rw [hw] at h; cases h
        | ok w' =>
          rw [hw] at h
          simp only [Except.ok.injEq, Prod.mk.injEq] at h
          obtain ⟨rfl, rfl⟩ := h
          exact ⟨a, List.mem_cons_self _ _, hn, hw⟩
    · obtain ⟨a', ha', h'⟩ := ih _ h
      exact ⟨a', List.mem_cons_of_mem _ ha', h'⟩

theorem rootLoop_ok {db : DB} {which : Nat} {node : BabblerNode} {w : BabblerWord} :
    ∀ (nodes : List BabblerNode) (total : Nat), rootLoop db which total nodes = .ok (node, w) →
      node ∈ nodes ∧ getWordById db node.WordId = .ok w := by
  intro nodes
  induction nodes with
  | nil => intro total h; cases h
  | cons n rest ih =>
    intro total h
    unfold rootLoop at h
    split at h
    · cases hw : getWordById db n.WordId with
      | error e => rw [hw] at h; cases h
      | ok w' =>
        rw [hw] at h
        simp only [Except.ok.injEq, Prod.mk.injEq] at h
        obtain ⟨rfl, rfl⟩ := h
        exact ⟨List.mem_cons_self _ _, hw⟩
    · obtain ⟨hmem, h'⟩ := ih _ h
      exact ⟨List.mem_cons_of_mem _ hmem, h'⟩

theorem getWeightedNextWord_ok {db : DB} {fromNode node : BabblerNode} {w : BabblerWord}
    {r : Nat} (h : getWeightedNextWord db fromNode r = .ok (node, w)) :
    ∃ a ∈ db.babblerArcs, a.FromNodeId = fromNode.NodeId ∧ node ∈ db.babblerNodes ∧
      node.NodeId = a.ToNodeId ∧ w ∈ db.babblerWords ∧ w.WordId = node.WordId := by
  unfold getWeightedNextWord at h
  simp only at h
  split at h
  · cases h
  · split at h
    · cases h
    · obtain ⟨a, ha, hn, hw⟩ := arcLoop_ok _ _ h
      rw [List.mem_filter] at ha
      exact ⟨a, ha.1, by simpa using ha.2, (getNodeById_ok hn).1, (getNodeById_ok hn).2,
        (getWordById_ok hw).1, (getWordById_ok hw).2⟩

theorem getWeightedRootNode_ok {db : DB} {s : Babbler} {node : BabblerNode} {w : BabblerWord}
    {r : Nat} (h : getWeightedRootNode db s r = .ok (node, w)) :
    node ∈ db.babblerNodes ∧ node.BabblerId = s.BabblerId ∧ node.Root = 1 ∧
      w ∈ db.babblerWords ∧ w.WordId = node.WordId := by
  unfold getWeightedRootNode at h
  simp only at h
  split at h
  · cases h
  · split at h
    · cases h
    · obtain ⟨hmem, hw⟩ := rootLoop_ok _ _ h
      rw [List.mem_filter] at hmem
      have hk := hmem.2
      simp only [decide_eq_true_eq] at hk
      exact ⟨hmem.1, hk.1, hk.2, (getWordById_ok hw).1, (getWordById_ok hw).2⟩

/-! ### Words and strings -/

theorem fieldsLoop_isToken :
    ∀ (cs cur : List Char), (∀ c ∈ cur, isSpace c = false) →
      ∀ w ∈ fieldsLoop cs cur, isToken w := by
  intro cs
  induction cs with
  | nil =>
    intro cur hcur w hw
    cases cur with
    | nil => simp [fieldsLoop] at hw
    | cons c cur =>
      simp only [fieldsLoop, List.mem_singleton] at hw
      subst hw
      refine ⟨by simp, ?_⟩
      intro x hx
      exact hcur x (by simpa [or_comm] using hx)
  | cons c cs ih =>
    intro cur hcur w hw
    unfold fieldsLoop at hw
    split at hw
    · cases cur with
      | nil => exact ih [] (fun _ h => by cases h) w hw
      | cons d cur =>
        simp only [List.mem_cons] at hw
        rcases hw with rfl | hw
        · refine ⟨by simp, ?_⟩
          intro x hx
          exact hcur x (by simpa [or_comm] using hx)
        · exact ih [] (fun _ h => by cases h) w hw
    · rename_i hsp
      refine ih (c :: cur) ?_ w hw
      intro x hx
      rcases List.mem_cons.1 hx with rfl | hx
      · simpa using hsp
      · exact hcur x hx

theorem tokens_isToken {phrase w : String} (h : w ∈ tokens phrase) : isToken w :=
  fieldsLoop_isToken _ [] (fun _ h => by cases h) w h

theorem terminal_not_token : ¬ isToken " " := by
  intro h
  have := h.2 ' ' (by decide)
  revert this
  decide

theorem terminal_not_mem_tokens (phrase : String) : " " ∉ tokens phrase :=
  fun h => terminal_not_token (tokens_isToken h)

theorem adjacentPairs_append_singleton (l : List String) (x : String) :
    adjacentPairs (l ++ [x]) =
      adjacentPairs l ++ (match l.getLast? with
        | some y => [(y, x)]
        | none => []) := by
  induction l with
  | nil => rfl
  | cons a l ih =>
    cases l with
    | nil => rfl
    | cons b l =>
      have : a :: b :: l ++ [x] = a :: (b :: l ++ [x]) := rfl
      rw [this]
      show adjacentPairs (a :: b :: (l ++ [x])) = _
      rw [adjacentPairs, List.getLast?_cons_cons]
      have ih' : adjacentPairs (b :: (l ++ [x])) = _ := ih
      rw [ih']
      rfl

theorem fst_mem_of_mem_adjacentPairs {l : List String} {p : String × String}
    (h : p ∈ adjacentPairs l) : p.1 ∈ l ∧ p.2 ∈ l := by
  induction l with
  | nil => cases h
  | cons a l ih =>
    cases l with
    | nil => cases h
    | cons b l =>
      rw [adjacentPairs] at h
      rcases List.mem_cons.1 h with rfl | h
      · exact ⟨List.mem_cons_self _ _, List.mem_cons_of_mem _ (List.mem_cons_self _ _)⟩
      · exact ⟨List.mem_cons_of_mem _ (ih h).1, List.mem_cons_of_mem _ (ih h).2⟩

theorem transitions_eq (phrase : String) :
    transitions phrase =
      adjacentPairs (tokens phrase) ++ (match (tokens phrase).getLast? with
        | some y => [(y, " ")]
        | none => []) := by
  unfold transitions
  cases h : tokens phrase with
  | nil => rfl
  | cons w rest =>
    simp only
    exact adjacentPairs_append_singleton (w :: rest) " "

/-- A learned transition `(u, v)`: `u` is a token, and either `v` follows `u`
inside an utterance, or `v` is the terminal marker and `u` ends an utterance. -/
theorem mem_transitions {phrase : String} {p : String × String} (h : p ∈ transitions phrase) :
    p.1 ∈ tokens phrase ∧
      ((p ∈ adjacentPairs (tokens phrase) ∧ p.2 ≠ " ") ∨
        (p.2 = " " ∧ (tokens phrase).getLast? = some p.1)) := by
  rw [transitions_eq] at h
  rcases List.mem_append.1 h with h | h
  · have := fst_mem_of_mem_adjacentPairs h
    refine ⟨this.1, Or.inl ⟨h, ?_⟩⟩
    intro hc
    exact terminal_not_mem_tokens phrase (hc ▸ this.2)
  · cases hl : (tokens phrase).getLast? with
    | none => rw [hl] at h; cases h
    | some y =>
      rw [hl] at h
      simp only [List.mem_singleton] at h
      subst h
      exact ⟨List.mem_of_mem_getLast? hl, Or.inr ⟨rfl, rfl⟩⟩

theorem trim_of_ends {l : List Char} {c z : Char} {rest init : List Char}
    (h1 : l = c :: rest) (hc : isSpace c = false) (h2 : l = init ++ [z])
    (hz : isSpace z = false) :
    ((l.dropWhile isSpace).reverse.dropWhile isSpace).reverse = l := by
  have e1 : l.dropWhile isSpace = l := by
    rw [h1, List.dropWhile_cons, hc]
    simp
  rw [e1]
  have e2 : l.reverse = z :: init.reverse := by
    rw [h2]; simp
  rw [e2, List.dropWhile_cons, hz]
  simp only [Bool.false_eq_true, if_false]
  rw [← e2, List.reverse_reverse]

theorem intercalate_cons_cons (sep a b : List Char) (l : List (List Char)) :
    List.intercalate sep (a :: b :: l) = a ++ sep ++ List.intercalate sep (b :: l) := by
  simp [List.intercalate, List.intersperse_cons₂]

theorem join_ends :
    ∀ ws : List String, ws ≠ [] → (∀ w ∈ ws, isToken w) →
      (∃ c rest, List.intercalate " ".data (ws.map String.data) = c :: rest ∧
        isSpace c = false) ∧
      (∃ init z, List.intercalate " ".data (ws.map String.data) = init ++ [z] ∧
        isSpace z = false) := by
  intro ws
  induction ws with
  | nil => intro h; exact absurd rfl h
  | cons w ws ih =>
    intro _ htok
    obtain ⟨hne, hsp⟩ := htok w (List.mem_cons_self _ _)
    have hhead : ∃ c rest, w.data = c :: rest ∧ isSpace c = false := by
      cases hd : w.data with
      | nil => exact absurd hd hne
      | cons c rest => exact ⟨c, rest, rfl, hsp c (by rw [hd]; exact List.mem_cons_self _ _)⟩
    obtain ⟨c, rest, hd, hc⟩ := hhead
    cases ws with
    | nil =>
      have hL : List.intercalate " ".data ([w].map String.data) = w.data := by
        simp [List.intercalate]
      rw [hL]
      refine ⟨⟨c, rest, hd, hc⟩, ?_⟩
      have hlast : ∃ init z, w.data = init ++ [z] := by
        have := List.getLast?_eq_some_iff.1 (List.getLast?_eq_getLast _ hne)
        obtain ⟨ys, hys⟩ := this
        exact ⟨ys, _, hys⟩
      obtain ⟨init, z, hz⟩ := hlast
      exact ⟨init, z, hz, hsp z (by rw [hz]; simp)⟩
    | cons w' ws =>
      have hL : List.intercalate " ".data ((w :: w' :: ws).map String.data) =
          w.data ++ " ".data ++ List.intercalate " ".data ((w' :: ws).map String.data) := by
        rw [List.map_cons, List.map_cons, intercalate_cons_cons]
      rw [hL]
      obtain ⟨_, init, z, hz, hzs⟩ := ih (by simp)
        (fun x hx => htok x (List.mem_cons_of_mem _ hx))
      refine ⟨⟨c, rest ++ " ".data ++
          List.intercalate " ".data ((w' :: ws).map String.data), ?_, hc⟩,
        ⟨w.data ++ " ".data ++ init, z, ?_, hzs⟩⟩
      · rw [hd]; simp
      · rw [hz]; simp

/-- Trimming does nothing to a non-empty sequence of tokens joined by spaces. -/
theorem TrimSpace_Join {ws : List String} (hne : ws ≠ []) (htok : ∀ w ∈ ws, isToken w) :
    TrimSpace (Join ws " ") = Join ws " " := by
  obtain ⟨⟨c, rest, h1, hc⟩, ⟨init, z, h2, hz⟩⟩ := join_ends ws hne htok
  unfold TrimSpace Join
  simp only
  rw [trim_of_ends h1 hc h2 hz]

/-! ### Generated walks follow learned transitions -/

theorem arcFrequency_pos_of_arc {db : DB} (hwf : WF db) {s : Babbler} {u v : String}
    {n1 n2 : BabblerNode} {a : BabblerArc} (h1 : getBabblerNode db s u = .ok n1)
    (h2 : getBabblerNode db s v = .ok n2) (ha : a ∈ db.babblerArcs)
    (hf : a.FromNodeId = n1.NodeId) (ht : a.ToNodeId = n2.NodeId) :
    0 < arcFrequency db s u v := by
  unfold arcFrequency arcOf
  rw [h1, h2]
  simp only
  cases hg : getBabblerArc db n1 n2 with
  | ok a' => exact hwf.arc_pos a' (getBabblerArc_ok hg).1
  | error e =>
    exfalso
    unfold getBabblerArc at hg
    split at hg
    · cases hg
    · rename_i hnone
      have := List.find?_eq_none.1 hnone a ha
      simp [hf, ht] at this

theorem learned_of_arcFrequency_pos {hist : History} {s : Babbler} {u v : String}
    (h : 0 < arcFrequency (learnAll New hist) s u v) : learnedTransition hist s (u, v) := by
  obtain ⟨_, ha, _⟩ := learnAll_spec hist New WF_New
  rw [ha, arcFrequency_New, Nat.zero_add] at h
  exact followCount_pos h

theorem learned_of_root {hist : History} {s : Babbler} {w : String} {node : BabblerNode}
    (h : getBabblerNode (learnAll New hist) s w = .ok node) (hroot : node.Root = 1) :
    ∃ phrase ∈ utterancesOf hist s, (tokens phrase).head? = some w := by
  obtain ⟨hwf, _, _, hr, _⟩ := learnAll_spec hist New WF_New
  have hmem := (getBabblerNode_ok h).choose_spec.2.1
  have hpos : 0 < node.RootFrequency := by
    rcases hwf.node_root node hmem with ⟨_, hp⟩ | ⟨h0, _⟩
    · exact hp
    · rw [hroot] at h0; cases h0
  have := hr s w
  rw [rootFrequencyOf_New, Nat.zero_add] at this
  apply startCount_pos
  rw [← this]
  unfold rootFrequencyOf
  rw [h]
  exact hpos

/-- One step of the walk: the word drawn after the node of `lastw` makes a
learned transition, and the node drawn is the node of its word. -/
theorem next_word_learned {hist : History} {s : Babbler} {cur node : BabblerNode}
    {lastw : String} {w : BabblerWord} {r : Nat}
    (hcur : getBabblerNode (learnAll New hist) s lastw = .ok cur)
    (h : getWeightedNextWord (learnAll New hist) cur r = .ok (node, w)) :
    getBabblerNode (learnAll New hist) s w.Word = .ok node ∧
      learnedTransition hist s (lastw, w.Word) := by
  obtain ⟨hwf, _⟩ := learnAll_spec hist New WF_New
  obtain ⟨a, ha, hf, hn, hnid, hw, hwid⟩ := getWeightedNextWord_ok h
  obtain ⟨hcm, hcb, _⟩ := (getBabblerNode_ok_iff hwf).1 hcur
  have hsp := hwf.arc_speaker a ha cur hcm node hn hf.symm hnid
  have hnode : getBabblerNode (learnAll New hist) s w.Word = .ok node :=
    (getBabblerNode_ok_iff hwf).2 ⟨hn, hsp.symm.trans hcb, w, hw, rfl, hwid⟩
  exact ⟨hnode, learned_of_arcFrequency_pos
    (arcFrequency_pos_of_arc hwf hcur hnode ha hf hnid.symm)⟩

theorem babbleLoop_sound {hist : History} {s : Babbler} (rnd : Nat → Nat) :
    ∀ (fuel i : Nat) (cur : BabblerNode) (words : List String) (lastw out : String),
      getBabblerNode (learnAll New hist) s lastw = .ok cur →
      words.getLast? = some lastw →
      (∀ p ∈ adjacentPairs words, learnedTransition hist s p) →
      babbleLoop (learnAll New hist) rnd fuel i cur words = some (out, none) →
      ∃ gen l, out = TrimSpace (Join (words ++ gen) " ") ∧
        (∀ p ∈ adjacentPairs (words ++ gen), learnedTransition hist s p) ∧
        (words ++ gen).getLast? = some l ∧ learnedTransition hist s (l, " ") := by
  intro fuel
  induction fuel with
  | zero => intro i cur words lastw out _ _ _ h; cases h
  | succ fuel ih =>
    intro i cur words lastw out hcur hlast hpairs h
    unfold babbleLoop at h
    cases hg : getWeightedNextWord (learnAll New hist) cur (rnd i) with
    | error e => rw [hg] at h; cases h
    | ok res =>
      obtain ⟨node, w⟩ := res
      rw [hg] at h
      simp only at h
      obtain ⟨hnode, hlearn⟩ := next_word_learned hcur hg
      split at h
      · rename_i hterm
        simp only [Option.some.injEq, Prod.mk.injEq, and_true] at h
        refine ⟨[], lastw, ?_, ?_, ?_, ?_⟩
        · rw [List.append_nil]; exact h.symm
        · rw [List.append_nil]; exact hpairs
        · rw [List.append_nil]; exact hlast
        · rw [← hterm]; exact hlearn
      · have hpairs' : ∀ p ∈ adjacentPairs (words ++ [w.Word]), learnedTransition hist s p := by
          intro p hp
          rw [adjacentPairs_append_singleton, hlast] at hp
          rcases List.mem_append.1 hp with hp | hp
          · exact hpairs p hp
          · rw [List.mem_singleton] at hp
            rw [hp]; exact hlearn
        obtain ⟨gen, l, ho, hp, hl, hend⟩ := ih (i + 1) node (words ++ [w.Word]) w.Word out
          hnode (List.getLast?_concat _) hpairs' h
        refine ⟨w.Word :: gen, l, ?_, ?_, ?_, hend⟩
        · rw [ho, List.append_assoc]; rfl
        · rw [← List.singleton_append, ← List.append_assoc]; exact hp
        · rw [← List.singleton_append, ← List.append_assoc]; exact hl

theorem seedLoop_sound {hist : History} {s : Babbler} :
    ∀ (rest : List String) (cur final : BabblerNode) (cw : String),
      getBabblerNode (learnAll New hist) s cw = .ok cur →
      seedLoop (learnAll New hist) s cur rest = .ok final →
      ∃ l, (cw :: rest).getLast? = some l ∧
        getBabblerNode (learnAll New hist) s l = .ok final ∧
        ∀ p ∈ adjacentPairs (cw :: rest), learnedTransition hist s p := by
  intro rest
  induction rest with
  | nil =>
    intro cur final cw hcur h
    unfold seedLoop at h
    cases h
    exact ⟨cw, rfl, hcur, fun p hp => by cases hp⟩
  | cons w rest ih =>
    intro cur final cw hcur h
    unfold seedLoop at h
    cases hn : getBabblerNode (learnAll New hist) s w with
    | error e => rw [hn] at h; cases h
    | ok next =>
      rw [hn] at h
      simp only at h
      cases ha : getBabblerArc (learnAll New hist) cur next with
      | error e => rw [ha] at h; cases h
      | ok a =>
        rw [ha] at h
        simp only at h
        obtain ⟨hwf, _⟩ := learnAll_spec hist New WF_New
        obtain ⟨ham, hf, ht⟩ := getBabblerArc_ok ha
        have hlearn := learned_of_arcFrequency_pos
          (arcFrequency_pos_of_arc hwf hcur hn ham hf ht)
        obtain ⟨l, hl, hfinal, hp⟩ := ih next final w hn h
        refine ⟨l, ?_, hfinal, ?_⟩
        · rw [List.getLast?_cons_cons]; exact hl
        · intro p hp'
          rw [adjacentPairs] at hp'
          rcases List.mem_cons.1 hp' with rfl | hp'
          · exact hlearn
          · exact hp p hp'

theorem mem_adjacentPairs_or_last {ws : List String} {w : String} (h : w ∈ ws) :
    (∃ y, (w, y) ∈ adjacentPairs ws) ∨ ws.getLast? = some w := by
  induction ws with
  | nil => cases h
  | cons a l ih =>
    cases l with
    | nil =>
      rw [List.mem_singleton] at h
      subst h
      exact Or.inr rfl
    | cons b l =>
      rw [adjacentPairs, List.getLast?_cons_cons]
      rcases List.mem_cons.1 h with rfl | h
      · exact Or.inl ⟨b, List.mem_cons_self _ _⟩
      · rcases ih h with ⟨y, hy⟩ | hl
        · exact Or.inl ⟨y, List.mem_cons_of_mem _ hy⟩
        · exact Or.inr hl

/-- A walk whose transitions, the final one to the terminal marker included,
were all learned is made of tokens of learned utterances. -/
theorem walk_conclusion {hist : History} {s : Babbler} {ws : List String} {l : String}
    (hpairs : ∀ p ∈ adjacentPairs ws, learnedTransition hist s p)
    (hlast : ws.getLast? = some l) (hend : learnedTransition hist s (l, " ")) :
    TrimSpace (Join ws " ") = Join ws " " ∧ ws ≠ [] ∧
    (∀ p ∈ adjacentPairs ws, ∃ phrase ∈ utterancesOf hist s, p ∈ adjacentPairs (tokens phrase)) ∧
    (∃ phrase ∈ utterancesOf hist s, (tokens phrase).getLast? = ws.getLast?) := by
  have hne : ws ≠ [] := by
    intro hc; rw [hc] at hlast; cases hlast
  have htok : ∀ w ∈ ws, isToken w := by
    intro w hw
    rcases mem_adjacentPairs_or_last hw with ⟨y, hy⟩ | hl
    · obtain ⟨phrase, _, hp⟩ := hpairs _ hy
      exact tokens_isToken (mem_transitions hp).1
    · rw [hlast] at hl
      injection hl with hl
      subst hl
      obtain ⟨phrase, _, hp⟩ := hend
      exact tokens_isToken (mem_transitions hp).1
  refine ⟨TrimSpace_Join hne htok, hne, ?_, ?_⟩
  · intro p hp
    obtain ⟨phrase, hmem, hin⟩ := hpairs p hp
    refine ⟨phrase, hmem, ?_⟩
    rcases (mem_transitions hin).2 with ⟨h1, _⟩ | ⟨h2, _⟩
    · exact h1
    · exfalso
      have := htok p.2 (fst_mem_of_mem_adjacentPairs hp).2
      rw [h2] at this
      exact terminal_not_token this
  · obtain ⟨phrase, hmem, hin⟩ := hend
    refine ⟨phrase, hmem, ?_⟩
    rcases (mem_transitions hin).2 with ⟨_, h1⟩ | ⟨_, h2⟩
    · exact absurd rfl h1
    · rw [h2, hlast]

/-! ### Merging: the node loop -/

/-- Rewriting node rows in place, keeping their id, speaker and word. -/
theorem WF_map_nodes {db : DB} (hwf : WF db) (f : BabblerNode → BabblerNode)
    (hid : ∀ n, (f n).NodeId = n.NodeId) (hb : ∀ n, (f n).BabblerId = n.BabblerId)
    (hw : ∀ n, (f n).WordId = n.WordId)
    (hr : ∀ n ∈ db.babblerNodes, ((f n).Root = 1 ∧ 0 < (f n).RootFrequency) ∨
      ((f n).Root = 0 ∧ (f n).RootFrequency = 0)) :
    WF { db with babblerNodes := db.babblerNodes.map f } := by
  have hids : (db.babblerNodes.map f).map (·.NodeId) = db.babblerNodes.map (·.NodeId) := by
    rw [List.map_map]
    exact List.map_congr_left (fun n _ => hid n)
  have hkeys : (db.babblerNodes.map f).map (fun n => (n.BabblerId, n.WordId)) =
      db.babblerNodes.map (fun n => (n.BabblerId, n.WordId)) := by
    rw [List.map_map]
    exact List.map_congr_left (fun n _ => by simp only [Function.comp, hb, hw])
  constructor
  · exact hwf.wordIds_nodup
  · exact hwf.wordTexts_nodup
  · show ((db.babblerNodes.map f).map (·.NodeId)).Nodup
    rw [hids]; exact hwf.nodeIds_nodup
  · show ((db.babblerNodes.map f).map fun n => (n.BabblerId, n.WordId)).Nodup
    rw [hkeys]; exact hwf.nodeKeys_nodup
  · intro n hn
    obtain ⟨n0, hn0, rfl⟩ := List.mem_map.1 hn
    rw [hw]
    exact hwf.node_word n0 hn0
  · intro n hn
    obtain ⟨n0, hn0, rfl⟩ := List.mem_map.1 hn
    exact hr n0 hn0
  · exact hwf.arcKeys_nodup
  · intro a ha
    show a.FromNodeId ∈ (db.babblerNodes.map f).map (·.NodeId) ∧
      a.ToNodeId ∈ (db.babblerNodes.map f).map (·.NodeId)
    rw [hids]
    exact hwf.arc_closed a ha
  · exact hwf.arc_pos
  · intro a ha n1 hn1 n2 hn2 h1 h2
    obtain ⟨m1, hm1, rfl⟩ := List.mem_map.1 hn1
    obtain ⟨m2, hm2, rfl⟩ := List.mem_map.1 hn2
    rw [hb, hb]
    exact hwf.arc_speaker a ha m1 hm1 m2 hm2 ((hid m1).symm.trans h1) ((hid m2).symm.trans h2)

/-- The row rewrite of `updateMerged`. -/
theorem updateMerged_eq (nodes : List BabblerNode) (setRoot : Bool) (rf bid wid : Nat) :
    updateMerged nodes setRoot rf bid wid =
      nodes.map (fun n => if n.BabblerId = bid ∧ n.WordId = wid then
        { n with RootFrequency := n.RootFrequency + rf
                 Root := (if setRoot then 1 else n.Root) } else n) := rfl

theorem mergeNode_frame (A : Babbler) (db : DB) (node : BabblerNode) :
    (mergeNode A db node).babblerWords = db.babblerWords ∧
    (mergeNode A db node).babblerArcs = db.babblerArcs ∧
    (mergeNode A db node).babblers = db.babblers := by
  unfold mergeNode
  simp only
  split <;> exact ⟨rfl, rfl, rfl⟩

theorem mergeNode_WF {db : DB} (hwf : WF db) (A : Babbler) (node : BabblerNode)
    (hword : node.WordId ∈ wordIds db)
    (hroot : (node.Root = 1 ∧ 0 < node.RootFrequency) ∨
      (node.Root = 0 ∧ node.RootFrequency = 0)) :
    WF (mergeNode A db node) := by
  have hupd : WF { db with babblerNodes := (updateMerged db.babblerNodes
      (decide (node.Root > 0)) node.RootFrequency A.BabblerId node.WordId) } := by
    rw [updateMerged_eq]
    apply WF_map_nodes hwf
    · intro n; split <;> rfl
    · intro n; split <;> rfl
    · intro n; split <;> rfl
    · intro n hn
      have hn' := hwf.node_root n hn
      split
      · rcases hroot with ⟨h1, h2⟩ | ⟨h1, h2⟩
        · left
          simp only [h1, gt_iff_lt, Nat.lt_one_iff, Nat.one_pos, decide_True, if_true, true_and]
          omega
        · simp only [h1, h2, gt_iff_lt, Nat.lt_irrefl, decide_False, Nat.add_zero]
          exact hn'
      · exact hn'
  unfold mergeNode
  simp only
  split
  · rename_i hzero
    have hnone : ∀ n ∈ db.babblerNodes,
        ¬ (n.BabblerId = A.BabblerId ∧ n.WordId = node.WordId) := by
      rw [List.length_eq_zero, List.filter_eq_nil_iff] at hzero
      intro n hn
      simpa using hzero n hn
    have hnone' : ∀ n ∈ updateMerged db.babblerNodes (decide (node.Root > 0))
        node.RootFrequency A.BabblerId node.WordId,
        ¬ (n.BabblerId = A.BabblerId ∧ n.WordId = node.WordId) := by
      intro n hn
      rw [updateMerged_eq] at hn
      obtain ⟨n0, hn0, rfl⟩ := List.mem_map.1 hn
      rw [if_neg (hnone n0 hn0)]
      exact hnone n0 hn0
    obtain ⟨wd, hwd, hwdid⟩ := List.mem_map.1 hword
    have := WF_add_node hupd
      ⟨lastInsertId ((updateMerged db.babblerNodes (decide (node.Root > 0))
          node.RootFrequency A.BabblerId node.WordId).map (fun n : BabblerNode => n.NodeId)),
        A.BabblerId, node.WordId, node.Root, node.RootFrequency⟩ wd []
      (Or.inl ⟨rfl, hwd⟩) rfl hwdid.symm hroot (by rw [hwdid]; exact hnone')
    simpa using this
  · exact hupd

theorem updateMerged_ids (nodes : List BabblerNode) (setRoot : Bool) (rf bid wid : Nat) :
    (updateMerged nodes setRoot rf bid wid).map (·.NodeId) = nodes.map (·.NodeId) := by
  rw [updateMerged_eq, List.map_map]
  apply List.map_congr_left
  intro n _
  simp only [Function.comp]
  split <;> rfl

theorem find?_updateMerged (nodes : List BabblerNode) (setRoot : Bool) (rf bid wid b x : Nat) :
    (updateMerged nodes setRoot rf bid wid).find? (fun n => n.BabblerId = b ∧ n.WordId = x) =
      (nodes.find? (fun n => n.BabblerId = b ∧ n.WordId = x)).map
        (fun n => if n.BabblerId = bid ∧ n.WordId = wid then
          { n with RootFrequency := n.RootFrequency + rf
                   Root := (if setRoot then 1 else n.Root) } else n) := by
  rw [updateMerged_eq, List.find?_map]
  have hcomp : ((fun n : BabblerNode => decide (n.BabblerId = b ∧ n.WordId = x)) ∘
      fun n : BabblerNode => if n.BabblerId = bid ∧ n.WordId = wid then
        { n with RootFrequency := n.RootFrequency + rf
                 Root := (if setRoot then 1 else n.Root) } else n) =
      fun n : BabblerNode => decide (n.BabblerId = b ∧ n.WordId = x) := by
    funext n
    simp only [Function.comp]
    split <;> rfl
  rw [hcomp]

theorem mergeNode_nodes (A : Babbler) (db : DB) (node : BabblerNode) :
    (mergeNode A db node).babblerNodes =
      updateMerged db.babblerNodes (decide (node.Root > 0)) node.RootFrequency
          A.BabblerId node.WordId ++
        (if findNode db A.BabblerId node.WordId = none then
          [⟨lastInsertId (nodeIds db), A.BabblerId, node.WordId, node.Root,
            node.RootFrequency⟩]
        else []) := by
  unfold mergeNode findNode
  simp only
  have hiff : (db.babblerNodes.filter
      (fun n => decide (n.BabblerId = A.BabblerId ∧ n.WordId = node.WordId))).length = 0 ↔
      db.babblerNodes.find?
        (fun n => decide (n.BabblerId = A.BabblerId ∧ n.WordId = node.WordId)) = none := by
    rw [List.length_eq_zero, List.filter_eq_nil_iff, List.find?_eq_none]
  by_cases h : (db.babblerNodes.filter
      (fun n => decide (n.BabblerId = A.BabblerId ∧ n.WordId = node.WordId))).length = 0
  · rw [if_pos h, if_pos (hiff.1 h), updateMerged_ids]
    rfl
  · rw [if_neg h, if_neg (fun hc => h (hiff.2 hc))]
    simp

/-- The row of the target speaker for a word id after one iteration of the node
loop. -/
theorem findNode_mergeNode (A : Babbler) (db : DB) (node : BabblerNode) (bid x : Nat) :
    findNode (mergeNode A db node) bid x =
      if bid = A.BabblerId ∧ x = node.WordId then
        (match findNode db bid x with
         | some n => some { n with
             RootFrequency := n.RootFrequency + node.RootFrequency
             Root := (if node.Root > 0 then 1 else n.Root) }
         | none => some ⟨lastInsertId (nodeIds db), A.BabblerId, node.WordId, node.Root,
             node.RootFrequency⟩)
      else findNode db bid x := by
  have hnodes := mergeNode_nodes A db node
  unfold findNode at hnodes ⊢
  rw [hnodes, List.find?_append, find?_updateMerged]
  by_cases hk : bid = A.BabblerId ∧ x = node.WordId
  · rw [if_pos hk]
    obtain ⟨rfl, rfl⟩ := hk
    cases hf : db.babblerNodes.find?
        (fun n => decide (n.BabblerId = A.BabblerId ∧ n.WordId = node.WordId)) with
    | none => simp
    | some n =>
      have hkey := List.find?_some hf
      simp only [decide_eq_true_eq] at hkey
      simp [hkey]
  · rw [if_neg hk]
    cases hf : db.babblerNodes.find? (fun n => decide (n.BabblerId = bid ∧ n.WordId = x)) with
    | none =>
      have hk' : ¬ (A.BabblerId = bid ∧ node.WordId = x) := fun h => hk ⟨h.1.symm, h.2.symm⟩
      rw [Option.map_none', Option.none_or]
      split
      · rw [List.find?_cons, List.find?_nil]
        simp [hk']
      · rfl
    | some n =>
      have hkey := List.find?_some hf
      simp only [decide_eq_true_eq] at hkey
      have : ¬ (n.BabblerId = A.BabblerId ∧ n.WordId = node.WordId) := by
        rw [hkey.1, hkey.2]; exact hk
      simp [this]

theorem mergeNode_other_rows (A : Babbler) (db : DB) (node : BabblerNode) {n : BabblerNode}
    (hn : n ∈ db.babblerNodes) (hne : n.BabblerId ≠ A.BabblerId) :
    n ∈ (mergeNode A db node).babblerNodes := by
  rw [mergeNode_nodes]
  apply List.mem_append_left
  rw [updateMerged_eq, List.mem_map]
  exact ⟨n, hn, by rw [if_neg (fun h => hne h.1)]⟩

theorem mergeNode_ids (A : Babbler) (db : DB) (node : BabblerNode) {i : Nat}
    (hi : i ∈ nodeIds db) : i ∈ nodeIds (mergeNode A db node) := by
  unfold nodeIds
  rw [mergeNode_nodes, List.map_append, updateMerged_ids]
  exact List.mem_append_left _ hi

theorem find?_mapSet_hit (k : Nat) (v : BabblerNode) :
    ∀ l : Mapping, l.any (fun e => decide (e.1 = k)) = true →
      (l.map (fun e => if e.1 = k then (k, v) else e)).find? (fun e => decide (e.1 = k)) =
        some (k, v) := by
  intro l
  induction l with
  | nil => intro h; simp at h
  | cons e l ih =>
    intro hany
    rw [List.map_cons, List.find?_cons]
    by_cases he : e.1 = k
    · rw [if_pos he]
      simp
    · rw [if_neg he]
      have hd : decide (e.1 = k) = false := by simpa using he
      rw [hd]
      simp only
      apply ih
      rw [List.any_cons, hd, Bool.false_or] at hany
      exact hany

theorem find?_mapSet_miss {k k' : Nat} (v : BabblerNode) (h : k' ≠ k) :
    ∀ l : Mapping,
      (l.map (fun e => if e.1 = k then (k, v) else e)).find? (fun e => decide (e.1 = k')) =
        l.find? (fun e => decide (e.1 = k')) := by
  intro l
  induction l with
  | nil => rfl
  | cons e l ih =>
    rw [List.map_cons, List.find?_cons, List.find?_cons]
    by_cases he : e.1 = k
    · rw [if_pos he]
      have h1 : decide ((k, v).1 = k') = false := by simpa using fun hc => h hc.symm
      have h2 : decide (e.1 = k') = false := by
        simpa using fun hc => h (hc.symm.trans he)
      rw [h1, h2]
      exact ih
    · rw [if_neg he]
      cases decide (e.1 = k') <;> simp only
      exact ih

theorem mapGet_mapSet_self (mapping : Mapping) (k : Nat) (v : BabblerNode) :
    mapGet (mapSet mapping k v) k = some v := by
  unfold mapGet mapSet
  split
  · rename_i hany
    rw [find?_mapSet_hit k v mapping hany]
    rfl
  · rename_i hany
    rw [List.find?_append]
    have : mapping.find? (fun e => decide (e.1 = k)) = none := by
      rw [List.find?_eq_none]
      intro e he hk
      exact hany (List.any_eq_true.2 ⟨e, he, hk⟩)
    rw [this]
    simp

theorem mapGet_mapSet_other (mapping : Mapping) {k k' : Nat} (v : BabblerNode) (h : k' ≠ k) :
    mapGet (mapSet mapping k v) k' = mapGet mapping k' := by
  unfold mapGet mapSet
  split
  · rw [find?_mapSet_miss v h]
  · rw [List.find?_append]
    cases mapping.find? (fun e => decide (e.1 = k')) with
    | some e => rfl
    | none =>
      have : ¬ k = k' := fun hc => h hc.symm
      simp [this]

theorem redirect_NodeId (intoNode otherNode m : BabblerNode) :
    (redirect intoNode otherNode m).NodeId = m.NodeId := by
  unfold redirect; split <;> rfl

theorem redirect_Root (intoNode otherNode m : BabblerNode) :
    (redirect intoNode otherNode m).Root = m.Root ∧
      (redirect intoNode otherNode m).RootFrequency = m.RootFrequency := by
  unfold redirect; split <;> exact ⟨rfl, rfl⟩

theorem findNode_mergeNode_isSome (A : Babbler) (db : DB) (node : BabblerNode) :
    ∃ upd, findNode (mergeNode A db node) A.BabblerId node.WordId = some upd := by
  rw [findNode_mergeNode, if_pos ⟨rfl, rfl⟩]
  cases findNode db A.BabblerId node.WordId with
  | none => exact ⟨_, rfl⟩
  | some n => exact ⟨_, rfl⟩

/-- One iteration of the node loop. -/
theorem mergeNodeLoop_cons (A : Babbler) (intoNode otherNode : BabblerNode) (db : DB)
    (mapping : Mapping) (m : BabblerNode) (rest : List BabblerNode) :
    ∃ upd, findNode (mergeNode A db (redirect intoNode otherNode m)) A.BabblerId
        (redirect intoNode otherNode m).WordId = some upd ∧
      mergeNodeLoop A intoNode otherNode db mapping (m :: rest) =
        mergeNodeLoop A intoNode otherNode (mergeNode A db (redirect intoNode otherNode m))
          (mapSet mapping m.NodeId upd) rest := by
  obtain ⟨upd, hupd⟩ := findNode_mergeNode_isSome A db (redirect intoNode otherNode m)
  refine ⟨upd, hupd, ?_⟩
  conv => lhs; unfold mergeNodeLoop
  simp only
  rw [hupd, redirect_NodeId]

theorem nodesMerged_refl {db : DB} (hwf : WF db) (a : Babbler) : NodesMerged a db db :=
  ⟨hwf, rfl, rfl, rfl, fun _ h _ => h, fun _ h => h, fun _ n h => ⟨n, h, rfl⟩,
    fun _ _ _ => rfl⟩

theorem nodesMerged_trans {a : Babbler} {db db1 db2 : DB} (h1 : NodesMerged a db db1)
    (h2 : NodesMerged a db1 db2) : NodesMerged a db db2 := by
  obtain ⟨_, hw1, ha1, hb1, hr1, hi1, hs1, ho1⟩ := h1
  obtain ⟨hwf2, hw2, ha2, hb2, hr2, hi2, hs2, ho2⟩ := h2
  refine ⟨hwf2, hw2.trans hw1, ha2.trans ha1, hb2.trans hb1, ?_, ?_, ?_, ?_⟩
  · intro n hn hne
    exact hr2 n (hr1 n hn hne) hne
  · intro i hi
    exact hi2 i (hi1 i hi)
  · intro x n hn
    obtain ⟨n1, hn1, e1⟩ := hs1 x n hn
    obtain ⟨n2, hn2, e2⟩ := hs2 x n1 hn1
    exact ⟨n2, hn2, e2.trans e1⟩
  · intro bid x hne
    rw [ho2 bid x hne, ho1 bid x hne]

theorem mergeNode_merged {db : DB} (hwf : WF db) (a : Babbler) (node : BabblerNode)
    (hword : node.WordId ∈ wordIds db)
    (hroot : (node.Root = 1 ∧ 0 < node.RootFrequency) ∨
      (node.Root = 0 ∧ node.RootFrequency = 0)) :
    NodesMerged a db (mergeNode a db node) := by
  obtain ⟨hw, ha, hb⟩ := mergeNode_frame a db node
  refine ⟨mergeNode_WF hwf a node hword hroot, hw, ha, hb, ?_, ?_, ?_, ?_⟩
  · intro n hn hne
    exact mergeNode_other_rows a db node hn hne
  · intro i hi
    exact mergeNode_ids a db node hi
  · intro x n hn
    rw [findNode_mergeNode]
    split
    · rw [hn]
      exact ⟨_, rfl, rfl⟩
    · exact ⟨n, hn, rfl⟩
  · intro bid x hne
    rw [findNode_mergeNode, if_neg (fun h => hne h.1)]

theorem mergeNodeLoop_merged (a : Babbler) (intoNode otherNode : BabblerNode) :
    ∀ (nodes : List BabblerNode) (db : DB) (mapping : Mapping), WF db →
      intoNode.WordId ∈ wordIds db →
      (∀ m ∈ nodes, m.WordId ∈ wordIds db ∧
        ((m.Root = 1 ∧ 0 < m.RootFrequency) ∨ (m.Root = 0 ∧ m.RootFrequency = 0))) →
      (∃ mapping', (mergeNodeLoop a intoNode otherNode db mapping nodes).2 = .ok mapping') ∧
        NodesMerged a db (mergeNodeLoop a intoNode otherNode db mapping nodes).1 := by
  intro nodes
  induction nodes with
  | nil =>
    intro db mapping hwf _ _
    exact ⟨⟨mapping, rfl⟩, nodesMerged_refl hwf a⟩
  | cons m rest ih =>
    intro db mapping hwf hinto hlist
    obtain ⟨upd, _, heq⟩ := mergeNodeLoop_cons a intoNode otherNode db mapping m rest
    rw [heq]
    obtain ⟨hmw, hmr⟩ := hlist m (List.mem_cons_self _ _)
    have hword : (redirect intoNode otherNode m).WordId ∈ wordIds db := by
      unfold redirect
      split
      · exact hinto
      · exact hmw
    have hroot := redirect_Root intoNode otherNode m
    have hstep := mergeNode_merged hwf a (redirect intoNode otherNode m) hword
      (by rw [hroot.1, hroot.2]; exact hmr)
    have hwids : wordIds (mergeNode a db (redirect intoNode otherNode m)) = wordIds db := by
      unfold wordIds; rw [hstep.2.1]
    obtain ⟨hok, hrest⟩ := ih (mergeNode a db (redirect intoNode otherNode m))
      (mapSet mapping m.NodeId upd) hstep.1 (by rw [hwids]; exact hinto)
      (fun x hx => by rw [hwids]; exact hlist x (List.mem_cons_of_mem _ hx))
    exact ⟨hok, nodesMerged_trans hstep hrest⟩

/-- A word id that no merged node has keeps its row of the target speaker. -/
theorem mergeNodeLoop_miss (a : Babbler) (intoNode otherNode : BabblerNode) (x : Nat) :
    ∀ (nodes : List BabblerNode) (db : DB) (mapping : Mapping),
      (∀ m ∈ nodes, (redirect intoNode otherNode m).WordId ≠ x) →
      findNode (mergeNodeLoop a intoNode otherNode db mapping nodes).1 a.BabblerId x =
        findNode db a.BabblerId x := by
  intro nodes
  induction nodes with
  | nil => intro db mapping _; rfl
  | cons m rest ih =>
    intro db mapping hmiss
    obtain ⟨upd, _, heq⟩ := mergeNodeLoop_cons a intoNode otherNode db mapping m rest
    rw [heq, ih _ _ (fun y hy => hmiss y (List.mem_cons_of_mem _ hy)), findNode_mergeNode,
      if_neg (fun h => hmiss m (List.mem_cons_self _ _) h.2.symm)]

/-- A word id that exactly one merged node `m0` has, when the target speaker
has a row for it: the row receives the root count and flag of `m0`. -/
theorem mergeNodeLoop_hit_some (a : Babbler) (intoNode otherNode : BabblerNode) (x : Nat)
    (m0 : BabblerNode) :
    ∀ (nodes : List BabblerNode) (db : DB) (mapping : Mapping) (n : BabblerNode),
      nodes.filter (fun m => (redirect intoNode otherNode m).WordId = x) = [m0] →
      findNode db a.BabblerId x = some n →
      findNode (mergeNodeLoop a intoNode otherNode db mapping nodes).1 a.BabblerId x =
        some { n with
          RootFrequency := n.RootFrequency + m0.RootFrequency
          Root := (if m0.Root > 0 then 1 else n.Root) } := by
  intro nodes
  induction nodes with
  | nil => intro db mapping n h; cases h
  | cons m rest ih =>
    intro db mapping n hfilter hfind
    obtain ⟨upd, _, heq⟩ := mergeNodeLoop_cons a intoNode otherNode db mapping m rest
    rw [heq]
    rw [List.filter_cons] at hfilter
    by_cases hm : (redirect intoNode otherNode m).WordId = x
    · rw [if_pos (by simpa using hm)] at hfilter
      injection hfilter with h1 h2
      subst h1
      have hmiss : ∀ y ∈ rest, (redirect intoNode otherNode y).WordId ≠ x := by
        intro y hy hc
        have : y ∈ rest.filter (fun m => decide ((redirect intoNode otherNode m).WordId = x)) :=
          List.mem_filter.2 ⟨hy, by simpa using hc⟩
        rw [h2] at this
        cases this
      have hroot := redirect_Root intoNode otherNode m
      rw [mergeNodeLoop_miss a intoNode otherNode x rest _ _ hmiss, findNode_mergeNode,
        if_pos ⟨rfl, hm.symm⟩, hfind, hroot.1, hroot.2]
    · rw [if_neg (by simpa using hm)] at hfilter
      apply ih _ _ n hfilter
      rw [findNode_mergeNode, if_neg (fun h => hm h.2.symm)]
      exact hfind

/-- A word id that exactly one merged node `m0` has, when the target speaker
has no row for it: one new row is created with the root count and flag of
`m0`. -/
theorem mergeNodeLoop_hit_none (a : Babbler) (intoNode otherNode : BabblerNode) (x : Nat)
    (m0 : BabblerNode) :
    ∀ (nodes : List BabblerNode) (db : DB) (mapping : Mapping),
      nodes.filter (fun m => (redirect intoNode otherNode m).WordId = x) = [m0] →
      findNode db a.BabblerId x = none →
      ∃ id, id ∉ nodeIds db ∧
        findNode (mergeNodeLoop a intoNode otherNode db mapping nodes).1 a.BabblerId x =
          some ⟨id, a.BabblerId, x, m0.Root, m0.RootFrequency⟩ := by
  intro nodes
  induction nodes with
  | nil => intro db mapping h; cases h
  | cons m rest ih =>
    intro db mapping hfilter hfind
    obtain ⟨upd, _, heq⟩ := mergeNodeLoop_cons a intoNode otherNode db mapping m rest
    rw [heq]
    rw [List.filter_cons] at hfilter
    by_cases hm : (redirect intoNode otherNode m).WordId = x
    · rw [if_pos (by simpa using hm)] at hfilter
      injection hfilter with h1 h2
      subst h1
      have hmiss : ∀ y ∈ rest, (redirect intoNode otherNode y).WordId ≠ x := by
        intro y hy hc
        have : y ∈ rest.filter (fun m => decide ((redirect intoNode otherNode m).WordId = x)) :=
          List.mem_filter.2 ⟨hy, by simpa using hc⟩
        rw [h2] at this
        cases this
      have hroot := redirect_Root intoNode otherNode m
      refine ⟨lastInsertId (nodeIds db), lastInsertId_not_mem _, ?_⟩
      rw [mergeNodeLoop_miss a intoNode otherNode x rest _ _ hmiss, findNode_mergeNode,
        if_pos ⟨rfl, hm.symm⟩, hfind, hroot.1, hroot.2, hm]
    · rw [if_neg (by simpa using hm)] at hfilter
      obtain ⟨id, hid, hres⟩ := ih (mergeNode a db (redirect intoNode otherNode m))
        (mapSet mapping m.NodeId upd) hfilter (by
          rw [findNode_mergeNode, if_neg (fun h => hm h.2.symm)]
          exact hfind)
      exact ⟨id, fun hc => hid (mergeNode_ids a db _ hc), hres⟩

theorem mergeNodeLoop_stable (a : Babbler) (intoNode otherNode : BabblerNode) (x : Nat) :
    ∀ (nodes : List BabblerNode) (db : DB) (mapping : Mapping) (n : BabblerNode),
      findNode db a.BabblerId x = some n →
      ∃ n', findNode (mergeNodeLoop a intoNode otherNode db mapping nodes).1 a.BabblerId x =
          some n' ∧ n'.NodeId = n.NodeId := by
  intro nodes
  induction nodes with
  | nil => intro db mapping n h; exact ⟨n, h, rfl⟩
  | cons m rest ih =>
    intro db mapping n hfind
    obtain ⟨upd, _, heq⟩ := mergeNodeLoop_cons a intoNode otherNode db mapping m rest
    rw [heq]
    have hstep : ∃ n1, findNode (mergeNode a db (redirect intoNode otherNode m)) a.BabblerId x =
        some n1 ∧ n1.NodeId = n.NodeId := by
      rw [findNode_mergeNode]
      split
      · rw [hfind]; exact ⟨_, rfl, rfl⟩
      · exact ⟨n, hfind, rfl⟩
    obtain ⟨n1, hn1, e1⟩ := hstep
    obtain ⟨n2, hn2, e2⟩ := ih _ (mapSet mapping m.NodeId upd) n1 hn1
    exact ⟨n2, hn2, e2.trans e1⟩

/-- The mapping built by the node loop: every merged node is mapped to the row
of the target speaker for its (redirected) word, and no other key is set. -/
theorem mergeNodeLoop_mapping (a : Babbler) (intoNode otherNode : BabblerNode) :
    ∀ (nodes : List BabblerNode) (db : DB) (mapping mapping' : Mapping),
      (nodes.map (·.NodeId)).Nodup →
      (mergeNodeLoop a intoNode otherNode db mapping nodes).2 = .ok mapping' →
      (∀ k, k ∉ nodes.map (·.NodeId) → mapGet mapping' k = mapGet mapping k) ∧
      (∀ m ∈ nodes, ∃ v v', mapGet mapping' m.NodeId = some v ∧
        findNode (mergeNodeLoop a intoNode otherNode db mapping nodes).1 a.BabblerId
          (redirect intoNode otherNode m).WordId = some v' ∧ v'.NodeId = v.NodeId) := by
  intro nodes
  induction nodes with
  | nil =>
    intro db mapping mapping' _ h
    simp only [mergeNodeLoop, Except.ok.injEq] at h
    subst h
    exact ⟨fun _ _ => rfl, fun m hm => by cases hm⟩
  | cons m rest ih =>
    intro db mapping mapping' hnd h
    obtain ⟨upd, hupd, heq⟩ := mergeNodeLoop_cons a intoNode otherNode db mapping m rest
    rw [heq] at h ⊢
    rw [List.map_cons, List.nodup_cons] at hnd
    obtain ⟨hkeep, hmap⟩ := ih (mergeNode a db (redirect intoNode otherNode m))
      (mapSet mapping m.NodeId upd) mapping' hnd.2 h
    constructor
    · intro k hk
      rw [List.map_cons, List.mem_cons, not_or] at hk
      rw [hkeep k hk.2, mapGet_mapSet_other _ _ hk.1]
    · intro m' hm'
      rcases List.mem_cons.1 hm' with rfl | hm'
      · obtain ⟨n', hn', e⟩ := mergeNodeLoop_stable a intoNode otherNode _ rest _
          (mapSet mapping m'.NodeId upd) upd hupd
        exact ⟨upd, n', by rw [hkeep _ hnd.1, mapGet_mapSet_self], hn', e⟩
      · exact hmap m' hm'

theorem findNode_some {db : DB} {bid x : Nat} {n : BabblerNode}
    (h : findNode db bid x = some n) :
    n ∈ db.babblerNodes ∧ n.BabblerId = bid ∧ n.WordId = x := by
  unfold findNode at h
  have hk := List.find?_some h
  simp only [decide_eq_true_eq] at hk
  exact ⟨List.mem_of_find?_eq_some h, hk.1, hk.2⟩

theorem getBabblerNode_eq_findNode {db : DB} {s : Babbler} {word : String} {w : BabblerWord}
    (hw : getWord db word = .ok w) :
    getBabblerNode db s word =
      (match findNode db s.BabblerId w.WordId with
       | some node => .ok node
       | none => .error .NEVER_SAID) := by
  unfold getBabblerNode findNode
  rw [hw]

theorem getOrCreateBabblerNode_word {db : DB} (hwf : WF db) (b : Babbler) (word : String)
    (db' : DB) (nd : BabblerNode) (h : getOrCreateBabblerNode db b word = (db', nd)) :
    ∃ w, getWord db' word = .ok w ∧ w.WordId = nd.WordId := by
  obtain ⟨hwf', _, _, _, nd', hnd', hid, _, _⟩ :=
    getOrCreateBabblerNode_spec hwf b word db' nd h
  obtain ⟨w, hw, hmem, _, hwid, _⟩ := getBabblerNode_ok hnd'
  refine ⟨w, hw, ?_⟩
  rcases getOrCreateBabblerNode_eq hwf b word with ⟨n, hn, heq⟩ | ⟨_, w0, ws, hws, hword, _, heq⟩
  · rw [heq] at h
    injection h with h1 h2
    subst h1 h2
    rw [hn] at hnd'
    injection hnd' with e
    rw [← hwid, e]
  · rw [heq] at h
    injection h with h1 h2
    subst h1 h2
    have hw0 : w0 ∈ db.babblerWords ++ ws := by
      rcases hws with ⟨_, hm⟩ | ⟨rfl, _, _⟩
      · exact List.mem_append_left _ hm
      · simp
    have hwm := (getWord_ok hw)
    have : w = w0 := List.inj_on_of_nodup_map hwf'.wordTexts_nodup hwm.1 hw0
      (hwm.2.trans hword.symm)
    rw [this]

/-! ### Merging: the replay of the arcs -/

theorem replayed_refl {db : DB} (hwf : WF db) (a : Babbler) : Replayed a db db :=
  ⟨hwf, rfl, rfl, rfl, fun _ _ => rfl, fun _ _ => Nat.le_refl _⟩

theorem replayed_trans {a : Babbler} {db db1 db2 : DB} (h1 : Replayed a db db1)
    (h2 : Replayed a db1 db2) : Replayed a db db2 := by
  obtain ⟨_, hn1, hw1, hb1, hf1, hm1⟩ := h1
  obtain ⟨hwf2, hn2, hw2, hb2, hf2, hm2⟩ := h2
  refine ⟨hwf2, hn2.trans hn1, hw2.trans hw1, hb2.trans hb1, ?_, ?_⟩
  · intro k hk
    rw [hf2 k (by unfold ForeignId; rw [hn1]; exact hk), hf1 k hk]
  · intro i j
    exact Nat.le_trans (hm1 i j) (hm2 i j)

theorem filter_from_updateArcFrequency (arcs : List BabblerArc) {f k : Nat} (t : Nat)
    (h : k ≠ f) :
    (updateArcFrequency arcs f t).filter (fun x => x.FromNodeId = k) =
      arcs.filter (fun x => x.FromNodeId = k) := by
  unfold updateArcFrequency
  induction arcs with
  | nil => rfl
  | cons x l ih =>
    rw [List.map_cons]
    by_cases hx : x.FromNodeId = f ∧ x.ToNodeId = t
    · have hk : ¬ x.FromNodeId = k := fun hc => h (hc.symm.trans hx.1)
      rw [if_pos hx, List.filter_cons, List.filter_cons]
      simp only [hk, decide_False, Bool.false_eq_true, if_false]
      exact ih
    · rw [if_neg hx, List.filter_cons, List.filter_cons, ih]

theorem incrementWordArc_filter_from (db : DB) (n1 n2 : BabblerNode) {k : Nat}
    (h : k ≠ n1.NodeId) :
    (incrementWordArc db n1 n2).1.babblerArcs.filter (fun x => x.FromNodeId = k) =
      db.babblerArcs.filter (fun x => x.FromNodeId = k) := by
  rw [incrementWordArc_arcs, List.filter_append, filter_from_updateArcFrequency _ _ h]
  split
  · have : ¬ n1.NodeId = k := fun hc => h hc.symm
    simp [this]
  · simp

theorem incrementWordArc_replayed {db : DB} (hwf : WF db) (a : Babbler) (n1 n2 : BabblerNode)
    (h1 : OwnId a db n1.NodeId) (h2 : OwnId a db n2.NodeId) :
    Replayed a db (incrementWordArc db n1 n2).1 := by
  obtain ⟨hw, hn, hb⟩ := incrementWordArc_frame db n1 n2
  obtain ⟨r1, hr1, hr1id, hr1b⟩ := h1
  obtain ⟨r2, hr2, hr2id, hr2b⟩ := h2
  refine ⟨?_, hn, hw, hb, ?_, ?_⟩
  · apply incrementWordArc_WF hwf n1 n2
    · rw [← hr1id]; exact List.mem_map_of_mem _ hr1
    · rw [← hr2id]; exact List.mem_map_of_mem _ hr2
    · intro m1 hm1 m2 hm2 e1 e2
      have a1 : m1 = r1 := List.inj_on_of_nodup_map hwf.nodeIds_nodup hm1 hr1 (e1.trans hr1id.symm)
      have a2 : m2 = r2 := List.inj_on_of_nodup_map hwf.nodeIds_nodup hm2 hr2 (e2.trans hr2id.symm)
      rw [a1, a2, hr1b, hr2b]
  · intro k hk
    apply incrementWordArc_filter_from
    intro hc
    exact hk r1 hr1 (hr1id.trans hc.symm) hr1b
  · intro i j
    rw [incrementWordArc_idArcFrequency]
    omega

/-- The replay of the arcs of one merged node: no target is missing, and every
replayed arc is counted on the arc between the mapped nodes. -/
theorem replayArcs_spec (a : Babbler) (mapping : Mapping) (newNode : BabblerNode) :
    ∀ (arcs : List BabblerArc) (db : DB), WF db → OwnId a db newNode.NodeId →
      (∀ k v, mapGet mapping k = some v → OwnId a db v.NodeId) →
      (∀ x ∈ arcs, ∃ v, mapGet mapping x.ToNodeId = some v) →
      (replayArcs mapping newNode db arcs).2 = none ∧
      Replayed a db (replayArcs mapping newNode db arcs).1 ∧
      (∀ x ∈ arcs, ∀ v, mapGet mapping x.ToNodeId = some v →
        1 ≤ idArcFrequency (replayArcs mapping newNode db arcs).1 newNode.NodeId v.NodeId) := by
  intro arcs
  induction arcs with
  | nil =>
    intro db hwf _ _ _
    exact ⟨rfl, replayed_refl hwf a, fun x hx => by cases hx⟩
  | cons x rest ih =>
    intro db hwf hown hvals htargets
    obtain ⟨v, hv⟩ := htargets x (List.mem_cons_self _ _)
    obtain ⟨arc, harc⟩ := incrementWordArc_ok db newNode v
    have heq : replayArcs mapping newNode db (x :: rest) =
        replayArcs mapping newNode (incrementWordArc db newNode v).1 rest := by
      conv => lhs; unfold replayArcs
      rw [hv]
      simp only
      cases hi : incrementWordArc db newNode v with
      | mk db1 r =>
        rw [hi] at harc
        simp only at harc
        subst harc
        rfl
    rw [heq]
    have hstep := incrementWordArc_replayed hwf a newNode v hown (hvals _ _ hv)
    have hown' : ∀ k, OwnId a db k → OwnId a (incrementWordArc db newNode v).1 k := by
      intro k hk
      unfold OwnId
      rw [hstep.2.1]
      exact hk
    obtain ⟨hnone, hrep, hhit⟩ := ih (incrementWordArc db newNode v).1 hstep.1
      (hown' _ hown) (fun k w hw => hown' _ (hvals k w hw))
      (fun y hy => htargets y (List.mem_cons_of_mem _ hy))
    refine ⟨hnone, replayed_trans hstep hrep, ?_⟩
    intro y hy w hw
    rcases List.mem_cons.1 hy with rfl | hy
    · rw [hv] at hw
      injection hw with hw
      subst hw
      have h1 := incrementWordArc_idArcFrequency db newNode v newNode.NodeId v.NodeId
      rw [if_pos ⟨rfl, rfl⟩] at h1
      have h2 := hrep.2.2.2.2.2 newNode.NodeId v.NodeId
      omega
    · exact hhit y hy w hw

theorem replayLoop_spec (a : Babbler) (mapping : Mapping) :
    ∀ (entries : List (Nat × BabblerNode)) (db : DB), WF db →
      (∀ k v, mapGet mapping k = some v → OwnId a db v.NodeId) →
      (∀ e ∈ entries, OwnId a db e.2.NodeId ∧ ForeignId a db e.1) →
      (∀ e ∈ entries, ∀ x ∈ db.babblerArcs, x.FromNodeId = e.1 →
        ∃ v, mapGet mapping x.ToNodeId = some v) →
      (replayLoop mapping db entries).2 = none ∧
      Replayed a db (replayLoop mapping db entries).1 ∧
      (∀ e ∈ entries, ∀ x ∈ db.babblerArcs, x.FromNodeId = e.1 →
        ∀ v, mapGet mapping x.ToNodeId = some v →
          1 ≤ idArcFrequency (replayLoop mapping db entries).1 e.2.NodeId v.NodeId) := by
  intro entries
  induction entries with
  | nil =>
    intro db hwf _ _ _
    exact ⟨rfl, replayed_refl hwf a, fun e he => by cases he⟩
  | cons e rest ih =>
    intro db hwf hvals hentries hclosed
    obtain ⟨k, newNode⟩ := e
    obtain ⟨hown, hforeign⟩ := hentries (k, newNode) (List.mem_cons_self _ _)
    have htargets : ∀ x ∈ db.babblerArcs.filter (fun x => x.FromNodeId = k),
        ∃ v, mapGet mapping x.ToNodeId = some v := by
      intro x hx
      rw [List.mem_filter] at hx
      exact hclosed (k, newNode) (List.mem_cons_self _ _) x hx.1 (by simpa using hx.2)
    obtain ⟨hnone, hrep, hhit⟩ := replayArcs_spec a mapping newNode
      (db.babblerArcs.filter (fun x => x.FromNodeId = k)) db hwf hown hvals htargets
    have heq : replayLoop mapping db ((k, newNode) :: rest) =
        replayLoop mapping (replayArcs mapping newNode db
          (db.babblerArcs.filter (fun x => x.FromNodeId = k))).1 rest := by
      conv => lhs; unfold replayLoop
      cases hr : replayArcs mapping newNode db
          (db.babblerArcs.filter (fun x => x.FromNodeId = k)) with
      | mk db1 err =>
        rw [hr] at hnone
        simp only at hnone
        subst hnone
        rfl
    rw [heq]
    have hown' : ∀ i, OwnId a db i → OwnId a (replayArcs mapping newNode db
        (db.babblerArcs.filter (fun x => x.FromNodeId = k))).1 i := by
      intro i hi
      unfold OwnId
      rw [hrep.2.1]
      exact hi
    have hforeign' : ∀ i, ForeignId a db i → ForeignId a (replayArcs mapping newNode db
        (db.babblerArcs.filter (fun x => x.FromNodeId = k))).1 i := by
      intro i hi
      unfold ForeignId
      rw [hrep.2.1]
      exact hi
    have hback : ∀ e' ∈ rest, ∀ x, x.FromNodeId = e'.1 →
        (x ∈ (replayArcs mapping newNode db
          (db.babblerArcs.filter (fun x => x.FromNodeId = k))).1.babblerArcs ↔
          x ∈ db.babblerArcs) := by
      intro e' he' x hx
      have hf := hrep.2.2.2.2.1 e'.1 (hentries e' (List.mem_cons_of_mem _ he')).2
      have h1 : x ∈ (replayArcs mapping newNode db
          (db.babblerArcs.filter (fun x => x.FromNodeId = k))).1.babblerArcs.filter
            (fun x => x.FromNodeId = e'.1) ↔
          x ∈ db.babblerArcs.filter (fun x => x.FromNodeId = e'.1) := by rw [hf]
      simp only [List.mem_filter, decide_eq_true_eq, hx, and_true] at h1
      exact h1
    obtain ⟨hnone2, hrep2, hhit2⟩ := ih _ hrep.1
      (fun i v hv => hown' _ (hvals i v hv))
      (fun e' he' => ⟨hown' _ (hentries e' (List.mem_cons_of_mem _ he')).1,
        hforeign' _ (hentries e' (List.mem_cons_of_mem _ he')).2⟩)
      (fun e' he' x hx hfrom => hclosed e' (List.mem_cons_of_mem _ he') x
        ((hback e' he' x hfrom).1 hx) hfrom)
    refine ⟨hnone2, replayed_trans hrep hrep2, ?_⟩
    intro e' he' x hx hfrom v hv
    rcases List.mem_cons.1 he' with rfl | he'
    · have h1 := hhit x (List.mem_filter.2 ⟨hx, by simpa using hfrom⟩) v hv
      have h2 := hrep2.2.2.2.2.2 newNode.NodeId v.NodeId
      exact Nat.le_trans h1 h2
    · exact hhit2 e' he' x ((hback e' he' x hfrom).2 hx) hfrom v hv

theorem mem_of_mapGet {mapping : Mapping} {k : Nat} {v : BabblerNode}
    (h : mapGet mapping k = some v) : (k, v) ∈ mapping := by
  unfold mapGet at h
  cases hf : mapping.find? (fun e => decide (e.1 = k)) with
  | none => rw [hf] at h; cases h
  | some e =>
    rw [hf] at h
    simp only [Option.map_some', Option.some.injEq] at h
    have hk := List.find?_some hf
    simp only [decide_eq_true_eq] at hk
    have hm := List.mem_of_find?_eq_some hf
    rw [← hk, ← h]
    exact hm

theorem mapGet_of_mem {mapping : Mapping} (hnd : (mapping.map (·.1)).Nodup) {k : Nat}
    {v : BabblerNode} (h : (k, v) ∈ mapping) : mapGet mapping k = some v := by
  unfold mapGet
  rw [find?_eq_some_of_unique h (by simp)]
  · rfl
  · intro y hy hk
    simp only [decide_eq_true_eq] at hk
    exact List.inj_on_of_nodup_map hnd hy h hk

theorem mapSet_keys_nodup {mapping : Mapping} (hnd : (mapping.map (·.1)).Nodup) (k : Nat)
    (v : BabblerNode) : ((mapSet mapping k v).map (·.1)).Nodup := by
  unfold mapSet
  split
  · have : (mapping.map (fun e => if e.1 = k then (k, v) else e)).map (·.1) =
        mapping.map (·.1) := by
      rw [List.map_map]
      apply List.map_congr_left
      intro e _
      simp only [Function.comp]
      split
      · rename_i he; exact he.symm
      · rfl
    rw [this]
    exact hnd
  · rename_i hany
    rw [List.map_append]
    refine nodup_append_singleton hnd ?_
    intro hmem
    obtain ⟨e, he, hek⟩ := List.mem_map.1 hmem
    exact hany (List.any_eq_true.2 ⟨e, he, by simpa using hek⟩)

theorem mergeNodeLoop_keys_nodup (a : Babbler) (intoNode otherNode : BabblerNode) :
    ∀ (nodes : List BabblerNode) (db : DB) (mapping mapping' : Mapping),
      (mapping.map (·.1)).Nodup →
      (mergeNodeLoop a intoNode otherNode db mapping nodes).2 = .ok mapping' →
      (mapping'.map (·.1)).Nodup := by
  intro nodes
  induction nodes with
  | nil =>
    intro db mapping mapping' hnd h
    simp only [mergeNodeLoop, Except.ok.injEq] at h
    subst h
    exact hnd
  | cons m rest ih =>
    intro db mapping mapping' hnd h
    obtain ⟨upd, _, heq⟩ := mergeNodeLoop_cons a intoNode otherNode db mapping m rest
    rw [heq] at h
    exact ih _ _ mapping' (mapSet_keys_nodup hnd _ _) h

/-! ### Merging: the whole function -/

theorem getOrCreateBabblerNode_mono {db : DB} (hwf : WF db) (b : Babbler) (word : String)
    (db' : DB) (nd : BabblerNode) (h : getOrCreateBabblerNode db b word = (db', nd)) :
    (∀ w ∈ db.babblerWords, w ∈ db'.babblerWords) ∧
    (∀ n ∈ db.babblerNodes, n ∈ db'.babblerNodes) ∧
    (∀ (s : Babbler) (w : String) (n : BabblerNode), getBabblerNode db s w = .ok n →
      getBabblerNode db' s w = .ok n) := by
  obtain ⟨hwf', _, _, _, _⟩ := getOrCreateBabblerNode_spec hwf b word db' nd h
  have hrows : (∀ w ∈ db.babblerWords, w ∈ db'.babblerWords) ∧
      (∀ n ∈ db.babblerNodes, n ∈ db'.babblerNodes) := by
    rcases getOrCreateBabblerNode_eq hwf b word with ⟨n, _, heq⟩ | ⟨_, w0, ws, _, _, _, heq⟩
    · rw [heq] at h
      injection h with h1 h2
      subst h1
      exact ⟨fun _ hw => hw, fun _ hn => hn⟩
    · rw [heq] at h
      injection h with h1 h2
      subst h1
      exact ⟨fun _ hw => List.mem_append_left _ hw, fun _ hn => List.mem_append_left _ hn⟩
  refine ⟨hrows.1, hrows.2, ?_⟩
  intro s w n hn
  obtain ⟨h1, h2, x, hx, h3, h4⟩ := (getBabblerNode_ok_iff hwf).1 hn
  exact (getBabblerNode_ok_iff hwf').2 ⟨hrows.2 n h1, h2, x, hrows.1 x hx, h3, h4⟩

theorem getWord_ok_iff {db : DB} (hwf : WF db) {word : String} {w : BabblerWord} :
    getWord db word = .ok w ↔ w ∈ db.babblerWords ∧ w.Word = word := by
  constructor
  · exact getWord_ok
  · rintro ⟨hw, hword⟩
    unfold getWord
    rw [find?_eq_some_of_unique hw (by simpa using hword)]
    intro y hy hpy
    exact List.inj_on_of_nodup_map hwf.wordTexts_nodup hy hw
      (by simp only [decide_eq_true_eq] at hpy; rw [hpy, hword])

theorem filter_eq_singleton {α : Type} {p : α → Bool} {m : α} :
    ∀ l : List α, l.Nodup → m ∈ l → p m = true → (∀ y ∈ l, p y = true → y = m) →
      l.filter p = [m] := by
  intro l
  induction l with
  | nil => intro _ h; cases h
  | cons a l ih =>
    intro hnd hm hpm huniq
    rw [List.nodup_cons] at hnd
    rw [List.filter_cons]
    by_cases hpa : p a = true
    · have ham : a = m := huniq a (List.mem_cons_self _ _) hpa
      subst ham
      rw [if_pos hpa]
      congr 1
      rw [List.filter_eq_nil_iff]
      intro y hy hpy
      have := huniq y (List.mem_cons_of_mem _ hy) hpy
      exact hnd.1 (this ▸ hy)
    · rw [if_neg hpa]
      have hml : m ∈ l := by
        rcases List.mem_cons.1 hm with h | h
        · exact absurd (h ▸ hpm) hpa
        · exact h
      exact ih hnd.2 hml hpm (fun y hy => huniq y (List.mem_cons_of_mem _ hy))

theorem mergeBabblers_eq (order : Mapping → Mapping) (db : DB) (a b : Babbler)
    (intoName otherName : String) (db1 db2 db3 : DB) (intoNode otherNode : BabblerNode)
    (mapping : Mapping)
    (h1 : getOrCreateBabblerNode db a ("<" ++ intoName ++ ">") = (db1, intoNode))
    (h2 : getOrCreateBabblerNode db1 b ("<" ++ otherName ++ ">") = (db2, otherNode))
    (h3 : mergeNodeLoop a intoNode otherNode db2 []
      (db2.babblerNodes.filter (fun n => n.BabblerId = b.BabblerId)) = (db3, .ok mapping)) :
    mergeBabblers order db a b intoName otherName = replayLoop mapping db3 (order mapping) := by
  unfold mergeBabblers
  rw [h1]
  simp only
  rw [h2]
  simp only
  rw [h3]

theorem mergeBabblers_run (order : Mapping → Mapping) (horder : ∀ m, (order m).Perm m)
    {db : DB} (hwf : WF db) (a b : Babbler) (hab : a.BabblerId ≠ b.BabblerId)
    (intoName otherName : String) :
    ∃ (db2 db3 : DB) (intoNode otherNode : BabblerNode) (mapping : Mapping),
      MergeRun order db a b intoName otherName db2 db3 intoNode otherNode mapping := by
  cases h1 : getOrCreateBabblerNode db a ("<" ++ intoName ++ ">") with
  | mk db1 intoNode =>
  cases h2 : getOrCreateBabblerNode db1 b ("<" ++ otherName ++ ">") with
  | mk db2 otherNode =>
  obtain ⟨hwf1, harcs1, _, hframe1, _⟩ := getOrCreateBabblerNode_spec hwf a _ db1 intoNode h1
  obtain ⟨hwf2, harcs2, _, hframe2, nd2, hnd2, hnd2id, _, _⟩ :=
    getOrCreateBabblerNode_spec hwf1 b _ db2 otherNode h2
  obtain ⟨hw1, hn1, hl1⟩ := getOrCreateBabblerNode_mono hwf a _ db1 intoNode h1
  obtain ⟨hw2, hn2, hl2⟩ := getOrCreateBabblerNode_mono hwf1 b _ db2 otherNode h2
  obtain ⟨iw, hiw, hiwid⟩ := getOrCreateBabblerNode_word hwf a _ db1 intoNode h1
  have hiw2 : getWord db2 ("<" ++ intoName ++ ">") = .ok iw :=
    (getWord_ok_iff hwf2).2 ⟨hw2 _ (getWord_ok hiw).1, (getWord_ok hiw).2⟩
  have hinto : intoNode.WordId ∈ wordIds db2 := by
    rw [← hiwid]
    exact List.mem_map_of_mem _ (getWord_ok hiw2).1
  have hlist : ∀ m ∈ db2.babblerNodes.filter (fun n => n.BabblerId = b.BabblerId),
      m.WordId ∈ wordIds db2 ∧
        ((m.Root = 1 ∧ 0 < m.RootFrequency) ∨ (m.Root = 0 ∧ m.RootFrequency = 0)) := by
    intro m hm
    have := (List.mem_filter.1 hm).1
    exact ⟨hwf2.node_word m this, hwf2.node_root m this⟩
  obtain ⟨⟨mapping, hmapping⟩, hmerged⟩ := mergeNodeLoop_merged a intoNode otherNode
    (db2.babblerNodes.filter (fun n => n.BabblerId = b.BabblerId)) db2 [] hwf2 hinto hlist
  have hloop : mergeNodeLoop a intoNode otherNode db2 []
      (db2.babblerNodes.filter (fun n => n.BabblerId = b.BabblerId)) =
      ((mergeNodeLoop a intoNode otherNode db2 []
        (db2.babblerNodes.filter (fun n => n.BabblerId = b.BabblerId))).1, .ok mapping) := by
    rw [← hmapping]
  have hrun := mergeBabblers_eq order db a b intoName otherName db1 db2 _ intoNode otherNode
    mapping h1 h2 hloop
  have hnodup : ((db2.babblerNodes.filter (fun n => n.BabblerId = b.BabblerId)).map
      (·.NodeId)).Nodup :=
    (hwf2.nodeIds_nodup).sublist ((List.filter_sublist _).map _)
  obtain ⟨hkeep, hmap⟩ := mergeNodeLoop_mapping a intoNode otherNode _ db2 [] mapping hnodup
    hmapping
  have hkeys := mergeNodeLoop_keys_nodup a intoNode otherNode _ db2 [] mapping
    List.nodup_nil hmapping
  -- the keys of the mapping are the nodes of `b`
  have hkey : ∀ k v, mapGet mapping k = some v →
      ∃ m ∈ db2.babblerNodes, m.BabblerId = b.BabblerId ∧ m.NodeId = k := by
    intro k v hv
    by_contra hc
    have : k ∉ (db2.babblerNodes.filter (fun n => n.BabblerId = b.BabblerId)).map
        (·.NodeId) := by
      intro hmem
      obtain ⟨m, hm, hmk⟩ := List.mem_map.1 hmem
      rw [List.mem_filter] at hm
      exact hc ⟨m, hm.1, by simpa using hm.2, hmk⟩
    rw [hkeep k this] at hv
    cases hv
  have hmapped : ∀ m ∈ db2.babblerNodes, m.BabblerId = b.BabblerId →
      ∃ v v', mapGet mapping m.NodeId = some v ∧
        findNode (mergeNodeLoop a intoNode otherNode db2 []
          (db2.babblerNodes.filter (fun n => n.BabblerId = b.BabblerId))).1 a.BabblerId
          (redirect intoNode otherNode m).WordId = some v' ∧ v'.NodeId = v.NodeId := by
    intro m hm hmb
    exact hmap m (List.mem_filter.2 ⟨hm, by simpa using hmb⟩)
  have hvals : ∀ k v, mapGet mapping k = some v →
      OwnId a (mergeNodeLoop a intoNode otherNode db2 []
        (db2.babblerNodes.filter (fun n => n.BabblerId = b.BabblerId))).1 v.NodeId := by
    intro k v hv
    obtain ⟨m, hm, hmb, hmk⟩ := hkey k v hv
    obtain ⟨v0, v', hv0, hv', hid⟩ := hmapped m hm hmb
    rw [hmk, hv] at hv0
    injection hv0 with hv0
    subst hv0
    obtain ⟨hmem, hbid, _⟩ := findNode_some hv'
    exact ⟨v', hmem, hid, hbid⟩
  have hforeign : ∀ m ∈ db2.babblerNodes, m.BabblerId = b.BabblerId →
      ForeignId a (mergeNodeLoop a intoNode otherNode db2 []
        (db2.babblerNodes.filter (fun n => n.BabblerId = b.BabblerId))).1 m.NodeId := by
    intro m hm hmb n hn hnid
    have hm3 := hmerged.2.2.2.2.1 m hm (by rw [hmb]; exact fun hc => hab hc.symm)
    have : n = m := List.inj_on_of_nodup_map hmerged.1.nodeIds_nodup hn hm3 hnid
    rw [this, hmb]
    exact fun hc => hab hc.symm
  have hclosed : ∀ m ∈ db2.babblerNodes, m.BabblerId = b.BabblerId →
      ∀ x ∈ db2.babblerArcs, x.FromNodeId = m.NodeId →
        ∃ m2 ∈ db2.babblerNodes, m2.BabblerId = b.BabblerId ∧ m2.NodeId = x.ToNodeId := by
    intro m hm hmb x hx hfrom
    obtain ⟨m2, hm2, hm2id⟩ := List.mem_map.1 (hwf2.arc_closed x hx).2
    have := hwf2.arc_speaker x hx m hm m2 hm2 hfrom.symm hm2id
    exact ⟨m2, hm2, this.symm.trans hmb, hm2id⟩
  have hentries : ∀ e ∈ order mapping, mapGet mapping e.1 = some e.2 := by
    intro e he
    exact mapGet_of_mem hkeys ((horder mapping).mem_iff.1 he)
  obtain ⟨hnone, hrep, hhit⟩ := replayLoop_spec a mapping (order mapping) _ hmerged.1 hvals
    (fun e he => by
      obtain ⟨m, hm, hmb, hmk⟩ := hkey e.1 e.2 (hentries e he)
      exact ⟨hvals _ _ (hentries e he), hmk ▸ hforeign m hm hmb⟩)
    (fun e he x hx hfrom => by
      obtain ⟨m, hm, hmb, hmk⟩ := hkey e.1 e.2 (hentries e he)
      rw [hmerged.2.2.1] at hx
      obtain ⟨m2, hm2, hm2b, hm2id⟩ := hclosed m hm hmb x hx (hfrom.trans hmk.symm)
      obtain ⟨v, _, hv, _⟩ := hmapped m2 hm2 hm2b
      exact ⟨v, hm2id ▸ hv⟩)
  refine ⟨db2, (mergeNodeLoop a intoNode otherNode db2 []
    (db2.babblerNodes.filter (fun n => n.BabblerId = b.BabblerId))).1, intoNode, otherNode,
    mapping, ?_⟩
  refine
    { wf2 := hwf2
      words2 := fun w hw => hw2 w (hw1 w hw)
      nodes2 := fun n hn => hn2 n (hn1 n hn)
      arcs2 := harcs2.trans harcs1
      lookup2 := fun s w n hn => hl2 s w n (hl1 s w n hn)
      frame2 := fun s w ha hb => by rw [hframe2 s w hb, hframe1 s w ha]
      intoWord := ⟨iw, hiw2, hiwid⟩
      otherId := by rw [nodeIdOf_of_ok hnd2, hnd2id]
      loop := hloop
      merged := hmerged
      replayed := by rw [hrun]; exact hrep
      noError := by rw [hrun]; exact hnone
      mapped := hmapped
      closed := hclosed
      counted := ?_ }
  intro m hm hmb x hx hfrom v1 v2 hv1 hv2
  rw [hrun]
  have he : (m.NodeId, v1) ∈ order mapping := (horder mapping).mem_iff.2 (mem_of_mapGet hv1)
  exact hhit (m.NodeId, v1) he x (by rw [hmerged.2.2.1]; exact hx) hfrom v2 hv2

theorem WF_learnAll (hist : History) : WF (learnAll New hist) :=
  (learnAll_spec hist New WF_New).1

/-- After a merge, the node of the other speaker for `w` is mapped to the node
of the target speaker for the renamed word. -/
theorem mergeRun_lookup {order : Mapping → Mapping} {db : DB} {a b : Babbler}
    {intoName otherName : String} {db2 db3 : DB} {intoNode otherNode : BabblerNode}
    {mapping : Mapping}
    (run : MergeRun order db a b intoName otherName db2 db3 intoNode otherNode mapping)
    {w : String} {m : BabblerNode} (hm : getBabblerNode db b w = .ok m) :
    ∃ v v', mapGet mapping m.NodeId = some v ∧ v'.NodeId = v.NodeId ∧
      getBabblerNode (mergeBabblers order db a b intoName otherName).1 a
        (boundaryRenamed intoName otherName w) = .ok v' := by
  have hm2 := run.lookup2 b w m hm
  obtain ⟨hmem, hmb, wd, hwd, hwdw, hwdid⟩ := (getBabblerNode_ok_iff run.wf2).1 hm2
  obtain ⟨v, v', hv, hv', hid⟩ := run.mapped m hmem hmb
  refine ⟨v, v', hv, hid, ?_⟩
  have hfinal : ∀ word, getBabblerNode (mergeBabblers order db a b intoName otherName).1 a
      word = getBabblerNode db3 a word :=
    getBabblerNode_congr run.replayed.2.2.1 run.replayed.2.1 a
  have hwords : ∀ word, getWord db3 word = getWord db2 word := by
    intro word; unfold getWord; rw [run.merged.2.1]
  rw [hfinal]
  by_cases hother : w = "<" ++ otherName ++ ">"
  · have hredirect : (redirect intoNode otherNode m).WordId = intoNode.WordId := by
      have hid2 := nodeIdOf_of_ok hm2
      rw [hother, run.otherId] at hid2
      injection hid2 with hid2
      unfold redirect
      rw [if_pos hid2.symm]
    obtain ⟨iw, hiw, hiwid⟩ := run.intoWord
    unfold boundaryRenamed
    rw [if_pos hother, getBabblerNode_eq_findNode ((hwords _).trans hiw), hiwid, ← hredirect, hv']
  · have hredirect : (redirect intoNode otherNode m).WordId = m.WordId := by
      unfold redirect
      rw [if_neg]
      intro hc
      have := nodeIdOf_inj run.wf2 (nodeIdOf_of_ok hm2) (hc ▸ run.otherId)
      exact hother this.2
    have hgw : getWord db2 w = .ok wd := (getWord_ok_iff run.wf2).2 ⟨hwd, hwdw⟩
    unfold boundaryRenamed
    rw [if_neg hother, getBabblerNode_eq_findNode ((hwords _).trans hgw), hwdid, ← hredirect, hv']

/-! ### Merging never lowers an arc count -/

theorem replayArcs_mono (mapping : Mapping) (newNode : BabblerNode) :
    ∀ (arcs : List BabblerArc) (db : DB),
      (replayArcs mapping newNode db arcs).1.babblerNodes = db.babblerNodes ∧
      (replayArcs mapping newNode db arcs).1.babblerWords = db.babblerWords ∧
      ∀ i j : Nat, idArcFrequency db i j ≤
        idArcFrequency (replayArcs mapping newNode db arcs).1 i j := by
  intro arcs
  induction arcs with
  | nil => intro db; exact ⟨rfl, rfl, fun _ _ => Nat.le_refl _⟩
  | cons x rest ih =>
    intro db
    unfold replayArcs
    cases hm : mapGet mapping x.ToNodeId with
    | none => exact ⟨rfl, rfl, fun _ _ => Nat.le_refl _⟩
    | some toNode =>
      simp only
      obtain ⟨hw, hn, _⟩ := incrementWordArc_frame db newNode toNode
      have hfreq : ∀ i j : Nat, idArcFrequency db i j ≤
          idArcFrequency (incrementWordArc db newNode toNode).1 i j := by
        intro i j
        rw [incrementWordArc_idArcFrequency]
        omega
      cases hi : incrementWordArc db newNode toNode with
      | mk db1 r =>
        rw [hi] at hw hn hfreq
        simp only at hw hn hfreq
        cases r with
        | error e => exact ⟨hn, hw, hfreq⟩
        | ok arc =>
          simp only
          obtain ⟨h1, h2, h3⟩ := ih db1
          exact ⟨h1.trans hn, h2.trans hw, fun i j => Nat.le_trans (hfreq i j) (h3 i j)⟩

theorem replayLoop_mono (mapping : Mapping) :
    ∀ (entries : List (Nat × BabblerNode)) (db : DB),
      (replayLoop mapping db entries).1.babblerNodes = db.babblerNodes ∧
      (replayLoop mapping db entries).1.babblerWords = db.babblerWords ∧
      ∀ i j : Nat, idArcFrequency db i j ≤
        idArcFrequency (replayLoop mapping db entries).1 i j := by
  intro entries
  induction entries with
  | nil => intro db; exact ⟨rfl, rfl, fun _ _ => Nat.le_refl _⟩
  | cons e rest ih =>
    intro db
    obtain ⟨k, newNode⟩ := e
    unfold replayLoop
    obtain ⟨hn, hw, hfreq⟩ := replayArcs_mono mapping newNode
      (db.babblerArcs.filter (fun a => a.FromNodeId = k)) db
    cases hr : replayArcs mapping newNode db
        (db.babblerArcs.filter (fun a => a.FromNodeId = k)) with
    | mk db1 err =>
      rw [hr] at hn hw hfreq
      simp only at hn hw hfreq
      cases err with
      | some e => exact ⟨hn, hw, hfreq⟩
      | none =>
        simp only
        obtain ⟨h1, h2, h3⟩ := ih db1
        exact ⟨h1.trans hn, h2.trans hw, fun i j => Nat.le_trans (hfreq i j) (h3 i j)⟩

theorem getBabblerNode_congr_id (db : DB) {s s' : Babbler} (w : String)
    (h : s.BabblerId = s'.BabblerId) : getBabblerNode db s w = getBabblerNode db s' w := by
  unfold getBabblerNode
  rw [h]

/-- Whatever the two speakers, a merge keeps every node of the target speaker
under its id and lowers no arc count. -/
theorem mergeBabblers_mono (order : Mapping → Mapping) {db : DB} (hwf : WF db)
    (a b : Babbler) (intoName otherName : String) :
    (∀ (w : String) (n : BabblerNode), getBabblerNode db a w = .ok n →
      ∃ n', getBabblerNode (mergeBabblers order db a b intoName otherName).1 a w = .ok n' ∧
        n'.NodeId = n.NodeId) ∧
    (∀ i j : Nat, idArcFrequency db i j ≤
      idArcFrequency (mergeBabblers order db a b intoName otherName).1 i j) := by
  cases h1 : getOrCreateBabblerNode db a ("<" ++ intoName ++ ">") with
  | mk db1 intoNode =>
  cases h2 : getOrCreateBabblerNode db1 b ("<" ++ otherName ++ ">") with
  | mk db2 otherNode =>
  obtain ⟨hwf1, harcs1, _, _, _⟩ := getOrCreateBabblerNode_spec hwf a _ db1 intoNode h1
  obtain ⟨hwf2, harcs2, _, _, _⟩ := getOrCreateBabblerNode_spec hwf1 b _ db2 otherNode h2
  obtain ⟨hw1, _, hl1⟩ := getOrCreateBabblerNode_mono hwf a _ db1 intoNode h1
  obtain ⟨hw2, _, hl2⟩ := getOrCreateBabblerNode_mono hwf1 b _ db2 otherNode h2
  obtain ⟨iw, hiw, hiwid⟩ := getOrCreateBabblerNode_word hwf a _ db1 intoNode h1
  have hinto : intoNode.WordId ∈ wordIds db2 := by
    rw [← hiwid]
    exact List.mem_map_of_mem _ (hw2 _ (getWord_ok hiw).1)
  have hlist : ∀ m ∈ db2.babblerNodes.filter (fun n => n.BabblerId = b.BabblerId),
      m.WordId ∈ wordIds db2 ∧
        ((m.Root = 1 ∧ 0 < m.RootFrequency) ∨ (m.Root = 0 ∧ m.RootFrequency = 0)) := by
    intro m hm
    have := (List.mem_filter.1 hm).1
    exact ⟨hwf2.node_word m this, hwf2.node_root m this⟩
  obtain ⟨⟨mapping, hmapping⟩, hmerged⟩ := mergeNodeLoop_merged a intoNode otherNode
    (db2.babblerNodes.filter (fun n => n.BabblerId = b.BabblerId)) db2 [] hwf2 hinto hlist
  have hloop : mergeNodeLoop a intoNode otherNode db2 []
      (db2.babblerNodes.filter (fun n => n.BabblerId = b.BabblerId)) =
      ((mergeNodeLoop a intoNode otherNode db2 []
        (db2.babblerNodes.filter (fun n => n.BabblerId = b.BabblerId))).1, .ok mapping) := by
    rw [← hmapping]
  rw [mergeBabblers_eq order db a b intoName otherName db1 db2 _ intoNode otherNode
    mapping h1 h2 hloop]
  obtain ⟨hn, hw, hfreq⟩ := replayLoop_mono mapping (order mapping)
    (mergeNodeLoop a intoNode otherNode db2 []
      (db2.babblerNodes.filter (fun n => n.BabblerId = b.BabblerId))).1
  constructor
  · intro w n hnode
    have hnode2 := hl2 a w n (hl1 a w n hnode)
    obtain ⟨wd, hgw, _, _, _, hfind⟩ := getBabblerNode_ok hnode2
    obtain ⟨n', hn', hid⟩ := hmerged.2.2.2.2.2.2.1 wd.WordId n hfind
    refine ⟨n', ?_, hid⟩
    rw [getBabblerNode_congr hw hn a w]
    have hgw3 : getWord (mergeNodeLoop a intoNode otherNode db2 []
        (db2.babblerNodes.filter (fun n => n.BabblerId = b.BabblerId))).1 w = .ok wd := by
      unfold getWord; rw [hmerged.2.1]; exact hgw
    rw [getBabblerNode_eq_findNode hgw3, hn']
  · intro i j
    refine Nat.le_trans ?_ (hfreq i j)
    rw [idArcFrequency_congr (hmerged.2.2.1.trans (harcs2.trans harcs1))]

theorem arcOf_of_arcFrequency_pos {db : DB} {s : Babbler} {u v : String}
    (h : 1 ≤ arcFrequency db s u v) :
    ∃ arc, arcOf db s u v = some arc ∧ 1 ≤ arc.Frequency := by
  unfold arcFrequency at h
  cases harc : arcOf db s u v with
  | none => rw [harc] at h; simp at h
  | some arc =>
    rw [harc] at h
    exact ⟨arc, rfl, h⟩

theorem arcOf_nodes {db : DB} {s : Babbler} {u v : String} {x : BabblerArc}
    (h : arcOf db s u v = some x) :
    ∃ n1 n2, getBabblerNode db s u = .ok n1 ∧ getBabblerNode db s v = .ok n2 ∧
      x ∈ db.babblerArcs ∧ x.FromNodeId = n1.NodeId ∧ x.ToNodeId = n2.NodeId := by
  unfold arcOf at h
  cases hu : getBabblerNode db s u with
  | error e => rw [hu] at h; cases h
  | ok n1 =>
    cases hv : getBabblerNode db s v with
    | error e => rw [hu, hv] at h; cases h
    | ok n2 =>
      rw [hu, hv] at h
      simp only at h
      cases harc : getBabblerArc db n1 n2 with
      | error e => rw [harc] at h; cases h
      | ok x' =>
        rw [harc] at h
        simp only [Option.some.injEq] at h
        subst h
        obtain ⟨hm, hf, ht⟩ := getBabblerArc_ok harc
        exact ⟨n1, n2, rfl, rfl, hm, hf, ht⟩

theorem boundaryRenamed_self (name w : String) : boundaryRenamed name name w = w := by
  unfold boundaryRenamed
  split
  · rename_i h; exact h.symm
  · rfl

/-! ## Seed validation -/

theorem getNodeById_error {db : DB} {id : Nat} {e : Error}
    (h : getNodeById db id = .error e) : e = .ErrNoRows := by
  unfold getNodeById at h
  split at h
  · cases h
  · injection h with h; exact h.symm

theorem getWordById_error {db : DB} {id : Nat} {e : Error}
    (h : getWordById db id = .error e) : e = .ErrNoRows := by
  unfold getWordById at h
  split at h
  · cases h
  · injection h with h; exact h.symm

theorem arcLoop_error {db : DB} {which : Nat} {e : Error} :
    ∀ (arcs : List BabblerArc) (total : Nat), arcLoop db which total arcs = .error e →
      e = .FATAL ∨ e = .ErrNoRows := by
  intro arcs
  induction arcs with
  | nil =>
    intro total h
    unfold arcLoop at h
    injection h with h
    exact Or.inl h.symm
  | cons a rest ih =>
    intro total h
    unfold arcLoop at h
    split at h
    · cases hn : getNodeById db a.ToNodeId with
      | error e1 =>
        rw [hn] at h
        injection h with h
        exact Or.inr (h ▸ getNodeById_error hn)
      | ok node =>
        rw [hn] at h
        simp only at h
        cases hw : getWordById db node.WordId with
        | error e1 =>
          rw [hw] at h
          injection h with h
          exact Or.inr (h ▸ getWordById_error hw)
        | ok w =>
          rw [hw] at h
          cases h
    · exact ih _ h

theorem Int63n_error {n r : Nat} {e : Error} (h : Int63n n r = .error e) : e = .PANIC := by
  unfold Int63n at h
  split at h
  · injection h with h; exact h.symm
  · cases h

theorem getWeightedNextWord_error {db : DB} {fromNode : BabblerNode} {r : Nat} {e : Error}
    (h : getWeightedNextWord db fromNode r = .error e) : e ≠ .NEVER_SAID := by
  unfold getWeightedNextWord at h
  simp only at h
  split at h
  · injection h with h; subst h; intro hc; cases hc
  · cases hi : Int63n ((List.map (fun x => x.Frequency)
        (List.filter (fun a => decide (a.FromNodeId = fromNode.NodeId)) db.babblerArcs)).sum) r with
    | error e1 =>
      rw [hi] at h
      injection h with h
      rw [← h, Int63n_error hi]
      decide
    | ok which =>
      rw [hi] at h
      rcases arcLoop_error _ _ h with h | h <;> rw [h] <;> decide

theorem babbleLoop_not_never_said (db : DB) (rnd : Nat → Nat) :
    ∀ (fuel i : Nat) (cur : BabblerNode) (words : List String) (out : String),
      babbleLoop db rnd fuel i cur words ≠ some (out, some .NEVER_SAID) := by
  intro fuel
  induction fuel with
  | zero =>
    intro i cur words out h
    unfold babbleLoop at h
    cases h
  | succ fuel ih =>
    intro i cur words out h
    unfold babbleLoop at h
    cases hn : getWeightedNextWord db cur (rnd i) with
    | error e =>
      rw [hn] at h
      simp only at h
      injection h with h
      injection h with _ h
      injection h with h
      exact getWeightedNextWord_error hn h
    | ok p =>
      obtain ⟨node, w⟩ := p
      rw [hn] at h
      simp only at h
      split at h
      · cases h
      · exact ih _ _ _ _ h

theorem observedPath_single (db : DB) (s : Babbler) (cw : String) :
    observedPath db s [cw] = (nodeIdOf db s cw).isSome := by
  simp [observedPath, adjacentPairs]

theorem observedPath_cons_cons (db : DB) (s : Babbler) (cw w : String) (rest : List String) :
    observedPath db s (cw :: w :: rest) =
      ((nodeIdOf db s cw).isSome && ((arcOf db s cw w).isSome && observedPath db s (w :: rest))) := by
  simp only [observedPath, adjacentPairs, List.all_cons]
  generalize (nodeIdOf db s cw).isSome = x1
  generalize (nodeIdOf db s w).isSome = x2
  generalize (arcOf db s cw w).isSome = x3
  generalize (List.all rest fun w => (nodeIdOf db s w).isSome) = x4
  generalize (List.all (adjacentPairs (w :: rest)) fun p => (arcOf db s p.1 p.2).isSome) = x5
  cases x1 <;> cases x2 <;> cases x3 <;> cases x4 <;> cases x5 <;> rfl

theorem getBabblerArc_cases (db : DB) (n1 n2 : BabblerNode) :
    (∃ a, getBabblerArc db n1 n2 = .ok a) ∨ getBabblerArc db n1 n2 = .error .NEVER_SAID := by
  unfold getBabblerArc
  split
  · exact Or.inl ⟨_, rfl⟩
  · exact Or.inr rfl

theorem seedLoop_spec (db : DB) (s : Babbler) :
    ∀ (rest : List String) (cur : BabblerNode) (cw : String),
      getBabblerNode db s cw = .ok cur →
      (observedPath db s (cw :: rest) = true → ∃ final, seedLoop db s cur rest = .ok final) ∧
      (observedPath db s (cw :: rest) = false → seedLoop db s cur rest = .error .NEVER_SAID) := by
  intro rest
  induction rest with
  | nil =>
    intro cur cw hcur
    rw [observedPath_single, nodeIdOf_of_ok hcur]
    refine ⟨fun _ => ⟨cur, ?_⟩, fun h => by cases h⟩
    unfold seedLoop
    rfl
  | cons w rest ih =>
    intro cur cw hcur
    rw [observedPath_cons_cons, nodeIdOf_of_ok hcur]
    unfold seedLoop
    rcases getBabblerNode_cases db s w with ⟨next, hnext⟩ | herr
    · have hobs : (nodeIdOf db s w).isSome = true := by rw [nodeIdOf_of_ok hnext]; rfl
      rw [hnext]
      simp only
      rcases getBabblerArc_cases db cur next with ⟨a, ha⟩ | haerr
      · have harc : arcOf db s cw w = some a := by
          unfold arcOf
          rw [hcur, hnext]
          simp only [ha]
        rw [ha, harc]
        simpa using ih next w hnext
      · have harc : arcOf db s cw w = none := by
          unfold arcOf
          rw [hcur, hnext]
          simp only [haerr]
        rw [haerr, harc]
        simp
    · have harc : arcOf db s cw w = none := by
        unfold arcOf
        rw [hcur, herr]
      rw [herr, harc]
      simp

/-! ## What learning leaves untouched -/

theorem addLoop_cons_eq (b : Babbler) (db db1 : DB) (cur next : BabblerNode) (w : String)
    (ws : List String) (hg : getOrCreateBabblerNode db b w = (db1, next)) :
    addLoop b db cur (w :: ws) = addLoop b (incrementWordArc db1 cur next).1 next ws := by
  obtain ⟨a, ha⟩ := incrementWordArc_ok db1 cur next
  conv => lhs; unfold addLoop
  rw [hg]
  simp only
  cases hi : incrementWordArc db1 cur next with
  | mk db2 r =>
    rw [hi] at ha
    simp only at ha
    subst ha
    rfl

theorem addLoop_nil_fst (b : Babbler) (db db1 : DB) (cur next : BabblerNode)
    (hg : getOrCreateBabblerNode db b " " = (db1, next)) :
    (addLoop b db cur []).1 = (incrementWordArc db1 cur next).1 := by
  unfold addLoop incrementFinalWordArcHelper
  rw [hg]
  simp only
  cases hi : incrementWordArc db1 cur next with
  | mk db2 r => cases r <;> rfl

theorem incrementWordArc_nodeIdOf (db : DB) (n1 n2 : BabblerNode) (s : Babbler) (w : String) :
    nodeIdOf (incrementWordArc db n1 n2).1 s w = nodeIdOf db s w := by
  obtain ⟨hw, hn, _⟩ := incrementWordArc_frame db n1 n2
  unfold nodeIdOf
  rw [getBabblerNode_congr hw hn]

/-- Learning the words `ws` after the current word leaves the node lookups of
other speakers and of other words as they were. -/
theorem addLoop_nodeIdOf_frame (b : Babbler) :
    ∀ (ws : List String) (db : DB) (cur : BabblerNode) (cw : String), WF db →
      nodeIdOf db b cw = some cur.NodeId →
      ∀ (s : Babbler) (w : String), (s.BabblerId ≠ b.BabblerId ∨ (w ∉ ws ∧ w ≠ " ")) →
        nodeIdOf (addLoop b db cur ws).1 s w = nodeIdOf db s w := by
  intro ws
  induction ws with
  | nil =>
    intro db cur cw hwf hcur s w hsw
    cases hg : getOrCreateBabblerNode db b " " with
    | mk db1 next =>
      have hstep := getOrCreateBabblerNode_step hwf b " " db1 next hg
      rw [addLoop_nil_fst b db db1 cur next hg, incrementWordArc_nodeIdOf]
      exact hstep.2.2.2.1 s w (hsw.imp id (fun h => h.2))
  | cons w0 ws ih =>
    intro db cur cw hwf hcur s w hsw
    cases hg : getOrCreateBabblerNode db b w0 with
    | mk db1 next =>
      have hstep := getOrCreateBabblerNode_step hwf b w0 db1 next hg
      have hl1 := nodeStep_learns hwf hstep
      have hcur1 := hl1.2.2.1 b cw _ hcur
      have hl2 := incrementWordArc_learns hl1.1 hcur1 hstep.2.2.2.2.1
      have hnext : nodeIdOf (incrementWordArc db1 cur next).1 b w0 = some next.NodeId :=
        hl2.2.2.1 b w0 _ hstep.2.2.2.2.1
      rw [addLoop_cons_eq b db db1 cur next w0 ws hg,
        ih _ next w0 hl2.1 hnext s w
          (hsw.imp id (fun h => ⟨fun hc => h.1 (List.mem_cons_of_mem _ hc), h.2⟩)),
        incrementWordArc_nodeIdOf]
      exact hstep.2.2.2.1 s w
        (hsw.imp id (fun h => fun hc => h.1 (hc ▸ List.mem_cons_self _ _)))

theorem addToMarkovChain_nodeIdOf_frame {db : DB} (hwf : WF db) (b : Babbler)
    (phrase : String) (s : Babbler) (w : String)
    (hsw : s.BabblerId ≠ b.BabblerId ∨ (w ∉ tokens phrase ∧ w ≠ " ")) :
    nodeIdOf (addToMarkovChain db b phrase).1 s w = nodeIdOf db s w := by
  unfold addToMarkovChain
  unfold tokens at hsw
  cases hf : Fields (ToLower phrase) with
  | nil => rfl
  | cons word rest =>
    rw [hf] at hsw
    simp only
    cases hr : incrementRootWordFrequency db b word with
    | mk db1 cur =>
      have hstep := incrementRootWordFrequency_step hwf b word db1 cur hr
      simp only
      rw [addLoop_nodeIdOf_frame b rest db1 cur word hstep.1 hstep.2.2.2.2.1 s w
        (hsw.imp id (fun h => ⟨fun hc => h.1 (List.mem_cons_of_mem _ hc), h.2⟩))]
      exact hstep.2.2.2.1 s w
        (hsw.imp id (fun h => fun hc => h.1 (hc ▸ List.mem_cons_self _ _)))

theorem makeBabbler_nodeIdOf (db : DB) (name : String) (s : Babbler) (w : String) :
    nodeIdOf (makeBabbler db name).1 s w = nodeIdOf db s w := by
  unfold nodeIdOf
  rw [@getBabblerNode_congr db (makeBabbler db name).1 rfl rfl s w]

theorem addToMarkovChain_of_no_tokens (db : DB) (b : Babbler) {phrase : String}
    (h : tokens phrase = []) : addToMarkovChain db b phrase = (db, none) := by
  unfold tokens at h
  unfold addToMarkovChain
  rw [h]

theorem mem_spokenWords {phrase w : String} (hne : tokens phrase ≠ [])
    (h : w ∈ tokens phrase ∨ w = " ") : w ∈ spokenWords phrase := by
  unfold spokenWords
  cases ht : tokens phrase with
  | nil => exact absurd ht hne
  | cons word rest =>
    rw [ht] at h
    simp only
    rw [List.mem_append, List.mem_singleton]
    exact h

/-- In a store built by learning, a node of a speaker is the node of a word of
one of the utterances of that speaker, the terminal marker that ends it
included. -/
theorem node_of_learned (hist : History) :
    ∀ db : DB, WF db → ∀ (s : Babbler) (w : String) (i : Nat),
      nodeIdOf (learnAll db hist) s w = some i →
      nodeIdOf db s w = some i ∨ ∃ phrase ∈ utterancesOf hist s, w ∈ spokenWords phrase := by
  induction hist with
  | nil =>
    intro db _ s w i h
    exact Or.inl h
  | cons op hist ih =>
    intro db hwf s w i h
    cases op with
    | register name =>
      have h' : nodeIdOf (learnAll (makeBabbler db name).1 hist) s w = some i := h
      rcases ih _ (WF_makeBabbler hwf name) s w i h' with h1 | h1
      · rw [makeBabbler_nodeIdOf] at h1
        exact Or.inl h1
      · rw [utterancesOf_cons_register]
        exact Or.inr h1
    | learn b phrase =>
      have h' : nodeIdOf (learnAll (addToMarkovChain db b phrase).1 hist) s w = some i := h
      have hwf1 := (addToMarkovChain_learns hwf b phrase).1.1
      rw [utterancesOf_cons_learn]
      rcases ih _ hwf1 s w i h' with h1 | h1
      · by_cases hsb : s.BabblerId = b.BabblerId
        · rw [if_pos hsb]
          by_cases hne : tokens phrase = []
          · rw [addToMarkovChain_of_no_tokens db b hne] at h1
            exact Or.inl h1
          · by_cases hw : w ∈ tokens phrase ∨ w = " "
            · exact Or.inr ⟨phrase, List.mem_cons_self _ _, mem_spokenWords hne hw⟩
            · rw [addToMarkovChain_nodeIdOf_frame hwf b phrase s w
                (Or.inr ⟨fun hc => hw (Or.inl hc), fun hc => hw (Or.inr hc)⟩)] at h1
              exact Or.inl h1
        · rw [addToMarkovChain_nodeIdOf_frame hwf b phrase s w (Or.inl hsb)] at h1
          exact Or.inl h1
      · obtain ⟨p, hp, hwp⟩ := h1
        refine Or.inr ⟨p, ?_, hwp⟩
        split
        · exact List.mem_cons_of_mem _ hp
        · exact hp

theorem rootFrequencyOf_pos {db : DB} {s : Babbler} {w : String}
    (h : 0 < rootFrequencyOf db s w) :
    ∃ n, getBabblerNode db s w = .ok n ∧ n.RootFrequency = rootFrequencyOf db s w := by
  unfold rootFrequencyOf at h ⊢
  cases hn : getBabblerNode db s w with
  | ok n => exact ⟨n, rfl, rfl⟩
  | error e =>
    rw [hn] at h
    exact absurd h (Nat.lt_irrefl 0)

/-! ## Lower-casing and fields -/

theorem caseRanges_clear :
    caseRanges.all (fun r => caseRanges.all (fun q => clearOf r q)) = true := by
  decide!

theorem caseRanges_sound : caseRanges.all (fun q => soundRange q) = true := by
  decide!

theorem caseRange_facts {q : CaseRange} (hq : q ∈ caseRanges) :
    soundRange q = true ∧ ∀ r ∈ caseRanges, clearOf q r = true := by
  refine ⟨?_, fun r hr => ?_⟩
  · exact List.all_eq_true.1 caseRanges_sound q hq
  · exact List.all_eq_true.1 (List.all_eq_true.1 caseRanges_clear q hq) r hr

theorem mem_spaceRunes_of_isSpace {c : Char} (h : isSpace c = true) : c.toNat ∈ spaceRunes := by
  unfold isSpace at h
  simp only [Bool.or_eq_true, Bool.and_eq_true, decide_eq_true_eq] at h
  have e : ∀ k : UInt32, c.val = k → c.toNat = k.toNat := fun k hk => by rw [Char.toNat, hk]
  rcases h with ((((((((((((((h | h) | h) | h) | h) | h) | h) | h) | h) | h) | h) | h) | h) | h) | h)
  all_goals first
    | (rw [e _ h]; decide)
    | skip
  obtain ⟨h1, h2⟩ := h
  have h1 : 0x2000 ≤ c.toNat := h1
  have h2 : c.toNat ≤ 0x200A := h2
  interval_cases c.toNat <;> decide

theorem isSpace_of_not_mem {c : Char} (h : c.toNat ∉ spaceRunes) : isSpace c = false := by
  cases hs : isSpace c
  · rfl
  · exact absurd (mem_spaceRunes_of_isSpace hs) h

theorem toLower_cases (c : Char) :
    Char.toLower c = c ∨ ∃ n, 97 ≤ n ∧ n ≤ 122 ∧ Char.toLower c = Char.ofNat n ∧
      c = Char.ofNat (n - 32) := by
  unfold Char.toLower
  simp only
  split
  · rename_i h
    right
    refine ⟨c.toNat + 32, by omega, by omega, rfl, ?_⟩
    simp
  · left; rfl

theorem isSpace_ofNat_lower {n : Nat} (h1 : 97 ≤ n) (h2 : n ≤ 122) :
    isSpace (Char.ofNat n) = false ∧ isSpace (Char.ofNat (n - 32)) = false ∧
      unicode.ToLower (Char.ofNat n) = Char.ofNat n := by
  interval_cases n <;> decide

theorem unicode_ToLower_cases (c : Char) :
    unicode.ToLower c = c ∨
    (∃ n, 97 ≤ n ∧ n ≤ 122 ∧ unicode.ToLower c = Char.ofNat n ∧ c = Char.ofNat (n - 32)) ∨
    (∃ q ∈ caseRanges, inRange q c.toNat = true ∧
        unicode.ToLower c = Char.ofNat (q.2.2.2 + (c.toNat - q.1))) := by
  unfold unicode.ToLower
  split
  · rcases toLower_cases c with h | h
    · exact Or.inl h
    · exact Or.inr (Or.inl h)
  · split
    · rename_i q hq
      exact Or.inr (Or.inr ⟨q, List.mem_of_find?_eq_some hq,
        @List.find?_some _ (fun q => inRange q c.toNat) _ _ hq, rfl⟩)
    · exact Or.inl rfl

theorem toNat_ofNat_of_valid {t : Nat} (h : t < 0xD800 ∨ (0xDFFF < t ∧ t < 0x110000)) :
    (Char.ofNat t).toNat = t := by
  have hv : t.isValidChar := h
  simp only [Char.ofNat, hv, Char.ofNatAux, Char.toNat, dite_true]
  rfl

theorem caseRange_target {q : CaseRange} (hq : q ∈ caseRanges) {n : Nat}
    (hn : inRange q n = true) :
    n ∉ spaceRunes ∧ isSpace (Char.ofNat (q.2.2.2 + (n - q.1))) = false ∧
      unicode.ToLower (Char.ofNat (q.2.2.2 + (n - q.1))) = Char.ofNat (q.2.2.2 + (n - q.1)) := by
  obtain ⟨hs, hc⟩ := caseRange_facts hq
  unfold soundRange at hs
  simp only [Bool.and_eq_true, Bool.or_eq_true, decide_eq_true_eq, List.all_eq_true] at hs
  obtain ⟨⟨⟨⟨h80, hle⟩, hst⟩, hval⟩, hsp⟩ := hs
  unfold inRange at hn
  simp only [Bool.and_eq_true, decide_eq_true_eq, beq_iff_eq] at hn
  obtain ⟨⟨hn1, hn2⟩, hn3⟩ := hn
  have hvalid : (Char.ofNat (q.2.2.2 + (n - q.1))).toNat = q.2.2.2 + (n - q.1) := by
    apply toNat_ofNat_of_valid
    omega
  refine ⟨fun hmem => ?_, ?_, ?_⟩
  · have := (hsp n hmem).1
    omega
  · apply isSpace_of_not_mem
    rw [hvalid]
    intro hmem
    have := (hsp _ hmem).2
    omega
  · unfold unicode.ToLower
    split
    · rename_i hlt
      have hlt2 : (Char.ofNat (q.2.2.2 + (n - q.1))).toNat < 0x80 := hlt
      rw [hvalid] at hlt2
      unfold Char.toLower
      simp only
      rw [hvalid, if_neg (by omega)]
    · rw [hvalid]
      have hnone : caseRanges.find? (fun r => inRange r (q.2.2.2 + (n - q.1))) = none := by
        rw [List.find?_eq_none]
        intro r hr
        have hcl := hc r hr
        unfold clearOf at hcl
        simp only [Bool.and_eq_true, Bool.or_eq_true, decide_eq_true_eq, beq_iff_eq] at hcl
        unfold inRange
        simp only [Bool.and_eq_true, decide_eq_true_eq, beq_iff_eq, not_and]
        intro ⟨h1, h2⟩
        rcases hcl with (hcl | hcl) | ⟨⟨hcl1, hcl2⟩, hcl3⟩
        · omega
        · omega
        · rw [hcl2]
          rcases hcl1 with hcl1 | hcl1
          · rw [hcl1] at hn3
            omega
          · omega
      rw [hnone]

theorem isSpace_toLower (c : Char) : isSpace (unicode.ToLower c) = isSpace c := by
  rcases unicode_ToLower_cases c with h | ⟨n, h1, h2, h3, h4⟩ | ⟨q, hq, hn, h⟩
  · rw [h]
  · rw [h3, (isSpace_ofNat_lower h1 h2).1, h4, (isSpace_ofNat_lower h1 h2).2.1]
  · obtain ⟨hns, hsp, _⟩ := caseRange_target hq hn
    rw [h, hsp, isSpace_of_not_mem hns]

theorem fieldsLoop_eq_nil_iff :
    ∀ (cs cur : List Char),
      fieldsLoop cs cur = [] ↔ cur = [] ∧ ∀ c ∈ cs, isSpace c = true := by
  intro cs
  induction cs with
  | nil =>
    intro cur
    cases cur with
    | nil => simp [fieldsLoop]
    | cons x xs => simp [fieldsLoop]
  | cons c cs ih =>
    intro cur
    unfold fieldsLoop
    by_cases hc : isSpace c = true
    · rw [if_pos hc]
      cases cur with
      | nil =>
        simp only [ih, List.mem_cons, forall_eq_or_imp, hc, true_and, and_self]
      | cons x xs => simp
    · rw [if_neg hc, ih]
      simp [hc]

theorem tokens_eq_nil_iff (phrase : String) :
    tokens phrase = [] ↔ ∀ c ∈ phrase.data, isSpace c = true := by
  unfold tokens Fields ToLower
  rw [fieldsLoop_eq_nil_iff]
  simp [isSpace_toLower]

theorem replayArcs_replayed (a : Babbler) (mapping : Mapping) (newNode : BabblerNode) :
    ∀ (arcs : List BabblerArc) (db : DB), WF db → OwnId a db newNode.NodeId →
      (∀ k v, mapGet mapping k = some v → OwnId a db v.NodeId) →
      Replayed a db (replayArcs mapping newNode db arcs).1 := by
  intro arcs
  induction arcs with
  | nil =>
    intro db hwf _ _
    exact replayed_refl hwf a
  | cons x rest ih =>
    intro db hwf hown hvals
    cases hv : mapGet mapping x.ToNodeId with
    | none =>
      have heq : replayArcs mapping newNode db (x :: rest) = (db, some .PANIC) := by
        conv => lhs; unfold replayArcs
        rw [hv]
      rw [heq]
      exact replayed_refl hwf a
    | some v =>
      obtain ⟨arc, harc⟩ := incrementWordArc_ok db newNode v
      have heq : replayArcs mapping newNode db (x :: rest) =
          replayArcs mapping newNode (incrementWordArc db newNode v).1 rest := by
        conv => lhs; unfold replayArcs
        rw [hv]
        simp only
        cases hi : incrementWordArc db newNode v with
        | mk db1 r =>
          rw [hi] at harc
          simp only at harc
          subst harc
          rfl
      rw [heq]
      have hstep := incrementWordArc_replayed hwf a newNode v hown (hvals _ _ hv)
      have hown' : ∀ k, OwnId a db k → OwnId a (incrementWordArc db newNode v).1 k := by
        intro k hk
        unfold OwnId
        rw [hstep.2.1]
        exact hk
      exact replayed_trans hstep (ih _ hstep.1 (hown' _ hown)
        (fun k w hw => hown' _ (hvals k w hw)))

theorem replayLoop_replayed (a : Babbler) (mapping : Mapping) :
    ∀ (entries : List (Nat × BabblerNode)) (db : DB), WF db →
      (∀ k v, mapGet mapping k = some v → OwnId a db v.NodeId) →
      (∀ e ∈ entries, OwnId a db e.2.NodeId) →
      Replayed a db (replayLoop mapping db entries).1 := by
  intro entries
  induction entries with
  | nil =>
    intro db hwf _ _
    exact replayed_refl hwf a
  | cons e rest ih =>
    intro db hwf hvals hentries
    obtain ⟨k, newNode⟩ := e
    have hown := hentries (k, newNode) (List.mem_cons_self _ _)
    have hrep := replayArcs_replayed a mapping newNode
      (db.babblerArcs.filter (fun x => x.FromNodeId = k)) db hwf hown hvals
    have hown' : ∀ i, OwnId a db i → OwnId a (replayArcs mapping newNode db
        (db.babblerArcs.filter (fun x => x.FromNodeId = k))).1 i := by
      intro i hi
      unfold OwnId
      rw [hrep.2.1]
      exact hi
    cases hr : replayArcs mapping newNode db
        (db.babblerArcs.filter (fun x => x.FromNodeId = k)) with
    | mk db1 err =>
      rw [hr] at hrep hown'
      simp only at hrep hown'
      cases err with
      | some e1 =>
        have heq : replayLoop mapping db ((k, newNode) :: rest) = (db1, some e1) := by
          conv => lhs; unfold replayLoop
          rw [hr]
        rw [heq]
        exact hrep
      | none =>
        have heq : replayLoop mapping db ((k, newNode) :: rest) =
            replayLoop mapping db1 rest := by
          conv => lhs; unfold replayLoop
          rw [hr]
        rw [heq]
        exact replayed_trans hrep (ih db1 hrep.1 (fun k' v hv => hown' _ (hvals k' v hv))
          (fun e' he' => hown' _ (hentries e' (List.mem_cons_of_mem _ he'))))

/-- The stages of a run of `mergeBabblers` on a well-formed store, for any two
speakers: the boundary nodes, the node loop, which ends with a mapping, and the
replay over the entries of the mapping. -/
theorem mergeBabblers_stages (order : Mapping → Mapping) (horder : ∀ m, (order m).Perm m)
    {db : DB} (hwf : WF db) (a b : Babbler) (intoName otherName : String) :
    ∃ (db1 db2 db3 : DB) (intoNode otherNode : BabblerNode) (mapping : Mapping),
      getOrCreateBabblerNode db a ("<" ++ intoName ++ ">") = (db1, intoNode) ∧
      getOrCreateBabblerNode db1 b ("<" ++ otherName ++ ">") = (db2, otherNode) ∧
      WF db1 ∧ WF db2 ∧
      (∃ iw, getWord db2 ("<" ++ intoName ++ ">") = .ok iw ∧ iw.WordId = intoNode.WordId) ∧
      mergeNodeLoop a intoNode otherNode db2 []
        (db2.babblerNodes.filter (fun n => n.BabblerId = b.BabblerId)) = (db3, .ok mapping) ∧
      NodesMerged a db2 db3 ∧
      mergeBabblers order db a b intoName otherName = replayLoop mapping db3 (order mapping) ∧
      (∀ e ∈ order mapping, ∃ m ∈ db2.babblerNodes, m.BabblerId = b.BabblerId ∧
        m.NodeId = e.1 ∧ ∃ v', findNode db3 a.BabblerId
          (redirect intoNode otherNode m).WordId = some v' ∧ v'.NodeId = e.2.NodeId) ∧
      Replayed a db3 (mergeBabblers order db a b intoName otherName).1 := by
  cases h1 : getOrCreateBabblerNode db a ("<" ++ intoName ++ ">") with
  | mk db1 intoNode =>
  cases h2 : getOrCreateBabblerNode db1 b ("<" ++ otherName ++ ">") with
  | mk db2 otherNode =>
  obtain ⟨hwf1, _⟩ := getOrCreateBabblerNode_spec hwf a _ db1 intoNode h1
  obtain ⟨hwf2, _⟩ := getOrCreateBabblerNode_spec hwf1 b _ db2 otherNode h2
  obtain ⟨hw2, _, _⟩ := getOrCreateBabblerNode_mono hwf1 b _ db2 otherNode h2
  obtain ⟨iw, hiw, hiwid⟩ := getOrCreateBabblerNode_word hwf a _ db1 intoNode h1
  have hiw2 : getWord db2 ("<" ++ intoName ++ ">") = .ok iw :=
    (getWord_ok_iff hwf2).2 ⟨hw2 _ (getWord_ok hiw).1, (getWord_ok hiw).2⟩
  have hinto : intoNode.WordId ∈ wordIds db2 := by
    rw [← hiwid]
    exact List.mem_map_of_mem _ (getWord_ok hiw2).1
  have hlist : ∀ m ∈ db2.babblerNodes.filter (fun n => n.BabblerId = b.BabblerId),
      m.WordId ∈ wordIds db2 ∧
        ((m.Root = 1 ∧ 0 < m.RootFrequency) ∨ (m.Root = 0 ∧ m.RootFrequency = 0)) := by
    intro m hm
    have := (List.mem_filter.1 hm).1
    exact ⟨hwf2.node_word m this, hwf2.node_root m this⟩
  obtain ⟨⟨mapping, hmapping⟩, hmerged⟩ := mergeNodeLoop_merged a intoNode otherNode
    (db2.babblerNodes.filter (fun n => n.BabblerId = b.BabblerId)) db2 [] hwf2 hinto hlist
  have hloop : mergeNodeLoop a intoNode otherNode db2 []
      (db2.babblerNodes.filter (fun n => n.BabblerId = b.BabblerId)) =
      ((mergeNodeLoop a intoNode otherNode db2 []
        (db2.babblerNodes.filter (fun n => n.BabblerId = b.BabblerId))).1, .ok mapping) := by
    rw [← hmapping]
  have hrun := mergeBabblers_eq order db a b intoName otherName db1 db2 _ intoNode otherNode
    mapping h1 h2 hloop
  have hnodup : ((db2.babblerNodes.filter (fun n => n.BabblerId = b.BabblerId)).map
      (·.NodeId)).Nodup :=
    (hwf2.nodeIds_nodup).sublist ((List.filter_sublist _).map _)
  obtain ⟨hkeep, hmap⟩ := mergeNodeLoop_mapping a intoNode otherNode _ db2 [] mapping hnodup
    hmapping
  have hkeys := mergeNodeLoop_keys_nodup a intoNode otherNode _ db2 [] mapping
    List.nodup_nil hmapping
  have hkey : ∀ k v, mapGet mapping k = some v →
      ∃ m ∈ db2.babblerNodes, m.BabblerId = b.BabblerId ∧ m.NodeId = k := by
    intro k v hv
    by_contra hc
    have : k ∉ (db2.babblerNodes.filter (fun n => n.BabblerId = b.BabblerId)).map
        (·.NodeId) := by
      intro hmem
      obtain ⟨m, hm, hmk⟩ := List.mem_map.1 hmem
      rw [List.mem_filter] at hm
      exact hc ⟨m, hm.1, by simpa using hm.2, hmk⟩
    rw [hkeep k this] at hv
    cases hv
  have hval : ∀ k v, mapGet mapping k = some v →
      ∃ m ∈ db2.babblerNodes, m.BabblerId = b.BabblerId ∧ m.NodeId = k ∧
        ∃ v', findNode (mergeNodeLoop a intoNode otherNode db2 []
          (db2.babblerNodes.filter (fun n => n.BabblerId = b.BabblerId))).1 a.BabblerId
          (redirect intoNode otherNode m).WordId = some v' ∧ v'.NodeId = v.NodeId := by
    intro k v hv
    obtain ⟨m, hm, hmb, hmk⟩ := hkey k v hv
    obtain ⟨v0, v', hv0, hv', hid⟩ := hmap m (List.mem_filter.2 ⟨hm, by simpa using hmb⟩)
    rw [hmk, hv] at hv0
    injection hv0 with hv0
    subst hv0
    exact ⟨m, hm, hmb, hmk, v', hv', hid⟩
  have hvals : ∀ k v, mapGet mapping k = some v →
      OwnId a (mergeNodeLoop a intoNode otherNode db2 []
        (db2.babblerNodes.filter (fun n => n.BabblerId = b.BabblerId))).1 v.NodeId := by
    intro k v hv
    obtain ⟨m, _, _, _, v', hv', hid⟩ := hval k v hv
    obtain ⟨hmem, hbid, _⟩ := findNode_some hv'
    exact ⟨v', hmem, hid, hbid⟩
  have hentries : ∀ e ∈ order mapping, mapGet mapping e.1 = some e.2 := by
    intro e he
    exact mapGet_of_mem hkeys ((horder mapping).mem_iff.1 he)
  refine ⟨db1, db2, _, intoNode, otherNode, mapping, rfl, h2, hwf1, hwf2, ⟨iw, hiw2, hiwid⟩,
    hloop, hmerged, hrun, fun e he => hval e.1 e.2 (hentries e he), ?_⟩
  rw [hrun]
  exact replayLoop_replayed a mapping (order mapping) _ hmerged.1 hvals
    (fun e he => hvals e.1 e.2 (hentries e he))

theorem mergeBabblers_WF (order : Mapping → Mapping) (horder : ∀ m, (order m).Perm m)
    {db : DB} (hwf : WF db) (a b : Babbler) (intoName otherName : String) :
    WF (mergeBabblers order db a b intoName otherName).1 := by
  obtain ⟨_, _, _, _, _, _, _, _, _, _, _, _, _, _, _, hrep⟩ :=
    mergeBabblers_stages order horder hwf a b intoName otherName
  exact hrep.1

theorem reachable_WF {db : DB} (h : Reachable db) : WF db := by
  induction h with
  | init => exact WF_New
  | register name _ ih => exact WF_makeBabbler ih name
  | learn b phrase _ ih => exact (addToMarkovChain_learns ih b phrase).1.1
  | merge order a b intoName otherName horder _ ih =>
    exact mergeBabblers_WF order horder ih a b intoName otherName

/-! ### The terminal marker -/

theorem TerminalOK_New : TerminalOK New := by
  intro n hn
  cases hn

theorem TerminalOK_makeBabbler {db : DB} (h : TerminalOK db) (name : String) :
    TerminalOK (makeBabbler db name).1 := h

/-- In a well-formed store, the node behind the lookup of a word other than the
terminal marker is not a node of the terminal marker. -/
theorem not_terminal_of_nodeIdOf {db : DB} (hwf : WF db) {b : Babbler} {cw : String} {i : Nat}
    (h : nodeIdOf db b cw = some i) (hcw : cw ≠ " ") :
    ∀ n ∈ db.babblerNodes, n.NodeId = i → ∀ w ∈ db.babblerWords, w.WordId = n.WordId →
      w.Word ≠ " " := by
  intro n hn hni w hw hwn
  obtain ⟨n0, hn0, hn0i⟩ := nodeIdOf_eq_some h
  obtain ⟨w0, hw0, hmem0, _, hwid0, _⟩ := getBabblerNode_ok hn0
  obtain ⟨hw0mem, hw0w⟩ := getWord_ok hw0
  have hnn : n = n0 := List.inj_on_of_nodup_map hwf.nodeIds_nodup hn hmem0 (hni.trans hn0i.symm)
  have hww : w = w0 := List.inj_on_of_nodup_map hwf.wordIds_nodup hw hw0mem
    (by rw [hwn, hnn, hwid0])
  rw [hww, hw0w]
  exact hcw

theorem getOrCreateBabblerNode_terminal {db : DB} (hwf : WF db) (ht : TerminalOK db)
    (b : Babbler) (word : String) : TerminalOK (getOrCreateBabblerNode db b word).1 := by
  rcases getOrCreateBabblerNode_eq hwf b word with ⟨n, _, heq⟩ | ⟨_, w, ws, hws, _, _, heq⟩
  · rw [heq]
    exact ht
  · rw [heq]
    intro n hn w' hw' hwn hterm
    simp only [List.mem_append, List.mem_singleton] at hn hw'
    have hold : ∀ x ∈ db.babblerNodes, w' ∉ ws ∨ x.WordId ≠ w'.WordId := by
      intro x hx
      rcases hws with ⟨hnil, _⟩ | ⟨hone, hid, _⟩
      · left; rw [hnil]; exact List.not_mem_nil _
      · by_cases hmem : w' ∈ ws
        · right
          rw [hone, List.mem_singleton] at hmem
          intro hc
          have h1 : x.WordId ∈ wordIds db := hwf.node_word x hx
          rw [hc, hmem, hid] at h1
          exact lastInsertId_not_mem _ h1
        · exact Or.inl hmem
    rcases hn with hn | hn
    · have hw'' : w' ∈ db.babblerWords := by
        rcases hw' with h | h
        · exact h
        · rcases hold n hn with h1 | h1
          · exact absurd h h1
          · exact absurd hwn.symm h1
      exact ht n hn w' hw'' hwn hterm
    · subst hn
      refine ⟨rfl, rfl, ?_⟩
      intro x hx hc
      have h1 := (hwf.arc_closed x hx).1
      rw [hc] at h1
      exact lastInsertId_not_mem _ h1

theorem incrementWordArc_from (db : DB) (n1 n2 : BabblerNode) :
    ∀ x ∈ (incrementWordArc db n1 n2).1.babblerArcs,
      (∃ y ∈ db.babblerArcs, y.FromNodeId = x.FromNodeId) ∨ x.FromNodeId = n1.NodeId := by
  intro x hx
  rw [incrementWordArc_arcs, List.mem_append] at hx
  rcases hx with hx | hx
  · obtain ⟨a0, ha0, hf, _⟩ := mem_updateArcFrequency hx
    exact Or.inl ⟨a0, ha0, hf.symm⟩
  · split at hx
    · rw [List.mem_singleton] at hx
      right
      rw [hx]
    · cases hx

theorem incrementWordArc_terminal {db : DB} (ht : TerminalOK db) (n1 n2 : BabblerNode)
    (h1 : ∀ n ∈ db.babblerNodes, n.NodeId = n1.NodeId → ∀ w ∈ db.babblerWords,
      w.WordId = n.WordId → w.Word ≠ " ") :
    TerminalOK (incrementWordArc db n1 n2).1 := by
  obtain ⟨hw, hn, _⟩ := incrementWordArc_frame db n1 n2
  intro n hnmem w hwmem hwn hterm
  rw [hn] at hnmem
  rw [hw] at hwmem
  obtain ⟨hr, hrf, harcs⟩ := ht n hnmem w hwmem hwn hterm
  refine ⟨hr, hrf, ?_⟩
  intro x hx hc
  rcases incrementWordArc_from db n1 n2 x hx with ⟨y, hy, hyx⟩ | hfrom
  · exact harcs y hy (hyx.trans hc)
  · exact h1 n hnmem (hc.symm.trans hfrom) w hwmem hwn hterm

theorem updateRoot_terminal {db : DB} (ht : TerminalOK db) (id : Nat)
    (h1 : ∀ n ∈ db.babblerNodes, n.NodeId = id → ∀ w ∈ db.babblerWords,
      w.WordId = n.WordId → w.Word ≠ " ") :
    TerminalOK { db with babblerNodes := updateRootById db.babblerNodes id } := by
  intro n' hn' w hw hwn hterm
  simp only [updateRootById, List.mem_map] at hn'
  obtain ⟨n, hn, hnn⟩ := hn'
  by_cases hid : n.NodeId = id
  · rw [if_pos hid] at hnn
    subst hnn
    exact absurd hterm (h1 n hn hid w hw hwn)
  · rw [if_neg hid] at hnn
    subst hnn
    exact ht n hn w hw hwn hterm

theorem incrementRootWordFrequency_terminal {db : DB} (hwf : WF db) (ht : TerminalOK db)
    (b : Babbler) (word : String) (hword : word ≠ " ") :
    TerminalOK (incrementRootWordFrequency db b word).1 := by
  cases hg : getOrCreateBabblerNode db b word with
  | mk db1 node =>
    have hstep := getOrCreateBabblerNode_step hwf b word db1 node hg
    have ht1 : TerminalOK db1 := by
      have := getOrCreateBabblerNode_terminal hwf ht b word
      rw [hg] at this
      exact this
    have heq : (incrementRootWordFrequency db b word).1 =
        { db1 with babblerNodes := updateRootById db1.babblerNodes node.NodeId } := by
      unfold incrementRootWordFrequency
      rw [hg]
    rw [heq]
    exact updateRoot_terminal ht1 node.NodeId
      (not_terminal_of_nodeIdOf hstep.1 hstep.2.2.2.2.1 hword)

theorem addLoop_terminal (b : Babbler) :
    ∀ (ws : List String) (db : DB) (cur : BabblerNode) (cw : String), WF db → TerminalOK db →
      nodeIdOf db b cw = some cur.NodeId → cw ≠ " " → (∀ w ∈ ws, w ≠ " ") →
      TerminalOK (addLoop b db cur ws).1 := by
  intro ws
  induction ws with
  | nil =>
    intro db cur cw hwf ht hcur hcw _
    cases hg : getOrCreateBabblerNode db b " " with
    | mk db1 next =>
      have hstep := getOrCreateBabblerNode_step hwf b " " db1 next hg
      have hl1 := nodeStep_learns hwf hstep
      have hcur1 := hl1.2.2.1 b cw _ hcur
      have ht1 : TerminalOK db1 := by
        have := getOrCreateBabblerNode_terminal hwf ht b " "
        rw [hg] at this
        exact this
      rw [addLoop_nil_fst b db db1 cur next hg]
      exact incrementWordArc_terminal ht1 cur next (not_terminal_of_nodeIdOf hl1.1 hcur1 hcw)
  | cons w ws ih =>
    intro db cur cw hwf ht hcur hcw hws
    cases hg : getOrCreateBabblerNode db b w with
    | mk db1 next =>
      have hstep := getOrCreateBabblerNode_step hwf b w db1 next hg
      have hl1 := nodeStep_learns hwf hstep
      have hcur1 := hl1.2.2.1 b cw _ hcur
      have hl2 := incrementWordArc_learns hl1.1 hcur1 hstep.2.2.2.2.1
      have hnext : nodeIdOf (incrementWordArc db1 cur next).1 b w = some next.NodeId :=
        hl2.2.2.1 b w _ hstep.2.2.2.2.1
      have ht1 : TerminalOK db1 := by
        have := getOrCreateBabblerNode_terminal hwf ht b w
        rw [hg] at this
        exact this
      have ht2 := incrementWordArc_terminal ht1 cur next
        (not_terminal_of_nodeIdOf hl1.1 hcur1 hcw)
      rw [addLoop_cons_eq b db db1 cur next w ws hg]
      exact ih _ next w hl2.1 ht2 hnext (hws w (List.mem_cons_self _ _))
        (fun y hy => hws y (List.mem_cons_of_mem _ hy))

theorem addToMarkovChain_terminal {db : DB} (hwf : WF db) (ht : TerminalOK db) (b : Babbler)
    (phrase : String) : TerminalOK (addToMarkovChain db b phrase).1 := by
  have hterm := terminal_not_mem_tokens phrase
  unfold tokens at hterm
  unfold addToMarkovChain
  cases hf : Fields (ToLower phrase) with
  | nil => exact ht
  | cons word rest =>
    rw [hf] at hterm
    have hword : word ≠ " " := fun hc => hterm (hc ▸ List.mem_cons_self _ _)
    have hrest : ∀ w ∈ rest, w ≠ " " := fun w hw hc => hterm (hc ▸ List.mem_cons_of_mem _ hw)
    simp only
    cases hr : incrementRootWordFrequency db b word with
    | mk db1 cur =>
      have hstep := incrementRootWordFrequency_step hwf b word db1 cur hr
      have ht1 : TerminalOK db1 := by
        have := incrementRootWordFrequency_terminal hwf ht b word hword
        rw [hr] at this
        exact this
      exact addLoop_terminal b rest db1 cur word hstep.1 ht1 hstep.2.2.2.2.1 hword hrest

theorem mergeNode_terminal {db : DB} (hwf : WF db) (ht : TerminalOK db) (A : Babbler)
    (node : BabblerNode)
    (hterm : ∀ w ∈ db.babblerWords, w.WordId = node.WordId → w.Word = " " →
      node.Root = 0 ∧ node.RootFrequency = 0) :
    TerminalOK (mergeNode A db node) := by
  obtain ⟨hw, ha, _⟩ := mergeNode_frame A db node
  intro n' hn' w hwmem hwn hsp
  rw [hw] at hwmem
  rw [ha]
  rw [mergeNode_nodes, List.mem_append] at hn'
  rcases hn' with hn' | hn'
  · rw [updateMerged_eq, List.mem_map] at hn'
    obtain ⟨n, hn, hnn⟩ := hn'
    by_cases hk : n.BabblerId = A.BabblerId ∧ n.WordId = node.WordId
    · rw [if_pos hk] at hnn
      subst hnn
      simp only at hwn ⊢
      obtain ⟨hr, hrf, harcs⟩ := ht n hn w hwmem hwn hsp
      obtain ⟨hnr, hnrf⟩ := hterm w hwmem (hwn.trans hk.2) hsp
      refine ⟨?_, by rw [hrf, hnrf], harcs⟩
      rw [hnr, hr]
      rfl
    · rw [if_neg hk] at hnn
      subst hnn
      exact ht n hn w hwmem hwn hsp
  · split at hn'
    · rw [List.mem_singleton] at hn'
      subst hn'
      simp only at hwn ⊢
      obtain ⟨hnr, hnrf⟩ := hterm w hwmem hwn hsp
      refine ⟨hnr, hnrf, ?_⟩
      intro x hx hc
      have h1 := (hwf.arc_closed x hx).1
      rw [hc] at h1
      exact lastInsertId_not_mem _ h1
    · cases hn'

theorem mergeNodeLoop_terminal (a : Babbler) (intoNode otherNode : BabblerNode) :
    ∀ (nodes : List BabblerNode) (db : DB) (mapping : Mapping), WF db →
      intoNode.WordId ∈ wordIds db →
      (∀ m ∈ nodes, m.WordId ∈ wordIds db ∧
        ((m.Root = 1 ∧ 0 < m.RootFrequency) ∨ (m.Root = 0 ∧ m.RootFrequency = 0))) →
      TerminalOK db →
      (∀ m ∈ nodes, ∀ w ∈ db.babblerWords, w.WordId = (redirect intoNode otherNode m).WordId →
        w.Word = " " → m.Root = 0 ∧ m.RootFrequency = 0) →
      TerminalOK (mergeNodeLoop a intoNode otherNode db mapping nodes).1 := by
  intro nodes
  induction nodes with
  | nil =>
    intro db mapping _ _ _ ht _
    exact ht
  | cons m rest ih =>
    intro db mapping hwf hinto hlist ht hterm
    obtain ⟨upd, _, heq⟩ := mergeNodeLoop_cons a intoNode otherNode db mapping m rest
    rw [heq]
    obtain ⟨hmw, hmr⟩ := hlist m (List.mem_cons_self _ _)
    have hword : (redirect intoNode otherNode m).WordId ∈ wordIds db := by
      unfold redirect
      split
      · exact hinto
      · exact hmw
    have hroot := redirect_Root intoNode otherNode m
    have hstep := mergeNode_merged hwf a (redirect intoNode otherNode m) hword
      (by rw [hroot.1, hroot.2]; exact hmr)
    have hwids : wordIds (mergeNode a db (redirect intoNode otherNode m)) = wordIds db := by
      unfold wordIds; rw [hstep.2.1]
    have ht1 : TerminalOK (mergeNode a db (redirect intoNode otherNode m)) :=
      mergeNode_terminal hwf ht a _ (fun w hw hwn hsp => by
        rw [hroot.1, hroot.2]
        exact hterm m (List.mem_cons_self _ _) w hw hwn hsp)
    exact ih (mergeNode a db (redirect intoNode otherNode m))
      (mapSet mapping m.NodeId upd) hstep.1 (by rw [hwids]; exact hinto)
      (fun x hx => by rw [hwids]; exact hlist x (List.mem_cons_of_mem _ hx)) ht1
      (fun x hx w hw => by
        rw [hstep.2.1] at hw
        exact hterm x (List.mem_cons_of_mem _ hx) w hw)

theorem replayArcs_from (mapping : Mapping) (newNode : BabblerNode) :
    ∀ (arcs : List BabblerArc) (db : DB),
      ∀ x ∈ (replayArcs mapping newNode db arcs).1.babblerArcs,
        (∃ y ∈ db.babblerArcs, y.FromNodeId = x.FromNodeId) ∨
          (arcs ≠ [] ∧ x.FromNodeId = newNode.NodeId) := by
  intro arcs
  induction arcs with
  | nil =>
    intro db x hx
    exact Or.inl ⟨x, hx, rfl⟩
  | cons arc rest ih =>
    intro db x hx
    unfold replayArcs at hx
    cases hv : mapGet mapping arc.ToNodeId with
    | none =>
      rw [hv] at hx
      exact Or.inl ⟨x, hx, rfl⟩
    | some v =>
      rw [hv] at hx
      simp only at hx
      have hfrom := incrementWordArc_from db newNode v
      cases hi : incrementWordArc db newNode v with
      | mk db1 r =>
        rw [hi] at hx hfrom
        simp only at hfrom
        have hx1 : (∃ y ∈ db1.babblerArcs, y.FromNodeId = x.FromNodeId) ∨
            x.FromNodeId = newNode.NodeId := by
          cases r with
          | error e => exact Or.inl ⟨x, hx, rfl⟩
          | ok arc1 =>
            rcases ih db1 x hx with h | h
            · exact Or.inl h
            · exact Or.inr h.2
        rcases hx1 with ⟨y, hy, hyx⟩ | h
        · rcases hfrom y hy with ⟨z, hz, hzy⟩ | h
          · exact Or.inl ⟨z, hz, hzy.trans hyx⟩
          · exact Or.inr ⟨List.cons_ne_nil _ _, hyx.symm.trans h⟩
        · exact Or.inr ⟨List.cons_ne_nil _ _, h⟩

/-- The replay of a merge adds no arc that leaves a node with the property `T`,
when no such arc exists and every entry of the mapping leads from a node
without `T` to a node without `T`. -/
theorem replayLoop_noFrom (T : Nat → Prop) (mapping : Mapping) :
    ∀ (entries : List (Nat × BabblerNode)) (db : DB),
      (∀ e ∈ entries, ¬ T e.1 → ¬ T e.2.NodeId) →
      (∀ x ∈ db.babblerArcs, ¬ T x.FromNodeId) →
      ∀ x ∈ (replayLoop mapping db entries).1.babblerArcs, ¬ T x.FromNodeId := by
  intro entries
  induction entries with
  | nil =>
    intro db _ h x hx
    exact h x hx
  | cons e rest ih =>
    intro db hentries h x hx
    obtain ⟨k, newNode⟩ := e
    have hfrom := replayArcs_from mapping newNode
      (db.babblerArcs.filter (fun y => y.FromNodeId = k)) db
    have h1 : ∀ y ∈ (replayArcs mapping newNode db
        (db.babblerArcs.filter (fun y => y.FromNodeId = k))).1.babblerArcs,
        ¬ T y.FromNodeId := by
      intro y hy
      rcases hfrom y hy with ⟨z, hz, hzy⟩ | ⟨hne, hyn⟩
      · rw [← hzy]
        exact h z hz
      · obtain ⟨z, hz⟩ := List.exists_mem_of_ne_nil _ hne
        rw [List.mem_filter] at hz
        have hzk : z.FromNodeId = k := by simpa using hz.2
        rw [hyn]
        exact hentries (k, newNode) (List.mem_cons_self _ _) (hzk ▸ h z hz.1)
    unfold replayLoop at hx
    cases hr : replayArcs mapping newNode db
        (db.babblerArcs.filter (fun y => y.FromNodeId = k)) with
    | mk db1 err =>
      rw [hr] at hx h1
      simp only at h1
      cases err with
      | some e1 => exact h1 x hx
      | none =>
        exact ih db1 (fun e' he' => hentries e' (List.mem_cons_of_mem _ he')) h1 x hx

theorem boundary_ne_terminal (name : String) : "<" ++ name ++ ">" ≠ " " := by
  intro h
  have := congrArg String.data h
  simp [String.data_append] at this

theorem findNode_of_mem {db : DB} (hwf : WF db) {m : BabblerNode} (hm : m ∈ db.babblerNodes) :
    findNode db m.BabblerId m.WordId = some m := by
  unfold findNode
  apply find?_eq_some_of_unique hm (by simp)
  intro y hy hyk
  have hyk : y.BabblerId = m.BabblerId ∧ y.WordId = m.WordId := by simpa using hyk
  apply List.inj_on_of_nodup_map hwf.nodeKeys_nodup hy hm
  simp only [Prod.mk.injEq]
  exact hyk

theorem mergeBabblers_terminal (order : Mapping → Mapping) (horder : ∀ m, (order m).Perm m)
    {db : DB} (hwf : WF db) (ht : TerminalOK db) (a b : Babbler)
    (intoName otherName : String) :
    TerminalOK (mergeBabblers order db a b intoName otherName).1 := by
  obtain ⟨db1, db2, db3, intoNode, otherNode, mapping, h1, h2, hwf1, hwf2, ⟨iw, hiw, hiwid⟩,
    hloop, hmerged, hrun, hentries, hrep⟩ :=
    mergeBabblers_stages order horder hwf a b intoName otherName
  have ht1 : TerminalOK db1 := by
    have := getOrCreateBabblerNode_terminal hwf ht a ("<" ++ intoName ++ ">")
    rw [h1] at this
    exact this
  have ht2 : TerminalOK db2 := by
    have := getOrCreateBabblerNode_terminal hwf1 ht1 b ("<" ++ otherName ++ ">")
    rw [h2] at this
    exact this
  obtain ⟨hiwmem, hiww⟩ := getWord_ok hiw
  have hinto : intoNode.WordId ∈ wordIds db2 := by
    rw [← hiwid]
    exact List.mem_map_of_mem _ hiwmem
  -- the word of a redirected node is the word of the node, unless it is a boundary word
  have hredirect : ∀ (m : BabblerNode) (w : BabblerWord), w ∈ db2.babblerWords →
      w.WordId = (redirect intoNode otherNode m).WordId → w.Word = " " →
      w.WordId = m.WordId := by
    intro m w hw hwn hsp
    unfold redirect at hwn
    split at hwn
    · simp only at hwn
      have : w = iw := List.inj_on_of_nodup_map hwf2.wordIds_nodup hw hiwmem
        (hwn.trans hiwid.symm)
      rw [this, hiww] at hsp
      exact absurd hsp (boundary_ne_terminal intoName)
    · exact hwn
  have hlist : ∀ m ∈ db2.babblerNodes.filter (fun n => n.BabblerId = b.BabblerId),
      m.WordId ∈ wordIds db2 ∧
        ((m.Root = 1 ∧ 0 < m.RootFrequency) ∨ (m.Root = 0 ∧ m.RootFrequency = 0)) := by
    intro m hm
    have := (List.mem_filter.1 hm).1
    exact ⟨hwf2.node_word m this, hwf2.node_root m this⟩
  have ht3 : TerminalOK db3 := by
    have := mergeNodeLoop_terminal a intoNode otherNode
      (db2.babblerNodes.filter (fun n => n.BabblerId = b.BabblerId)) db2 [] hwf2 hinto hlist ht2
      (fun m hm w hw hwn hsp => by
        have hmem := (List.mem_filter.1 hm).1
        obtain ⟨hr, hrf, _⟩ := ht2 m hmem w hw (hredirect m w hw hwn hsp) hsp
        exact ⟨hr, hrf⟩)
    rw [hloop] at this
    exact this
  have hwf3 := hmerged.1
  have hwords3 : db3.babblerWords = db2.babblerWords := hmerged.2.1
  let T : Nat → Prop := fun i => ∃ n ∈ db3.babblerNodes, n.NodeId = i ∧
    ∃ w ∈ db3.babblerWords, w.WordId = n.WordId ∧ w.Word = " "
  have hT3 : ∀ x ∈ db3.babblerArcs, ¬ T x.FromNodeId := by
    rintro x hx ⟨n, hn, hni, w, hw, hwn, hsp⟩
    exact (ht3 n hn w hw hwn hsp).2.2 x hx hni.symm
  have hTe : ∀ e ∈ order mapping, ¬ T e.1 → ¬ T e.2.NodeId := by
    rintro e he hnot ⟨n, hn, hni, w, hw, hwn, hsp⟩
    apply hnot
    obtain ⟨m, hm, hmb, hmk, v', hv', hvid⟩ := hentries e he
    obtain ⟨hv'mem, _, hv'w⟩ := findNode_some hv'
    have hnv : n = v' := List.inj_on_of_nodup_map hwf3.nodeIds_nodup hn hv'mem
      (hni.trans hvid.symm)
    have hwm : w.WordId = m.WordId :=
      hredirect m w (hwords3 ▸ hw) (by rw [hwn, hnv, hv'w]) hsp
    -- the row of `db3` with the id of `m` has the word of `m`
    have hrow : ∃ n2 ∈ db3.babblerNodes, n2.NodeId = m.NodeId ∧ n2.WordId = m.WordId := by
      by_cases hma : m.BabblerId = a.BabblerId
      · have hf := findNode_of_mem hwf2 hm
        rw [hma] at hf
        obtain ⟨n', hn', hn'id⟩ := hmerged.2.2.2.2.2.2.1 m.WordId m hf
        obtain ⟨hn'mem, _, hn'w⟩ := findNode_some hn'
        exact ⟨n', hn'mem, hn'id, hn'w⟩
      · exact ⟨m, hmerged.2.2.2.2.1 m hm hma, rfl, rfl⟩
    obtain ⟨n2, hn2, hn2id, hn2w⟩ := hrow
    exact ⟨n2, hn2, hn2id.trans hmk, w, hw, hwm.trans hn2w.symm, hsp⟩
  have hTfinal := replayLoop_noFrom T mapping (order mapping) db3 hTe hT3
  rw [← hrun] at hTfinal
  intro n hn w hw hwn hsp
  rw [hrep.2.1] at hn
  rw [hrep.2.2.1] at hw
  obtain ⟨hr, hrf, _⟩ := ht3 n hn w hw hwn hsp
  refine ⟨hr, hrf, ?_⟩
  intro x hx hc
  exact hTfinal x hx ⟨n, hn, hc.symm, w, hw, hwn, hsp⟩

theorem reachable_terminal {db : DB} (h : Reachable db) : TerminalOK db := by
  induction h with
  | init => exact TerminalOK_New
  | register name _ ih => exact TerminalOK_makeBabbler ih name
  | learn b phrase hr ih => exact addToMarkovChain_terminal (reachable_WF hr) ih b phrase
  | merge order a b intoName otherName horder hr ih =>
    exact mergeBabblers_terminal order horder (reachable_WF hr) ih a b intoName otherName

theorem reachable_learnAll (hist : History) : ∀ db : DB, Reachable db →
    Reachable (learnAll db hist) := by
  induction hist with
  | nil => intro db h; exact h
  | cons op hist ih =>
    intro db h
    cases op with
    | register name => exact ih _ (Reachable.register name h)
    | learn b phrase => exact ih _ (Reachable.learn b phrase h)

theorem affectedArcRows_of_absent {arcs : List BabblerArc} {f t : Nat}
    (h : ∀ x ∈ arcs, ¬ (x.FromNodeId = f ∧ x.ToNodeId = t)) : affectedArcRows arcs f t = 0 := by
  unfold affectedArcRows
  rw [List.length_eq_zero, List.filter_eq_nil_iff]
  intro x hx hc
  exact h x hx (by simpa using hc)

theorem incrementWordArc_ends (db : DB) (n1 n2 : BabblerNode) :
    ∀ x ∈ (incrementWordArc db n1 n2).1.babblerArcs,
      (∃ y ∈ db.babblerArcs, y.FromNodeId = x.FromNodeId ∧ y.ToNodeId = x.ToNodeId) ∨
        (x.FromNodeId = n1.NodeId ∧ x.ToNodeId = n2.NodeId) := by
  intro x hx
  rw [incrementWordArc_arcs, List.mem_append] at hx
  rcases hx with hx | hx
  · obtain ⟨a0, ha0, hf, ht, _⟩ := mem_updateArcFrequency hx
    exact Or.inl ⟨a0, ha0, hf.symm, ht.symm⟩
  · split at hx
    · rw [List.mem_singleton] at hx
      right
      rw [hx]
      exact ⟨rfl, rfl⟩
    · cases hx

/-- A replay of arcs whose targets are all in the mapping ends without error,
and every arc row it leaves has the ends of an earlier row or leads from the
new node to a node of the mapping. -/
theorem replayArcs_noPanic (mapping : Mapping) (newNode : BabblerNode) :
    ∀ (arcs : List BabblerArc) (db : DB),
      (∀ x ∈ arcs, ∃ v, mapGet mapping x.ToNodeId = some v) →
      (replayArcs mapping newNode db arcs).2 = none ∧
      ∀ x ∈ (replayArcs mapping newNode db arcs).1.babblerArcs,
        (∃ y ∈ db.babblerArcs, y.FromNodeId = x.FromNodeId ∧ y.ToNodeId = x.ToNodeId) ∨
          (x.FromNodeId = newNode.NodeId ∧
            ∃ k v, mapGet mapping k = some v ∧ x.ToNodeId = v.NodeId) := by
  intro arcs
  induction arcs with
  | nil =>
    intro db _
    exact ⟨rfl, fun x hx => Or.inl ⟨x, hx, rfl, rfl⟩⟩
  | cons arc rest ih =>
    intro db htargets
    obtain ⟨v, hv⟩ := htargets arc (List.mem_cons_self _ _)
    obtain ⟨arc1, harc1⟩ := incrementWordArc_ok db newNode v
    have heq : replayArcs mapping newNode db (arc :: rest) =
        replayArcs mapping newNode (incrementWordArc db newNode v).1 rest := by
      conv => lhs; unfold replayArcs
      rw [hv]
      simp only
      cases hi : incrementWordArc db newNode v with
      | mk db1 r =>
        rw [hi] at harc1
        simp only at harc1
        subst harc1
        rfl
    rw [heq]
    obtain ⟨hnone, hrows⟩ := ih (incrementWordArc db newNode v).1
      (fun y hy => htargets y (List.mem_cons_of_mem _ hy))
    refine ⟨hnone, fun x hx => ?_⟩
    rcases hrows x hx with ⟨y, hy, hyf, hyt⟩ | h
    · rcases incrementWordArc_ends db newNode v y hy with ⟨z, hz, hzf, hzt⟩ | ⟨hf, ht⟩
      · exact Or.inl ⟨z, hz, hzf.trans hyf, hzt.trans hyt⟩
      · exact Or.inr ⟨hyf.symm.trans hf, arc.ToNodeId, v, hv, hyt.symm.trans ht⟩
    · exact Or.inr h

theorem replayLoop_noPanic (mapping : Mapping) :
    ∀ (entries : List (Nat × BabblerNode)) (db : DB),
      (∀ e ∈ entries, mapGet mapping e.1 = some e.2) →
      (∀ x ∈ db.babblerArcs, (∃ v, mapGet mapping x.FromNodeId = some v) →
        ∃ v, mapGet mapping x.ToNodeId = some v) →
      (∀ k v, mapGet mapping k = some v → (∃ u, mapGet mapping v.NodeId = some u) →
        ∀ k2 v2, mapGet mapping k2 = some v2 → ∃ u, mapGet mapping v2.NodeId = some u) →
      (replayLoop mapping db entries).2 = none := by
  intro entries
  induction entries with
  | nil => intro db _ _ _; rfl
  | cons e rest ih =>
    intro db hentries hinv hvals
    obtain ⟨k, newNode⟩ := e
    have hk : mapGet mapping k = some newNode := hentries (k, newNode) (List.mem_cons_self _ _)
    have htargets : ∀ x ∈ db.babblerArcs.filter (fun x => x.FromNodeId = k),
        ∃ v, mapGet mapping x.ToNodeId = some v := by
      intro x hx
      rw [List.mem_filter] at hx
      have hxk : x.FromNodeId = k := by simpa using hx.2
      exact hinv x hx.1 ⟨newNode, hxk ▸ hk⟩
    obtain ⟨hnone, hrows⟩ := replayArcs_noPanic mapping newNode
      (db.babblerArcs.filter (fun x => x.FromNodeId = k)) db htargets
    have heq : replayLoop mapping db ((k, newNode) :: rest) =
        replayLoop mapping (replayArcs mapping newNode db
          (db.babblerArcs.filter (fun x => x.FromNodeId = k))).1 rest := by
      conv => lhs; unfold replayLoop
      cases hr : replayArcs mapping newNode db
          (db.babblerArcs.filter (fun x => x.FromNodeId = k)) with
      | mk db1 err =>
        rw [hr] at hnone
        simp only at hnone
        subst hnone
        rfl
    rw [heq]
    apply ih _ (fun e' he' => hentries e' (List.mem_cons_of_mem _ he')) _ hvals
    intro x hx hfrom
    rcases hrows x hx with ⟨y, hy, hyf, hyt⟩ | ⟨hf, k2, v2, hv2, ht⟩
    · rw [← hyt]
      exact hinv y hy (by rw [hyf]; exact hfrom)
    · rw [ht]
      exact hvals k newNode hk (by rw [← hf]; exact hfrom) k2 v2 hv2

/-- The node loop of a merge inserts no row when the target speaker has a row
for the word of every merged node. -/
theorem mergeNodeLoop_ids_of_present (a : Babbler) (intoNode otherNode : BabblerNode) :
    ∀ (nodes : List BabblerNode) (db : DB) (mapping : Mapping),
      (∀ m ∈ nodes, ∃ n, findNode db a.BabblerId (redirect intoNode otherNode m).WordId =
        some n) →
      nodeIds (mergeNodeLoop a intoNode otherNode db mapping nodes).1 = nodeIds db := by
  intro nodes
  induction nodes with
  | nil => intro db mapping _; rfl
  | cons m rest ih =>
    intro db mapping hpresent
    obtain ⟨upd, _, heq⟩ := mergeNodeLoop_cons a intoNode otherNode db mapping m rest
    rw [heq]
    obtain ⟨n, hn⟩ := hpresent m (List.mem_cons_self _ _)
    have hids : nodeIds (mergeNode a db (redirect intoNode otherNode m)) = nodeIds db := by
      unfold nodeIds
      rw [mergeNode_nodes, hn]
      simp only [reduceCtorEq, if_false, List.append_nil]
      exact updateMerged_ids _ _ _ _ _
    rw [ih _ _ (fun y hy => by
      obtain ⟨n', hn'⟩ := hpresent y (List.mem_cons_of_mem _ hy)
      rw [findNode_mergeNode]
      split
      · rw [hn']
        exact ⟨_, rfl⟩
      · exact ⟨n', hn'⟩), hids]

/-- On a well-formed store `mergeBabblers` returns no error, for any two
speakers: the node loop finds every row it has written, and the replay finds
the target of every arc in the mapping. -/
theorem mergeBabblers_noError (order : Mapping → Mapping) (horder : ∀ m, (order m).Perm m)
    {db : DB} (hwf : WF db) (a b : Babbler) (intoName otherName : String) :
    (mergeBabblers order db a b intoName otherName).2 = none := by
  cases h1 : getOrCreateBabblerNode db a ("<" ++ intoName ++ ">") with
  | mk db1 intoNode =>
  cases h2 : getOrCreateBabblerNode db1 b ("<" ++ otherName ++ ">") with
  | mk db2 otherNode =>
  obtain ⟨hwf1, _, _, _, ind, hind, _, _, _⟩ :=
    getOrCreateBabblerNode_spec hwf a _ db1 intoNode h1
  obtain ⟨hwf2, _⟩ := getOrCreateBabblerNode_spec hwf1 b _ db2 otherNode h2
  obtain ⟨hw2, _, hl2⟩ := getOrCreateBabblerNode_mono hwf1 b _ db2 otherNode h2
  obtain ⟨iw, hiw, hiwid⟩ := getOrCreateBabblerNode_word hwf a _ db1 intoNode h1
  have hiw2 : getWord db2 ("<" ++ intoName ++ ">") = .ok iw :=
    (getWord_ok_iff hwf2).2 ⟨hw2 _ (getWord_ok hiw).1, (getWord_ok hiw).2⟩
  have hinto : intoNode.WordId ∈ wordIds db2 := by
    rw [← hiwid]
    exact List.mem_map_of_mem _ (getWord_ok hiw2).1
  have hintoRow : ∃ n, findNode db2 a.BabblerId intoNode.WordId = some n := by
    have hlook := hl2 a _ ind hind
    rw [getBabblerNode_eq_findNode hiw2, hiwid] at hlook
    cases hf : findNode db2 a.BabblerId intoNode.WordId with
    | some n => exact ⟨n, rfl⟩
    | none =>
      rw [hf] at hlook
      cases hlook
  have hlist : ∀ m ∈ db2.babblerNodes.filter (fun n => n.BabblerId = b.BabblerId),
      m.WordId ∈ wordIds db2 ∧
        ((m.Root = 1 ∧ 0 < m.RootFrequency) ∨ (m.Root = 0 ∧ m.RootFrequency = 0)) := by
    intro m hm
    have := (List.mem_filter.1 hm).1
    exact ⟨hwf2.node_word m this, hwf2.node_root m this⟩
  obtain ⟨⟨mapping, hmapping⟩, hmerged⟩ := mergeNodeLoop_merged a intoNode otherNode
    (db2.babblerNodes.filter (fun n => n.BabblerId = b.BabblerId)) db2 [] hwf2 hinto hlist
  have hloop : mergeNodeLoop a intoNode otherNode db2 []
      (db2.babblerNodes.filter (fun n => n.BabblerId = b.BabblerId)) =
      ((mergeNodeLoop a intoNode otherNode db2 []
        (db2.babblerNodes.filter (fun n => n.BabblerId = b.BabblerId))).1, .ok mapping) := by
    rw [← hmapping]
  have hrun := mergeBabblers_eq order db a b intoName otherName db1 db2 _ intoNode otherNode
    mapping h1 h2 hloop
  have hnodup : ((db2.babblerNodes.filter (fun n => n.BabblerId = b.BabblerId)).map
      (·.NodeId)).Nodup :=
    (hwf2.nodeIds_nodup).sublist ((List.filter_sublist _).map _)
  obtain ⟨hkeep, hmap⟩ := mergeNodeLoop_mapping a intoNode otherNode _ db2 [] mapping hnodup
    hmapping
  have hkeys := mergeNodeLoop_keys_nodup a intoNode otherNode _ db2 [] mapping
    List.nodup_nil hmapping
  have hwf3 := hmerged.1
  -- the keys of the mapping are the ids of the nodes of `b`
  have hkey : ∀ k v, mapGet mapping k = some v →
      ∃ m ∈ db2.babblerNodes, m.BabblerId = b.BabblerId ∧ m.NodeId = k := by
    intro k v hv
    by_contra hc
    have : k ∉ (db2.babblerNodes.filter (fun n => n.BabblerId = b.BabblerId)).map
        (·.NodeId) := by
      intro hmem
      obtain ⟨m, hm, hmk⟩ := List.mem_map.1 hmem
      rw [List.mem_filter] at hm
      exact hc ⟨m, hm.1, by simpa using hm.2, hmk⟩
    rw [hkeep k this] at hv
    cases hv
  have hmapped : ∀ m ∈ db2.babblerNodes, m.BabblerId = b.BabblerId →
      ∃ v, mapGet mapping m.NodeId = some v := by
    intro m hm hmb
    obtain ⟨v, _, hv, _⟩ := hmap m (List.mem_filter.2 ⟨hm, by simpa using hmb⟩)
    exact ⟨v, hv⟩
  -- the values of the mapping are rows of `a` after the node loop
  have hval : ∀ k v, mapGet mapping k = some v →
      ∃ v' ∈ (mergeNodeLoop a intoNode otherNode db2 []
        (db2.babblerNodes.filter (fun n => n.BabblerId = b.BabblerId))).1.babblerNodes,
        v'.BabblerId = a.BabblerId ∧ v'.NodeId = v.NodeId := by
    intro k v hv
    obtain ⟨m, hm, hmb, hmk⟩ := hkey k v hv
    obtain ⟨v0, v', hv0, hv', hid⟩ := hmap m (List.mem_filter.2 ⟨hm, by simpa using hmb⟩)
    rw [hmk, hv] at hv0
    injection hv0 with hv0
    subst hv0
    obtain ⟨hmem, hbid, _⟩ := findNode_some hv'
    exact ⟨v', hmem, hbid, hid⟩
  have hentries : ∀ e ∈ order mapping, mapGet mapping e.1 = some e.2 := by
    intro e he
    exact mapGet_of_mem hkeys ((horder mapping).mem_iff.1 he)
  have hinv : ∀ x ∈ (mergeNodeLoop a intoNode otherNode db2 []
      (db2.babblerNodes.filter (fun n => n.BabblerId = b.BabblerId))).1.babblerArcs,
      (∃ v, mapGet mapping x.FromNodeId = some v) →
        ∃ v, mapGet mapping x.ToNodeId = some v := by
    intro x hx ⟨v, hv⟩
    rw [hmerged.2.2.1] at hx
    obtain ⟨m, hm, hmb, hmk⟩ := hkey _ v hv
    obtain ⟨m2, hm2, hm2id⟩ := List.mem_map.1 (hwf2.arc_closed x hx).2
    have hsame := hwf2.arc_speaker x hx m hm m2 hm2 hmk hm2id
    obtain ⟨v2, hv2⟩ := hmapped m2 hm2 (hsame.symm.trans hmb)
    exact ⟨v2, hm2id ▸ hv2⟩
  have hclosed : ∀ k v, mapGet mapping k = some v →
      (∃ u, mapGet mapping v.NodeId = some u) →
      ∀ k2 v2, mapGet mapping k2 = some v2 → ∃ u, mapGet mapping v2.NodeId = some u := by
    intro k v hv ⟨u, hu⟩ k2 v2 hv2
    obtain ⟨v', hv'mem, hv'b, hv'id⟩ := hval k v hv
    obtain ⟨m', hm', hm'b, hm'id⟩ := hkey _ u hu
    -- a value that is a key: the two speakers have one id
    have hab : b.BabblerId = a.BabblerId := by
      by_contra hne
      have hm3 := hmerged.2.2.2.2.1 m' hm' (by rw [hm'b]; exact hne)
      have : m' = v' := List.inj_on_of_nodup_map hwf3.nodeIds_nodup hm3 hv'mem
        (hm'id.trans hv'id.symm)
      rw [this, hv'b] at hm'b
      exact hne hm'b.symm
    have hids := mergeNodeLoop_ids_of_present a intoNode otherNode
      (db2.babblerNodes.filter (fun n => n.BabblerId = b.BabblerId)) db2 []
      (fun m hm => by
        rw [List.mem_filter] at hm
        have hmb : m.BabblerId = b.BabblerId := by simpa using hm.2
        unfold redirect
        split
        · exact hintoRow
        · exact ⟨m, by rw [← hab, ← hmb]; exact findNode_of_mem hwf2 hm.1⟩)
    obtain ⟨v2', hv2'mem, hv2'b, hv2'id⟩ := hval k2 v2 hv2
    have hmem2 : v2.NodeId ∈ nodeIds db2 := by
      rw [← hids, ← hv2'id]
      exact List.mem_map_of_mem _ hv2'mem
    obtain ⟨r, hr, hrid⟩ := List.mem_map.1 hmem2
    have hrb : r.BabblerId = b.BabblerId := by
      by_contra hne
      have hr3 := hmerged.2.2.2.2.1 r hr (by rw [← hab]; exact hne)
      have : r = v2' := List.inj_on_of_nodup_map hwf3.nodeIds_nodup hr3 hv2'mem
        (hrid.trans hv2'id.symm)
      rw [this, hv2'b, ← hab] at hne
      exact hne rfl
    obtain ⟨u2, hu2⟩ := hmapped r hr hrb
    exact ⟨u2, hrid ▸ hu2⟩
  rw [hrun]
  exact replayLoop_noPanic mapping (order mapping) _ hentries hinv hclosed

/-! ## The dispatch of chat lines -/

theorem isPrefixOf_iff_append :
    ∀ (sub l : List Char), sub.isPrefixOf l = true ↔ ∃ rest, l = sub ++ rest := by
  intro sub
  induction sub with
  | nil => intro l; simp
  | cons x xs ih =>
    intro l
    cases l with
    | nil => simp [List.isPrefixOf]
    | cons y ys =>
      simp only [List.isPrefixOf, Bool.and_eq_true, beq_iff_eq, ih, List.cons_append,
        List.cons.injEq]
      constructor
      · rintro ⟨hxy, rest, hr⟩
        exact ⟨rest, hxy.symm, hr⟩
      · rintro ⟨rest, hxy, hr⟩
        exact ⟨hxy.symm, rest, hr⟩

theorem indexLoop_ge (sub : List Char) :
    ∀ (cs : List Char) (i : Nat), indexLoop sub cs i = -1 ∨ (i : Int) ≤ indexLoop sub cs i := by
  intro cs
  induction cs with
  | nil =>
    intro i
    unfold indexLoop
    split
    · exact Or.inr (le_refl _)
    · exact Or.inl rfl
  | cons c cs ih =>
    intro i
    unfold indexLoop
    split
    · exact Or.inr (le_refl _)
    · rcases ih (i + 1) with h | h
      · exact Or.inl h
      · right
        have : (i : Int) ≤ ((i + 1 : Nat) : Int) := by omega
        exact le_trans this h

/-- The comparison `strings.Index(s, substr) == 0` holds exactly when `s` begins
with `substr`. -/
theorem Index_eq_zero_iff (s substr : String) :
    Index s substr = 0 ↔ ∃ rest, s.data = substr.data ++ rest := by
  unfold Index
  cases hs : s.data with
  | nil =>
    unfold indexLoop
    constructor
    · intro h
      split at h
      · rename_i hsub
        exact ⟨[], by rw [hsub]; rfl⟩
      · cases h
    · rintro ⟨rest, hr⟩
      have : substr.data = [] := (List.append_eq_nil.1 hr.symm).1
      rw [if_pos this]
      rfl
  | cons c cs =>
    unfold indexLoop
    rw [← isPrefixOf_iff_append]
    constructor
    · intro h
      split at h
      · assumption
      · rcases indexLoop_ge substr.data cs (0 + 1) with h1 | h1
        · rw [h1] at h
          cases h
        · rw [h] at h1
          omega
    · intro h
      rw [if_pos h]
      rfl

theorem fieldsLoop_cur :
    ∀ (rest cur : List Char), cur ≠ [] →
      ∃ (t : String) (ts : List String) (r : List Char),
        fieldsLoop rest cur = t :: ts ∧ t.data = cur.reverse ++ r := by
  intro rest
  induction rest with
  | nil =>
    intro cur hcur
    cases cur with
    | nil => exact absurd rfl hcur
    | cons x xs => exact ⟨_, [], [], rfl, by simp⟩
  | cons c cs ih =>
    intro cur hcur
    unfold fieldsLoop
    split
    · cases cur with
      | nil => exact absurd rfl hcur
      | cons x xs => exact ⟨_, _, [], rfl, by simp⟩
    · obtain ⟨t, ts, r, h1, h2⟩ := ih (c :: cur) (List.cons_ne_nil _ _)
      exact ⟨t, ts, c :: r, h1, by rw [h2]; simp⟩

theorem fields_merge_babbler (rest : List Char) :
    ∃ (t : String) (ts : List String) (r : List Char),
      fieldsLoop ("merge babbler".data ++ rest) [] = "merge" :: t :: ts ∧
        t.data = "babbler".data ++ r := by
  obtain ⟨t, ts, r, h1, h2⟩ := fieldsLoop_cur rest "babbler".data.reverse (by decide)
  refine ⟨t, ts, r, ?_, by rw [h2, List.reverse_reverse]⟩
  rw [← h1]
  rfl

theorem fields_initialize_babbler_for (rest : List Char) :
    fieldsLoop ("initialize babbler for ".data ++ rest) [] =
      "initialize" :: "babbler" :: "for" :: fieldsLoop rest [] := by
  rfl

theorem says_not_babbler {t : String} {r : List Char} (h : t.data = "babbler".data ++ r) :
    t ≠ "says" := by
  intro hc
  rw [hc] at h
  cases h

theorem Message_merge_iff (body : String) :
    Message body = .merge ↔
      (Fields (ToLower body)).length = 5 ∧
        ∃ rest, (ToLower body).data = "merge babbler".data ++ rest := by
  have hshape : (∃ rest, (ToLower body).data = "merge babbler".data ++ rest) →
      ¬ ((Fields (ToLower body)).length ≥ 2 ∧ (Fields (ToLower body))[1]? = some "says") := by
    rintro ⟨rest, hr⟩ ⟨_, hsays⟩
    obtain ⟨t, ts, r, h1, h2⟩ := fields_merge_babbler rest
    unfold Fields at hsays
    rw [hr, h1] at hsays
    simp only [List.getElem?_cons_succ, List.getElem?_cons_zero, Option.some.injEq] at hsays
    exact says_not_babbler h2 hsays
  have hbatch : (∃ rest, (ToLower body).data = "merge babbler".data ++ rest) →
      ¬ Index (ToLower body) "batch learn for " = 0 := by
    rintro ⟨rest, hr⟩ hc
    obtain ⟨rest2, hr2⟩ := (Index_eq_zero_iff _ _).1 hc
    rw [hr] at hr2
    cases hr2
  unfold Message
  simp only
  split_ifs with h1 h2 h3 h4
  · constructor
    · intro h; cases h
    · rintro ⟨_, hp⟩
      exact absurd h1 (hshape hp)
  · constructor
    · intro h; cases h
    · rintro ⟨hlen, _⟩
      rw [h2.1] at hlen
      cases hlen
  · constructor
    · intro h; cases h
    · rintro ⟨_, hp⟩
      exact absurd h3 (hbatch hp)
  · exact ⟨fun _ => ⟨h4.1, (Index_eq_zero_iff _ _).1 h4.2⟩, fun _ => rfl⟩
  · constructor
    · intro h; cases h
    · rintro ⟨hlen, hp⟩
      exact absurd ⟨hlen, (Index_eq_zero_iff _ _).2 hp⟩ h4

theorem Message_initialize_iff (body : String) :
    Message body = .initializeBabbler ↔
      (Fields (ToLower body)).length = 4 ∧
        ∃ rest, (ToLower body).data = "initialize babbler for ".data ++ rest := by
  have hshape : (∃ rest, (ToLower body).data = "initialize babbler for ".data ++ rest) →
      ¬ ((Fields (ToLower body)).length ≥ 2 ∧ (Fields (ToLower body))[1]? = some "says") := by
    rintro ⟨rest, hr⟩ ⟨_, hsays⟩
    unfold Fields at hsays
    rw [hr, fields_initialize_babbler_for] at hsays
    simp only [List.getElem?_cons_succ, List.getElem?_cons_zero, Option.some.injEq] at hsays
    exact absurd hsays (by decide)
  unfold Message
  simp only
  split_ifs with h1 h2 h3 h4
  · constructor
    · intro h; cases h
    · rintro ⟨_, hp⟩
      exact absurd h1 (hshape hp)
  · exact ⟨fun _ => ⟨h2.1, (Index_eq_zero_iff _ _).1 h2.2⟩, fun _ => rfl⟩
  · constructor
    · intro h; cases h
    · rintro ⟨hlen, hp⟩
      exact absurd ⟨hlen, (Index_eq_zero_iff _ _).2 hp⟩ h2
  · constructor
    · intro h; cases h
    · rintro ⟨hlen, hp⟩
      exact absurd ⟨hlen, (Index_eq_zero_iff _ _).2 hp⟩ h2
  · constructor
    · intro h; cases h
    · rintro ⟨hlen, hp⟩
      exact absurd ⟨hlen, (Index_eq_zero_iff _ _).2 hp⟩ h2

/-! ## The leftpad plugin -/

theorem splitLoop_ne_nil (sep : Char) : ∀ (cs cur : List Char), splitLoop sep cs cur ≠ [] := by
  intro cs
  induction cs with
  | nil => intro cur; simp [splitLoop]
  | cons c cs ih =>
    intro cur
    unfold splitLoop
    split
    · exact List.cons_ne_nil _ _
    · exact ih _

theorem intercalate_splitLoop (sep : Char) :
    ∀ (cs cur : List Char),
      List.intercalate [sep] ((splitLoop sep cs cur).map String.data) = cur.reverse ++ cs := by
  intro cs
  induction cs with
  | nil =>
    intro cur
    simp [splitLoop, List.intercalate]
  | cons c cs ih =>
    intro cur
    unfold splitLoop
    split
    · rename_i hc
      cases hs : splitLoop sep cs [] with
      | nil => exact absurd hs (splitLoop_ne_nil sep cs [])
      | cons b l =>
        have := ih []
        rw [hs] at this
        simp only [List.map_cons] at this ⊢
        rw [intercalate_cons_cons, this, hc]
        simp
    · rw [ih]
      simp

/-- Joining the parts of a split with the separator gives the string back. -/
theorem Join_Split (s : String) : Join (Split s ' ') " " = s := by
  unfold Join Split
  have := intercalate_splitLoop ' ' s.data []
  simp only [List.reverse_nil, List.nil_append] at this
  show String.mk (List.intercalate [' '] _) = s
  rw [this]

/-! ## Walks on learned stores -/

theorem loopStore_next (r : Nat) :
    getWeightedNextWord loopStore ⟨1, 1, 2, 1, 1⟩ r = .ok (⟨1, 1, 2, 1, 1⟩, ⟨2, "a"⟩) := by
  have key : ∀ which < 2, arcLoop loopStore which 0 [⟨1, 1, 1, 1⟩, ⟨2, 1, 2, 1⟩] =
      .ok (⟨1, 1, 2, 1, 1⟩, ⟨2, "a"⟩) := by decide
  exact key (r % 2) (Nat.mod_lt _ (by decide))

theorem loopStore_walk (rnd : Nat → Nat) :
    ∀ (fuel i : Nat) (words : List String),
      babbleLoop loopStore rnd fuel i ⟨1, 1, 2, 1, 1⟩ words = none := by
  intro fuel
  induction fuel with
  | zero => intro i words; rfl
  | succ fuel ih =>
    intro i words
    unfold babbleLoop
    rw [loopStore_next]
    simp only
    rw [if_neg (by decide)]
    exact ih _ _

theorem loopStore_root (r : Nat) :
    getWeightedRootNode loopStore alice r = .ok (⟨1, 1, 2, 1, 1⟩, ⟨2, "a"⟩) := by
  have key : ∀ which < 1, rootLoop loopStore which 0 [⟨1, 1, 2, 1, 1⟩] =
      .ok (⟨1, 1, 2, 1, 1⟩, ⟨2, "a"⟩) := by decide
  exact key (r % 1) (Nat.mod_lt _ (by decide))

theorem of_mem_spokenWords {phrase u : String} (h : u ∈ spokenWords phrase) :
    u ∈ tokens phrase ∨ u = " " := by
  unfold spokenWords at h
  cases ht : tokens phrase with
  | nil => rw [ht] at h; cases h
  | cons word rest =>
    rw [ht] at h
    simp only at h
    rw [List.mem_append, List.mem_singleton] at h
    exact h

theorem occurrences_pos {us : List String} {phrase u : String} (hp : phrase ∈ us)
    (hu : u ∈ tokens phrase) : 1 ≤ occurrences us u := by
  unfold occurrences
  induction us with
  | nil => cases hp
  | cons p rest ih =>
    simp only [List.map_cons, List.sum_cons]
    rcases List.mem_cons.1 hp with h | h
    · subst h
      have := List.count_pos_iff.2 hu
      omega
    · have := ih h
      omega

/-- In a store built by learning, an arc leaves the node of every word other
than the terminal marker. -/
theorem learned_node_has_arcs {hist : History} {s : Babbler} {u : String} {n : BabblerNode}
    (hn : getBabblerNode (learnAll New hist) s u = .ok n) (hu : u ≠ " ") :
    (learnAll New hist).babblerArcs.filter (fun a => a.FromNodeId = n.NodeId) ≠ [] := by
  rcases node_of_learned hist New WF_New s u n.NodeId (nodeIdOf_of_ok hn) with h | ⟨p, hp, hup⟩
  · rw [nodeIdOf_of_error (getBabblerNode_New s u)] at h
    cases h
  · have htok : u ∈ tokens p := (of_mem_spokenWords hup).resolve_right hu
    have hocc := occurrences_pos hp htok
    have hout := (learnAll_spec hist New WF_New).2.2.1 s u
    rw [outFrequency_New, Nat.zero_add] at hout
    have hsum : outFrequency (learnAll New hist) s u = outSum (learnAll New hist) n.NodeId := by
      unfold outFrequency
      rw [hn]
    rw [hsum] at hout
    intro hc
    unfold outSum at hout
    rw [hc] at hout
    simp at hout
    omega

theorem getWeightedNextWord_missing {db : DB} {fromNode : BabblerNode} {r : Nat}
    (h : getWeightedNextWord db fromNode r = .error .MISSING_ARCS) :
    db.babblerArcs.filter (fun a => a.FromNodeId = fromNode.NodeId) = [] := by
  by_contra hne
  unfold getWeightedNextWord at h
  simp only at h
  rw [if_neg (fun hc => hne (List.length_eq_zero.1 hc))] at h
  cases hi : Int63n ((List.map (fun x => x.Frequency)
      (List.filter (fun a => decide (a.FromNodeId = fromNode.NodeId)) db.babblerArcs)).sum) r with
  | error e1 =>
    rw [hi] at h
    injection h with h
    rw [Int63n_error hi] at h
    cases h
  | ok which =>
    rw [hi] at h
    rcases arcLoop_error _ _ h with h1 | h1 <;> cases h1

theorem rootLoop_error {db : DB} {which : Nat} {e : Error} :
    ∀ (nodes : List BabblerNode) (total : Nat), rootLoop db which total nodes = .error e →
      e = .FATAL ∨ e = .ErrNoRows := by
  intro nodes
  induction nodes with
  | nil =>
    intro total h
    unfold rootLoop at h
    injection h with h
    exact Or.inl h.symm
  | cons n rest ih =>
    intro total h
    unfold rootLoop at h
    split at h
    · cases hw : getWordById db n.WordId with
      | error e1 =>
        rw [hw] at h
        injection h with h
        exact Or.inr (h ▸ getWordById_error hw)
      | ok w =>
        rw [hw] at h
        cases h
    · exact ih _ h

theorem getWeightedRootNode_error {db : DB} {b : Babbler} {r : Nat} {e : Error}
    (h : getWeightedRootNode db b r = .error e) : e ≠ .MISSING_ARCS := by
  unfold getWeightedRootNode at h
  simp only at h
  split at h
  · injection h with h; subst h; intro hc; cases hc
  · cases hi : Int63n ((List.map (fun x => x.RootFrequency)
        (List.filter (fun n => decide (n.BabblerId = b.BabblerId ∧ n.Root = 1))
          db.babblerNodes)).sum) r with
    | error e1 =>
      rw [hi] at h
      injection h with h
      rw [← h, Int63n_error hi]
      decide
    | ok which =>
      rw [hi] at h
      rcases rootLoop_error _ _ h with h | h <;> rw [h] <;> decide

theorem babbleLoop_no_missing_arcs {hist : History} {s : Babbler} (rnd : Nat → Nat) :
    ∀ (fuel i : Nat) (cur : BabblerNode) (words : List String) (lastw out : String),
      getBabblerNode (learnAll New hist) s lastw = .ok cur → lastw ≠ " " →
      babbleLoop (learnAll New hist) rnd fuel i cur words ≠ some (out, some .MISSING_ARCS) := by
  intro fuel
  induction fuel with
  | zero =>
    intro i cur words lastw out _ _ h
    unfold babbleLoop at h
    cases h
  | succ fuel ih =>
    intro i cur words lastw out hcur hlast h
    unfold babbleLoop at h
    cases hn : getWeightedNextWord (learnAll New hist) cur (rnd i) with
    | error e =>
      rw [hn] at h
      simp only at h
      injection h with h
      injection h with _ h
      injection h with h
      subst h
      exact learned_node_has_arcs hcur hlast (getWeightedNextWord_missing hn)
    | ok p =>
      obtain ⟨node, w⟩ := p
      rw [hn] at h
      simp only at h
      split at h
      · cases h
      · rename_i hw
        exact ih _ _ _ _ _ (next_word_learned hcur hn).1 hw h

/-! ## The weighted draws return -/

theorem getWordById_of_mem {db : DB} {id : Nat} (h : id ∈ wordIds db) :
    ∃ w, getWordById db id = .ok w := by
  obtain ⟨w0, hw0, hid⟩ := List.mem_map.1 h
  unfold getWordById
  cases hf : db.babblerWords.find? (fun w => w.WordId = id) with
  | some w => exact ⟨w, rfl⟩
  | none =>
    rw [List.find?_eq_none] at hf
    exact absurd (by simpa using hid) (hf w0 hw0)

theorem getNodeById_of_mem {db : DB} {id : Nat} (h : id ∈ nodeIds db) :
    ∃ n, getNodeById db id = .ok n := by
  obtain ⟨n0, hn0, hid⟩ := List.mem_map.1 h
  unfold getNodeById
  cases hf : db.babblerNodes.find? (fun n => n.NodeId = id) with
  | some n => exact ⟨n, rfl⟩
  | none =>
    rw [List.find?_eq_none] at hf
    exact absurd (by simpa using hid) (hf n0 hn0)

/-- The selection loop over root nodes returns one of them when the draw is at
most the sum that the loop reaches and every node has its word row. -/
theorem rootLoop_returns {db : DB} (which : Nat) :
    ∀ (nodes : List BabblerNode) (total : Nat), nodes ≠ [] →
      which ≤ total + (nodes.map (·.RootFrequency)).sum →
      (∀ n ∈ nodes, ∃ w, getWordById db n.WordId = .ok w) →
      ∃ node w, node ∈ nodes ∧ rootLoop db which total nodes = .ok (node, w) := by
  intro nodes
  induction nodes with
  | nil => intro _ h; exact absurd rfl h
  | cons n rest ih =>
    intro total _ hle hwords
    unfold rootLoop
    by_cases hge : total + n.RootFrequency ≥ which
    · rw [if_pos hge]
      obtain ⟨w, hw⟩ := hwords n (List.mem_cons_self _ _)
      rw [hw]
      exact ⟨n, w, List.mem_cons_self _ _, rfl⟩
    · rw [if_neg hge]
      have hrest : rest ≠ [] := by
        intro hc
        subst hc
        simp at hle
        omega
      have hle' : which ≤ total + n.RootFrequency + (rest.map (·.RootFrequency)).sum := by
        simp only [List.map_cons, List.sum_cons] at hle
        omega
      obtain ⟨node, w, hmem, hres⟩ := ih (total + n.RootFrequency) hrest hle'
        (fun m hm => hwords m (List.mem_cons_of_mem _ hm))
      exact ⟨node, w, List.mem_cons_of_mem _ hmem, hres⟩

theorem arcLoop_returns {db : DB} (which : Nat) :
    ∀ (arcs : List BabblerArc) (total : Nat), arcs ≠ [] →
      which ≤ total + (arcs.map (·.Frequency)).sum →
      (∀ a ∈ arcs, ∃ node w, getNodeById db a.ToNodeId = .ok node ∧
        getWordById db node.WordId = .ok w) →
      ∃ node w, arcLoop db which total arcs = .ok (node, w) := by
  intro arcs
  induction arcs with
  | nil => intro _ h; exact absurd rfl h
  | cons a rest ih =>
    intro total _ hle hrows
    unfold arcLoop
    by_cases hge : total + a.Frequency ≥ which
    · rw [if_pos hge]
      obtain ⟨node, w, hn, hw⟩ := hrows a (List.mem_cons_self _ _)
      rw [hn]
      simp only
      rw [hw]
      exact ⟨node, w, rfl⟩
    · rw [if_neg hge]
      have hrest : rest ≠ [] := by
        intro hc
        subst hc
        simp at hle
        omega
      have hle' : which ≤ total + a.Frequency + (rest.map (·.Frequency)).sum := by
        simp only [List.map_cons, List.sum_cons] at hle
        omega
      exact ih (total + a.Frequency) hrest hle'
        (fun m hm => hrows m (List.mem_cons_of_mem _ hm))

theorem sum_pos_of_mem (l : List Nat) (hne : l ≠ []) (h : ∀ x ∈ l, 1 ≤ x) : 1 ≤ l.sum := by
  cases l with
  | nil => exact absurd rfl hne
  | cons x xs =>
    have := h x (List.mem_cons_self _ _)
    simp only [List.sum_cons]
    omega

/-- On a well-formed store the draw among the root nodes of a speaker has a
positive total and returns one of the root nodes. -/
theorem getWeightedRootNode_safe {db : DB} (hwf : WF db) (b : Babbler) :
    db.babblerNodes.filter (fun n => n.BabblerId = b.BabblerId ∧ n.Root = 1) ≠ [] →
    1 ≤ ((db.babblerNodes.filter
        (fun n => n.BabblerId = b.BabblerId ∧ n.Root = 1)).map (·.RootFrequency)).sum ∧
    (∀ which, which < ((db.babblerNodes.filter
        (fun n => n.BabblerId = b.BabblerId ∧ n.Root = 1)).map (·.RootFrequency)).sum →
      ∃ node w, node ∈ db.babblerNodes.filter
          (fun n => n.BabblerId = b.BabblerId ∧ n.Root = 1) ∧
        rootLoop db which 0 (db.babblerNodes.filter
          (fun n => n.BabblerId = b.BabblerId ∧ n.Root = 1)) = .ok (node, w)) ∧
    ∀ r, ∃ node w, getWeightedRootNode db b r = .ok (node, w) := by
  intro hne
  have hwords : ∀ n ∈ db.babblerNodes.filter
      (fun n => n.BabblerId = b.BabblerId ∧ n.Root = 1),
      ∃ w, getWordById db n.WordId = .ok w := by
    intro n hn
    exact getWordById_of_mem (hwf.node_word n (List.mem_filter.1 hn).1)
  have hpos : 1 ≤ ((db.babblerNodes.filter
      (fun n => n.BabblerId = b.BabblerId ∧ n.Root = 1)).map (·.RootFrequency)).sum := by
    apply sum_pos_of_mem
    · intro hc
      exact hne (List.map_eq_nil_iff.1 hc)
    · intro x hx
      obtain ⟨n, hn, hnx⟩ := List.mem_map.1 hx
      rw [List.mem_filter] at hn
      have hroot : n.Root = 1 := by
        have := hn.2
        simp only [decide_eq_true_eq] at this
        exact this.2
      rcases hwf.node_root n hn.1 with h | h
      · rw [← hnx]; exact h.2
      · omega
  have hloop : ∀ which, which < ((db.babblerNodes.filter
        (fun n => n.BabblerId = b.BabblerId ∧ n.Root = 1)).map (·.RootFrequency)).sum →
      ∃ node w, node ∈ db.babblerNodes.filter
          (fun n => n.BabblerId = b.BabblerId ∧ n.Root = 1) ∧
        rootLoop db which 0 (db.babblerNodes.filter
          (fun n => n.BabblerId = b.BabblerId ∧ n.Root = 1)) = .ok (node, w) := by
    intro which hlt
    exact rootLoop_returns which _ 0 hne (by omega) hwords
  refine ⟨hpos, hloop, fun r => ?_⟩
  unfold getWeightedRootNode
  simp only
  rw [if_neg (fun hc => hne (List.length_eq_zero.1 hc))]
  unfold Int63n
  rw [if_neg (by omega)]
  simp only
  obtain ⟨node, w, _, hres⟩ := hloop (r % _) (Nat.mod_lt _ (by omega))
  exact ⟨node, w, hres⟩

/-- On a well-formed store the draw among the arcs that leave a node has a
positive total and returns the target of one of them. -/
theorem getWeightedNextWord_safe {db : DB} (hwf : WF db) (fromNode : BabblerNode) :
    db.babblerArcs.filter (fun a => a.FromNodeId = fromNode.NodeId) ≠ [] →
    1 ≤ ((db.babblerArcs.filter
        (fun a => a.FromNodeId = fromNode.NodeId)).map (·.Frequency)).sum ∧
    (∀ which, which < ((db.babblerArcs.filter
        (fun a => a.FromNodeId = fromNode.NodeId)).map (·.Frequency)).sum →
      ∃ node w, arcLoop db which 0 (db.babblerArcs.filter
          (fun a => a.FromNodeId = fromNode.NodeId)) = .ok (node, w)) ∧
    ∀ r, ∃ node w, getWeightedNextWord db fromNode r = .ok (node, w) := by
  intro hne
  have hrows : ∀ a ∈ db.babblerArcs.filter (fun a => a.FromNodeId = fromNode.NodeId),
      ∃ node w, getNodeById db a.ToNodeId = .ok node ∧ getWordById db node.WordId = .ok w := by
    intro a ha
    obtain ⟨node, hnode⟩ := getNodeById_of_mem (hwf.arc_closed a (List.mem_filter.1 ha).1).2
    obtain ⟨w, hw⟩ := getWordById_of_mem (hwf.node_word node (getNodeById_ok hnode).1)
    exact ⟨node, w, hnode, hw⟩
  have hpos : 1 ≤ ((db.babblerArcs.filter
      (fun a => a.FromNodeId = fromNode.NodeId)).map (·.Frequency)).sum := by
    apply sum_pos_of_mem
    · intro hc
      exact hne (List.map_eq_nil_iff.1 hc)
    · intro x hx
      obtain ⟨a, ha, hax⟩ := List.mem_map.1 hx
      rw [← hax]
      exact hwf.arc_pos a (List.mem_filter.1 ha).1
  have hloop : ∀ which, which < ((db.babblerArcs.filter
        (fun a => a.FromNodeId = fromNode.NodeId)).map (·.Frequency)).sum →
      ∃ node w, arcLoop db which 0 (db.babblerArcs.filter
          (fun a => a.FromNodeId = fromNode.NodeId)) = .ok (node, w) := by
    intro which hlt
    exact arcLoop_returns which _ 0 hne (by omega) hrows
  refine ⟨hpos, hloop, fun r => ?_⟩
  unfold getWeightedNextWord
  simp only
  rw [if_neg (fun hc => hne (List.length_eq_zero.1 hc))]
  unfold Int63n
  rw [if_neg (by omega)]
  simp only
  exact hloop (r % _) (Nat.mod_lt _ (by omega))

/-! ## The draws on `int64` values -/

theorem wrapInt64_of_lt {n : Nat} (h : n < 2 ^ 63) : wrapInt64 (n : Int) = (n : Int) := by
  unfold wrapInt64
  have h' : (n : Int) < 2 ^ 63 := by exact_mod_cast h
  rw [Int.emod_eq_of_lt (by positivity) (by norm_num at h' ⊢; omega)]
  ring

theorem scanNodes_of_range :
    ∀ rows : List BabblerNode, (∀ n ∈ rows, n.RootFrequency < 2 ^ 63) →
      Sqlite.scanNodes rows = .ok rows := by
  intro rows
  induction rows with
  | nil => intro _; rfl
  | cons row rows ih =>
    intro h
    unfold Sqlite.scanNodes Sqlite.scanNode
    rw [if_pos (h row (List.mem_cons_self _ _))]
    simp only
    rw [ih (fun n hn => h n (List.mem_cons_of_mem _ hn))]

theorem scanArcs_of_range :
    ∀ rows : List BabblerArc, (∀ x ∈ rows, x.Frequency < 2 ^ 63) →
      Sqlite.scanArcs rows = .ok rows := by
  intro rows
  induction rows with
  | nil => intro _; rfl
  | cons row rows ih =>
    intro h
    unfold Sqlite.scanArcs Sqlite.scanArc
    rw [if_pos (h row (List.mem_cons_self _ _))]
    simp only
    rw [ih (fun n hn => h n (List.mem_cons_of_mem _ hn))]

theorem int64_getWordById {db : DB} {id : Nat} {w : BabblerWord}
    (h : getWordById db id = .ok w) : Sqlite.getWordById db id = .ok w := by
  unfold getWordById at h
  unfold Sqlite.getWordById
  cases hf : db.babblerWords.find? (fun w => w.WordId = id) with
  | none => rw [hf] at h; cases h
  | some w' =>
    rw [hf] at h
    injection h with h
    rw [h]

theorem int64_getNodeById {db : DB} (hrange : Int64Store db) {id : Nat} {n : BabblerNode}
    (h : getNodeById db id = .ok n) : Sqlite.getNodeById db id = .ok n := by
  unfold getNodeById at h
  unfold Sqlite.getNodeById
  cases hf : db.babblerNodes.find? (fun n => n.NodeId = id) with
  | none => rw [hf] at h; cases h
  | some n' =>
    rw [hf] at h
    injection h with h
    subst h
    simp only
    unfold Sqlite.scanNode
    rw [if_pos (hrange.1 _ (List.mem_of_find?_eq_some hf))]

theorem sum_lt_of_le_cons {x : Nat} {xs : List Nat} {total bound : Nat}
    (h : total + (x :: xs).sum < bound) : total + x < bound ∧ total + x + xs.sum < bound := by
  simp only [List.sum_cons] at h
  omega

theorem int64_rootLoop {db : DB} (which : Nat) :
    ∀ (nodes : List BabblerNode) (total : Nat) (p : BabblerNode × BabblerWord),
      total + (nodes.map (·.RootFrequency)).sum < 2 ^ 63 →
      rootLoop db which total nodes = .ok p →
      Sqlite.rootLoop db (which : Int) (total : Int) nodes = .ok p := by
  intro nodes
  induction nodes with
  | nil => intro total p _ h; unfold rootLoop at h; cases h
  | cons n rest ih =>
    intro total p hsum h
    obtain ⟨h1, h2⟩ := sum_lt_of_le_cons (by simpa using hsum)
    unfold rootLoop at h
    unfold Sqlite.rootLoop
    have hw : wrapInt64 ((total : Int) + (n.RootFrequency : Int)) =
        ((total + n.RootFrequency : Nat) : Int) := by
      have := wrapInt64_of_lt h1
      rw [Nat.cast_add] at this
      rw [this, Nat.cast_add]
    rw [hw]
    by_cases hge : total + n.RootFrequency ≥ which
    · rw [if_pos hge] at h
      rw [if_pos (by exact_mod_cast hge)]
      cases hg : getWordById db n.WordId with
      | error e => rw [hg] at h; cases h
      | ok w =>
        rw [hg] at h
        rw [int64_getWordById hg]
        simp only at h ⊢
        rw [Except.ok.inj h]
    · rw [if_neg hge] at h
      rw [if_neg (by exact_mod_cast hge)]
      exact ih _ p h2 h

theorem int64_arcLoop {db : DB} (hrange : Int64Store db) (which : Nat) :
    ∀ (arcs : List BabblerArc) (total : Nat) (p : BabblerNode × BabblerWord),
      total + (arcs.map (·.Frequency)).sum < 2 ^ 63 →
      arcLoop db which total arcs = .ok p →
      Sqlite.arcLoop db (which : Int) (total : Int) arcs = .ok p := by
  intro arcs
  induction arcs with
  | nil => intro total p _ h; unfold arcLoop at h; cases h
  | cons a rest ih =>
    intro total p hsum h
    obtain ⟨h1, h2⟩ := sum_lt_of_le_cons (by simpa using hsum)
    unfold arcLoop at h
    unfold Sqlite.arcLoop
    have hw : wrapInt64 ((total : Int) + (a.Frequency : Int)) =
        ((total + a.Frequency : Nat) : Int) := by
      have := wrapInt64_of_lt h1
      rw [Nat.cast_add] at this
      rw [this, Nat.cast_add]
    rw [hw]
    by_cases hge : total + a.Frequency ≥ which
    · rw [if_pos hge] at h
      rw [if_pos (by exact_mod_cast hge)]
      cases hn : getNodeById db a.ToNodeId with
      | error e => rw [hn] at h; cases h
      | ok node =>
        rw [hn] at h
        simp only at h
        rw [int64_getNodeById hrange hn]
        simp only
        cases hg : getWordById db node.WordId with
        | error e => rw [hg] at h; cases h
        | ok w =>
          rw [hg] at h
          rw [int64_getWordById hg]
          simp only at h ⊢
          rw [Except.ok.inj h]
    · rw [if_neg hge] at h
      rw [if_neg (by exact_mod_cast hge)]
      exact ih _ p h2 h

theorem total64_of_lt {xs : List Nat} (h : xs.sum < 2 ^ 63) :
    Sqlite.total64 xs = (xs.sum : Int) := by
  unfold Sqlite.total64
  exact wrapInt64_of_lt h

theorem int64_Int63n {n r : Nat} (h : n ≠ 0) :
    Sqlite.Int63n (n : Int) r = .ok (((r % n : Nat)) : Int) := by
  unfold Sqlite.Int63n
  rw [if_neg (by omega), Int.natCast_mod]

theorem int64_getWeightedRootNode {db : DB} (hrange : Int64Store db) (b : Babbler) (r : Nat)
    (p : BabblerNode × BabblerWord)
    (hsum : ((db.babblerNodes.filter
      (fun n => n.BabblerId = b.BabblerId ∧ n.Root = 1)).map (·.RootFrequency)).sum < 2 ^ 63)
    (h : getWeightedRootNode db b r = .ok p) :
    Sqlite.getWeightedRootNode db b r = .ok p := by
  unfold getWeightedRootNode at h
  unfold Sqlite.getWeightedRootNode
  rw [scanNodes_of_range _ (fun n hn => hrange.1 n (List.mem_filter.1 hn).1)]
  simp only at h ⊢
  by_cases hlen : (db.babblerNodes.filter
      (fun n => n.BabblerId = b.BabblerId ∧ n.Root = 1)).length = 0
  · rw [if_pos hlen] at h
    cases h
  · rw [if_neg hlen] at h ⊢
    rw [total64_of_lt hsum]
    generalize hroots : db.babblerNodes.filter
      (fun n => n.BabblerId = b.BabblerId ∧ n.Root = 1) = roots at h hsum ⊢
    have hloop := @int64_rootLoop db (r % (roots.map (·.RootFrequency)).sum) roots 0 p
      (by rw [Nat.zero_add]; exact hsum)
    generalize hS : (roots.map (·.RootFrequency)).sum = S at h hsum hloop ⊢
    unfold Int63n at h
    by_cases hz : S = 0
    · rw [if_pos hz] at h
      cases h
    · rw [if_neg hz] at h
      rw [int64_Int63n hz]
      exact hloop h

theorem int64_getWeightedNextWord {db : DB} (hrange : Int64Store db) (fromNode : BabblerNode)
    (r : Nat) (p : BabblerNode × BabblerWord)
    (hsum : ((db.babblerArcs.filter
      (fun a => a.FromNodeId = fromNode.NodeId)).map (·.Frequency)).sum < 2 ^ 63)
    (h : getWeightedNextWord db fromNode r = .ok p) :
    Sqlite.getWeightedNextWord db fromNode r = .ok p := by
  unfold getWeightedNextWord at h
  unfold Sqlite.getWeightedNextWord
  rw [scanArcs_of_range _ (fun x hx => hrange.2 x (List.mem_filter.1 hx).1)]
  simp only at h ⊢
  by_cases hlen : (db.babblerArcs.filter (fun a => a.FromNodeId = fromNode.NodeId)).length = 0
  · rw [if_pos hlen] at h
    cases h
  · rw [if_neg hlen] at h ⊢
    rw [total64_of_lt hsum]
    generalize harcs : db.babblerArcs.filter
      (fun a => a.FromNodeId = fromNode.NodeId) = arcs at h hsum ⊢
    have hloop := int64_arcLoop hrange (r % (arcs.map (·.Frequency)).sum) arcs 0 p
      (by rw [Nat.zero_add]; exact hsum)
    generalize hS : (arcs.map (·.Frequency)).sum = S at h hsum hloop ⊢
    unfold Int63n at h
    by_cases hz : S = 0
    · rw [if_pos hz] at h
      cases h
    · rw [if_neg hz] at h
      rw [int64_Int63n hz]
      exact hloop h

/-! ## Counters only grow -/

theorem grows_refl (db : DB) : Grows db db :=
  ⟨fun n hn => ⟨n, hn, le_refl _⟩, fun x hx => ⟨x, hx, le_refl _⟩⟩

theorem grows_trans {db1 db2 db3 : DB} (h12 : Grows db1 db2) (h23 : Grows db2 db3) :
    Grows db1 db3 := by
  refine ⟨fun n hn => ?_, fun x hx => ?_⟩
  · obtain ⟨n', hn', h1⟩ := h12.1 n hn
    obtain ⟨n'', hn'', h2⟩ := h23.1 n' hn'
    exact ⟨n'', hn'', le_trans h1 h2⟩
  · obtain ⟨x', hx', h1⟩ := h12.2 x hx
    obtain ⟨x'', hx'', h2⟩ := h23.2 x' hx'
    exact ⟨x'', hx'', le_trans h1 h2⟩

theorem int64Store_of_grows {db db' : DB} (h : Grows db db') (hr : Int64Store db') :
    Int64Store db := by
  refine ⟨fun n hn => ?_, fun x hx => ?_⟩
  · obtain ⟨n', hn', h1⟩ := h.1 n hn
    exact lt_of_le_of_lt h1 (hr.1 n' hn')
  · obtain ⟨x', hx', h1⟩ := h.2 x hx
    exact lt_of_le_of_lt h1 (hr.2 x' hx')

theorem grows_of_rows {db db' : DB}
    (hn : ∀ n ∈ db.babblerNodes, ∃ n' ∈ db'.babblerNodes, n.RootFrequency ≤ n'.RootFrequency)
    (hx : db'.babblerArcs = db.babblerArcs) : Grows db db' :=
  ⟨hn, fun x h => ⟨x, by rw [hx]; exact h, le_refl _⟩⟩

theorem grows_nodes_map_append (nodes extra : List BabblerNode) (f : BabblerNode → BabblerNode)
    (hf : ∀ n, n.RootFrequency ≤ (f n).RootFrequency) :
    ∀ n ∈ nodes, ∃ n' ∈ nodes.map f ++ extra, n.RootFrequency ≤ n'.RootFrequency :=
  fun n hn => ⟨f n, List.mem_append_left _ (List.mem_map_of_mem f hn), hf n⟩

theorem grows_arcs_map_append (arcs extra : List BabblerArc) (f : BabblerArc → BabblerArc)
    (hf : ∀ x, x.Frequency ≤ (f x).Frequency) :
    ∀ x ∈ arcs, ∃ x' ∈ arcs.map f ++ extra, x.Frequency ≤ x'.Frequency :=
  fun x hx => ⟨f x, List.mem_append_left _ (List.mem_map_of_mem f hx), hf x⟩

theorem grows_getOrCreateWord (db : DB) (word : String) :
    (getOrCreateWord db word).1.babblerNodes = db.babblerNodes ∧
      (getOrCreateWord db word).1.babblerArcs = db.babblerArcs := by
  unfold getOrCreateWord
  split
  · exact ⟨rfl, rfl⟩
  · exact ⟨rfl, rfl⟩

theorem grows_createBabblerNode (db : DB) (b : Babbler) (word : String) :
    Grows db (createBabblerNode db b word).1 := by
  obtain ⟨h1, h2⟩ := grows_getOrCreateWord db word
  unfold createBabblerNode
  simp only
  refine ⟨fun n hn => ⟨n, ?_, le_refl _⟩, fun x hx => ⟨x, ?_, le_refl _⟩⟩
  · simp only [h1]
    exact List.mem_append_left _ hn
  · simp only [h2]
    exact hx

theorem grows_getOrCreateBabblerNode (db : DB) (b : Babbler) (word : String) :
    Grows db (getOrCreateBabblerNode db b word).1 := by
  unfold getOrCreateBabblerNode
  split
  · exact grows_refl db
  · exact grows_createBabblerNode db b word

theorem grows_updateRoot (db : DB) (id : Nat) :
    Grows db { db with babblerNodes := updateRootById db.babblerNodes id } := by
  refine ⟨fun n hn => ?_, fun x hx => ⟨x, hx, le_refl _⟩⟩
  have := grows_nodes_map_append db.babblerNodes []
    (fun n => if n.NodeId = id then
      { n with RootFrequency := n.RootFrequency + 1, Root := 1 } else n)
    (fun n => by
      by_cases h : n.NodeId = id
      · simp only [if_pos h]; exact Nat.le_succ _
      · simp only [if_neg h]; exact le_refl _) n hn
  simpa [updateRootById] using this

theorem grows_incrementRootWordFrequency (db : DB) (b : Babbler) (word : String) :
    Grows db (incrementRootWordFrequency db b word).1 := by
  unfold incrementRootWordFrequency
  exact grows_trans (grows_getOrCreateBabblerNode db b word) (grows_updateRoot _ _)

theorem grows_incrementWordArc (db : DB) (n1 n2 : BabblerNode) :
    Grows db (incrementWordArc db n1 n2).1 := by
  refine ⟨fun n hn => ⟨n, ?_, le_refl _⟩, fun x hx => ?_⟩
  · unfold incrementWordArc
    simp only
    split <;> exact hn
  · have := grows_arcs_map_append db.babblerArcs []
      (fun a => if a.FromNodeId = n1.NodeId ∧ a.ToNodeId = n2.NodeId then
        { a with Frequency := a.Frequency + 1 } else a)
      (fun a => by
        by_cases h : a.FromNodeId = n1.NodeId ∧ a.ToNodeId = n2.NodeId
        · simp only [if_pos h]; exact Nat.le_succ _
        · simp only [if_neg h]; exact le_refl _) x hx
    obtain ⟨x', hx', hle⟩ := this
    rw [List.append_nil] at hx'
    refine ⟨x', ?_, hle⟩
    unfold incrementWordArc
    simp only
    split
    · exact List.mem_append_left _ hx'
    · exact hx'

theorem grows_incrementFinalWordArcHelper (db : DB) (b : Babbler) (node : BabblerNode) :
    Grows db (incrementFinalWordArcHelper db b node).1 := by
  unfold incrementFinalWordArcHelper
  exact grows_trans (grows_getOrCreateBabblerNode db b " ") (grows_incrementWordArc _ _ _)

theorem grows_addLoop (b : Babbler) :
    ∀ (words : List String) (db : DB) (cur : BabblerNode),
      Grows db (addLoop b db cur words).1 := by
  intro words
  induction words with
  | nil =>
    intro db cur
    unfold addLoop
    have := grows_incrementFinalWordArcHelper db b cur
    split <;> (rename_i h; rw [h] at this; exact this)
  | cons w rest ih =>
    intro db cur
    unfold addLoop
    simp only
    have h1 := grows_getOrCreateBabblerNode db b w
    have h2 := grows_incrementWordArc (getOrCreateBabblerNode db b w).1 cur
      (getOrCreateBabblerNode db b w).2
    split
    · rename_i h
      rw [h] at h2
      exact grows_trans h1 h2
    · rename_i h
      rw [h] at h2
      exact grows_trans h1 (grows_trans h2 (ih _ _))

theorem grows_addToMarkovChain (db : DB) (b : Babbler) (phrase : String) :
    Grows db (addToMarkovChain db b phrase).1 := by
  unfold addToMarkovChain
  split
  · exact grows_refl db
  · exact grows_trans (grows_incrementRootWordFrequency db b _) (grows_addLoop b _ _ _)

/-! ## The calls on SQLite values and on texts and natural numbers agree -/

theorem numericAffinity_of_text (real : Conversion) {w : String} (h : keptAsText w) :
    numericAffinity real w = w := by
  unfold keptAsText at h
  unfold numericAffinity
  rw [h]

theorem keptAsText_terminal : keptAsText " " := by decide

theorem sim_getWord (real : Conversion) (db : DB) (w : String) :
    Sqlite.getWord real db w = (getWord db (numericAffinity real w)).mapError Failure.go := by
  unfold Sqlite.getWord getWord
  cases db.babblerWords.find? (fun x => x.Word = numericAffinity real w) <;> rfl

theorem sim_createNewWord (real : Conversion) (db : DB) (w : String) :
    Sqlite.createNewWord real db w =
      ((createNewWord db (numericAffinity real w)).1,
        ⟨(createNewWord db (numericAffinity real w)).2.WordId, w⟩) := rfl

theorem sim_getOrCreateWord (real : Conversion) (db : DB) (w : String) :
    ∃ x : BabblerWord, x.WordId = (getOrCreateWord db (numericAffinity real w)).2.WordId ∧
      Sqlite.getOrCreateWord real db w =
        ((getOrCreateWord db (numericAffinity real w)).1, .ok x) := by
  unfold Sqlite.getOrCreateWord getOrCreateWord
  rw [sim_getWord real db w]
  cases hg : getWord db (numericAffinity real w) with
  | ok x => exact ⟨x, rfl, rfl⟩
  | error e =>
    have he : e = .NEVER_SAID := by
      unfold getWord at hg
      split at hg
      · cases hg
      · injection hg with hg
        exact hg.symm
    subst he
    simp only [Except.mapError]
    exact ⟨⟨(createNewWord db (numericAffinity real w)).2.WordId, w⟩, rfl, rfl⟩

theorem sim_getBabblerNode (real : Conversion) {db : DB} (hr : Int64Store db) (b : Babbler)
    (w : String) :
    Sqlite.getBabblerNode real db b w =
      (getBabblerNode db b (numericAffinity real w)).mapError Failure.go := by
  unfold Sqlite.getBabblerNode getBabblerNode
  rw [sim_getWord real db w]
  cases getWord db (numericAffinity real w) with
  | error e => rfl
  | ok x =>
    simp only [Except.mapError]
    cases hf : db.babblerNodes.find?
        (fun n => n.BabblerId = b.BabblerId ∧ n.WordId = x.WordId) with
    | none => rfl
    | some row =>
      simp only
      unfold Sqlite.scanNode
      rw [if_pos (hr.1 row (List.mem_of_find?_eq_some hf))]

theorem sim_createBabblerNode (real : Conversion) (db : DB) (b : Babbler) (w : String) :
    Sqlite.createBabblerNode real db b w =
      ((createBabblerNode db b (numericAffinity real w)).1,
        .ok (createBabblerNode db b (numericAffinity real w)).2) := by
  obtain ⟨x, hx, hsim⟩ := sim_getOrCreateWord real db w
  unfold Sqlite.createBabblerNode createBabblerNode
  rw [hsim]
  simp only [hx]

theorem sim_getOrCreateBabblerNode (real : Conversion) {db : DB} (hr : Int64Store db)
    (b : Babbler) (w : String) :
    Sqlite.getOrCreateBabblerNode real db b w =
      ((getOrCreateBabblerNode db b (numericAffinity real w)).1,
        .ok (getOrCreateBabblerNode db b (numericAffinity real w)).2) := by
  unfold Sqlite.getOrCreateBabblerNode getOrCreateBabblerNode
  rw [sim_getBabblerNode real hr b w]
  cases hg : getBabblerNode db b (numericAffinity real w) with
  | ok n => rfl
  | error e =>
    simp only [Except.mapError]
    exact sim_createBabblerNode real db b w

theorem sim_incrementRootWordFrequency (real : Conversion) {db : DB} (hr : Int64Store db)
    (b : Babbler) (w : String) :
    Sqlite.incrementRootWordFrequency real db b w =
      ((incrementRootWordFrequency db b (numericAffinity real w)).1,
        .ok (incrementRootWordFrequency db b (numericAffinity real w)).2) := by
  unfold Sqlite.incrementRootWordFrequency incrementRootWordFrequency
  rw [sim_getOrCreateBabblerNode real hr b w]

theorem sim_getBabblerArc {db : DB} (hr : Int64Store db) (n1 n2 : BabblerNode) :
    Sqlite.getBabblerArc db n1 n2 = (getBabblerArc db n1 n2).mapError Failure.go := by
  unfold Sqlite.getBabblerArc getBabblerArc
  cases hf : db.babblerArcs.find?
      (fun a => a.FromNodeId = n1.NodeId ∧ a.ToNodeId = n2.NodeId) with
  | none => rfl
  | some row =>
    simp only
    unfold Sqlite.scanArc
    rw [if_pos (hr.2 row (List.mem_of_find?_eq_some hf))]
    rfl

theorem sim_incrementWordArc {db : DB} (n1 n2 : BabblerNode)
    (hr : Int64Store (incrementWordArc db n1 n2).1) :
    Sqlite.incrementWordArc db n1 n2 =
      ((incrementWordArc db n1 n2).1, (incrementWordArc db n1 n2).2.mapError Failure.go) := by
  have h1 : Sqlite.incrementWordArc db n1 n2 =
      ((incrementWordArc db n1 n2).1,
        Sqlite.getBabblerArc (incrementWordArc db n1 n2).1 n1 n2) := rfl
  have h2 : (incrementWordArc db n1 n2).2 =
      getBabblerArc (incrementWordArc db n1 n2).1 n1 n2 := rfl
  rw [h1, sim_getBabblerArc hr, ← h2]

theorem atofType_of_head (c : Char) (rest : List Char) (hs : asciiSpace c = false)
    (hd : c.isDigit = false) (h1 : c ≠ '-') (h2 : c ≠ '+') (h3 : c ≠ '.') (h4 : c ≠ 'e')
    (h5 : c ≠ 'E') : atofType ⟨c :: rest⟩ = 0 := by
  have e1 : List.dropWhile asciiSpace (c :: rest) = c :: rest := by
    rw [List.dropWhile_cons, hs]; rfl
  have e2 : dropSign (c :: rest) = c :: rest := by
    unfold dropSign
    split
    · rename_i heq; injection heq with heq _; exact absurd heq h1
    · rename_i heq; injection heq with heq _; exact absurd heq h2
    · rfl
  have e3 : List.takeWhile Char.isDigit (c :: rest) = [] := by
    rw [List.takeWhile_cons, hd]; rfl
  have e4 : List.dropWhile Char.isDigit (c :: rest) = c :: rest := by
    rw [List.dropWhile_cons, hd]; rfl
  have e5 : exponentPart (c :: rest) = (false, true, c :: rest) := by
    unfold exponentPart
    split
    · rename_i heq; injection heq with heq _; exact absurd heq h4
    · rename_i heq; injection heq with heq _; exact absurd heq h5
    · rfl
  have e6 : (match c :: rest with
      | '.' :: r => (true, List.takeWhile Char.isDigit r, List.dropWhile Char.isDigit r)
      | _ => (false, [], c :: rest)) = (false, [], c :: rest) := by
    split
    · rename_i heq; injection heq with heq _; exact absurd heq h3
    · rfl
  unfold atofType
  simp only [e1, e2, e3, e4, e6]
  rw [if_neg]
  rintro ⟨_, h | h, _⟩ <;> exact h rfl

theorem keptAsText_boundary (name : String) : keptAsText ("<" ++ name ++ ">") := by
  unfold keptAsText
  exact atofType_of_head '<' (name.data ++ ['>']) (by decide) (by decide) (by decide)
    (by decide) (by decide) (by decide) (by decide)

theorem grows_mergeNode (A : Babbler) (db : DB) (node : BabblerNode) :
    Grows db (mergeNode A db node) := by
  refine ⟨fun n hn => ?_, fun x hx => ⟨x, ?_, le_refl _⟩⟩
  · have := grows_nodes_map_append db.babblerNodes []
      (fun n => if n.BabblerId = A.BabblerId ∧ n.WordId = node.WordId then
        { n with RootFrequency := n.RootFrequency + node.RootFrequency
                 Root := (if decide (node.Root > 0) then 1 else n.Root) }
        else n)
      (fun n => by
        by_cases h : n.BabblerId = A.BabblerId ∧ n.WordId = node.WordId
        · simp only [if_pos h]; exact Nat.le_add_right _ _
        · simp only [if_neg h]; exact le_refl _) n hn
    obtain ⟨n', hn', hle⟩ := this
    rw [List.append_nil] at hn'
    refine ⟨n', ?_, hle⟩
    unfold mergeNode
    simp only
    split
    · exact List.mem_append_left _ hn'
    · exact hn'
  · unfold mergeNode
    simp only
    split <;> exact hx

theorem grows_mergeNodeLoop (A : Babbler) (intoNode otherNode : BabblerNode) :
    ∀ (nodes : List BabblerNode) (db : DB) (mapping : Mapping),
      Grows db (mergeNodeLoop A intoNode otherNode db mapping nodes).1 := by
  intro nodes
  induction nodes with
  | nil => intro db mapping; exact grows_refl db
  | cons node0 rest ih =>
    intro db mapping
    unfold mergeNodeLoop
    simp only
    split
    · exact grows_mergeNode A db _
    · exact grows_trans (grows_mergeNode A db _) (ih _ _)

theorem grows_replayArcs (mapping : Mapping) (newNode : BabblerNode) :
    ∀ (arcs : List BabblerArc) (db : DB), Grows db (replayArcs mapping newNode db arcs).1 := by
  intro arcs
  induction arcs with
  | nil => intro db; exact grows_refl db
  | cons arc rest ih =>
    intro db
    unfold replayArcs
    split
    · exact grows_refl db
    · rename_i toNode _
      have h1 := grows_incrementWordArc db newNode toNode
      split
      · rename_i h
        rw [h] at h1
        exact h1
      · rename_i h
        rw [h] at h1
        exact grows_trans h1 (ih _)

theorem grows_replayLoop (mapping : Mapping) :
    ∀ (entries : List (Nat × BabblerNode)) (db : DB),
      Grows db (replayLoop mapping db entries).1 := by
  intro entries
  induction entries with
  | nil => intro db; exact grows_refl db
  | cons e rest ih =>
    intro db
    obtain ⟨oldNodeId, newNode⟩ := e
    unfold replayLoop
    have h1 := grows_replayArcs mapping newNode
      (db.babblerArcs.filter (fun a => a.FromNodeId = oldNodeId)) db
    split
    · rename_i h
      rw [h] at h1
      exact h1
    · rename_i h
      rw [h] at h1
      exact grows_trans h1 (ih _)

theorem grows_mergeBabblers (order : Mapping → Mapping) (db : DB) (a b : Babbler)
    (intoName otherName : String) :
    Grows db (mergeBabblers order db a b intoName otherName).1 := by
  unfold mergeBabblers
  simp only
  have h1 := grows_getOrCreateBabblerNode db a ("<" ++ intoName ++ ">")
  have h2 := grows_getOrCreateBabblerNode (getOrCreateBabblerNode db a
    ("<" ++ intoName ++ ">")).1 b ("<" ++ otherName ++ ">")
  have h3 := grows_mergeNodeLoop a (getOrCreateBabblerNode db a ("<" ++ intoName ++ ">")).2
    (getOrCreateBabblerNode (getOrCreateBabblerNode db a ("<" ++ intoName ++ ">")).1 b
      ("<" ++ otherName ++ ">")).2
    ((getOrCreateBabblerNode (getOrCreateBabblerNode db a ("<" ++ intoName ++ ">")).1 b
      ("<" ++ otherName ++ ">")).1.babblerNodes.filter (fun n => n.BabblerId = b.BabblerId))
    (getOrCreateBabblerNode (getOrCreateBabblerNode db a ("<" ++ intoName ++ ">")).1 b
      ("<" ++ otherName ++ ">")).1 []
  split
  · rename_i h
    rw [h] at h3
    exact grows_trans h1 (grows_trans h2 h3)
  · rename_i h
    rw [h] at h3
    exact grows_trans h1 (grows_trans h2 (grows_trans h3 (grows_replayLoop _ _ _)))

/-! ## Counters only grow, on SQLite values -/

theorem rows_getOrCreateWord (real : Conversion) (db : DB) (word : String) :
    (Sqlite.getOrCreateWord real db word).1.babblerNodes = db.babblerNodes ∧
      (Sqlite.getOrCreateWord real db word).1.babblerArcs = db.babblerArcs := by
  unfold Sqlite.getOrCreateWord
  split
  · exact ⟨rfl, rfl⟩
  · exact ⟨rfl, rfl⟩

theorem sgrows_createBabblerNode (real : Conversion) (db : DB) (b : Babbler) (word : String) :
    Grows db (Sqlite.createBabblerNode real db b word).1 := by
  obtain ⟨h1, h2⟩ := rows_getOrCreateWord real db word
  unfold Sqlite.createBabblerNode
  split
  · rename_i db1 e heq
    rw [heq] at h1 h2
    exact ⟨fun n hn => ⟨n, by rw [h1]; exact hn, le_refl _⟩,
      fun x hx => ⟨x, by rw [h2]; exact hx, le_refl _⟩⟩
  · rename_i db1 w heq
    rw [heq] at h1 h2
    simp only at h1 h2
    refine ⟨fun n hn => ⟨n, ?_, le_refl _⟩, fun x hx => ⟨x, ?_, le_refl _⟩⟩
    · exact List.mem_append_left _ (by rw [h1]; exact hn)
    · show x ∈ db1.babblerArcs
      rw [h2]
      exact hx

theorem sgrows_getOrCreateBabblerNode (real : Conversion) (db : DB) (b : Babbler) (word : String) :
    Grows db (Sqlite.getOrCreateBabblerNode real db b word).1 := by
  unfold Sqlite.getOrCreateBabblerNode
  split
  · exact grows_refl db
  · exact sgrows_createBabblerNode real db b word

theorem sgrows_incrementRootWordFrequency (real : Conversion) (db : DB) (b : Babbler) (word : String) :
    Grows db (Sqlite.incrementRootWordFrequency real db b word).1 := by
  have h1 := sgrows_getOrCreateBabblerNode real db b word
  unfold Sqlite.incrementRootWordFrequency
  split
  · rename_i heq
    rw [heq] at h1
    exact h1
  · rename_i heq
    rw [heq] at h1
    exact grows_trans h1 (grows_updateRoot _ _)

theorem sgrows_incrementWordArc (db : DB) (n1 n2 : BabblerNode) :
    Grows db (Sqlite.incrementWordArc db n1 n2).1 :=
  grows_incrementWordArc db n1 n2

theorem sgrows_incrementFinalWordArcHelper (real : Conversion) (db : DB) (b : Babbler) (node : BabblerNode) :
    Grows db (Sqlite.incrementFinalWordArcHelper real db b node).1 := by
  have h1 := sgrows_getOrCreateBabblerNode real db b " "
  unfold Sqlite.incrementFinalWordArcHelper
  split
  · rename_i heq
    rw [heq] at h1
    exact h1
  · rename_i heq
    rw [heq] at h1
    exact grows_trans h1 (sgrows_incrementWordArc _ _ _)

theorem sgrows_addLoop (real : Conversion) (b : Babbler) :
    ∀ (words : List String) (db : DB) (cur : BabblerNode),
      Grows db (Sqlite.addLoop real b db cur words).1 := by
  intro words
  induction words with
  | nil =>
    intro db cur
    unfold Sqlite.addLoop
    have := sgrows_incrementFinalWordArcHelper real db b cur
    split <;> (rename_i h; rw [h] at this; exact this)
  | cons w rest ih =>
    intro db cur
    unfold Sqlite.addLoop
    have h1 := sgrows_getOrCreateBabblerNode real db b w
    split
    · rename_i heq
      rw [heq] at h1
      exact h1
    · rename_i db1 nextNode heq
      rw [heq] at h1
      have h2 := sgrows_incrementWordArc db1 cur nextNode
      split
      · rename_i h
        rw [h] at h2
        exact grows_trans h1 h2
      · rename_i h
        rw [h] at h2
        exact grows_trans h1 (grows_trans h2 (ih _ _))

theorem sgrows_addToMarkovChain (real : Conversion) (db : DB) (b : Babbler) (phrase : String) :
    Grows db (Sqlite.addToMarkovChain real db b phrase).1 := by
  unfold Sqlite.addToMarkovChain
  split
  · exact grows_refl db
  · rename_i w rest _
    have h1 := sgrows_incrementRootWordFrequency real db b w
    split
    · rename_i heq
      rw [heq] at h1
      exact h1
    · rename_i heq
      rw [heq] at h1
      exact grows_trans h1 (sgrows_addLoop real b _ _ _)

theorem sgrows_mergeNodeLoop (A : Babbler) (intoNode otherNode : BabblerNode) :
    ∀ (nodes : List BabblerNode) (db : DB) (mapping : Mapping),
      Grows db (Sqlite.mergeNodeLoop A intoNode otherNode db mapping nodes).1 := by
  intro nodes
  induction nodes with
  | nil => intro db mapping; exact grows_refl db
  | cons node0 rest ih =>
    intro db mapping
    unfold Sqlite.mergeNodeLoop
    simp only
    split
    · exact grows_mergeNode A db _
    · split
      · exact grows_mergeNode A db _
      · exact grows_trans (grows_mergeNode A db _) (ih _ _)

theorem sgrows_replayArcs (mapping : Mapping) (newNode : BabblerNode) :
    ∀ (arcs : List BabblerArc) (db : DB),
      Grows db (Sqlite.replayArcs mapping newNode db arcs).1 := by
  intro arcs
  induction arcs with
  | nil => intro db; exact grows_refl db
  | cons arc rest ih =>
    intro db
    unfold Sqlite.replayArcs
    split
    · exact grows_refl db
    · rename_i toNode _
      have h1 := sgrows_incrementWordArc db newNode toNode
      split
      · rename_i h
        rw [h] at h1
        exact h1
      · rename_i h
        rw [h] at h1
        exact grows_trans h1 (ih _)

theorem sgrows_replayLoop (mapping : Mapping) :
    ∀ (entries : List (Nat × BabblerNode)) (db : DB),
      Grows db (Sqlite.replayLoop mapping db entries).1 := by
  intro entries
  induction entries with
  | nil => intro db; exact grows_refl db
  | cons e rest ih =>
    intro db
    obtain ⟨oldNodeId, newNode⟩ := e
    unfold Sqlite.replayLoop
    split
    · exact grows_refl db
    · rename_i arcs _
      have h1 := sgrows_replayArcs mapping newNode arcs db
      split
      · rename_i h
        rw [h] at h1
        exact h1
      · rename_i h
        rw [h] at h1
        exact grows_trans h1 (ih _)

theorem sgrows_mergeBabblers (real : Conversion) (order : Mapping → Mapping) (db : DB) (a b : Babbler)
    (intoName otherName : String) :
    Grows db (Sqlite.mergeBabblers real order db a b intoName otherName).1 := by
  unfold Sqlite.mergeBabblers
  have h1 := sgrows_getOrCreateBabblerNode real db a ("<" ++ intoName ++ ">")
  split
  · rename_i heq
    rw [heq] at h1
    exact h1
  · rename_i db1 intoNode heq
    rw [heq] at h1
    have h2 := sgrows_getOrCreateBabblerNode real db1 b ("<" ++ otherName ++ ">")
    split
    · rename_i heq2
      rw [heq2] at h2
      exact grows_trans h1 h2
    · rename_i db2 otherNode heq2
      rw [heq2] at h2
      split
      · exact grows_trans h1 h2
      · rename_i nodes _
        have h3 := sgrows_mergeNodeLoop a intoNode otherNode nodes db2 []
        split
        · rename_i heq3
          rw [heq3] at h3
          exact grows_trans h1 (grows_trans h2 h3)
        · rename_i heq3
          rw [heq3] at h3
          exact grows_trans h1 (grows_trans h2 (grows_trans h3 (sgrows_replayLoop _ _ _)))

/-! ## The functions on SQLite values agree with the functions on text

While the store that a call leaves is within `int64`, a function of section
"SQLite values" returns what the function on texts and unbounded counters
returns for the texts that the column keeps of the words. -/

theorem sim_incrementFinalWordArcHelper (real : Conversion) {db : DB} (b : Babbler)
    (node : BabblerNode)
    (hr : Int64Store (Sqlite.incrementFinalWordArcHelper real db b node).1) :
    Sqlite.incrementFinalWordArcHelper real db b node =
      ((incrementFinalWordArcHelper db b node).1,
        (incrementFinalWordArcHelper db b node).2.mapError Failure.go) := by
  have hr0 : Int64Store db :=
    int64Store_of_grows (sgrows_incrementFinalWordArcHelper real db b node) hr
  unfold Sqlite.incrementFinalWordArcHelper at hr ⊢
  rw [sim_getOrCreateBabblerNode real hr0 b " ",
    numericAffinity_of_text real keptAsText_terminal] at hr ⊢
  simp only at hr ⊢
  unfold incrementFinalWordArcHelper
  exact sim_incrementWordArc _ _ hr

theorem sim_addLoop (real : Conversion) (b : Babbler) :
    ∀ (words : List String) (db : DB) (cur : BabblerNode),
      Int64Store (Sqlite.addLoop real b db cur words).1 →
      Sqlite.addLoop real b db cur words =
        ((addLoop b db cur (words.map (numericAffinity real))).1,
          (addLoop b db cur (words.map (numericAffinity real))).2.map Failure.go) := by
  intro words
  induction words with
  | nil =>
    intro db cur hr
    have hr1 : Int64Store (Sqlite.incrementFinalWordArcHelper real db b cur).1 := by
      unfold Sqlite.addLoop at hr
      split at hr <;> (rename_i h; rw [h]; exact hr)
    unfold Sqlite.addLoop
    simp only [List.map_nil]
    unfold addLoop
    rw [sim_incrementFinalWordArcHelper real b cur hr1]
    cases hfin : incrementFinalWordArcHelper db b cur with
    | mk db1 res =>
      cases res <;> rfl
  | cons w rest ih =>
    intro db cur hr
    have hr0 : Int64Store db := int64Store_of_grows (sgrows_addLoop real b _ db cur) hr
    unfold Sqlite.addLoop at hr ⊢
    rw [sim_getOrCreateBabblerNode real hr0 b w] at hr ⊢
    simp only at hr ⊢
    simp only [List.map_cons]
    unfold addLoop
    simp only
    cases harc : Sqlite.incrementWordArc (getOrCreateBabblerNode db b (numericAffinity real w)).1 cur
        (getOrCreateBabblerNode db b (numericAffinity real w)).2 with
    | mk db2 res =>
      rw [harc] at hr
      have hstore : (incrementWordArc (getOrCreateBabblerNode db b (numericAffinity real w)).1 cur
          (getOrCreateBabblerNode db b (numericAffinity real w)).2).1 = db2 :=
        congrArg Prod.fst harc
      cases res with
      | error e =>
        simp only at hr ⊢
        have hr2 : Int64Store (incrementWordArc (getOrCreateBabblerNode db b (numericAffinity real w)).1
            cur (getOrCreateBabblerNode db b (numericAffinity real w)).2).1 := by rw [hstore]; exact hr
        have hsim := sim_incrementWordArc _ _ hr2
        rw [harc] at hsim
        cases hi : incrementWordArc (getOrCreateBabblerNode db b (numericAffinity real w)).1 cur
            (getOrCreateBabblerNode db b (numericAffinity real w)).2 with
        | mk db3 res3 =>
          rw [hi] at hsim
          cases res3 with
          | error e3 =>
            simp only [Except.mapError] at hsim ⊢
            rw [Prod.mk.injEq] at hsim
            rw [hsim.1, Except.error.inj hsim.2]
            rfl
          | ok a3 =>
            simp only [Except.mapError] at hsim
            rw [Prod.mk.injEq] at hsim
            exact absurd hsim.2 (by simp)
      | ok arc =>
        simp only at hr ⊢
        have hr2 : Int64Store (incrementWordArc (getOrCreateBabblerNode db b (numericAffinity real w)).1
            cur (getOrCreateBabblerNode db b (numericAffinity real w)).2).1 := by
          rw [hstore]
          exact int64Store_of_grows (sgrows_addLoop real b _ _ _) hr
        have hsim := sim_incrementWordArc _ _ hr2
        rw [harc] at hsim
        cases hi : incrementWordArc (getOrCreateBabblerNode db b (numericAffinity real w)).1 cur
            (getOrCreateBabblerNode db b (numericAffinity real w)).2 with
        | mk db3 res3 =>
          rw [hi] at hsim
          cases res3 with
          | error e3 =>
            simp only [Except.mapError] at hsim
            rw [Prod.mk.injEq] at hsim
            exact absurd hsim.2 (by simp)
          | ok a3 =>
            simp only [Except.mapError] at hsim ⊢
            rw [Prod.mk.injEq] at hsim
            rw [← hsim.1]
            exact ih db2 _ hr

theorem addToMarkovChain_eq_learnWords (db : DB) (b : Babbler) (phrase : String) :
    addToMarkovChain db b phrase = learnWords db b (tokens phrase) := by
  unfold addToMarkovChain tokens
  cases Fields (ToLower phrase) <;> rfl

/-- One learn call on SQLite values that leaves every counter within `int64`
is the learn call on texts for what the column keeps of the tokens. -/
theorem sim_learnWords (real : Conversion) (db : DB) (b : Babbler) (phrase : String)
    (hr : Int64Store (Sqlite.addToMarkovChain real db b phrase).1) :
    Sqlite.addToMarkovChain real db b phrase =
      ((learnWords db b ((tokens phrase).map (numericAffinity real))).1,
        (learnWords db b ((tokens phrase).map (numericAffinity real))).2.map Failure.go) := by
  have hr0 : Int64Store db :=
    int64Store_of_grows (sgrows_addToMarkovChain real db b phrase) hr
  unfold tokens
  unfold Sqlite.addToMarkovChain at hr ⊢
  cases hf : Fields (ToLower phrase) with
  | nil => rfl
  | cons w rest =>
    rw [hf] at hr
    simp only at hr ⊢
    rw [sim_incrementRootWordFrequency real hr0 b w] at hr ⊢
    simp only at hr ⊢
    simp only [List.map_cons]
    unfold learnWords
    exact sim_addLoop real b rest _ _ hr

theorem map_numericAffinity_of_text (real : Conversion) {ws : List String}
    (h : ∀ w ∈ ws, keptAsText w) : ws.map (numericAffinity real) = ws := by
  induction ws with
  | nil => rfl
  | cons w rest ih =>
    rw [List.map_cons, numericAffinity_of_text real (h w (List.mem_cons_self _ _)),
      ih (fun x hx => h x (List.mem_cons_of_mem _ hx))]

theorem sim_addToMarkovChain (real : Conversion) (db : DB) (b : Babbler) (phrase : String)
    (htext : ∀ w ∈ tokens phrase, keptAsText w)
    (hr : Int64Store (Sqlite.addToMarkovChain real db b phrase).1) :
    Sqlite.addToMarkovChain real db b phrase =
      ((addToMarkovChain db b phrase).1, (addToMarkovChain db b phrase).2.map Failure.go) := by
  rw [sim_learnWords real db b phrase hr, map_numericAffinity_of_text real htext,
    ← addToMarkovChain_eq_learnWords]

theorem sim_mergeNodeLoop (A : Babbler) (intoNode otherNode : BabblerNode) :
    ∀ (nodes : List BabblerNode) (db : DB) (mapping : Mapping),
      Int64Store (Sqlite.mergeNodeLoop A intoNode otherNode db mapping nodes).1 →
      Sqlite.mergeNodeLoop A intoNode otherNode db mapping nodes =
        ((mergeNodeLoop A intoNode otherNode db mapping nodes).1,
          (mergeNodeLoop A intoNode otherNode db mapping nodes).2.mapError Failure.go) := by
  intro nodes
  induction nodes with
  | nil => intro db mapping _; rfl
  | cons node0 rest ih =>
    intro db mapping hr
    have hr1 : Int64Store (mergeNode A db (redirect intoNode otherNode node0)) := by
      refine int64Store_of_grows ?_ hr
      unfold Sqlite.mergeNodeLoop
      simp only
      split
      · exact grows_refl _
      · split
        · exact grows_refl _
        · exact sgrows_mergeNodeLoop A intoNode otherNode rest _ _
    unfold Sqlite.mergeNodeLoop at hr ⊢
    unfold mergeNodeLoop
    simp only at hr ⊢
    cases hf : findNode (mergeNode A db (redirect intoNode otherNode node0)) A.BabblerId
        (redirect intoNode otherNode node0).WordId with
    | none => rfl
    | some row =>
      rw [hf] at hr
      simp only at hr ⊢
      have hrow : row ∈ (mergeNode A db (redirect intoNode otherNode node0)).babblerNodes := by
        unfold findNode at hf
        exact List.mem_of_find?_eq_some hf
      unfold Sqlite.scanNode at hr ⊢
      rw [if_pos (hr1.1 row hrow)] at hr ⊢
      simp only at hr ⊢
      exact ih _ _ hr

theorem sim_replayArcs (mapping : Mapping) (newNode : BabblerNode) :
    ∀ (arcs : List BabblerArc) (db : DB),
      Int64Store (Sqlite.replayArcs mapping newNode db arcs).1 →
      Sqlite.replayArcs mapping newNode db arcs =
        ((replayArcs mapping newNode db arcs).1,
          (replayArcs mapping newNode db arcs).2.map Failure.go) := by
  intro arcs
  induction arcs with
  | nil => intro db _; rfl
  | cons arc rest ih =>
    intro db hr
    unfold Sqlite.replayArcs at hr ⊢
    unfold replayArcs
    cases hg : mapGet mapping arc.ToNodeId with
    | none => rfl
    | some toNode =>
      rw [hg] at hr
      simp only at hr ⊢
      have hr2 : Int64Store (incrementWordArc db newNode toNode).1 := by
        show Int64Store (Sqlite.incrementWordArc db newNode toNode).1
        cases harc : Sqlite.incrementWordArc db newNode toNode with
        | mk db1 res =>
          rw [harc] at hr
          cases res with
          | error e => exact hr
          | ok x => exact int64Store_of_grows (sgrows_replayArcs mapping newNode rest db1) hr
      rw [sim_incrementWordArc _ _ hr2] at hr ⊢
      cases harc : incrementWordArc db newNode toNode with
      | mk db1 res =>
        rw [harc] at hr
        cases res with
        | error e => rfl
        | ok x =>
          simp only [Except.mapError] at hr ⊢
          exact ih db1 hr

theorem sim_replayLoop (mapping : Mapping) :
    ∀ (entries : List (Nat × BabblerNode)) (db : DB),
      Int64Store (Sqlite.replayLoop mapping db entries).1 →
      Sqlite.replayLoop mapping db entries =
        ((replayLoop mapping db entries).1, (replayLoop mapping db entries).2.map Failure.go) := by
  intro entries
  induction entries with
  | nil => intro db _; rfl
  | cons e rest ih =>
    intro db hr
    obtain ⟨oldNodeId, newNode⟩ := e
    have hr0 : Int64Store db := int64Store_of_grows (sgrows_replayLoop mapping _ db) hr
    unfold Sqlite.replayLoop at hr ⊢
    unfold replayLoop
    rw [scanArcs_of_range _ (fun x hx => hr0.2 x (List.mem_filter.1 hx).1)] at hr ⊢
    simp only at hr ⊢
    have hr2 : Int64Store (Sqlite.replayArcs mapping newNode db
        (db.babblerArcs.filter (fun a => a.FromNodeId = oldNodeId))).1 := by
      cases hrep : Sqlite.replayArcs mapping newNode db
          (db.babblerArcs.filter (fun a => a.FromNodeId = oldNodeId)) with
      | mk db1 res =>
        rw [hrep] at hr
        cases res with
        | some e => exact hr
        | none => exact int64Store_of_grows (sgrows_replayLoop mapping rest db1) hr
    rw [sim_replayArcs mapping newNode _ db hr2] at hr ⊢
    cases hrep : replayArcs mapping newNode db
        (db.babblerArcs.filter (fun a => a.FromNodeId = oldNodeId)) with
    | mk db1 res =>
      rw [hrep] at hr
      cases res with
      | some e => rfl
      | none =>
        simp only [Option.map] at hr ⊢
        exact ih db1 hr

theorem sim_mergeBabblers (real : Conversion) (order : Mapping → Mapping) (db : DB) (a b : Babbler)
    (intoName otherName : String)
    (hr : Int64Store (Sqlite.mergeBabblers real order db a b intoName otherName).1) :
    Sqlite.mergeBabblers real order db a b intoName otherName =
      ((mergeBabblers order db a b intoName otherName).1,
        (mergeBabblers order db a b intoName otherName).2.map Failure.go) := by
  have hr0 : Int64Store db :=
    int64Store_of_grows (sgrows_mergeBabblers real order db a b intoName otherName) hr
  unfold Sqlite.mergeBabblers at hr ⊢
  unfold mergeBabblers
  simp only at hr ⊢
  rw [sim_getOrCreateBabblerNode real hr0 a ("<" ++ intoName ++ ">"),
    numericAffinity_of_text real (keptAsText_boundary intoName)] at hr ⊢
  simp only at hr ⊢
  generalize hdb1 : getOrCreateBabblerNode db a ("<" ++ intoName ++ ">") = r1 at hr ⊢
  obtain ⟨db1, intoNode⟩ := r1
  simp only at hr ⊢
  have hr1 : Int64Store db1 := by
    refine int64Store_of_grows ?_ hr
    have h2 := sgrows_getOrCreateBabblerNode real db1 b ("<" ++ otherName ++ ">")
    split
    · rename_i heq2
      rw [heq2] at h2
      exact h2
    · rename_i db2 otherNode heq2
      rw [heq2] at h2
      split
      · exact h2
      · rename_i nodes _
        have h3 := sgrows_mergeNodeLoop a intoNode otherNode nodes db2 []
        split
        · rename_i heq3
          rw [heq3] at h3
          exact grows_trans h2 h3
        · rename_i heq3
          rw [heq3] at h3
          exact grows_trans h2 (grows_trans h3 (sgrows_replayLoop _ _ _))
  rw [sim_getOrCreateBabblerNode real hr1 b ("<" ++ otherName ++ ">"),
    numericAffinity_of_text real (keptAsText_boundary otherName)] at hr ⊢
  simp only at hr ⊢
  generalize hdb2 : getOrCreateBabblerNode db1 b ("<" ++ otherName ++ ">") = r2 at hr ⊢
  obtain ⟨db2, otherNode⟩ := r2
  simp only at hr ⊢
  have hr2 : Int64Store db2 := by
    refine int64Store_of_grows ?_ hr
    split
    · exact grows_refl _
    · rename_i nodes _
      have h3 := sgrows_mergeNodeLoop a intoNode otherNode nodes db2 []
      split
      · rename_i heq3
        rw [heq3] at h3
        exact h3
      · rename_i heq3
        rw [heq3] at h3
        exact grows_trans h3 (sgrows_replayLoop _ _ _)
  rw [scanNodes_of_range _ (fun n hn => hr2.1 n (List.mem_filter.1 hn).1)] at hr ⊢
  simp only at hr ⊢
  have hr3 : Int64Store (Sqlite.mergeNodeLoop a intoNode otherNode db2 []
      (db2.babblerNodes.filter (fun n => n.BabblerId = b.BabblerId))).1 := by
    cases hloop : Sqlite.mergeNodeLoop a intoNode otherNode db2 []
        (db2.babblerNodes.filter (fun n => n.BabblerId = b.BabblerId)) with
    | mk db3 res =>
      rw [hloop] at hr
      cases res with
      | error e => exact hr
      | ok mapping => exact int64Store_of_grows (sgrows_replayLoop mapping _ db3) hr
  rw [sim_mergeNodeLoop a intoNode otherNode _ db2 [] hr3] at hr ⊢
  cases hloop : mergeNodeLoop a intoNode otherNode db2 []
      (db2.babblerNodes.filter (fun n => n.BabblerId = b.BabblerId)) with
  | mk db3 res =>
    rw [hloop] at hr
    cases res with
    | error e => rfl
    | ok mapping =>
      simp only [Except.mapError] at hr ⊢
      exact sim_replayLoop mapping _ db3 hr

theorem sgrows_learnTimes (real : Conversion) (b : Babbler) (phrase : String) :
    ∀ (n : Nat) (db : DB), Grows db (Sqlite.learnTimes real db b phrase n) := by
  intro n
  induction n with
  | zero => intro db; exact grows_refl db
  | succ n ih =>
    intro db
    unfold Sqlite.learnTimes
    exact grows_trans (sgrows_addToMarkovChain real db b phrase) (ih _)

theorem sim_learnTimes (real : Conversion) (b : Babbler) (phrase : String)
    (htext : ∀ w ∈ tokens phrase, keptAsText w) :
    ∀ (n : Nat) (db : DB), Int64Store (Sqlite.learnTimes real db b phrase n) →
      Sqlite.learnTimes real db b phrase n = learnTimes db b phrase n := by
  intro n
  induction n with
  | zero => intro db _; rfl
  | succ n ih =>
    intro db hr
    unfold Sqlite.learnTimes at hr ⊢
    unfold learnTimes
    have h1 : Int64Store (Sqlite.addToMarkovChain real db b phrase).1 :=
      int64Store_of_grows (sgrows_learnTimes real b phrase n _) hr
    have h2 : (Sqlite.addToMarkovChain real db b phrase).1 = (addToMarkovChain db b phrase).1 := by
      rw [sim_addToMarkovChain real db b phrase htext h1]
    rw [h2] at hr ⊢
    exact ih _ hr

theorem WF_learnWords {db : DB} (hwf : WF db) (b : Babbler) (ws : List String) :
    WF (learnWords db b ws).1 := by
  cases ws with
  | nil => exact hwf
  | cons word rest =>
    unfold learnWords
    simp only
    cases hr : incrementRootWordFrequency db b word with
    | mk db1 cur =>
      have hstep := incrementRootWordFrequency_step hwf b word db1 cur hr
      have hl1 := nodeStep_learns hwf hstep
      exact (addLoop_learns b rest db1 cur word hl1.1 hstep.2.2.2.2.1).1.1

theorem WF_of_rows {db db' : DB} (hwf : WF db) (hw : db'.babblerWords = db.babblerWords)
    (hn : db'.babblerNodes = db.babblerNodes) (ha : db'.babblerArcs = db.babblerArcs) :
    WF db' := by
  obtain ⟨h1, h2, h3, h4, h5, h6, h7, h8, h9, h10⟩ := hwf
  unfold wordIds at h1 h5
  unfold nodeIds at h3 h8
  refine ⟨?_, ?_, ?_, ?_, ?_, ?_, ?_, ?_, ?_, ?_⟩
  · unfold wordIds; rw [hw]; exact h1
  · rw [hw]; exact h2
  · unfold nodeIds; rw [hn]; exact h3
  · rw [hn]; exact h4
  · unfold wordIds; rw [hn, hw]; exact h5
  · rw [hn]; exact h6
  · rw [ha]; exact h7
  · unfold nodeIds; rw [ha, hn]; exact h8
  · rw [ha]; exact h9
  · rw [ha, hn]; exact h10

theorem rows_makeBabbler (real : Conversion) (db : DB) (name : String) :
    (Sqlite.makeBabbler real db name).1.babblerWords = db.babblerWords ∧
      (Sqlite.makeBabbler real db name).1.babblerNodes = db.babblerNodes ∧
      (Sqlite.makeBabbler real db name).1.babblerArcs = db.babblerArcs :=
  ⟨rfl, rfl, rfl⟩

/-- A store that the calls on SQLite values produce with every counter within
the range of `int64` satisfies the integrity conditions. -/
theorem sreachable_WF (real : Conversion) {db : DB} (h : Sqlite.Reachable real db) :
    Int64Store db → WF db := by
  induction h with
  | init => exact fun _ => WF_New
  | @register db name _ ih =>
    intro hr
    obtain ⟨hw, hn, ha⟩ := rows_makeBabbler real db name
    have hr0 : Int64Store db := by
      refine ⟨fun n hn' => hr.1 n ?_, fun x hx => hr.2 x ?_⟩
      · rw [hn]; exact hn'
      · rw [ha]; exact hx
    exact WF_of_rows (ih hr0) hw hn ha
  | @learn db b phrase _ ih =>
    intro hr
    have hr0 : Int64Store db :=
      int64Store_of_grows (sgrows_addToMarkovChain real db b phrase) hr
    rw [sim_learnWords real db b phrase hr]
    exact WF_learnWords (ih hr0) b _
  | @merge db order a b intoName otherName horder _ ih =>
    intro hr
    have hr0 : Int64Store db :=
      int64Store_of_grows (sgrows_mergeBabblers real order db a b intoName otherName) hr
    rw [sim_mergeBabblers real order db a b intoName otherName hr]
    exact mergeBabblers_WF order horder (ih hr0) a b intoName otherName

theorem sreachable_mergedStore : Sqlite.Reachable asWritten mergedStore := by
  have h : mergedStore =
      (Sqlite.mergeBabblers asWritten id (Sqlite.mergeBabblers asWritten id
        (Sqlite.addToMarkovChain asWritten (Sqlite.addToMarkovChain asWritten
          (Sqlite.makeBabbler asWritten (Sqlite.makeBabbler asWritten New "alice").1 "bob").1
          bob "x y").1 bob "x y").1 alice bob "alice" "bob").1
        alice alice "alice" "alice").1 := by
    decide!
  rw [h]
  exact .merge id alice alice "alice" "alice" (fun m => List.Perm.refl m)
    (.merge id alice bob "alice" "bob" (fun m => List.Perm.refl m)
      (.learn bob "x y" (.learn bob "x y" (.register "bob" (.register "alice" .init)))))

/-! ## The word rows that learning adds, on SQLite values -/

theorem mapError_go_eq_ok {α : Type} {x : Except Error α} {a : α} :
    x.mapError Failure.go = .ok a ↔ x = .ok a := by
  cases x with
  | error e => exact ⟨fun h => (by cases h), fun h => (by cases h)⟩
  | ok y =>
    constructor
    · intro h
      injection h with h
      rw [h]
    · intro h
      injection h with h
      rw [h]
      rfl

theorem sim_arcOf (real : Conversion) {db : DB} (hr : Int64Store db) (s : Babbler)
    (u v : String) :
    Sqlite.arcOf real db s u v =
      arcOf db s (numericAffinity real u) (numericAffinity real v) := by
  unfold Sqlite.arcOf arcOf
  rw [sim_getBabblerNode real hr s u, sim_getBabblerNode real hr s v]
  cases getBabblerNode db s (numericAffinity real u) with
  | error e => rfl
  | ok n1 =>
    cases getBabblerNode db s (numericAffinity real v) with
    | error e => rfl
    | ok n2 =>
      simp only [Except.mapError]
      rw [sim_getBabblerArc hr]
      cases getBabblerArc db n1 n2 <;> rfl

theorem numericAffinity_boundaryRenamed (real : Conversion) (intoName otherName w : String) :
    numericAffinity real (Sqlite.boundaryRenamed real intoName otherName w) =
      boundaryRenamed intoName otherName (numericAffinity real w) := by
  unfold Sqlite.boundaryRenamed boundaryRenamed
  split
  · exact numericAffinity_of_text real (keptAsText_boundary intoName)
  · rfl

theorem nodeIds_eq_owners (db : DB) : nodeIds db = (nodeOwners db).map Prod.fst := by
  unfold nodeIds nodeOwners
  rw [List.map_map]
  rfl

theorem mem_nodeOwners {db : DB} {i b : Nat} :
    (i, b) ∈ nodeOwners db ↔ ∃ n ∈ db.babblerNodes, n.NodeId = i ∧ n.BabblerId = b := by
  unfold nodeOwners
  rw [List.mem_map]
  constructor
  · rintro ⟨n, hn, heq⟩
    injection heq with h1 h2
    exact ⟨n, hn, h1, h2⟩
  · rintro ⟨n, hn, h1, h2⟩
    exact ⟨n, hn, by rw [h1, h2]⟩

theorem owner_unique {db : DB} (h : (nodeIds db).Nodup) {i b1 b2 : Nat}
    (h1 : (i, b1) ∈ nodeOwners db) (h2 : (i, b2) ∈ nodeOwners db) : b1 = b2 := by
  rw [nodeIds_eq_owners] at h
  have := List.inj_on_of_nodup_map h h1 h2 rfl
  injection this

/-- A step that keeps the owners of the node ids, adds node rows under new ids
and adds only arcs between two node ids of one speaker keeps the arcs within
one speaker. -/
theorem scoped_step {db db' : DB} (h : Scoped db) (hN : (nodeIds db').Nodup)
    (hK : ∀ p ∈ nodeOwners db, p ∈ nodeOwners db')
    (hE : ∀ x ∈ db'.babblerArcs,
      (∃ y ∈ db.babblerArcs, y.FromNodeId = x.FromNodeId ∧ y.ToNodeId = x.ToNodeId) ∨
        (∃ b, (x.FromNodeId, b) ∈ nodeOwners db' ∧ (x.ToNodeId, b) ∈ nodeOwners db')) :
    Scoped db' := by
  have hends : ∀ x ∈ db'.babblerArcs,
      ∃ b, (x.FromNodeId, b) ∈ nodeOwners db' ∧ (x.ToNodeId, b) ∈ nodeOwners db' := by
    intro x hx
    rcases hE x hx with ⟨y, hy, hf, ht⟩ | h'
    · obtain ⟨hc1, hc2⟩ := h.arc_closed y hy
      obtain ⟨m1, hm1, hid1⟩ := List.mem_map.1 hc1
      obtain ⟨m2, hm2, hid2⟩ := List.mem_map.1 hc2
      have hs := h.arc_speaker y hy m1 hm1 m2 hm2 hid1 hid2
      refine ⟨m1.BabblerId, hK _ (mem_nodeOwners.2 ⟨m1, hm1, hid1.trans hf, rfl⟩),
        hK _ (mem_nodeOwners.2 ⟨m2, hm2, hid2.trans ht, hs.symm⟩)⟩
    · exact h'
  refine ⟨hN, fun x hx => ?_, fun x hx n1 hn1 n2 hn2 h1 h2 => ?_⟩
  · obtain ⟨b, hb1, hb2⟩ := hends x hx
    rw [nodeIds_eq_owners]
    exact ⟨List.mem_map.2 ⟨_, hb1, rfl⟩, List.mem_map.2 ⟨_, hb2, rfl⟩⟩
  · obtain ⟨b, hb1, hb2⟩ := hends x hx
    have e1 := owner_unique hN (mem_nodeOwners.2 ⟨n1, hn1, h1, rfl⟩) hb1
    have e2 := owner_unique hN (mem_nodeOwners.2 ⟨n2, hn2, h2, rfl⟩) hb2
    rw [e1, e2]

theorem scoped_of_rows {db db' : DB} (h : Scoped db)
    (hn : nodeOwners db' = nodeOwners db) (ha : db'.babblerArcs = db.babblerArcs) :
    Scoped db' := by
  apply scoped_step h
  · rw [nodeIds_eq_owners, hn, ← nodeIds_eq_owners]
    exact h.nodeIds_nodup
  · intro p hp
    rw [hn]
    exact hp
  · intro x hx
    rw [ha] at hx
    exact Or.inl ⟨x, hx, rfl, rfl⟩

theorem scoped_append_node {db db' : DB} (h : Scoped db) (n : BabblerNode)
    (hn : db'.babblerNodes = db.babblerNodes ++ [n]) (hid : n.NodeId = lastInsertId (nodeIds db))
    (ha : db'.babblerArcs = db.babblerArcs) : Scoped db' := by
  apply scoped_step h
  · unfold nodeIds
    rw [hn, List.map_append]
    apply nodup_append_singleton h.nodeIds_nodup
    show n.NodeId ∉ nodeIds db
    rw [hid]
    exact lastInsertId_not_mem _
  · intro p hp
    unfold nodeOwners at hp ⊢
    rw [hn, List.map_append]
    exact List.mem_append_left _ hp
  · intro x hx
    rw [ha] at hx
    exact Or.inl ⟨x, hx, rfl, rfl⟩

/-- The node with the id of `n` is a row of the speaker `b`. -/
theorem scoped_incrementWordArc {db : DB} (h : Scoped db) (b : Nat) (n1 n2 : BabblerNode)
    (h1 : (n1.NodeId, b) ∈ nodeOwners db) (h2 : (n2.NodeId, b) ∈ nodeOwners db) :
    Scoped (incrementWordArc db n1 n2).1 := by
  have hnodes := (incrementWordArc_frame db n1 n2).2.1
  have hown : nodeOwners (incrementWordArc db n1 n2).1 = nodeOwners db := by
    unfold nodeOwners
    rw [hnodes]
  apply scoped_step h
  · unfold nodeIds
    rw [hnodes]
    exact h.nodeIds_nodup
  · intro p hp
    rw [hown]
    exact hp
  · intro x hx
    rcases incrementWordArc_ends db n1 n2 x hx with h' | ⟨hf, ht⟩
    · exact Or.inl h'
    · right
      rw [hown, hf, ht]
      exact ⟨b, h1, h2⟩

theorem getOrCreateWord_not_error (real : Conversion) (db : DB) (word : String) (e : Failure) :
    (Sqlite.getOrCreateWord real db word).2 ≠ .error e := by
  unfold Sqlite.getOrCreateWord Sqlite.getWord
  cases db.babblerWords.find? (fun w => w.Word = numericAffinity real word) with
  | some w => exact fun h => by cases h
  | none => exact fun h => by cases h

theorem getBabblerNode_row (real : Conversion) {db : DB} {b : Babbler} {word : String}
    {n : BabblerNode}
    (h : Sqlite.getBabblerNode real db b word = .ok n) :
    n ∈ db.babblerNodes ∧ n.BabblerId = b.BabblerId := by
  unfold Sqlite.getBabblerNode at h
  split at h
  · cases h
  · rename_i w _
    split at h
    · rename_i row hf
      unfold Sqlite.scanNode at h
      split at h
      · injection h with h
        subst h
        have := List.find?_some hf
        simp only [decide_eq_true_eq] at this
        exact ⟨List.mem_of_find?_eq_some hf, this.1⟩
      · cases h
    · cases h

/-- What `getOrCreateBabblerNode` does to the node and arc tables, whatever
the counters are. -/
theorem getOrCreateBabblerNode_rows (real : Conversion) (db : DB) (b : Babbler)
    (word : String) :
    (Sqlite.getOrCreateBabblerNode real db b word).1.babblerArcs = db.babblerArcs ∧
    ((Sqlite.getOrCreateBabblerNode real db b word).1.babblerNodes = db.babblerNodes ∨
      ∃ wid, (Sqlite.getOrCreateBabblerNode real db b word).1.babblerNodes =
        db.babblerNodes ++ [⟨lastInsertId (nodeIds db), b.BabblerId, wid, 0, 0⟩]) ∧
    (∀ n, (Sqlite.getOrCreateBabblerNode real db b word).2 = .ok n →
      ∃ row ∈ (Sqlite.getOrCreateBabblerNode real db b word).1.babblerNodes,
        row.NodeId = n.NodeId ∧ row.BabblerId = b.BabblerId ∧ row.WordId = n.WordId) ∧
    (∀ e, (Sqlite.getOrCreateBabblerNode real db b word).2 ≠ .error e) := by
  have hcreate : (Sqlite.createBabblerNode real db b word).1.babblerArcs = db.babblerArcs ∧
      ((Sqlite.createBabblerNode real db b word).1.babblerNodes = db.babblerNodes ∨
        ∃ wid, (Sqlite.createBabblerNode real db b word).1.babblerNodes =
          db.babblerNodes ++ [⟨lastInsertId (nodeIds db), b.BabblerId, wid, 0, 0⟩]) ∧
      (∀ n, (Sqlite.createBabblerNode real db b word).2 = .ok n →
        ∃ row ∈ (Sqlite.createBabblerNode real db b word).1.babblerNodes,
          row.NodeId = n.NodeId ∧ row.BabblerId = b.BabblerId ∧ row.WordId = n.WordId) ∧
      (∀ e, (Sqlite.createBabblerNode real db b word).2 ≠ .error e) := by
    obtain ⟨hn, ha⟩ := rows_getOrCreateWord real db word
    have hfl := getOrCreateWord_not_error real db word
    unfold Sqlite.createBabblerNode
    cases hg : Sqlite.getOrCreateWord real db word with
    | mk db1 res =>
      rw [hg] at hn ha hfl
      simp only at hn ha hfl
      cases res with
      | error e => exact absurd rfl (hfl e)
      | ok w =>
        simp only
        refine ⟨ha, Or.inr ⟨w.WordId, ?_⟩, fun n hn' => ?_, fun e he => (by cases he)⟩
        · unfold nodeIds
          rw [hn]
        · injection hn' with hn'
          subst hn'
          exact ⟨_, List.mem_append_right _ (List.mem_singleton_self _), rfl, rfl, rfl⟩
  unfold Sqlite.getOrCreateBabblerNode
  cases hg : Sqlite.getBabblerNode real db b word with
  | ok node =>
    simp only
    obtain ⟨hmem, hb⟩ := getBabblerNode_row real hg
    refine ⟨trivial, Or.inl trivial, fun n hn => ?_, fun e he => (by cases he)⟩
    injection hn with hn
    subst hn
    exact ⟨node, hmem, rfl, hb, rfl⟩
  | error e => exact hcreate

/-- The node value has the id of a node row of the speaker with the id `b`. -/
theorem getOrCreateBabblerNode_scoped (real : Conversion) {db : DB} (h : Scoped db)
    (b : Babbler) (word : String) :
    Scoped (Sqlite.getOrCreateBabblerNode real db b word).1 ∧
    (∀ p ∈ nodeOwners db, p ∈ nodeOwners (Sqlite.getOrCreateBabblerNode real db b word).1) ∧
    (∀ n, (Sqlite.getOrCreateBabblerNode real db b word).2 = .ok n →
      (n.NodeId, b.BabblerId) ∈ nodeOwners (Sqlite.getOrCreateBabblerNode real db b word).1) := by
  obtain ⟨ha, hn, hrow, _⟩ := getOrCreateBabblerNode_rows real db b word
  refine ⟨?_, ?_, fun n hn' => ?_⟩
  · rcases hn with hn | ⟨wid, hn⟩
    · exact scoped_of_rows h (by unfold nodeOwners; rw [hn]) ha
    · exact scoped_append_node h _ hn rfl ha
  · intro p hp
    rcases hn with hn | ⟨wid, hn⟩
    · unfold nodeOwners at hp ⊢
      rw [hn]
      exact hp
    · unfold nodeOwners at hp ⊢
      rw [hn, List.map_append]
      exact List.mem_append_left _ hp
  · obtain ⟨row, hmem, hid, hb, _⟩ := hrow n hn'
    exact mem_nodeOwners.2 ⟨row, hmem, hid, hb⟩

theorem nodeOwners_updateRoot (db : DB) (id : Nat) :
    nodeOwners { db with babblerNodes := updateRootById db.babblerNodes id } =
      nodeOwners db := by
  unfold nodeOwners updateRootById
  simp only
  rw [List.map_map]
  apply List.map_congr_left
  intro n _
  simp only [Function.comp]
  split <;> rfl

theorem incrementRootWordFrequency_scoped (real : Conversion) {db : DB} (h : Scoped db)
    (b : Babbler) (word : String) :
    Scoped (Sqlite.incrementRootWordFrequency real db b word).1 ∧
    (∀ n, (Sqlite.incrementRootWordFrequency real db b word).2 = .ok n →
      (n.NodeId, b.BabblerId) ∈ nodeOwners (Sqlite.incrementRootWordFrequency real db b word).1) := by
  obtain ⟨hs, _, hown⟩ := getOrCreateBabblerNode_scoped real h b word
  unfold Sqlite.incrementRootWordFrequency
  cases hg : Sqlite.getOrCreateBabblerNode real db b word with
  | mk db1 res =>
    rw [hg] at hs hown
    simp only at hs hown
    cases res with
    | error e => exact ⟨hs, fun n hn => (by cases hn)⟩
    | ok node =>
      simp only
      refine ⟨scoped_of_rows hs (nodeOwners_updateRoot db1 node.NodeId) rfl, fun n hn => ?_⟩
      injection hn with hn
      subst hn
      rw [nodeOwners_updateRoot]
      exact hown node rfl

theorem incrementWordArc_owners (db : DB) (n1 n2 : BabblerNode) :
    nodeOwners (Sqlite.incrementWordArc db n1 n2).1 = nodeOwners db := by
  have hnodes := (incrementWordArc_frame db n1 n2).2.1
  show nodeOwners (incrementWordArc db n1 n2).1 = nodeOwners db
  unfold nodeOwners
  rw [hnodes]

theorem addLoop_scoped (real : Conversion) (b : Babbler) :
    ∀ (words : List String) (db : DB) (cur : BabblerNode), Scoped db →
      (cur.NodeId, b.BabblerId) ∈ nodeOwners db →
      Scoped (Sqlite.addLoop real b db cur words).1 := by
  have hstep : ∀ (db : DB) (cur : BabblerNode) (word : String), Scoped db →
      (cur.NodeId, b.BabblerId) ∈ nodeOwners db →
      ∀ db1 next, Sqlite.getOrCreateBabblerNode real db b word = (db1, .ok next) →
        Scoped (Sqlite.incrementWordArc db1 cur next).1 ∧
          (next.NodeId, b.BabblerId) ∈ nodeOwners (Sqlite.incrementWordArc db1 cur next).1 := by
    intro db cur word hs hcur db1 next hg
    obtain ⟨hs1, hkeep, hown⟩ := getOrCreateBabblerNode_scoped real hs b word
    rw [hg] at hs1 hkeep hown
    simp only at hs1 hkeep hown
    refine ⟨scoped_incrementWordArc hs1 b.BabblerId cur next (hkeep _ hcur) (hown next rfl), ?_⟩
    rw [incrementWordArc_owners]
    exact hown next rfl
  intro words
  induction words with
  | nil =>
    intro db cur hs hcur
    unfold Sqlite.addLoop Sqlite.incrementFinalWordArcHelper
    cases hg : Sqlite.getOrCreateBabblerNode real db b " " with
    | mk db1 res =>
      cases res with
      | error e =>
        have := (getOrCreateBabblerNode_scoped real hs b " ").1
        rw [hg] at this
        exact this
      | ok next =>
        have := (hstep db cur " " hs hcur db1 next hg).1
        simp only
        cases hi : Sqlite.incrementWordArc db1 cur next with
        | mk db2 r =>
          rw [hi] at this
          cases r <;> exact this
  | cons w rest ih =>
    intro db cur hs hcur
    unfold Sqlite.addLoop
    cases hg : Sqlite.getOrCreateBabblerNode real db b w with
    | mk db1 res =>
      cases res with
      | error e =>
        have := (getOrCreateBabblerNode_scoped real hs b w).1
        rw [hg] at this
        exact this
      | ok next =>
        obtain ⟨h1, h2⟩ := hstep db cur w hs hcur db1 next hg
        simp only
        cases hi : Sqlite.incrementWordArc db1 cur next with
        | mk db2 r =>
          rw [hi] at h1 h2
          cases r with
          | error e => exact h1
          | ok arc => exact ih db2 next h1 h2

theorem addToMarkovChain_scoped (real : Conversion) {db : DB} (h : Scoped db) (b : Babbler)
    (phrase : String) :
    Scoped (Sqlite.addToMarkovChain real db b phrase).1 := by
  unfold Sqlite.addToMarkovChain
  split
  · exact h
  · rename_i w rest _
    obtain ⟨hs, hown⟩ := incrementRootWordFrequency_scoped real h b w
    cases hg : Sqlite.incrementRootWordFrequency real db b w with
    | mk db1 res =>
      rw [hg] at hs hown
      cases res with
      | error e => exact hs
      | ok cur => exact addLoop_scoped real b rest db1 cur hs (hown cur rfl)

theorem scoped_New : Scoped New := by
  constructor <;> decide

theorem makeBabbler_scoped (real : Conversion) {db : DB} (h : Scoped db) (name : String) :
    Scoped (Sqlite.makeBabbler real db name).1 := by
  obtain ⟨_, hn, ha⟩ := rows_makeBabbler real db name
  exact scoped_of_rows h (by unfold nodeOwners; rw [hn]) ha

theorem scanNodes_ok : ∀ (rows nodes : List BabblerNode),
    Sqlite.scanNodes rows = .ok nodes → nodes = rows := by
  intro rows
  induction rows with
  | nil =>
    intro nodes h
    injection h with h
    exact h.symm
  | cons row rows ih =>
    intro nodes h
    unfold Sqlite.scanNodes Sqlite.scanNode at h
    split at h
    · cases h
    · rename_i node hnode
      split at hnode
      · injection hnode with hnode
        subst hnode
        split at h
        · cases h
        · rename_i rest hrest
          injection h with h
          rw [← h, ih rest hrest]
      · cases hnode

theorem scanNodes_error : ∀ (rows : List BabblerNode) (e : Failure),
    Sqlite.scanNodes rows = .error e → e = .scan := by
  intro rows
  induction rows with
  | nil => intro e h; cases h
  | cons row rows ih =>
    intro e h
    unfold Sqlite.scanNodes Sqlite.scanNode at h
    split at h
    · rename_i e' he'
      split at he'
      · cases he'
      · injection he' with he'
        injection h with h
        rw [← h, ← he']
    · split at h
      · rename_i e' he'
        injection h with h
        rw [← h]
        exact ih e' he'
      · cases h

theorem scanArcs_ok : ∀ (rows arcs : List BabblerArc),
    Sqlite.scanArcs rows = .ok arcs → arcs = rows := by
  intro rows
  induction rows with
  | nil =>
    intro arcs h
    injection h with h
    exact h.symm
  | cons row rows ih =>
    intro arcs h
    unfold Sqlite.scanArcs Sqlite.scanArc at h
    split at h
    · cases h
    · rename_i arc harc
      split at harc
      · injection harc with harc
        subst harc
        split at h
        · cases h
        · rename_i rest hrest
          injection h with h
          rw [← h, ih rest hrest]
      · cases harc

theorem scanArcs_error : ∀ (rows : List BabblerArc) (e : Failure),
    Sqlite.scanArcs rows = .error e → e = .scan := by
  intro rows
  induction rows with
  | nil => intro e h; cases h
  | cons row rows ih =>
    intro e h
    unfold Sqlite.scanArcs Sqlite.scanArc at h
    split at h
    · rename_i e' he'
      split at he'
      · cases he'
      · injection he' with he'
        injection h with h
        rw [← h, ← he']
    · split at h
      · rename_i e' he'
        injection h with h
        rw [← h]
        exact ih e' he'
      · cases h

theorem nodeOwners_updateMerged (nodes : List BabblerNode) (setRoot : Bool) (rf bid wid : Nat) :
    (updateMerged nodes setRoot rf bid wid).map (fun n => (n.NodeId, n.BabblerId)) =
      nodes.map (fun n => (n.NodeId, n.BabblerId)) := by
  unfold updateMerged
  rw [List.map_map]
  apply List.map_congr_left
  intro n _
  simp only [Function.comp]
  split <;> rfl

theorem nodeOwners_mergeNode (A : Babbler) (db : DB) (node : BabblerNode) :
    nodeOwners (mergeNode A db node) = nodeOwners db ++
      (if findNode db A.BabblerId node.WordId = none then
        [(lastInsertId (nodeIds db), A.BabblerId)] else []) := by
  unfold nodeOwners
  rw [mergeNode_nodes, List.map_append, nodeOwners_updateMerged]
  split <;> rfl

theorem mergeNode_scoped {db : DB} (h : Scoped db) (A : Babbler) (node : BabblerNode) :
    Scoped (mergeNode A db node) ∧
      ∀ p ∈ nodeOwners db, p ∈ nodeOwners (mergeNode A db node) := by
  have hown := nodeOwners_mergeNode A db node
  have hkeep : ∀ p ∈ nodeOwners db, p ∈ nodeOwners (mergeNode A db node) := by
    intro p hp
    rw [hown]
    exact List.mem_append_left _ hp
  refine ⟨scoped_step h ?_ hkeep ?_, hkeep⟩
  · rw [nodeIds_eq_owners, hown, List.map_append, ← nodeIds_eq_owners]
    split
    · exact nodup_append_singleton h.nodeIds_nodup (lastInsertId_not_mem _)
    · simpa using h.nodeIds_nodup
  · intro x hx
    rw [(mergeNode_frame A db node).2.1] at hx
    exact Or.inl ⟨x, hx, rfl, rfl⟩

theorem mergeNodeLoop_scoped (A : Babbler) (intoNode otherNode : BabblerNode) :
    ∀ (nodes : List BabblerNode) (db : DB) (mapping : Mapping), Scoped db →
      Scoped (Sqlite.mergeNodeLoop A intoNode otherNode db mapping nodes).1 ∧
      (∀ p ∈ nodeOwners db,
        p ∈ nodeOwners (Sqlite.mergeNodeLoop A intoNode otherNode db mapping nodes).1) ∧
      (Sqlite.mergeNodeLoop A intoNode otherNode db mapping nodes).1.babblerArcs =
        db.babblerArcs := by
  intro nodes
  induction nodes with
  | nil => intro db mapping h; exact ⟨h, fun p hp => hp, rfl⟩
  | cons node0 rest ih =>
    intro db mapping h
    obtain ⟨hs, hkeep⟩ := mergeNode_scoped h A (redirect intoNode otherNode node0)
    have harcs := (mergeNode_frame A db (redirect intoNode otherNode node0)).2.1
    unfold Sqlite.mergeNodeLoop
    simp only
    split
    · exact ⟨hs, hkeep, harcs⟩
    · split
      · exact ⟨hs, hkeep, harcs⟩
      · obtain ⟨h1, h2, h3⟩ := ih (mergeNode A db (redirect intoNode otherNode node0))
          (mapSet mapping (redirect intoNode otherNode node0).NodeId ‹BabblerNode›) hs
        exact ⟨h1, fun p hp => h2 p (hkeep p hp), h3.trans harcs⟩

/-- A node loop that ends without error has made every `Scan` without error:
it is the node loop on natural numbers. -/
theorem mergeNodeLoop_of_ok (A : Babbler) (intoNode otherNode : BabblerNode) :
    ∀ (nodes : List BabblerNode) (db : DB) (mapping : Mapping) (db' : DB) (mapping' : Mapping),
      Sqlite.mergeNodeLoop A intoNode otherNode db mapping nodes = (db', .ok mapping') →
      mergeNodeLoop A intoNode otherNode db mapping nodes = (db', .ok mapping') := by
  intro nodes
  induction nodes with
  | nil =>
    intro db mapping db' mapping' h
    unfold Sqlite.mergeNodeLoop at h
    unfold mergeNodeLoop
    rw [Prod.mk.injEq] at h ⊢
    exact ⟨h.1, by rw [Except.ok.inj h.2]⟩
  | cons node0 rest ih =>
    intro db mapping db' mapping' h
    unfold Sqlite.mergeNodeLoop at h
    unfold mergeNodeLoop
    simp only at h ⊢
    cases hf : findNode (mergeNode A db (redirect intoNode otherNode node0)) A.BabblerId
        (redirect intoNode otherNode node0).WordId with
    | none =>
      rw [hf] at h
      simp only at h
      rw [Prod.mk.injEq] at h
      exact absurd h.2 (fun hc => by cases hc)
    | some row =>
      rw [hf] at h
      simp only at h ⊢
      unfold Sqlite.scanNode at h
      by_cases hr : row.RootFrequency < 2 ^ 63
      · rw [if_pos hr] at h
        exact ih _ _ _ _ h
      · rw [if_neg hr] at h
        simp only at h
        rw [Prod.mk.injEq] at h
        exact absurd h.2 (fun hc => by cases hc)

theorem mergeNodeLoop_not_panic (A : Babbler) (intoNode otherNode : BabblerNode) :
    ∀ (nodes : List BabblerNode) (db : DB) (mapping : Mapping),
      (Sqlite.mergeNodeLoop A intoNode otherNode db mapping nodes).2 ≠ .error (.go .PANIC) := by
  intro nodes
  induction nodes with
  | nil =>
    intro db mapping h
    cases h
  | cons node0 rest ih =>
    intro db mapping
    unfold Sqlite.mergeNodeLoop
    simp only
    split
    · exact fun hc => by cases hc
    · unfold Sqlite.scanNode
      split
      · rename_i e he
        split at he
        · cases he
        · injection he with he
          rw [← he]
          exact fun hc => by cases hc
      · exact ih _ _

theorem incrementWordArc_not_panic (db : DB) (n1 n2 : BabblerNode) :
    (Sqlite.incrementWordArc db n1 n2).2 ≠ .error (.go .PANIC) := by
  have h : (Sqlite.incrementWordArc db n1 n2).2 =
      Sqlite.getBabblerArc (Sqlite.incrementWordArc db n1 n2).1 n1 n2 := rfl
  rw [h]
  unfold Sqlite.getBabblerArc
  split
  · unfold Sqlite.scanArc
    split
    · exact fun hc => by cases hc
    · exact fun hc => by cases hc
  · exact fun hc => by cases hc

/-- The replay of the arcs of one node leaves the node table as it is, and
every arc row it leaves has the ends of an earlier row or leads from the new
node to a node of the mapping. -/
theorem replayArcs_rows (mapping : Mapping) (newNode : BabblerNode) :
    ∀ (arcs : List BabblerArc) (db : DB),
      (Sqlite.replayArcs mapping newNode db arcs).1.babblerNodes = db.babblerNodes ∧
      ∀ x ∈ (Sqlite.replayArcs mapping newNode db arcs).1.babblerArcs,
        (∃ y ∈ db.babblerArcs, y.FromNodeId = x.FromNodeId ∧ y.ToNodeId = x.ToNodeId) ∨
          (x.FromNodeId = newNode.NodeId ∧
            ∃ k v, mapGet mapping k = some v ∧ x.ToNodeId = v.NodeId) := by
  intro arcs
  induction arcs with
  | nil =>
    intro db
    exact ⟨rfl, fun x hx => Or.inl ⟨x, hx, rfl, rfl⟩⟩
  | cons arc rest ih =>
    intro db
    unfold Sqlite.replayArcs
    cases hv : mapGet mapping arc.ToNodeId with
    | none => exact ⟨rfl, fun x hx => Or.inl ⟨x, hx, rfl, rfl⟩⟩
    | some v =>
      simp only
      have hnodes : (Sqlite.incrementWordArc db newNode v).1.babblerNodes = db.babblerNodes :=
        (incrementWordArc_frame db newNode v).2.1
      have hends : ∀ x ∈ (Sqlite.incrementWordArc db newNode v).1.babblerArcs,
          (∃ y ∈ db.babblerArcs, y.FromNodeId = x.FromNodeId ∧ y.ToNodeId = x.ToNodeId) ∨
            (x.FromNodeId = newNode.NodeId ∧
              ∃ k v, mapGet mapping k = some v ∧ x.ToNodeId = v.NodeId) := by
        intro x hx
        rcases incrementWordArc_ends db newNode v x hx with h | ⟨hf, ht⟩
        · exact Or.inl h
        · exact Or.inr ⟨hf, arc.ToNodeId, v, hv, ht⟩
      cases hi : Sqlite.incrementWordArc db newNode v with
      | mk db1 r =>
        rw [hi] at hnodes hends
        simp only at hnodes hends
        cases r with
        | error e => exact ⟨hnodes, hends⟩
        | ok _ =>
          simp only
          obtain ⟨h1, h2⟩ := ih db1
          refine ⟨h1.trans hnodes, fun x hx => ?_⟩
          rcases h2 x hx with ⟨y, hy, hyf, hyt⟩ | h
          · rcases hends y hy with ⟨z, hz, hzf, hzt⟩ | ⟨hf, k, v', hk, ht⟩
            · exact Or.inl ⟨z, hz, hzf.trans hyf, hzt.trans hyt⟩
            · exact Or.inr ⟨hyf.symm.trans hf, k, v', hk, hyt.symm.trans ht⟩
          · exact Or.inr h

theorem replayArcs_not_panic (mapping : Mapping) (newNode : BabblerNode) :
    ∀ (arcs : List BabblerArc) (db : DB),
      (∀ x ∈ arcs, ∃ v, mapGet mapping x.ToNodeId = some v) →
      (Sqlite.replayArcs mapping newNode db arcs).2 ≠ some (.go .PANIC) := by
  intro arcs
  induction arcs with
  | nil => intro db _ hc; cases hc
  | cons arc rest ih =>
    intro db htargets
    obtain ⟨v, hv⟩ := htargets arc (List.mem_cons_self _ _)
    unfold Sqlite.replayArcs
    rw [hv]
    simp only
    have hno := incrementWordArc_not_panic db newNode v
    cases hi : Sqlite.incrementWordArc db newNode v with
    | mk db1 r =>
      rw [hi] at hno
      cases r with
      | error e =>
        simp only at hno ⊢
        intro hc
        injection hc with hc
        exact hno (by rw [hc])
      | ok _ => exact ih db1 (fun y hy => htargets y (List.mem_cons_of_mem _ hy))

/-- The replay leaves the node table as it is, and every arc row it leaves has
the ends of an earlier row or leads between two nodes of the mapping. -/
theorem replayLoop_rows (mapping : Mapping) :
    ∀ (entries : List (Nat × BabblerNode)) (db : DB),
      (∀ e ∈ entries, mapGet mapping e.1 = some e.2) →
      (Sqlite.replayLoop mapping db entries).1.babblerNodes = db.babblerNodes ∧
      ∀ x ∈ (Sqlite.replayLoop mapping db entries).1.babblerArcs,
        (∃ y ∈ db.babblerArcs, y.FromNodeId = x.FromNodeId ∧ y.ToNodeId = x.ToNodeId) ∨
          (∃ k v k2 v2, mapGet mapping k = some v ∧ mapGet mapping k2 = some v2 ∧
            x.FromNodeId = v.NodeId ∧ x.ToNodeId = v2.NodeId) := by
  intro entries
  induction entries with
  | nil =>
    intro db _
    exact ⟨rfl, fun x hx => Or.inl ⟨x, hx, rfl, rfl⟩⟩
  | cons e rest ih =>
    intro db hentries
    obtain ⟨k, newNode⟩ := e
    have hk : mapGet mapping k = some newNode := hentries (k, newNode) (List.mem_cons_self _ _)
    unfold Sqlite.replayLoop
    cases hs : Sqlite.scanArcs (db.babblerArcs.filter (fun a => a.FromNodeId = k)) with
    | error e => exact ⟨rfl, fun x hx => Or.inl ⟨x, hx, rfl, rfl⟩⟩
    | ok arcs =>
      simp only
      obtain ⟨hnodes, hrows⟩ := replayArcs_rows mapping newNode arcs db
      cases hr : Sqlite.replayArcs mapping newNode db arcs with
      | mk db1 err =>
        rw [hr] at hnodes hrows
        simp only at hnodes hrows
        have hrows' : ∀ x ∈ db1.babblerArcs,
            (∃ y ∈ db.babblerArcs, y.FromNodeId = x.FromNodeId ∧ y.ToNodeId = x.ToNodeId) ∨
              (∃ k v k2 v2, mapGet mapping k = some v ∧ mapGet mapping k2 = some v2 ∧
                x.FromNodeId = v.NodeId ∧ x.ToNodeId = v2.NodeId) := by
          intro x hx
          rcases hrows x hx with h | ⟨hf, k2, v2, hk2, ht⟩
          · exact Or.inl h
          · exact Or.inr ⟨k, newNode, k2, v2, hk, hk2, hf, ht⟩
        cases err with
        | some e => exact ⟨hnodes, hrows'⟩
        | none =>
          simp only
          obtain ⟨h1, h2⟩ := ih db1 (fun e' he' => hentries e' (List.mem_cons_of_mem _ he'))
          refine ⟨h1.trans hnodes, fun x hx => ?_⟩
          rcases h2 x hx with ⟨y, hy, hyf, hyt⟩ | h
          · rcases hrows' y hy with ⟨z, hz, hzf, hzt⟩ | ⟨k1, v1, k2, v2, hk1, hk2, hf, ht⟩
            · exact Or.inl ⟨z, hz, hzf.trans hyf, hzt.trans hyt⟩
            · exact Or.inr ⟨k1, v1, k2, v2, hk1, hk2, hyf.symm.trans hf, hyt.symm.trans ht⟩
          · exact Or.inr h

theorem replayLoop_not_panic (mapping : Mapping) :
    ∀ (entries : List (Nat × BabblerNode)) (db : DB),
      (∀ e ∈ entries, mapGet mapping e.1 = some e.2) →
      (∀ x ∈ db.babblerArcs, (∃ v, mapGet mapping x.FromNodeId = some v) →
        ∃ v, mapGet mapping x.ToNodeId = some v) →
      (∀ k v, mapGet mapping k = some v → (∃ u, mapGet mapping v.NodeId = some u) →
        ∀ k2 v2, mapGet mapping k2 = some v2 → ∃ u, mapGet mapping v2.NodeId = some u) →
      (Sqlite.replayLoop mapping db entries).2 ≠ some (.go .PANIC) := by
  intro entries
  induction entries with
  | nil => intro db _ _ _ hc; cases hc
  | cons e rest ih =>
    intro db hentries hinv hvals
    obtain ⟨k, newNode⟩ := e
    have hk : mapGet mapping k = some newNode := hentries (k, newNode) (List.mem_cons_self _ _)
    unfold Sqlite.replayLoop
    cases hs : Sqlite.scanArcs (db.babblerArcs.filter (fun a => a.FromNodeId = k)) with
    | error e =>
      simp only
      rw [scanArcs_error _ e hs]
      exact fun hc => by cases hc
    | ok arcs =>
      simp only
      have harcs := scanArcs_ok _ _ hs
      have htargets : ∀ x ∈ arcs, ∃ v, mapGet mapping x.ToNodeId = some v := by
        intro x hx
        rw [harcs, List.mem_filter] at hx
        have hxk : x.FromNodeId = k := by simpa using hx.2
        exact hinv x hx.1 ⟨newNode, hxk ▸ hk⟩
      have hno := replayArcs_not_panic mapping newNode arcs db htargets
      obtain ⟨_, hrows⟩ := replayArcs_rows mapping newNode arcs db
      cases hr : Sqlite.replayArcs mapping newNode db arcs with
      | mk db1 err =>
        rw [hr] at hno hrows
        simp only at hno hrows
        cases err with
        | some e => exact hno
        | none =>
          simp only
          apply ih db1 (fun e' he' => hentries e' (List.mem_cons_of_mem _ he')) _ hvals
          intro x hx hfrom
          rcases hrows x hx with ⟨y, hy, hyf, hyt⟩ | ⟨hf, k2, v2, hv2, ht⟩
          · rw [← hyt]
            exact hinv y hy (by rw [hyf]; exact hfrom)
          · rw [ht]
            exact hvals k newNode hk (by rw [← hf]; exact hfrom) k2 v2 hv2

theorem findNode_isSome_of_mem {db : DB} {n : BabblerNode} (hn : n ∈ db.babblerNodes)
    {bid wid : Nat} (hb : n.BabblerId = bid) (hw : n.WordId = wid) :
    ∃ n', findNode db bid wid = some n' := by
  unfold findNode
  cases hf : db.babblerNodes.find? (fun n => n.BabblerId = bid ∧ n.WordId = wid) with
  | some n' => exact ⟨n', rfl⟩
  | none =>
    rw [List.find?_eq_none] at hf
    have := hf n hn
    simp [hb, hw] at this

/-- On a store whose arcs stay within one speaker, `mergeBabblers` on SQLite
values leaves such a store, whatever it returns, and finds the target of every
arc it replays in its mapping. -/
theorem mergeBabblers_scoped (real : Conversion) (order : Mapping → Mapping)
    (horder : ∀ m, (order m).Perm m)
    {db : DB} (h : Scoped db) (a b : Babbler) (intoName otherName : String) :
    Scoped (Sqlite.mergeBabblers real order db a b intoName otherName).1 ∧
    (Sqlite.mergeBabblers real order db a b intoName otherName).2 ≠ some (.go .PANIC) := by
  obtain ⟨hs1, _, _⟩ := getOrCreateBabblerNode_scoped real h a ("<" ++ intoName ++ ">")
  obtain ⟨_, _, hrow1, hfl1⟩ := getOrCreateBabblerNode_rows real db a ("<" ++ intoName ++ ">")
  unfold Sqlite.mergeBabblers
  cases h1 : Sqlite.getOrCreateBabblerNode real db a ("<" ++ intoName ++ ">") with
  | mk db1 r1 =>
  rw [h1] at hs1 hrow1 hfl1
  simp only at hs1 hrow1 hfl1
  cases r1 with
  | error e =>
    simp only
    exact absurd rfl (hfl1 e)
  | ok intoNode =>
  simp only
  obtain ⟨hs2, _, _⟩ := getOrCreateBabblerNode_scoped real hs1 b ("<" ++ otherName ++ ">")
  obtain ⟨_, hn2, _, hfl2⟩ := getOrCreateBabblerNode_rows real db1 b ("<" ++ otherName ++ ">")
  cases h2 : Sqlite.getOrCreateBabblerNode real db1 b ("<" ++ otherName ++ ">") with
  | mk db2 r2 =>
  rw [h2] at hs2 hn2 hfl2
  simp only at hs2 hn2 hfl2
  cases r2 with
  | error e =>
    simp only
    exact absurd rfl (hfl2 e)
  | ok otherNode =>
  simp only
  cases hsc : Sqlite.scanNodes (db2.babblerNodes.filter
      (fun n => n.BabblerId = b.BabblerId)) with
  | error e =>
    simp only
    refine ⟨hs2, ?_⟩
    rw [scanNodes_error _ e hsc]
    exact fun hc => by cases hc
  | ok nodes =>
  simp only
  have hnodes := scanNodes_ok _ _ hsc
  obtain ⟨hs3, hkeep3, harcs3⟩ := mergeNodeLoop_scoped a intoNode otherNode nodes db2 [] hs2
  have hnp := mergeNodeLoop_not_panic a intoNode otherNode nodes db2 []
  cases hl : Sqlite.mergeNodeLoop a intoNode otherNode db2 [] nodes with
  | mk db3 r3 =>
  rw [hl] at hs3 hkeep3 harcs3 hnp
  simp only at hs3 hkeep3 harcs3 hnp
  cases r3 with
  | error e =>
    simp only
    refine ⟨hs3, ?_⟩
    intro hc
    injection hc with hc
    exact hnp (by rw [hc])
  | ok mapping =>
  simp only
  have hideal := mergeNodeLoop_of_ok a intoNode otherNode nodes db2 [] db3 mapping hl
  have hnodup : (nodes.map (·.NodeId)).Nodup := by
    rw [hnodes]
    exact (hs2.nodeIds_nodup).sublist ((List.filter_sublist _).map _)
  obtain ⟨hkeepm, hmap⟩ := mergeNodeLoop_mapping a intoNode otherNode nodes db2 [] mapping
    hnodup (by rw [hideal])
  rw [hideal] at hmap
  simp only at hmap
  have hkeys := mergeNodeLoop_keys_nodup a intoNode otherNode nodes db2 [] mapping
    List.nodup_nil (by rw [hideal])
  have hmemnodes : ∀ m, m ∈ nodes ↔ m ∈ db2.babblerNodes ∧ m.BabblerId = b.BabblerId := by
    intro m
    rw [hnodes, List.mem_filter]
    simp
  -- the keys of the mapping are the ids of the nodes of `b`
  have hkey : ∀ k v, mapGet mapping k = some v → (k, b.BabblerId) ∈ nodeOwners db2 := by
    intro k v hv
    by_contra hc
    have : k ∉ nodes.map (·.NodeId) := by
      intro hmem
      obtain ⟨m, hm, hmk⟩ := List.mem_map.1 hmem
      obtain ⟨hm2, hmb⟩ := (hmemnodes m).1 hm
      exact hc (mem_nodeOwners.2 ⟨m, hm2, hmk, hmb⟩)
    rw [hkeepm k this] at hv
    cases hv
  have hmapped : ∀ i, (i, b.BabblerId) ∈ nodeOwners db2 →
      ∃ v, mapGet mapping i = some v := by
    intro i hi
    obtain ⟨m, hm, hmid, hmb⟩ := mem_nodeOwners.1 hi
    obtain ⟨v, _, hv, _⟩ := hmap m ((hmemnodes m).2 ⟨hm, hmb⟩)
    exact ⟨v, hmid ▸ hv⟩
  -- the values of the mapping are rows of `a` after the node loop
  have hval : ∀ k v, mapGet mapping k = some v → (v.NodeId, a.BabblerId) ∈ nodeOwners db3 := by
    intro k v hv
    obtain ⟨m, hm, hmid, hmb⟩ := mem_nodeOwners.1 (hkey k v hv)
    obtain ⟨v0, v', hv0, hv', hid⟩ := hmap m ((hmemnodes m).2 ⟨hm, hmb⟩)
    rw [hmid, hv] at hv0
    injection hv0 with hv0
    subst hv0
    obtain ⟨hmem, hbid, _⟩ := findNode_some hv'
    exact mem_nodeOwners.2 ⟨v', hmem, hid, hbid⟩
  have hentries : ∀ e ∈ order mapping, mapGet mapping e.1 = some e.2 := by
    intro e he
    exact mapGet_of_mem hkeys ((horder mapping).mem_iff.1 he)
  have hinv : ∀ x ∈ db3.babblerArcs, (∃ v, mapGet mapping x.FromNodeId = some v) →
      ∃ v, mapGet mapping x.ToNodeId = some v := by
    intro x hx ⟨v, hv⟩
    rw [harcs3] at hx
    obtain ⟨m, hm, hmid, hmb⟩ := mem_nodeOwners.1 (hkey _ v hv)
    obtain ⟨m2, hm2, hm2id⟩ := List.mem_map.1 (hs2.arc_closed x hx).2
    have hsame := hs2.arc_speaker x hx m hm m2 hm2 hmid hm2id
    exact hmapped _ (mem_nodeOwners.2 ⟨m2, hm2, hm2id, hsame.symm.trans hmb⟩)
  have hclosed : ∀ k v, mapGet mapping k = some v →
      (∃ u, mapGet mapping v.NodeId = some u) →
      ∀ k2 v2, mapGet mapping k2 = some v2 → ∃ u, mapGet mapping v2.NodeId = some u := by
    intro k v hv ⟨u, hu⟩ k2 v2 hv2
    -- a value that is a key: the two speakers have one id
    have hab : a.BabblerId = b.BabblerId :=
      owner_unique hs3.nodeIds_nodup (hval k v hv) (hkeep3 _ (hkey _ u hu))
    obtain ⟨row, hrow, _, hrowb, hroww⟩ := hrow1 intoNode rfl
    have hrow2 : row ∈ db2.babblerNodes := by
      rcases hn2 with hn2 | ⟨wid, hn2⟩
      · rw [hn2]; exact hrow
      · rw [hn2]; exact List.mem_append_left _ hrow
    have hids := mergeNodeLoop_ids_of_present a intoNode otherNode nodes db2 []
      (fun m hm => by
        obtain ⟨hm2, hmb⟩ := (hmemnodes m).1 hm
        unfold redirect
        split
        · exact findNode_isSome_of_mem hrow2 hrowb hroww
        · exact findNode_isSome_of_mem hm2 (hmb.trans hab.symm) rfl)
    rw [hideal] at hids
    simp only at hids
    have hmem2 : v2.NodeId ∈ nodeIds db2 := by
      rw [← hids, nodeIds_eq_owners]
      exact List.mem_map.2 ⟨_, hval k2 v2 hv2, rfl⟩
    obtain ⟨r, hr, hrid⟩ := List.mem_map.1 hmem2
    have hrb : r.BabblerId = a.BabblerId :=
      owner_unique hs3.nodeIds_nodup (hkeep3 _ (mem_nodeOwners.2 ⟨r, hr, hrid, rfl⟩))
        (hval k2 v2 hv2)
    exact hmapped _ (mem_nodeOwners.2 ⟨r, hr, hrid, hrb.trans hab⟩)
  refine ⟨?_, replayLoop_not_panic mapping (order mapping) db3 hentries hinv hclosed⟩
  obtain ⟨hrn, hrrows⟩ := replayLoop_rows mapping (order mapping) db3 hentries
  have hown : nodeOwners (Sqlite.replayLoop mapping db3 (order mapping)).1 = nodeOwners db3 := by
    unfold nodeOwners
    rw [hrn]
  apply scoped_step hs3
  · unfold nodeIds
    rw [hrn]
    exact hs3.nodeIds_nodup
  · intro p hp
    rw [hown]
    exact hp
  · intro x hx
    rcases hrrows x hx with h' | ⟨k, v, k2, v2, hk, hk2, hf, ht⟩
    · exact Or.inl h'
    · right
      rw [hown, hf, ht]
      exact ⟨a.BabblerId, hval k v hk, hval k2 v2 hk2⟩

/-- In every store that the calls on SQLite values produce, the arcs stay
within one speaker, whatever the counters are. -/
theorem sreachable_scoped (real : Conversion) {db : DB} (h : Sqlite.Reachable real db) :
    Scoped db := by
  induction h with
  | init => exact scoped_New
  | register name _ ih => exact makeBabbler_scoped real ih name
  | learn b phrase _ ih => exact addToMarkovChain_scoped real ih b phrase
  | merge order a b intoName otherName horder _ ih =>
    exact (mergeBabblers_scoped real order horder ih a b intoName otherName).1

/-! ## No dead end after learning, on SQLite values -/

theorem noDeadEnd_mono {db db' : DB} (hw : ∀ w ∈ db.babblerWords, w ∈ db'.babblerWords)
    (ha : ∀ a ∈ db.babblerArcs, ∃ a' ∈ db'.babblerArcs, a'.FromNodeId = a.FromNodeId)
    {n : BabblerNode} (h : NoDeadEnd db n) : NoDeadEnd db' n := by
  rcases h with ⟨a, hmem, hfrom⟩ | ⟨hroot, w, hmem, hid, htext⟩
  · obtain ⟨a', hmem', hfrom'⟩ := ha a hmem
    exact Or.inl ⟨a', hmem', hfrom'.trans hfrom⟩
  · exact Or.inr ⟨hroot, w, hw w hmem, hid, htext⟩

/-- The word that `getOrCreateWord` returns has the id of a word row that holds
what the column keeps of `word`; word ids stay keys. -/
theorem sqlite_getOrCreateWord_row (real : Conversion) (db : DB) (word : String)
    (h : (wordIds db).Nodup) :
    ∃ w, (Sqlite.getOrCreateWord real db word).2 = .ok w ∧
      (wordIds (Sqlite.getOrCreateWord real db word).1).Nodup ∧
      (∀ x ∈ db.babblerWords, x ∈ (Sqlite.getOrCreateWord real db word).1.babblerWords) ∧
      ∃ row ∈ (Sqlite.getOrCreateWord real db word).1.babblerWords,
        row.WordId = w.WordId ∧ row.Word = numericAffinity real word := by
  unfold Sqlite.getOrCreateWord Sqlite.getWord
  cases hf : db.babblerWords.find? (fun w => w.Word = numericAffinity real word) with
  | some w =>
    refine ⟨w, rfl, h, fun x hx => hx, w, List.mem_of_find?_eq_some hf, rfl, ?_⟩
    simpa using List.find?_some hf
  | none =>
    refine ⟨⟨lastInsertId (db.babblerWords.map (·.WordId)), word⟩, ?_, ?_, ?_, ?_⟩
    · rfl
    · unfold wordIds Sqlite.createNewWord
      simp only [List.map_append, List.map_cons, List.map_nil]
      exact nodup_append_singleton h (lastInsertId_not_mem _)
    · intro x hx
      exact List.mem_append_left _ hx
    · exact ⟨_, List.mem_append_right _ (List.mem_singleton_self _), rfl, rfl⟩

/-- One call of `getOrCreateBabblerNode` within learning: the node rows that
were there stay as they are, and a node row that is added has the id of the
node returned, a fresh one; a row added for the terminal marker is no dead
end. -/
theorem getOrCreateBabblerNode_walkable (real : Conversion) {db : DB} {p : Option Nat}
    (h : Walkable db p) (b : Babbler) (word : String) :
    ∃ next, (Sqlite.getOrCreateBabblerNode real db b word).2 = .ok next ∧
      Scoped (Sqlite.getOrCreateBabblerNode real db b word).1 ∧
      (wordIds (Sqlite.getOrCreateBabblerNode real db b word).1).Nodup ∧
      (Sqlite.getOrCreateBabblerNode real db b word).1.babblerArcs = db.babblerArcs ∧
      (∀ q ∈ nodeOwners db, q ∈ nodeOwners (Sqlite.getOrCreateBabblerNode real db b word).1) ∧
      (next.NodeId, b.BabblerId) ∈ nodeOwners (Sqlite.getOrCreateBabblerNode real db b word).1 ∧
      (∀ n ∈ (Sqlite.getOrCreateBabblerNode real db b word).1.babblerNodes,
        p = some n.NodeId ∨ NoDeadEnd (Sqlite.getOrCreateBabblerNode real db b word).1 n ∨
          (n.NodeId = next.NodeId ∧ next.NodeId ∉ nodeIds db ∧
            (numericAffinity real word = " " →
              NoDeadEnd (Sqlite.getOrCreateBabblerNode real db b word).1 n))) := by
  obtain ⟨hs1, hkeep, hown⟩ := getOrCreateBabblerNode_scoped real h.arcs_scoped b word
  obtain ⟨harcs, _, _, hne⟩ := getOrCreateBabblerNode_rows real db b word
  unfold Sqlite.getOrCreateBabblerNode at hs1 hkeep hown harcs hne ⊢
  cases hg : Sqlite.getBabblerNode real db b word with
  | ok node =>
    rw [hg] at hs1 hkeep hown harcs hne
    simp only at hs1 hkeep hown harcs hne ⊢
    refine ⟨node, rfl, hs1, h.wordIds_nodup, trivial, hkeep, hown node rfl, fun n hn => ?_⟩
    rcases h.no_dead_end n hn with hp | hf
    · exact Or.inl hp
    · exact Or.inr (Or.inl hf)
  | error e =>
    rw [hg] at hs1 hkeep hown harcs hne
    simp only at hs1 hkeep hown harcs hne ⊢
    obtain ⟨w, hw, hnd, hsub, row, hrow, hrid, hrtext⟩ :=
      sqlite_getOrCreateWord_row real db word h.wordIds_nodup
    obtain ⟨hwn, hwa⟩ := rows_getOrCreateWord real db word
    unfold Sqlite.createBabblerNode at hs1 hkeep hown harcs hne ⊢
    cases hc : Sqlite.getOrCreateWord real db word with
    | mk dbw res =>
      rw [hc] at hw hnd hsub hrow hwn hwa hs1 hkeep hown harcs hne
      simp only at hw hnd hsub hrow hwn hwa
      subst hw
      simp only at hs1 hkeep hown harcs hne ⊢
      have hid : lastInsertId (dbw.babblerNodes.map (·.NodeId)) ∉ nodeIds db := by
        rw [hwn]
        exact lastInsertId_not_mem _
      refine ⟨_, rfl, hs1, hnd, harcs, hkeep, hown _ rfl, fun n hn => ?_⟩
      rcases List.mem_append.1 hn with hn | hn
      · rw [hwn] at hn
        rcases h.no_dead_end n hn with hp | hf
        · exact Or.inl hp
        · refine Or.inr (Or.inl (noDeadEnd_mono hsub (fun a ha => ⟨a, ?_, rfl⟩) hf))
          show a ∈ dbw.babblerArcs
          rw [hwa]
          exact ha
      · rw [List.mem_singleton] at hn
        subst hn
        refine Or.inr (Or.inr ⟨rfl, hid, fun hsp => Or.inr ⟨rfl, row, hrow, hrid, ?_⟩⟩)
        rw [hrtext, hsp]

theorem incrementWordArc_keeps_ends (db : DB) (n1 n2 : BabblerNode) :
    ∀ a ∈ db.babblerArcs, ∃ a' ∈ (incrementWordArc db n1 n2).1.babblerArcs,
      a'.FromNodeId = a.FromNodeId ∧ a'.ToNodeId = a.ToNodeId := by
  intro a ha
  rw [incrementWordArc_arcs]
  refine ⟨_, List.mem_append_left _ (List.mem_map_of_mem _ ha), ?_⟩
  split <;> exact ⟨rfl, rfl⟩

theorem incrementWordArc_has_arc (db : DB) (n1 n2 : BabblerNode) :
    ∃ a ∈ (incrementWordArc db n1 n2).1.babblerArcs,
      a.FromNodeId = n1.NodeId ∧ a.ToNodeId = n2.NodeId := by
  by_cases hex : ∃ x ∈ db.babblerArcs, x.FromNodeId = n1.NodeId ∧ x.ToNodeId = n2.NodeId
  · obtain ⟨x, hx, hf, ht⟩ := hex
    obtain ⟨a', ha', hf', ht'⟩ := incrementWordArc_keeps_ends db n1 n2 x hx
    exact ⟨a', ha', hf'.trans hf, ht'.trans ht⟩
  · have habs : ∀ x ∈ db.babblerArcs, ¬ (x.FromNodeId = n1.NodeId ∧ x.ToNodeId = n2.NodeId) :=
      fun x hx hc => hex ⟨x, hx, hc⟩
    rw [incrementWordArc_arcs, if_pos (affectedArcRows_of_absent habs)]
    exact ⟨_, List.mem_append_right _ (List.mem_singleton_self _), rfl, rfl⟩

/-- When `incrementWordArc` returns an error, the arc row was there before the
call: a row that the call inserts has the frequency `1`, and its `Scan`
succeeds. -/
theorem sqlite_incrementWordArc_error (db : DB) (n1 n2 : BabblerNode) (e : Failure)
    (h : (Sqlite.incrementWordArc db n1 n2).2 = .error e) :
    ∃ x ∈ db.babblerArcs, x.FromNodeId = n1.NodeId ∧ x.ToNodeId = n2.NodeId := by
  have h2 : (Sqlite.incrementWordArc db n1 n2).2 =
      Sqlite.getBabblerArc (incrementWordArc db n1 n2).1 n1 n2 := rfl
  rw [h2] at h
  unfold Sqlite.getBabblerArc at h
  cases hf : (incrementWordArc db n1 n2).1.babblerArcs.find?
      (fun a => a.FromNodeId = n1.NodeId ∧ a.ToNodeId = n2.NodeId) with
  | none =>
    exfalso
    obtain ⟨a, ha, hfrom, hto⟩ := incrementWordArc_has_arc db n1 n2
    have := List.find?_eq_none.1 hf a ha
    simp only [decide_eq_true_eq] at this
    exact this ⟨hfrom, hto⟩
  | some row =>
    rw [hf] at h
    simp only at h
    have hmem := List.mem_of_find?_eq_some hf
    have hp := List.find?_some hf
    simp only [decide_eq_true_eq] at hp
    rw [incrementWordArc_arcs] at hmem
    rcases List.mem_append.1 hmem with hmem | hmem
    · obtain ⟨a0, ha0, hf0, ht0, _⟩ := mem_updateArcFrequency hmem
      exact ⟨a0, ha0, hf0 ▸ hp.1, ht0 ▸ hp.2⟩
    · exfalso
      split at hmem
      · rw [List.mem_singleton] at hmem
        subst hmem
        unfold Sqlite.scanArc at h
        rw [if_pos (by norm_num)] at h
        cases h
      · cases hmem

theorem walkable_of_rows {db db' : DB} {p : Option Nat} (h : Walkable db p)
    (hw : db'.babblerWords = db.babblerWords) (hn : db'.babblerNodes = db.babblerNodes)
    (ha : db'.babblerArcs = db.babblerArcs) : Walkable db' p := by
  refine ⟨scoped_of_rows h.arcs_scoped (by unfold nodeOwners; rw [hn]) ha, ?_, ?_⟩
  · unfold wordIds
    rw [hw]
    exact h.wordIds_nodup
  · intro n hn'
    rw [hn] at hn'
    rcases h.no_dead_end n hn' with hp | hf
    · exact Or.inl hp
    · exact Or.inr (noDeadEnd_mono (fun w hw' => by rw [hw]; exact hw')
        (fun a ha' => ⟨a, by rw [ha]; exact ha', rfl⟩) hf)

/-- One step of the loop of `addToMarkovChain`: the node for the next word and
the arc to it.  With the current node pending before the step, the next node
is pending after it; when the word is the terminal marker, or the step ends
with an error, no node is pending. -/
theorem addStep_walkable (real : Conversion) (b : Babbler) {db : DB} (cur : BabblerNode)
    (word : String) (h : Walkable db (some cur.NodeId))
    (hcur : (cur.NodeId, b.BabblerId) ∈ nodeOwners db) :
    ∃ next, (Sqlite.getOrCreateBabblerNode real db b word).2 = .ok next ∧
      (next.NodeId, b.BabblerId) ∈ nodeOwners
        (Sqlite.incrementWordArc (Sqlite.getOrCreateBabblerNode real db b word).1 cur next).1 ∧
      Walkable
        (Sqlite.incrementWordArc (Sqlite.getOrCreateBabblerNode real db b word).1 cur next).1
        (some next.NodeId) ∧
      ((numericAffinity real word = " " ∨
          ∃ e, (Sqlite.incrementWordArc (Sqlite.getOrCreateBabblerNode real db b word).1
            cur next).2 = .error e) →
        Walkable
          (Sqlite.incrementWordArc (Sqlite.getOrCreateBabblerNode real db b word).1 cur next).1
          none) := by
  obtain ⟨next, hnext, hs1, hnd, harcs, hkeep, hown, hnodes⟩ :=
    getOrCreateBabblerNode_walkable real h b word
  refine ⟨next, hnext, ?_, ?_, ?_⟩
  · rw [incrementWordArc_owners]
    exact hown
  all_goals
    generalize (Sqlite.getOrCreateBabblerNode real db b word).1 = db1 at *
    have hfst : (Sqlite.incrementWordArc db1 cur next).1 = (incrementWordArc db1 cur next).1 :=
      rfl
    have hs2 : Scoped (incrementWordArc db1 cur next).1 :=
      scoped_incrementWordArc hs1 b.BabblerId cur next (hkeep _ hcur) hown
    obtain ⟨hw2, hn2, _⟩ := incrementWordArc_frame db1 cur next
    have hnd2 : (wordIds (incrementWordArc db1 cur next).1).Nodup := by
      unfold wordIds
      rw [hw2]
      exact hnd
    have hmono : ∀ n, NoDeadEnd db1 n → NoDeadEnd (incrementWordArc db1 cur next).1 n :=
      fun n hf => noDeadEnd_mono (fun w hw => by rw [hw2]; exact hw)
        (fun a ha => (incrementWordArc_keeps_ends db1 cur next a ha).imp
          fun a' ha' => ⟨ha'.1, ha'.2.1⟩) hf
    have hcurArc : ∀ n : BabblerNode, n.NodeId = cur.NodeId →
        NoDeadEnd (incrementWordArc db1 cur next).1 n := by
      intro n hn
      obtain ⟨a, ha, hfrom, _⟩ := incrementWordArc_has_arc db1 cur next
      exact Or.inl ⟨a, ha, hfrom.trans hn.symm⟩
  · rw [hfst]
    refine ⟨hs2, hnd2, fun n hn => ?_⟩
    rw [hn2] at hn
    rcases hnodes n hn with hp | hf | ⟨hid, _, _⟩
    · injection hp with hp
      exact Or.inr (hcurArc n hp.symm)
    · exact Or.inr (hmono n hf)
    · exact Or.inl (by rw [hid])
  · intro hcase
    rw [hfst]
    refine ⟨hs2, hnd2, fun n hn => ?_⟩
    rw [hn2] at hn
    right
    rcases hnodes n hn with hp | hf | ⟨hid, hnew, hterm⟩
    · injection hp with hp
      exact hcurArc n hp.symm
    · exact hmono n hf
    · rcases hcase with hsp | ⟨e, he⟩
      · exact hmono n (hterm hsp)
      · exfalso
        obtain ⟨x, hx, _, hto⟩ := sqlite_incrementWordArc_error db1 cur next e he
        rw [harcs] at hx
        apply hnew
        rw [← hto]
        exact (h.arcs_scoped.arc_closed x hx).2

theorem addLoop_walkable (real : Conversion) (b : Babbler) :
    ∀ (words : List String) (db : DB) (cur : BabblerNode), Walkable db (some cur.NodeId) →
      (cur.NodeId, b.BabblerId) ∈ nodeOwners db →
      Walkable (Sqlite.addLoop real b db cur words).1 none := by
  intro words
  induction words with
  | nil =>
    intro db cur h hcur
    obtain ⟨next, hnext, _, _, hnone⟩ := addStep_walkable real b cur " " h hcur
    unfold Sqlite.addLoop Sqlite.incrementFinalWordArcHelper
    cases hg : Sqlite.getOrCreateBabblerNode real db b " " with
    | mk db1 res =>
      rw [hg] at hnext hnone
      simp only at hnext hnone
      subst hnext
      simp only
      have := hnone (Or.inl (numericAffinity_of_text real keptAsText_terminal))
      cases hi : Sqlite.incrementWordArc db1 cur next with
      | mk db2 r =>
        rw [hi] at this
        cases r <;> exact this
  | cons w rest ih =>
    intro db cur h hcur
    obtain ⟨next, hnext, hown, hsome, hnone⟩ := addStep_walkable real b cur w h hcur
    unfold Sqlite.addLoop
    cases hg : Sqlite.getOrCreateBabblerNode real db b w with
    | mk db1 res =>
      rw [hg] at hnext hown hsome hnone
      simp only at hnext hown hsome hnone
      subst hnext
      simp only
      cases hi : Sqlite.incrementWordArc db1 cur next with
      | mk db2 r =>
        rw [hi] at hown hsome hnone
        cases r with
        | error e => exact hnone (Or.inr ⟨e, rfl⟩)
        | ok arc => exact ih db2 next hsome hown

theorem incrementRootWordFrequency_walkable (real : Conversion) {db : DB}
    (h : Walkable db none) (b : Babbler) (word : String) :
    ∃ cur, (Sqlite.incrementRootWordFrequency real db b word).2 = .ok cur ∧
      (cur.NodeId, b.BabblerId) ∈
        nodeOwners (Sqlite.incrementRootWordFrequency real db b word).1 ∧
      Walkable (Sqlite.incrementRootWordFrequency real db b word).1 (some cur.NodeId) := by
  obtain ⟨next, hnext, hs1, hnd, _, _, hown, hnodes⟩ :=
    getOrCreateBabblerNode_walkable real h b word
  unfold Sqlite.incrementRootWordFrequency
  cases hg : Sqlite.getOrCreateBabblerNode real db b word with
  | mk db1 res =>
    rw [hg] at hnext hs1 hnd hown hnodes
    simp only at hnext hs1 hnd hown hnodes
    subst hnext
    simp only
    refine ⟨_, rfl, ?_, scoped_of_rows hs1 (nodeOwners_updateRoot db1 next.NodeId) rfl, hnd,
      fun n hn => ?_⟩
    · rw [nodeOwners_updateRoot]
      exact hown
    · simp only at hn
      unfold updateRootById at hn
      obtain ⟨n0, hn0, hn0n⟩ := List.mem_map.1 hn
      by_cases hid : n0.NodeId = next.NodeId
      · left
        rw [← hn0n, if_pos hid]
        exact congrArg some hid.symm
      · rw [if_neg hid] at hn0n
        subst hn0n
        rcases hnodes n0 hn0 with hp | hf | ⟨hc, _, _⟩
        · cases hp
        · exact Or.inr (noDeadEnd_mono (fun w hw => hw) (fun a ha => ⟨a, ha, rfl⟩) hf)
        · exact absurd hc hid

theorem addToMarkovChain_walkable (real : Conversion) {db : DB} (h : Walkable db none)
    (b : Babbler) (phrase : String) :
    Walkable (Sqlite.addToMarkovChain real db b phrase).1 none := by
  unfold Sqlite.addToMarkovChain
  split
  · exact h
  · rename_i w rest _
    obtain ⟨cur, hcur, hown, hw⟩ := incrementRootWordFrequency_walkable real h b w
    cases hg : Sqlite.incrementRootWordFrequency real db b w with
    | mk db1 res =>
      rw [hg] at hcur hown hw
      simp only at hcur hown hw
      subst hcur
      exact addLoop_walkable real b rest db1 cur hw hown

theorem walkable_New : Walkable New none :=
  ⟨scoped_New, by decide, fun n hn => by cases hn⟩

theorem sqlite_learnAll_walkable (real : Conversion) (hist : History) :
    ∀ db : DB, Walkable db none → Walkable (Sqlite.learnAll real db hist) none := by
  induction hist with
  | nil => exact fun db h => h
  | cons op rest ih =>
    intro db h
    unfold Sqlite.learnAll
    rw [List.foldl_cons]
    apply ih
    cases op with
    | register name =>
      obtain ⟨hw, hn, ha⟩ := rows_makeBabbler real db name
      exact walkable_of_rows h hw hn ha
    | learn b phrase => exact addToMarkovChain_walkable real h b phrase

theorem scanNode_ok {row n : BabblerNode} (h : Sqlite.scanNode row = .ok n) : n = row := by
  unfold Sqlite.scanNode at h
  split at h
  · injection h with h
    exact h.symm
  · cases h

theorem scanNode_error {row : BabblerNode} {e : Failure} (h : Sqlite.scanNode row = .error e) :
    e = .scan := by
  unfold Sqlite.scanNode at h
  split at h
  · cases h
  · injection h with h
    exact h.symm

theorem scanArc_error {row : BabblerArc} {e : Failure} (h : Sqlite.scanArc row = .error e) :
    e = .scan := by
  unfold Sqlite.scanArc at h
  split at h
  · cases h
  · injection h with h
    exact h.symm

theorem sqlite_getWordById_ok {db : DB} {id : Nat} {w : BabblerWord}
    (h : Sqlite.getWordById db id = .ok w) : w ∈ db.babblerWords ∧ w.WordId = id := by
  unfold Sqlite.getWordById at h
  split at h
  · rename_i w0 hf
    injection h with h
    subst h
    have := List.find?_some hf
    simp only [decide_eq_true_eq] at this
    exact ⟨List.mem_of_find?_eq_some hf, this⟩
  · cases h

theorem sqlite_getWordById_error {db : DB} {id : Nat} {e : Failure}
    (h : Sqlite.getWordById db id = .error e) : e = .go .ErrNoRows := by
  unfold Sqlite.getWordById at h
  split at h
  · cases h
  · injection h with h
    exact h.symm

theorem sqlite_getNodeById_ok {db : DB} {id : Nat} {n : BabblerNode}
    (h : Sqlite.getNodeById db id = .ok n) : n ∈ db.babblerNodes ∧ n.NodeId = id := by
  unfold Sqlite.getNodeById at h
  split at h
  · rename_i row hf
    rw [scanNode_ok h]
    have := List.find?_some hf
    simp only [decide_eq_true_eq] at this
    exact ⟨List.mem_of_find?_eq_some hf, this⟩
  · cases h

theorem sqlite_getNodeById_error {db : DB} {id : Nat} {e : Failure}
    (h : Sqlite.getNodeById db id = .error e) : e = .scan ∨ e = .go .ErrNoRows := by
  unfold Sqlite.getNodeById at h
  split at h
  · exact Or.inl (scanNode_error h)
  · injection h with h
    exact Or.inr h.symm

theorem sqlite_arcLoop_cases {db : DB} {which : Int} :
    ∀ (arcs : List BabblerArc) (total : Int),
      (∀ node w, Sqlite.arcLoop db which total arcs = .ok (node, w) →
        node ∈ db.babblerNodes ∧ w ∈ db.babblerWords ∧ w.WordId = node.WordId) ∧
      (∀ e, Sqlite.arcLoop db which total arcs = .error e →
        e = .scan ∨ e = .go .ErrNoRows ∨ e = .go .FATAL) := by
  intro arcs
  induction arcs with
  | nil =>
    intro total
    refine ⟨fun node w h => (by cases h), fun e h => ?_⟩
    injection h with h
    exact Or.inr (Or.inr h.symm)
  | cons arc rest ih =>
    intro total
    unfold Sqlite.arcLoop
    split
    · cases hn : Sqlite.getNodeById db arc.ToNodeId with
      | error e0 =>
        refine ⟨fun node w h => (by cases h), fun e h => ?_⟩
        injection h with h
        rw [← h]
        rcases sqlite_getNodeById_error hn with h1 | h1
        · exact Or.inl h1
        · exact Or.inr (Or.inl h1)
      | ok node0 =>
        simp only
        cases hw : Sqlite.getWordById db node0.WordId with
        | error e0 =>
          refine ⟨fun node w h => (by cases h), fun e h => ?_⟩
          injection h with h
          rw [← h]
          exact Or.inr (Or.inl (sqlite_getWordById_error hw))
        | ok w0 =>
          simp only
          refine ⟨fun node w h => ?_, fun e h => (by cases h)⟩
          injection h with h
          injection h with h1 h2
          subst h1 h2
          obtain ⟨hw1, hw2⟩ := sqlite_getWordById_ok hw
          exact ⟨(sqlite_getNodeById_ok hn).1, hw1, hw2⟩
    · exact ih _

theorem sqlite_rootLoop_cases {db : DB} {which : Int} :
    ∀ (nodes : List BabblerNode) (total : Int),
      (∀ node w, Sqlite.rootLoop db which total nodes = .ok (node, w) →
        node ∈ nodes ∧ w ∈ db.babblerWords ∧ w.WordId = node.WordId) ∧
      (∀ e, Sqlite.rootLoop db which total nodes = .error e →
        e = .go .ErrNoRows ∨ e = .go .FATAL) := by
  intro nodes
  induction nodes with
  | nil =>
    intro total
    refine ⟨fun node w h => (by cases h), fun e h => ?_⟩
    injection h with h
    exact Or.inr h.symm
  | cons node0 rest ih =>
    intro total
    unfold Sqlite.rootLoop
    split
    · cases hw : Sqlite.getWordById db node0.WordId with
      | error e0 =>
        refine ⟨fun node w h => (by cases h), fun e h => ?_⟩
        injection h with h
        rw [← h]
        exact Or.inl (sqlite_getWordById_error hw)
      | ok w0 =>
        simp only
        refine ⟨fun node w h => ?_, fun e h => (by cases h)⟩
        injection h with h
        injection h with h1 h2
        subst h1 h2
        obtain ⟨hw1, hw2⟩ := sqlite_getWordById_ok hw
        exact ⟨List.mem_cons_self _ _, hw1, hw2⟩
    · obtain ⟨h1, h2⟩ := ih (wrapInt64 (total + node0.RootFrequency))
      exact ⟨fun node w h => ⟨List.mem_cons_of_mem _ (h1 node w h).1, (h1 node w h).2⟩, h2⟩

theorem sqlite_Int63n_error {n : Int} {r : Nat} {e : Failure}
    (h : Sqlite.Int63n n r = .error e) : e = .go .PANIC := by
  unfold Sqlite.Int63n at h
  split at h
  · injection h with h
    exact h.symm
  · cases h

/-- A draw of the next word returns a node row with its word row, or an error;
the error is `missing arcs` only when no arc row leaves the node. -/
theorem sqlite_getWeightedNextWord_cases {db : DB} (fromNode : BabblerNode) (r : Nat) :
    (∀ node w, Sqlite.getWeightedNextWord db fromNode r = .ok (node, w) →
      node ∈ db.babblerNodes ∧ w ∈ db.babblerWords ∧ w.WordId = node.WordId) ∧
    (Sqlite.getWeightedNextWord db fromNode r = .error (.go .MISSING_ARCS) →
      ∀ a ∈ db.babblerArcs, a.FromNodeId ≠ fromNode.NodeId) := by
  unfold Sqlite.getWeightedNextWord
  cases hs : Sqlite.scanArcs (db.babblerArcs.filter
      (fun a => a.FromNodeId = fromNode.NodeId)) with
  | error e =>
    refine ⟨fun node w h => (by cases h), fun h => ?_⟩
    injection h with h
    rw [scanArcs_error _ _ hs] at h
    cases h
  | ok arcs =>
    have harcs := scanArcs_ok _ _ hs
    simp only
    split
    · rename_i hlen
      refine ⟨fun node w h => (by cases h), fun _ a ha hfrom => ?_⟩
      rw [harcs] at hlen
      have hmem : a ∈ db.babblerArcs.filter (fun a => a.FromNodeId = fromNode.NodeId) :=
        List.mem_filter.2 ⟨ha, by simpa using hfrom⟩
      rw [List.length_eq_zero.1 hlen] at hmem
      cases hmem
    · cases hi : Sqlite.Int63n (Sqlite.total64 (arcs.map (·.Frequency))) r with
      | error e =>
        refine ⟨fun node w h => (by cases h), fun h => ?_⟩
        injection h with h
        rw [sqlite_Int63n_error hi] at h
        cases h
      | ok which =>
        obtain ⟨h1, h2⟩ := @sqlite_arcLoop_cases db which arcs 0
        refine ⟨h1, fun h => ?_⟩
        rcases h2 _ h with hc | hc | hc <;> cases hc

/-- A draw of a root returns a root node row with its word row, or an error
other than `missing arcs`. -/
theorem sqlite_getWeightedRootNode_cases {db : DB} (b : Babbler) (r : Nat) :
    (∀ node w, Sqlite.getWeightedRootNode db b r = .ok (node, w) →
      node ∈ db.babblerNodes ∧ node.Root = 1 ∧ w ∈ db.babblerWords ∧
        w.WordId = node.WordId) ∧
    Sqlite.getWeightedRootNode db b r ≠ .error (.go .MISSING_ARCS) := by
  unfold Sqlite.getWeightedRootNode
  cases hs : Sqlite.scanNodes (db.babblerNodes.filter
      (fun n => n.BabblerId = b.BabblerId ∧ n.Root = 1)) with
  | error e =>
    refine ⟨fun node w h => (by cases h), fun h => ?_⟩
    injection h with h
    rw [scanNodes_error _ _ hs] at h
    cases h
  | ok nodes =>
    have hnodes := scanNodes_ok _ _ hs
    simp only
    split
    · exact ⟨fun node w h => (by cases h), fun h => (by cases h)⟩
    · cases hi : Sqlite.Int63n (Sqlite.total64 (nodes.map (·.RootFrequency))) r with
      | error e =>
        refine ⟨fun node w h => (by cases h), fun h => ?_⟩
        injection h with h
        rw [sqlite_Int63n_error hi] at h
        cases h
      | ok which =>
        obtain ⟨h1, h2⟩ := @sqlite_rootLoop_cases db which nodes 0
        refine ⟨fun node w h => ?_, fun h => ?_⟩
        · obtain ⟨hmem, hw1, hw2⟩ := h1 node w h
          rw [hnodes] at hmem
          obtain ⟨hm, hp⟩ := List.mem_filter.1 hmem
          simp only [decide_eq_true_eq] at hp
          exact ⟨hm, hp.2, hw1, hw2⟩
        · rcases h2 _ h with hc | hc <;> cases hc

theorem walkable_has_arc {db : DB} (h : Walkable db none) {n : BabblerNode}
    (hn : n ∈ db.babblerNodes)
    (hw : n.Root = 1 ∨ ∃ w ∈ db.babblerWords, w.WordId = n.WordId ∧ w.Word ≠ " ") :
    ∃ a ∈ db.babblerArcs, a.FromNodeId = n.NodeId := by
  rcases h.no_dead_end n hn with hp | harc | ⟨hroot, w0, hw0, hid0, htext0⟩
  · cases hp
  · exact harc
  · exfalso
    rcases hw with h1 | ⟨w, hw, hid, htext⟩
    · rw [hroot] at h1
      cases h1
    · have : w = w0 := List.inj_on_of_nodup_map h.wordIds_nodup hw hw0 (hid.trans hid0.symm)
      rw [this] at htext
      exact htext htext0

theorem sqlite_babbleLoop_no_missing_arcs {db : DB} (h : Walkable db none) (rnd : Nat → Nat) :
    ∀ (fuel i : Nat) (cur : BabblerNode) (words : List String) (out : String),
      cur ∈ db.babblerNodes → (∃ a ∈ db.babblerArcs, a.FromNodeId = cur.NodeId) →
      Sqlite.babbleLoop db rnd fuel i cur words ≠ some (out, some (.go .MISSING_ARCS)) := by
  intro fuel
  induction fuel with
  | zero =>
    intro i cur words out _ _ hc
    cases hc
  | succ fuel ih =>
    intro i cur words out hcur harc
    obtain ⟨hok, hmiss⟩ := @sqlite_getWeightedNextWord_cases db cur (rnd i)
    unfold Sqlite.babbleLoop
    cases hg : Sqlite.getWeightedNextWord db cur (rnd i) with
    | error e =>
      simp only
      intro hc
      injection hc with hc
      injection hc with _ hc
      injection hc with hc
      rw [hc] at hg
      obtain ⟨a, ha, hfrom⟩ := harc
      exact hmiss hg a ha hfrom
    | ok p =>
      obtain ⟨node, w⟩ := p
      simp only
      obtain ⟨hnode, hw, hid⟩ := hok node w hg
      split
      · intro hc
        injection hc with hc
        injection hc with _ hc
        cases hc
      · rename_i hsp
        exact ih (i + 1) node _ out hnode
          (walkable_has_arc h hnode (Or.inr ⟨w, hw, hid, hsp⟩))

theorem sqlite_getBabblerNode_cases (real : Conversion) (db : DB) (b : Babbler)
    (word : String) :
    (∀ n, Sqlite.getBabblerNode real db b word = .ok n →
      n ∈ db.babblerNodes ∧
        ∃ w ∈ db.babblerWords, w.WordId = n.WordId ∧ w.Word = numericAffinity real word) ∧
    (∀ e, Sqlite.getBabblerNode real db b word = .error e →
      e = .scan ∨ e = .go .NEVER_SAID) := by
  unfold Sqlite.getBabblerNode Sqlite.getWord
  cases hf : db.babblerWords.find? (fun w => w.Word = numericAffinity real word) with
  | none =>
    refine ⟨fun n h => (by cases h), fun e h => ?_⟩
    injection h with h
    exact Or.inr h.symm
  | some w =>
    simp only
    have hw := List.find?_some hf
    simp only [decide_eq_true_eq] at hw
    cases hn : db.babblerNodes.find?
        (fun n => n.BabblerId = b.BabblerId ∧ n.WordId = w.WordId) with
    | none =>
      refine ⟨fun n h => (by cases h), fun e h => ?_⟩
      injection h with h
      exact Or.inr h.symm
    | some row =>
      simp only
      have hrow := List.find?_some hn
      simp only [decide_eq_true_eq] at hrow
      refine ⟨fun n h => ?_, fun e h => Or.inl (scanNode_error h)⟩
      rw [scanNode_ok h]
      exact ⟨List.mem_of_find?_eq_some hn, w, List.mem_of_find?_eq_some hf, hrow.2.symm, hw⟩

theorem sqlite_getBabblerArc_error {db : DB} {n1 n2 : BabblerNode} {e : Failure}
    (h : Sqlite.getBabblerArc db n1 n2 = .error e) : e = .scan ∨ e = .go .NEVER_SAID := by
  unfold Sqlite.getBabblerArc at h
  split at h
  · exact Or.inl (scanArc_error h)
  · injection h with h
    exact Or.inr h.symm

/-- The seed validation loop ends at a node row for the last seed word, or with
the error of a failing `Scan` or `NEVER_SAID`. -/
theorem sqlite_seedLoop_cases (real : Conversion) (db : DB) (s : Babbler) :
    ∀ (rest : List String) (cur : BabblerNode) (cw : String),
      (cur ∈ db.babblerNodes ∧
        ∃ w ∈ db.babblerWords, w.WordId = cur.WordId ∧ w.Word = numericAffinity real cw) →
      (∀ final, Sqlite.seedLoop real db s cur rest = .ok final →
        ∃ l, (cw :: rest).getLast? = some l ∧ final ∈ db.babblerNodes ∧
          ∃ w ∈ db.babblerWords, w.WordId = final.WordId ∧
            w.Word = numericAffinity real l) ∧
      (∀ e, Sqlite.seedLoop real db s cur rest = .error e →
        e = .scan ∨ e = .go .NEVER_SAID) := by
  intro rest
  induction rest with
  | nil =>
    intro cur cw hcur
    refine ⟨fun final h => ?_, fun e h => (by cases h)⟩
    injection h with h
    subst h
    exact ⟨cw, rfl, hcur⟩
  | cons word rest ih =>
    intro cur cw _
    obtain ⟨hok, herr⟩ := sqlite_getBabblerNode_cases real db s word
    unfold Sqlite.seedLoop
    cases hn : Sqlite.getBabblerNode real db s word with
    | error e0 =>
      refine ⟨fun final h => (by cases h), fun e h => ?_⟩
      injection h with h
      rw [← h]
      exact herr e0 hn
    | ok next =>
      simp only
      cases ha : Sqlite.getBabblerArc db cur next with
      | error e0 =>
        refine ⟨fun final h => (by cases h), fun e h => ?_⟩
        injection h with h
        rw [← h]
        exact sqlite_getBabblerArc_error ha
      | ok arc =>
        simp only
        obtain ⟨h1, h2⟩ := ih next word (hok next hn)
        refine ⟨fun final h => ?_, h2⟩
        obtain ⟨l, hl, hrest⟩ := h1 final h
        exact ⟨l, by rw [List.getLast?_cons_cons]; exact hl, hrest⟩

/-- On a store without dead ends `babbleSeed` does not return the `missing
arcs` error, for a seed whose last word the column does not keep as the
terminal marker. -/
theorem sqlite_babbleSeed_no_missing_arcs (real : Conversion) {db : DB}
    (h : Walkable db none) (name : String) (seed : List String) (rnd : Nat → Nat)
    (fuel : Nat) (out : String)
    (hlast : ∀ l, seed.getLast? = some l → numericAffinity real l ≠ " ") :
    Sqlite.babbleSeed real db name seed rnd fuel ≠ some (out, some (.go .MISSING_ARCS)) := by
  unfold Sqlite.babbleSeed
  cases hs : Sqlite.getBabbler real db name with
  | error e =>
    intro hc
    injection hc with hc
    injection hc with _ hc
    cases hc
  | ok s =>
    cases seed with
    | nil =>
      simp only
      obtain ⟨hok, herr⟩ := @sqlite_getWeightedRootNode_cases db s (rnd 0)
      cases hr : Sqlite.getWeightedRootNode db s (rnd 0) with
      | error e =>
        simp only
        intro hc
        injection hc with hc
        injection hc with _ hc
        injection hc with hc
        rw [hc] at hr
        exact herr hr
      | ok p =>
        obtain ⟨cur, curWord⟩ := p
        simp only
        obtain ⟨hcur, hroot, _, _⟩ := hok cur curWord hr
        exact sqlite_babbleLoop_no_missing_arcs h rnd fuel 1 cur _ out hcur
          (walkable_has_arc h hcur (Or.inl hroot))
    | cons word rest =>
      simp only
      obtain ⟨hok, herr⟩ := sqlite_getBabblerNode_cases real db s word
      cases hn : Sqlite.getBabblerNode real db s word with
      | error e =>
        simp only
        intro hc
        injection hc with hc
        injection hc with _ hc
        injection hc with hc
        rcases herr e hn with h1 | h1 <;> rw [h1] at hc <;> cases hc
      | ok first =>
        simp only
        obtain ⟨h1, h2⟩ := sqlite_seedLoop_cases real db s rest first word (hok first hn)
        cases hl : Sqlite.seedLoop real db s first rest with
        | error e =>
          simp only
          intro hc
          injection hc with hc
          injection hc with _ hc
          injection hc with hc
          rcases h2 e hl with h1 | h1 <;> rw [h1] at hc <;> cases hc
        | ok cur =>
          simp only
          obtain ⟨l, hlst, hcur, w, hw, hid, htext⟩ := h1 cur hl
          have hsp : w.Word ≠ " " := by
            rw [htext]
            exact hlast l hlst
          exact sqlite_babbleLoop_no_missing_arcs h rnd fuel 0 cur _ out hcur
            (walkable_has_arc h hcur (Or.inr ⟨w, hw, hid, hsp⟩))

/-! # The claims -/

/-- C1 (defect of the code).  The selection loops compare the running sum with
`total >= which`, one draw value too early.  In the scenario store the node of
`hello` has the two outgoing arcs `hello → world` and `hello → there`, both
of frequency `1`, and every draw selects `world`: `there` is selected for `0`
of the `2` draw values, not for `1`.  Likewise, with the two roots `a` and `b`
of `rootFrequency` `1` each, every draw of `getWeightedRootNode` selects `a`. -/
theorem weighted_draw_never_selects_last :
    ((helloStore.babblerArcs.filter fun a => a.FromNodeId = 1).map
        (fun a => (a.ToNodeId, a.Frequency)) = [(2, 1), (4, 1)]) ∧
    (∀ r : Nat, getWeightedNextWord helloStore ⟨1, 1, 2, 1, 2⟩ r =
      .ok (⟨2, 1, 3, 0, 0⟩, ⟨3, "world"⟩)) ∧
    ((rootsStore.babblerNodes.filter fun n => n.BabblerId = 1 ∧ n.Root = 1).map
        (fun n => (n.NodeId, n.RootFrequency)) = [(1, 1), (3, 1)]) ∧
    (∀ r : Nat, getWeightedRootNode rootsStore alice r =
      .ok (⟨1, 1, 2, 1, 1⟩, ⟨2, "a"⟩)) := by
  refine ⟨by decide, helloStore_next_hello, by decide, ?_⟩
  intro r
  have key : ∀ which < 2, rootLoop rootsStore which 0 [⟨1, 1, 2, 1, 1⟩, ⟨3, 1, 4, 1, 1⟩] =
      .ok (⟨1, 1, 2, 1, 1⟩, ⟨2, "a"⟩) := by decide
  exact key (r % 2) (Nat.mod_lt _ (by decide))

/-- C2 (defect of the code).  After `alice` has learned `hello world` and
`hello there`, no random source and no amount of fuel makes
`babbleSeed(alice, ["hello"])` return the tokens of the learned utterance
`hello there`. -/
theorem second_utterance_not_reproducible (rnd : Nat → Nat) (fuel : Nat) :
    babbleSeed helloStore "alice" ["hello"] rnd fuel ≠
      some (Join (tokens "hello there") " ", none) := by
  rcases helloStore_outcomes rnd fuel with h | h <;> rw [h]
  · exact fun hc => by cases hc
  · decide

/-- C3 (defect of the code).  After `alice` has learned the utterance `007 08`,
whose tokens are `007` and `08`, `babbleSeed(alice, [])` returns `7 8`: the word
column has NUMERIC affinity, so the two tokens are stored as the integers `7`
and `8`, and the walk returns their decimal texts.  Neither word of the result
is a token of the utterance. -/
theorem walk_returns_unlearned_numbers :
    tokens "007 08" = ["007", "08"] ∧
    Sqlite.learned asWritten alice Sqlite.twoSpeakers ["007 08"] =
      ({ babblers := [⟨1, "alice"⟩, ⟨2, "bob"⟩],
         babblerWords := [⟨1, ""⟩, ⟨2, "7"⟩, ⟨3, "8"⟩, ⟨4, " "⟩],
         babblerNodes := [⟨1, 1, 2, 1, 1⟩, ⟨2, 1, 3, 0, 0⟩, ⟨3, 1, 4, 0, 0⟩],
         babblerArcs := [⟨1, 1, 2, 1⟩, ⟨2, 2, 3, 1⟩] }, none) ∧
    Sqlite.babbleSeed asWritten (Sqlite.learned asWritten alice Sqlite.twoSpeakers ["007 08"]).1
      "alice" [] (fun _ => 0) 3 = some ("7 8", none) ∧
    ("7", "8") ∉ adjacentPairs (tokens "007 08") := by
  decide

/-- The walk on words kept as text.  On a store built from the empty store by
register and learn calls, whenever `babbleSeed(S, seed)` returns without error
for a registered speaker `S`, it returns a sequence of words joined by single
spaces that starts with the seed, in which every adjacent pair of words is
adjacent in some learned utterance of `S`, whose last word is the last token
of some learned utterance of `S`, and (for an empty seed) whose first word is
the first token of some learned utterance of `S`.  In the scenario
`learn(alice, "hello world")`, `learn(alice, "hello there")`, every run of
`babbleSeed(alice, ["hello"])` that returns gives `hello world` or
`hello there`, without error. -/
theorem babble_returns_learned_walk (hist : History) (name : String) (s : Babbler)
    (seed : List String) (rnd : Nat → Nat) (fuel : Nat) (out : String)
    (hs : getBabbler (learnAll New hist) name = .ok s)
    (hout : babbleSeed (learnAll New hist) name seed rnd fuel = some (out, none)) :
    (∃ ws : List String, out = Join ws " " ∧ seed <+: ws ∧ ws ≠ [] ∧
      (∀ p ∈ adjacentPairs ws,
        ∃ phrase ∈ utterancesOf hist s, p ∈ adjacentPairs (tokens phrase)) ∧
      (∃ phrase ∈ utterancesOf hist s, (tokens phrase).getLast? = ws.getLast?) ∧
      (seed = [] → ∃ phrase ∈ utterancesOf hist s, (tokens phrase).head? = ws.head?)) ∧
    (∀ (rnd' : Nat → Nat) (fuel' : Nat) (res : String × Option Error),
      babbleSeed helloStore "alice" ["hello"] rnd' fuel' = some res →
        res = ("hello world", none) ∨ res = ("hello there", none)) := by
  constructor
  · unfold babbleSeed at hout
    rw [hs] at hout
    simp only at hout
    cases seed with
    | nil =>
      simp only at hout
      cases hg : getWeightedRootNode (learnAll New hist) s (rnd 0) with
      | error e => rw [hg] at hout; cases hout
      | ok res =>
        obtain ⟨cur, cw⟩ := res
        rw [hg] at hout
        simp only at hout
        obtain ⟨hwf, _⟩ := learnAll_spec hist New WF_New
        obtain ⟨hcm, hcb, hroot, hw, hwid⟩ := getWeightedRootNode_ok hg
        have hcur : getBabblerNode (learnAll New hist) s cw.Word = .ok cur :=
          (getBabblerNode_ok_iff hwf).2 ⟨hcm, hcb, cw, hw, rfl, hwid⟩
        obtain ⟨gen, l, ho, hp, hl, hend⟩ := babbleLoop_sound rnd fuel 1 cur
          ([] ++ [cw.Word]) cw.Word out hcur (List.getLast?_concat _) (fun p hp => by cases hp) hout
        obtain ⟨htrim, hne, hpairs, hlast⟩ := walk_conclusion hp hl hend
        refine ⟨[] ++ [cw.Word] ++ gen, ho.trans htrim, List.nil_prefix, hne, hpairs, hlast, ?_⟩
        intro _
        exact learned_of_root hcur hroot
    | cons word rest =>
      simp only at hout
      cases hn : getBabblerNode (learnAll New hist) s word with
      | error e => rw [hn] at hout; cases hout
      | ok firstNode =>
        rw [hn] at hout
        simp only at hout
        cases hsl : seedLoop (learnAll New hist) s firstNode rest with
        | error e => rw [hsl] at hout; cases hout
        | ok cur =>
          rw [hsl] at hout
          simp only at hout
          obtain ⟨lastw, hlastw, hcur, hseed⟩ := seedLoop_sound rest firstNode cur word hn hsl
          obtain ⟨gen, l, ho, hp, hl, hend⟩ := babbleLoop_sound rnd fuel 0 cur
            (word :: rest) lastw out hcur hlastw hseed hout
          obtain ⟨htrim, hne, hpairs, hlast⟩ := walk_conclusion hp hl hend
          exact ⟨word :: rest ++ gen, ho.trans htrim, List.prefix_append _ _, hne, hpairs,
            hlast, fun hc => by cases hc⟩
  · intro rnd' fuel' res hres
    rcases helloStore_outcomes rnd' fuel' with h | h
    · rw [h] at hres; cases hres
    · rw [h] at hres
      injection hres with hres
      exact Or.inl hres.symm

/-- An instance of the two hypotheses on the scenario store, with the
conclusion about the returned words. -/
theorem babble_returns_learned_walk_witness :
    getBabbler (learnAll New
        [.register "alice", .learn alice "hello world", .learn alice "hello there"])
      "alice" = .ok alice ∧
    babbleSeed (learnAll New
        [.register "alice", .learn alice "hello world", .learn alice "hello there"])
      "alice" ["hello"] (fun _ => 0) 2 = some ("hello world", none) ∧
    ∃ ws : List String, "hello world" = Join ws " " ∧ ["hello"] <+: ws ∧ ws ≠ [] :=
  ⟨by decide, by decide,
    (babble_returns_learned_walk
      [.register "alice", .learn alice "hello world", .learn alice "hello there"]
      "alice" alice ["hello"] (fun _ => 0) 2 "hello world" (by decide) (by decide)).1.imp
      fun _ h => ⟨h.1, h.2.1, h.2.2.1⟩⟩

/-- C4 (defect of the code).  After `alice` has learned the utterance `+5 5`,
whose tokens are `+5` and `5`, the store has one word row, with the text `5`,
for both tokens (the word column has NUMERIC affinity and keeps both as the
integer `5`), one node row of `alice` for it, and the arc row from that node
to itself with frequency `1`: the arc from the node of `alice` for `5` to her
node for `5` has frequency `1`, while `5` follows `5` nowhere in the
utterance. -/
theorem number_words_share_one_arc :
    tokens "+5 5" = ["+5", "5"] ∧
    followCount ["+5 5"] "5" "5" = 0 ∧
    Sqlite.learned asWritten alice Sqlite.twoSpeakers ["+5 5"] =
      ({ babblers := [⟨1, "alice"⟩, ⟨2, "bob"⟩],
         babblerWords := [⟨1, ""⟩, ⟨2, "5"⟩, ⟨3, " "⟩],
         babblerNodes := [⟨1, 1, 2, 1, 1⟩, ⟨2, 1, 3, 0, 0⟩],
         babblerArcs := [⟨1, 1, 1, 1⟩, ⟨2, 1, 2, 1⟩] }, none) ∧
    Sqlite.getBabblerNode asWritten (Sqlite.learned asWritten alice Sqlite.twoSpeakers ["+5 5"]).1
      alice "5" = .ok ⟨1, 1, 2, 1, 1⟩ ∧
    Sqlite.getBabblerArc (Sqlite.learned asWritten alice Sqlite.twoSpeakers ["+5 5"]).1
      ⟨1, 1, 2, 1, 1⟩ ⟨1, 1, 2, 1, 1⟩ = .ok ⟨1, 1, 1, 1⟩ := by
  decide

/-- The arc counts on words kept as text.  After any history of learn calls
from the empty store (the utterances
of the speaker `s` possibly interleaved with those of other speakers), the arc
row from the node of `s` for `u` to the node of `s` for `v` (`v` may be the
terminal marker `" "`) has as frequency the number of times `v` immediately
follows `u` in the lower-cased token sequences of the utterances of `s`, each
extended with a final terminal marker; the arc is absent exactly when that count
is `0`; and the outgoing arc frequencies of the node of `s` for `u` sum to the
number of occurrences of `u` in those utterances. -/
theorem arc_frequency_counts_transitions (hist : History) (s : Babbler) (u v : String) :
    (∀ arc, arcOf (learnAll New hist) s u v = some arc →
      arc.Frequency = followCount (utterancesOf hist s) u v) ∧
    (arcOf (learnAll New hist) s u v = none ↔ followCount (utterancesOf hist s) u v = 0) ∧
    (∀ node, getBabblerNode (learnAll New hist) s u = .ok node →
      outSum (learnAll New hist) node.NodeId = occurrences (utterancesOf hist s) u) := by
  obtain ⟨hwf, ha, ho, _, _⟩ := learnAll_spec hist New WF_New
  have hfreq := ha s u v
  rw [arcFrequency_New, Nat.zero_add] at hfreq
  have hout := ho s u
  rw [outFrequency_New, Nat.zero_add] at hout
  refine ⟨?_, ?_, ?_⟩
  · intro arc harc
    rw [← hfreq]
    unfold arcFrequency
    rw [harc]
  · constructor
    · intro hnone
      rw [← hfreq]
      unfold arcFrequency
      rw [hnone]
    · intro hzero
      cases harc : arcOf (learnAll New hist) s u v with
      | none => rfl
      | some arc =>
        exfalso
        have hpos := hwf.arc_pos arc (arcOf_mem harc)
        rw [← hfreq] at hzero
        unfold arcFrequency at hzero
        rw [harc] at hzero
        simp only at hzero
        omega
  · intro node hnode
    rw [← hout]
    unfold outFrequency
    rw [hnode]

/-- C5 (defect of the code).  After `alice` has learned the three one-word
utterances `5`, `+5` and `05`, one of which has the first token `5`, the node
of `alice` for the word `5` has `rootFrequency` `3`: the word column has
NUMERIC affinity and keeps the three tokens as the integer `5`. -/
theorem number_words_share_one_root :
    startCount ["5", "+5", "05"] "5" = 1 ∧
    Sqlite.learned asWritten alice Sqlite.twoSpeakers ["5", "+5", "05"] =
      ({ babblers := [⟨1, "alice"⟩, ⟨2, "bob"⟩],
         babblerWords := [⟨1, ""⟩, ⟨2, "5"⟩, ⟨3, " "⟩],
         babblerNodes := [⟨1, 1, 2, 1, 3⟩, ⟨2, 1, 3, 0, 0⟩],
         babblerArcs := [⟨1, 1, 2, 3⟩] }, none) ∧
    Sqlite.getBabblerNode asWritten
      (Sqlite.learned asWritten alice Sqlite.twoSpeakers ["5", "+5", "05"]).1
      alice "5" = .ok ⟨1, 1, 2, 1, 3⟩ := by
  decide

/-- The root counts on words kept as text.  After any history of learn calls
from the empty store, the
`rootFrequency` of the node of `s` for the word `w` is the number of learned
utterances of `s` whose first token is `w` (there is no such utterance when `s`
has no node for `w`), and the `rootFrequency` of the root nodes of `s` sum to
the number of learned utterances of `s` with at least one token. -/
theorem root_frequency_counts_utterances (hist : History) (s : Babbler) (w : String) :
    (∀ node, getBabblerNode (learnAll New hist) s w = .ok node →
      node.RootFrequency = startCount (utterancesOf hist s) w) ∧
    ((∀ node, getBabblerNode (learnAll New hist) s w ≠ .ok node) →
      startCount (utterancesOf hist s) w = 0) ∧
    rootSum (learnAll New hist) s = spokenCount (utterancesOf hist s) := by
  obtain ⟨_, _, _, hr, hs⟩ := learnAll_spec hist New WF_New
  have h1 := hr s w
  rw [rootFrequencyOf_New, Nat.zero_add] at h1
  have h2 := hs s
  have h3 : rootSum New s = 0 := rfl
  rw [h3, Nat.zero_add] at h2
  refine ⟨?_, ?_, h2⟩
  · intro node hnode
    rw [← h1]
    unfold rootFrequencyOf
    rw [hnode]
  · intro hnone
    rw [← h1]
    unfold rootFrequencyOf
    cases hnode : getBabblerNode (learnAll New hist) s w with
    | ok node => exact absurd hnode (hnone node)
    | error e => rfl

/-- C7 (defect of the code).  `bob` has the arc `x → y` with frequency `2`
and `alice` has none; after `mergeBabblers(alice, bob)` the arc `x → y` of
`alice` has frequency `1`, not `0 + 2`: the replay makes one `incrementWordArc`
call per arc row, whatever its frequency. -/
theorem merge_replays_each_arc_once :
    arcFrequency mergeStore bob "x" "y" = 2 ∧ arcFrequency mergeStore alice "x" "y" = 0 ∧
    arcFrequency (mergeBabblers id mergeStore alice bob "alice" "bob").1 alice "x" "y" = 1 := by
  decide

/-- C8, as stated, fails for the boundary word of the target speaker: `bob` has
a node for the word `<alice>` with `rootFrequency` `1` (and a boundary node
`<bob>` with `rootFrequency` `1`), `alice` has no node for `<alice>`; after
`mergeBabblers(alice, bob)` the node of `alice` for `<alice>` has
`rootFrequency` `2`, not the `1` of the node of `bob` for that word. -/
theorem merge_boundary_word_counterexample :
    Sqlite.getBabblerNode asWritten boundaryStore bob "<alice>" = .ok ⟨1, 2, 2, 1, 1⟩ ∧
    Sqlite.getBabblerNode asWritten boundaryStore alice "<alice>" = .error (.go .NEVER_SAID) ∧
    Sqlite.rootFrequencyOf asWritten
      (Sqlite.mergeBabblers asWritten id boundaryStore alice bob "alice" "bob").1
      alice "<alice>" = 2 := by
  decide

/-- The union of the node rows in `mergeBabblers`, on texts and natural numbers:
for distinct speakers `a` and `b` on a well-formed store, a word `w` that has
the node `m` under `b` and is neither boundary word has exactly one node under
`a` after the merge, with the counters of `m` added to those of the node `a`
had, or carrying them as a new row. -/
theorem mergeBabblers_unions_node (order : Mapping → Mapping)
    (horder : ∀ m, (order m).Perm m)
    {db : DB} (hwf : WF db) (a b : Babbler) (hab : a.BabblerId ≠ b.BabblerId)
    (intoName otherName w : String) (m : BabblerNode)
    (hother : w ≠ "<" ++ otherName ++ ">") (hinto : w ≠ "<" ++ intoName ++ ">")
    (hm : getBabblerNode db b w = .ok m) :
    ∃ n', getBabblerNode (mergeBabblers order db a b intoName otherName).1 a w = .ok n' ∧
      (∀ n'' ∈ (mergeBabblers order db a b intoName otherName).1.babblerNodes,
        n''.BabblerId = a.BabblerId → n''.WordId = n'.WordId → n'' = n') ∧
      (∀ n, getBabblerNode db a w = .ok n →
        n'.NodeId = n.NodeId ∧ n'.RootFrequency = n.RootFrequency + m.RootFrequency ∧
          (n'.Root = 1 ↔ n.Root = 1 ∨ m.Root = 1)) ∧
      ((∀ n, getBabblerNode db a w ≠ .ok n) →
        n'.NodeId ∉ nodeIds db ∧ n'.Root = m.Root ∧ n'.RootFrequency = m.RootFrequency) := by
  obtain ⟨db2, db3, intoNode, otherNode, mapping, run⟩ :=
    mergeBabblers_run order horder hwf a b hab intoName otherName
  have hm2 := run.lookup2 b w m hm
  obtain ⟨hmem, hmb, wd, hwd, hwdw, hwdid⟩ := (getBabblerNode_ok_iff run.wf2).1 hm2
  have hgw : getWord db2 w = .ok wd := (getWord_ok_iff run.wf2).2 ⟨hwd, hwdw⟩
  obtain ⟨iw, hiw, hiwid⟩ := run.intoWord
  -- `m` is the only merged node with the word id of `w`
  have hredirect : (redirect intoNode otherNode m).WordId = m.WordId := by
    unfold redirect
    rw [if_neg]
    intro hc
    exact hother (nodeIdOf_inj run.wf2 (nodeIdOf_of_ok hm2) (hc ▸ run.otherId)).2
  have hsingle : (db2.babblerNodes.filter (fun n => n.BabblerId = b.BabblerId)).filter
      (fun y => (redirect intoNode otherNode y).WordId = m.WordId) = [m] := by
    apply filter_eq_singleton
    · exact (List.Nodup.of_map _ run.wf2.nodeIds_nodup).filter _
    · exact List.mem_filter.2 ⟨hmem, by simpa using hmb⟩
    · simpa using hredirect
    · intro y hy hp
      simp only [decide_eq_true_eq] at hp
      obtain ⟨hy2, hyb⟩ := List.mem_filter.1 hy
      simp only [decide_eq_true_eq] at hyb
      by_cases hyo : y.NodeId = otherNode.NodeId
      · exfalso
        unfold redirect at hp
        rw [if_pos hyo] at hp
        have hsame : iw = wd := List.inj_on_of_nodup_map run.wf2.wordIds_nodup
          (getWord_ok hiw).1 hwd (hiwid.trans (hp.trans hwdid.symm))
        exact hinto (by rw [← hwdw, ← hsame, (getWord_ok hiw).2])
      · unfold redirect at hp
        rw [if_neg hyo] at hp
        exact List.inj_on_of_nodup_map run.wf2.nodeKeys_nodup hy2 hmem
          (by simp only [Prod.mk.injEq]; exact ⟨hyb.trans hmb.symm, hp⟩)
  -- lookups before and after
  have hbefore : getBabblerNode db a w =
      (match findNode db2 a.BabblerId m.WordId with
       | some node => .ok node
       | none => .error .NEVER_SAID) := by
    rw [← run.frame2 a w (Or.inr hinto) (Or.inl hab), getBabblerNode_eq_findNode hgw, hwdid]
  have hafter : getBabblerNode (mergeBabblers order db a b intoName otherName).1 a w =
      (match findNode db3 a.BabblerId m.WordId with
       | some node => .ok node
       | none => .error .NEVER_SAID) := by
    rw [getBabblerNode_congr run.replayed.2.2.1 run.replayed.2.1 a w]
    have hgw3 : getWord db3 w = .ok wd := by
      unfold getWord; rw [run.merged.2.1]; exact hgw
    rw [getBabblerNode_eq_findNode hgw3, hwdid]
  have huniq : ∀ n' : BabblerNode, findNode db3 a.BabblerId m.WordId = some n' →
      ∀ n'' ∈ (mergeBabblers order db a b intoName otherName).1.babblerNodes,
        n''.BabblerId = a.BabblerId → n''.WordId = n'.WordId → n'' = n' := by
    intro n' hn' n'' hn'' hb hw
    rw [run.replayed.2.1] at hn''
    obtain ⟨hmem', hb', _⟩ := findNode_some hn'
    exact List.inj_on_of_nodup_map run.merged.1.nodeKeys_nodup hn'' hmem'
      (by simp only [Prod.mk.injEq]; exact ⟨hb.trans hb'.symm, hw⟩)
  cases hfind : findNode db2 a.BabblerId m.WordId with
  | some n =>
    have hhit := mergeNodeLoop_hit_some a intoNode otherNode m.WordId m _ db2 [] n hsingle hfind
    rw [run.loop] at hhit
    simp only at hhit
    rw [hfind] at hbefore
    rw [hhit] at hafter
    refine ⟨_, hafter, huniq _ hhit, ?_, ?_⟩
    · intro n0 hn0
      rw [hbefore] at hn0
      injection hn0 with hn0
      subst hn0
      refine ⟨rfl, rfl, ?_⟩
      have hmroot := hwf.node_root m (getBabblerNode_ok hm).choose_spec.2.1
      rcases hmroot with ⟨h1, _⟩ | ⟨h0, _⟩
      · simp [h1]
      · simp [h0]
    · intro hnone
      exact absurd hbefore (hnone n)
  | none =>
    obtain ⟨id, hid, hhit⟩ := mergeNodeLoop_hit_none a intoNode otherNode m.WordId m _ db2 []
      hsingle hfind
    rw [run.loop] at hhit
    simp only at hhit
    rw [hfind] at hbefore
    rw [hhit] at hafter
    refine ⟨_, hafter, huniq _ hhit, ?_, ?_⟩
    · intro n0 hn0
      rw [hbefore] at hn0
      cases hn0
    · intro _
      refine ⟨?_, rfl, rfl⟩
      intro hc
      apply hid
      obtain ⟨n0, hn0, hn0id⟩ := List.mem_map.1 hc
      exact List.mem_map.2 ⟨n0, run.nodes2 n0 hn0, hn0id⟩

/-- C8, amended.  On a well-formed store and for distinct speakers `a` and
`b`, let `w` be a word that has the node `m` under `b` and that the column keeps
as neither boundary word.  After `mergeBabblers(a, b)`, `a` has exactly one node
`n'` for `w`: if `a` already had the node `n` for `w`, `n'` is that row with
`rootFrequency` equal to the old value plus that of `m` and with the root flag
set exactly when it was set on `n` or on `m`; otherwise `n'` is a new row
carrying the root flag and the `rootFrequency` of `m`.  The calls are those on
SQLite values, and the merge is one after which every counter is within the
range of `int64` (`hrange`). -/
theorem merge_unions_node (real : Conversion) (order : Mapping → Mapping)
    (horder : ∀ m, (order m).Perm m)
    {db : DB} (hwf : WF db) (a b : Babbler) (hab : a.BabblerId ≠ b.BabblerId)
    (intoName otherName w : String) (m : BabblerNode)
    (hrange : Int64Store (Sqlite.mergeBabblers real order db a b intoName otherName).1)
    (hother : numericAffinity real w ≠ "<" ++ otherName ++ ">")
    (hinto : numericAffinity real w ≠ "<" ++ intoName ++ ">")
    (hm : Sqlite.getBabblerNode real db b w = .ok m) :
    ∃ n', Sqlite.getBabblerNode real
        (Sqlite.mergeBabblers real order db a b intoName otherName).1 a w = .ok n' ∧
      (∀ n'' ∈ (Sqlite.mergeBabblers real order db a b intoName otherName).1.babblerNodes,
        n''.BabblerId = a.BabblerId → n''.WordId = n'.WordId → n'' = n') ∧
      (∀ n, Sqlite.getBabblerNode real db a w = .ok n →
        n'.NodeId = n.NodeId ∧ n'.RootFrequency = n.RootFrequency + m.RootFrequency ∧
          (n'.Root = 1 ↔ n.Root = 1 ∨ m.Root = 1)) ∧
      ((∀ n, Sqlite.getBabblerNode real db a w ≠ .ok n) →
        n'.NodeId ∉ nodeIds db ∧ n'.Root = m.Root ∧ n'.RootFrequency = m.RootFrequency) := by
  have hr0 : Int64Store db :=
    int64Store_of_grows (sgrows_mergeBabblers real order db a b intoName otherName) hrange
  have hsim := sim_mergeBabblers real order db a b intoName otherName hrange
  have hstore : (Sqlite.mergeBabblers real order db a b intoName otherName).1 =
      (mergeBabblers order db a b intoName otherName).1 := by rw [hsim]
  rw [hstore] at hrange ⊢
  rw [sim_getBabblerNode real hr0 b w, mapError_go_eq_ok] at hm
  obtain ⟨n', h1, h2, h3, h4⟩ := mergeBabblers_unions_node order horder hwf a b hab intoName
    otherName (numericAffinity real w) m hother hinto hm
  refine ⟨n', ?_, h2, ?_, ?_⟩
  · rw [sim_getBabblerNode real hrange a w, h1]
    rfl
  · intro n hn
    rw [sim_getBabblerNode real hr0 a w, mapError_go_eq_ok] at hn
    exact h3 n hn
  · intro hnone
    apply h4
    intro n hn
    apply hnone n
    rw [sim_getBabblerNode real hr0 a w, hn]
    rfl

/-- An instance: the word `x` of `bob` merged into `alice`, who has no node
for it. -/
theorem merge_unions_node_witness :
    WF mergeStore ∧ alice.BabblerId ≠ bob.BabblerId ∧
    Int64Store (Sqlite.mergeBabblers asWritten id mergeStore alice bob "alice" "bob").1 ∧
    "x" ≠ "<" ++ "bob" ++ ">" ∧
    "x" ≠ "<" ++ "alice" ++ ">" ∧
    Sqlite.getBabblerNode asWritten mergeStore bob "x" = .ok ⟨1, 2, 2, 1, 2⟩ ∧
    ∃ n', Sqlite.getBabblerNode asWritten
      (Sqlite.mergeBabblers asWritten id mergeStore alice bob "alice" "bob").1 alice "x" = .ok n' :=
  ⟨WF_learnAll _, by decide, by decide, by decide, by decide, by decide,
    (merge_unions_node asWritten id (fun m => List.Perm.refl m) (WF_learnAll _) alice bob
      (by decide) "alice" "bob" "x" ⟨1, 2, 2, 1, 2⟩ (by decide) (by decide) (by decide) (by decide)).imp
      fun _ h => h.1⟩

/-- C9, as stated, fails where a counter leaves the range of `int64`.  `alice`
has learned `a`, `bob` has learned `a b`, and each was merged into itself `62`
times, without error: both have a root node for `a` with `rootFrequency`
`2^62`, and `bob` has the arc from `a` to `b` (nodes `3` and `4`).  In
`mergeBabblers(alice, bob)` the first update adds the two counters; SQLite keeps
the sum `2^63` as a floating-point number, the `StructScan` of the updated row
fails, and the merge returns that error before it replays any arc: `alice` has
no node for `b`, so no arc from `a` to `b`. -/
theorem merge_stops_at_overflow :
    Sqlite.selfMerged asWritten bob "bob" 62 (Sqlite.selfMerged asWritten alice "alice" 62
        (Sqlite.learned asWritten bob (Sqlite.learned asWritten alice Sqlite.twoSpeakers ["a"]).1
          ["a b"]).1).1 =
      ({ babblers := [⟨1, "alice"⟩, ⟨2, "bob"⟩],
         babblerWords := [⟨1, ""⟩, ⟨2, "a"⟩, ⟨3, " "⟩, ⟨4, "b"⟩, ⟨5, "<alice>"⟩, ⟨6, "<bob>"⟩],
         babblerNodes := [⟨1, 1, 2, 1, 2 ^ 62⟩, ⟨2, 1, 3, 0, 0⟩, ⟨3, 2, 2, 1, 2 ^ 62⟩,
           ⟨4, 2, 4, 0, 0⟩, ⟨5, 2, 3, 0, 0⟩, ⟨6, 1, 5, 0, 0⟩, ⟨7, 2, 6, 0, 0⟩],
         babblerArcs := [⟨1, 1, 2, 63⟩, ⟨2, 3, 4, 63⟩, ⟨3, 4, 5, 63⟩] }, none) ∧
    Sqlite.getBabblerArc
      (Sqlite.selfMerged asWritten bob "bob" 62 (Sqlite.selfMerged asWritten alice "alice" 62
        (Sqlite.learned asWritten bob (Sqlite.learned asWritten alice Sqlite.twoSpeakers ["a"]).1
          ["a b"]).1).1).1
      ⟨3, 2, 2, 1, 2 ^ 62⟩ ⟨4, 2, 4, 0, 0⟩ = .ok ⟨2, 3, 4, 63⟩ ∧
    (Sqlite.mergeBabblers asWritten id
      (Sqlite.selfMerged asWritten bob "bob" 62 (Sqlite.selfMerged asWritten alice "alice" 62
        (Sqlite.learned asWritten bob (Sqlite.learned asWritten alice Sqlite.twoSpeakers ["a"]).1
          ["a b"]).1).1).1
      alice bob "alice" "bob").2 = some .scan ∧
    Sqlite.getBabblerNode asWritten (Sqlite.mergeBabblers asWritten id
      (Sqlite.selfMerged asWritten bob "bob" 62 (Sqlite.selfMerged asWritten alice "alice" 62
        (Sqlite.learned asWritten bob (Sqlite.learned asWritten alice Sqlite.twoSpeakers ["a"]).1
          ["a b"]).1).1).1
      alice bob "alice" "bob").1 alice "b" = .error (.go .NEVER_SAID) := by
  decide!

/-- The replay of `mergeBabblers`, on texts and natural numbers: on a
well-formed store every arc of `b` has, after the merge, an arc of `a` of
frequency at least `1` between the nodes for the same words. -/
theorem mergeBabblers_transitions_available (order : Mapping → Mapping)
    (horder : ∀ m, (order m).Perm m) {db : DB} (hwf : WF db) (a b : Babbler)
    (intoName otherName : String)
    (hname : a.BabblerId = b.BabblerId → intoName = otherName) (u v : String)
    (x : BabblerArc) (hx : arcOf db b u v = some x) :
    (∃ arc, arcOf (mergeBabblers order db a b intoName otherName).1 a
        (boundaryRenamed intoName otherName u) (boundaryRenamed intoName otherName v) =
          some arc ∧ 1 ≤ arc.Frequency) ∧
    (a.BabblerId ≠ b.BabblerId →
      (mergeBabblers order db a b intoName otherName).2 = none) := by
  obtain ⟨n1, n2, hu, hv, hxmem, hxf, hxt⟩ := arcOf_nodes hx
  by_cases hab : a.BabblerId = b.BabblerId
  · refine ⟨?_, fun hne => absurd hab hne⟩
    have hsame := hname hab
    subst hsame
    rw [boundaryRenamed_self, boundaryRenamed_self]
    obtain ⟨hnodes, hmono⟩ := mergeBabblers_mono order hwf a b intoName intoName
    rw [getBabblerNode_congr_id db u hab.symm] at hu
    rw [getBabblerNode_congr_id db v hab.symm] at hv
    obtain ⟨n1', hn1', hid1⟩ := hnodes u n1 hu
    obtain ⟨n2', hn2', hid2⟩ := hnodes v n2 hv
    apply arcOf_of_arcFrequency_pos
    have hbefore : 1 ≤ arcFrequency db a u v := arcFrequency_pos_of_arc hwf hu hv hxmem hxf hxt
    rw [arcFrequency_eq, nodeIdOf_of_ok hu, nodeIdOf_of_ok hv] at hbefore
    rw [arcFrequency_eq, nodeIdOf_of_ok hn1', nodeIdOf_of_ok hn2', hid1, hid2]
    exact Nat.le_trans hbefore (hmono _ _)
  · obtain ⟨db2, db3, intoNode, otherNode, mapping, run⟩ :=
      mergeBabblers_run order horder hwf a b hab intoName otherName
    refine ⟨?_, fun _ => run.noError⟩
    obtain ⟨v1, v1', hv1, hid1, hl1⟩ := mergeRun_lookup run hu
    obtain ⟨v2, v2', hv2, hid2, hl2⟩ := mergeRun_lookup run hv
    obtain ⟨hn1, hn1b, _⟩ := (getBabblerNode_ok_iff run.wf2).1 (run.lookup2 b u n1 hu)
    have hcount := run.counted n1 hn1 hn1b x (by rw [run.arcs2]; exact hxmem) hxf v1 v2
      hv1 (by rw [hxt]; exact hv2)
    apply arcOf_of_arcFrequency_pos
    rw [arcFrequency_eq, nodeIdOf_of_ok hl1, nodeIdOf_of_ok hl2, hid1, hid2]
    exact hcount

/-- C9, amended.  On a well-formed store, for every arc that the speaker `b` had
between its nodes for the words `u` and `v`, after a `mergeBabblers(a, b)` that
leaves every counter within the range of `int64` (`hrange`) the speaker `a`
has an arc of frequency at least `1` between its nodes for `u` and `v`, the
boundary word of `b` being replaced by the boundary word of `a`; a speaker that
is merged into itself goes by one name.  For distinct speakers the merge ends
without error.  The calls are those on SQLite values. -/
theorem merge_makes_transitions_available (real : Conversion) (order : Mapping → Mapping)
    (horder : ∀ m, (order m).Perm m) {db : DB} (hwf : WF db) (a b : Babbler)
    (intoName otherName : String)
    (hrange : Int64Store (Sqlite.mergeBabblers real order db a b intoName otherName).1)
    (hname : a.BabblerId = b.BabblerId → intoName = otherName) (u v : String)
    (x : BabblerArc) (hx : Sqlite.arcOf real db b u v = some x) :
    (∃ arc, Sqlite.arcOf real (Sqlite.mergeBabblers real order db a b intoName otherName).1 a
        (Sqlite.boundaryRenamed real intoName otherName u)
        (Sqlite.boundaryRenamed real intoName otherName v) = some arc ∧ 1 ≤ arc.Frequency) ∧
    (a.BabblerId ≠ b.BabblerId →
      (Sqlite.mergeBabblers real order db a b intoName otherName).2 = none) := by
  have hr0 : Int64Store db :=
    int64Store_of_grows (sgrows_mergeBabblers real order db a b intoName otherName) hrange
  have hsim := sim_mergeBabblers real order db a b intoName otherName hrange
  have hstore : (Sqlite.mergeBabblers real order db a b intoName otherName).1 =
      (mergeBabblers order db a b intoName otherName).1 := by rw [hsim]
  have herr : (Sqlite.mergeBabblers real order db a b intoName otherName).2 =
      (mergeBabblers order db a b intoName otherName).2.map Failure.go := by rw [hsim]
  rw [hstore] at hrange ⊢
  rw [sim_arcOf real hr0 b u v] at hx
  obtain ⟨h1, h2⟩ := mergeBabblers_transitions_available order horder hwf a b intoName
    otherName hname (numericAffinity real u) (numericAffinity real v) x hx
  refine ⟨?_, fun hab => ?_⟩
  · rw [sim_arcOf real hrange a, numericAffinity_boundaryRenamed,
      numericAffinity_boundaryRenamed]
    exact h1
  · rw [herr, h2 hab]
    rfl

/-- An instance: the arc `x → y` of `bob` merged into `alice`. -/
theorem merge_makes_transitions_available_witness :
    WF mergeStore ∧
    Int64Store (Sqlite.mergeBabblers asWritten id mergeStore alice bob "alice" "bob").1 ∧
    (alice.BabblerId = bob.BabblerId → "alice" = "bob") ∧
    Sqlite.arcOf asWritten mergeStore bob "x" "y" = some ⟨1, 1, 2, 2⟩ ∧
    ∃ arc, Sqlite.arcOf asWritten
        (Sqlite.mergeBabblers asWritten id mergeStore alice bob "alice" "bob").1 alice
        (Sqlite.boundaryRenamed asWritten "alice" "bob" "x")
        (Sqlite.boundaryRenamed asWritten "alice" "bob" "y") = some arc ∧
      1 ≤ arc.Frequency :=
  ⟨WF_learnAll _, by decide, by decide, by decide,
    (merge_makes_transitions_available asWritten id (fun m => List.Perm.refl m) (WF_learnAll _)
      alice bob "alice" "bob" (by decide) (by decide) "x" "y" ⟨1, 1, 2, 2⟩ (by decide)).1⟩

/-- C12: for a name that has no row in `babblers`, the lookup `getBabbler`
fails with `NO_BABBLER`, and `babbleSeed` returns the empty string with a `nil`
error for every seed and every random source. -/
theorem babble_unknown_speaker_returns_nil (db : DB) (name : String)
    (h : ∀ b ∈ db.babblers, b.Name ≠ name) (seed : List String) (rnd : Nat → Nat)
    (fuel : Nat) :
    getBabbler db name = .error .NO_BABBLER ∧
      babbleSeed db name seed rnd fuel = some ("", none) := by
  have hg : getBabbler db name = .error .NO_BABBLER := by
    unfold getBabbler
    have : db.babblers.find? (fun b => b.Name = name) = none := by
      rw [List.find?_eq_none]
      intro b hb
      simpa using h b hb
    rw [this]
  refine ⟨hg, ?_⟩
  unfold babbleSeed
  rw [hg]

theorem babble_unknown_speaker_returns_nil_witness :
    (∀ b ∈ freshStore.babblers, b.Name ≠ "carol") ∧
    babbleSeed freshStore "carol" ["hello"] (fun _ => 0) 5 = some ("", none) :=
  ⟨by decide,
    (babble_unknown_speaker_returns_nil freshStore "carol" (by decide) ["hello"]
      (fun _ => 0) 5).2⟩

/-- C13 (defect of the code).  After `alice` has learned the utterance `007`,
she has never spoken the word `7` (her words are `007` and the terminal
marker), but `babbleSeed(alice, ["7"])` does not fail with `NEVER_SAID`: the
word column has NUMERIC affinity, `007` is stored as the integer `7` and the
lookup of the seed word `7` finds her node for it, so the seed passes and the
walk returns `7`. -/
theorem unspoken_number_passes_as_seed :
    spokenWords "007" = ["007", " "] ∧
    Sqlite.learned asWritten alice Sqlite.twoSpeakers ["007"] =
      ({ babblers := [⟨1, "alice"⟩, ⟨2, "bob"⟩],
         babblerWords := [⟨1, ""⟩, ⟨2, "7"⟩, ⟨3, " "⟩],
         babblerNodes := [⟨1, 1, 2, 1, 1⟩, ⟨2, 1, 3, 0, 0⟩],
         babblerArcs := [⟨1, 1, 2, 1⟩] }, none) ∧
    Sqlite.getBabblerNode asWritten (Sqlite.learned asWritten alice Sqlite.twoSpeakers ["007"]).1
      alice "7" = .ok ⟨1, 1, 2, 1, 1⟩ ∧
    Sqlite.babbleSeed asWritten (Sqlite.learned asWritten alice Sqlite.twoSpeakers ["007"]).1
      "alice" ["7"] (fun _ => 0) 1 = some ("7", none) := by
  decide

/-- The seed validation on words kept as text.  For an existing speaker and a
non-empty seed, `babbleSeed` returns
`NEVER_SAID` exactly when the seed is not an observed path of the speaker (a
seed word without a node, or two neighbouring seed words without an arc); it
then returns the empty string for every random source and every amount of
fuel, also none: no draw is made.  In a store built by learning, a seed with a
word that is in none of the utterances of the speaker is not an observed
path. -/
theorem seed_never_said_iff_not_observed (db : DB) (name : String) (s : Babbler)
    (seed : List String) (hs : getBabbler db name = .ok s) (hne : seed ≠ []) :
    (∀ (rnd : Nat → Nat) (fuel : Nat),
      (∃ out, babbleSeed db name seed rnd fuel = some (out, some .NEVER_SAID)) ↔
        observedPath db s seed = false) ∧
    (observedPath db s seed = false → ∀ (rnd : Nat → Nat) (fuel : Nat),
      babbleSeed db name seed rnd fuel = some ("", some .NEVER_SAID)) ∧
    (∀ hist : History, db = learnAll New hist →
      (∃ w ∈ seed, ∀ phrase ∈ utterancesOf hist s, w ∉ spokenWords phrase) →
      observedPath db s seed = false) := by
  have hfail : observedPath db s seed = false → ∀ (rnd : Nat → Nat) (fuel : Nat),
      babbleSeed db name seed rnd fuel = some ("", some .NEVER_SAID) := by
    intro hobs rnd fuel
    cases seed with
    | nil => exact absurd rfl hne
    | cons word rest =>
      unfold babbleSeed
      rw [hs]
      simp only
      rcases getBabblerNode_cases db s word with ⟨first, hfirst⟩ | herr
      · rw [hfirst]
        simp only [(seedLoop_spec db s rest first word hfirst).2 hobs]
      · rw [herr]
  refine ⟨fun rnd fuel => ⟨?_, fun hobs => ⟨"", hfail hobs rnd fuel⟩⟩, hfail, ?_⟩
  swap
  · rintro hist rfl ⟨w, hw, hnever⟩
    have hnone : nodeIdOf (learnAll New hist) s w = none := by
      cases hn : nodeIdOf (learnAll New hist) s w with
      | none => rfl
      | some i =>
        rcases node_of_learned hist New WF_New s w i hn with h1 | ⟨p, hp, hwp⟩
        · rw [nodeIdOf_of_error (getBabblerNode_New s w)] at h1
          cases h1
        · exact absurd hwp (hnever p hp)
    unfold observedPath
    rw [Bool.and_eq_false_iff]
    left
    rw [List.all_eq_false]
    exact ⟨w, hw, by rw [hnone]; simp⟩
  rintro ⟨out, hout⟩
  by_contra hobs
  have hobs : observedPath db s seed = true := by simpa using hobs
  cases seed with
  | nil => exact absurd rfl hne
  | cons word rest =>
    unfold babbleSeed at hout
    rw [hs] at hout
    simp only at hout
    rcases getBabblerNode_cases db s word with ⟨first, hfirst⟩ | herr
    · obtain ⟨final, hfinal⟩ := (seedLoop_spec db s rest first word hfirst).1 hobs
      rw [hfirst] at hout
      simp only [hfinal] at hout
      exact babbleLoop_not_never_said db rnd _ _ _ _ _ hout
    · have : (nodeIdOf db s word).isSome = false := by rw [nodeIdOf_of_error herr]; rfl
      simp [observedPath, this] at hobs

theorem seed_never_said_iff_not_observed_witness :
    getBabbler freshStore "alice" = .ok alice ∧ ["world", "hello"] ≠ [] ∧
    observedPath freshStore alice ["world", "hello"] = false ∧
    babbleSeed freshStore "alice" ["world", "hello"] (fun _ => 0) 0 =
      some ("", some .NEVER_SAID) :=
  ⟨by decide, by decide, by decide,
    (seed_never_said_iff_not_observed freshStore "alice" alice ["world", "hello"] (by decide)
      (by decide)).2.1 (by decide) (fun _ => 0) 0⟩

/-- C14, as stated, fails where a counter leaves the range of `int64`.  `alice`
has learned `a` and is merged into herself `63` times.  Every merge doubles the
`rootFrequency` of her node for `a`; the 63rd sets it to `2^63`, which SQLite
keeps as a floating-point number, and returns the error of the `StructScan`
of that row.  When `alice` then learns `a` again, `getBabblerNode` fails with
the same error, `getOrCreateBabblerNode` takes that for a missing node and
inserts a second node row for (`alice`, `a`): rows `1` and `4`. -/
theorem overflowed_node_is_duplicated :
    Sqlite.selfMerged asWritten alice "alice" 63
        (Sqlite.learned asWritten alice Sqlite.twoSpeakers ["a"]).1 =
      ({ babblers := [⟨1, "alice"⟩, ⟨2, "bob"⟩],
         babblerWords := [⟨1, ""⟩, ⟨2, "a"⟩, ⟨3, " "⟩, ⟨4, "<alice>"⟩],
         babblerNodes := [⟨1, 1, 2, 1, 2 ^ 63⟩, ⟨2, 1, 3, 0, 0⟩, ⟨3, 1, 4, 0, 0⟩],
         babblerArcs := [⟨1, 1, 2, 63⟩] }, some .scan) ∧
    Sqlite.addToMarkovChain asWritten
        (Sqlite.selfMerged asWritten alice "alice" 63
          (Sqlite.learned asWritten alice Sqlite.twoSpeakers ["a"]).1).1 alice "a" =
      ({ babblers := [⟨1, "alice"⟩, ⟨2, "bob"⟩],
         babblerWords := [⟨1, ""⟩, ⟨2, "a"⟩, ⟨3, " "⟩, ⟨4, "<alice>"⟩],
         babblerNodes := [⟨1, 1, 2, 1, 2 ^ 63⟩, ⟨2, 1, 3, 0, 0⟩, ⟨3, 1, 4, 0, 0⟩,
           ⟨4, 1, 2, 1, 1⟩],
         babblerArcs := [⟨1, 1, 2, 63⟩, ⟨2, 4, 2, 1⟩] }, none) ∧
    ¬ ((Sqlite.addToMarkovChain asWritten
        (Sqlite.selfMerged asWritten alice "alice" 63
          (Sqlite.learned asWritten alice Sqlite.twoSpeakers ["a"]).1).1
        alice "a").1.babblerNodes.map
        fun n => (n.BabblerId, n.WordId)).Nodup := by
  decide!

/-- C14, amended: in every store that register, learn and merge calls produce
from the store `New` creates and in which every counter is within the range of
`int64` (`hrange`), the node rows have pairwise different
(babblerId, wordId): two node rows of one speaker for one word are the same
row.  The calls are those on SQLite values. -/
theorem node_rows_unique_per_speaker_word (real : Conversion) {db : DB}
    (h : Sqlite.Reachable real db) (hrange : Int64Store db) :
    (db.babblerNodes.map fun n => (n.BabblerId, n.WordId)).Nodup ∧
    ∀ n1 ∈ db.babblerNodes, ∀ n2 ∈ db.babblerNodes,
      n1.BabblerId = n2.BabblerId → n1.WordId = n2.WordId → n1 = n2 := by
  have hwf := sreachable_WF real h hrange
  refine ⟨hwf.nodeKeys_nodup, ?_⟩
  intro n1 h1 n2 h2 hb hw
  apply List.inj_on_of_nodup_map hwf.nodeKeys_nodup h1 h2
  simp only [Prod.mk.injEq]
  exact ⟨hb, hw⟩

theorem node_rows_unique_per_speaker_word_witness :
    Sqlite.Reachable asWritten mergedStore ∧ Int64Store mergedStore ∧
    (mergedStore.babblerNodes.map fun n => (n.BabblerId, n.WordId)).Nodup :=
  ⟨sreachable_mergedStore, by decide,
    (node_rows_unique_per_speaker_word asWritten sreachable_mergedStore (by decide)).1⟩

/-- C18: an utterance has no tokens exactly when all its runes are white
space, and for such an utterance `addToMarkovChain` returns no error and the
store it was given. -/
theorem learn_without_tokens_is_noop (db : DB) (b : Babbler) (phrase : String) :
    (Fields (ToLower phrase) = [] ↔ ∀ c ∈ phrase.data, isSpace c = true) ∧
      ((∀ c ∈ phrase.data, isSpace c = true) → addToMarkovChain db b phrase = (db, none)) := by
  refine ⟨tokens_eq_nil_iff phrase, fun h => ?_⟩
  have hf : Fields (ToLower phrase) = [] := (tokens_eq_nil_iff phrase).2 h
  unfold addToMarkovChain
  rw [hf]

theorem learn_without_tokens_is_noop_witness :
    (∀ c ∈ "   ".data, isSpace c = true) ∧
    addToMarkovChain freshStore alice "   " = (freshStore, none) :=
  ⟨by decide, (learn_without_tokens_is_noop freshStore alice "   ").2 (by decide)⟩

/-- C19 (defect of the code).  `alice` has learned the utterance `7` twice and
has never used the word `007`.  After she learns the utterance `007` three
times, no word row has the text `007`, and the node of `alice` that the lookup
of `007` finds is her node for `7`, with `rootFrequency` `5`, not `3`: the word
column has NUMERIC affinity and keeps `007` as the integer `7`. -/
theorem number_learned_under_another_text :
    Sqlite.learned asWritten alice Sqlite.twoSpeakers ["7", "7"] =
      ({ babblers := [⟨1, "alice"⟩, ⟨2, "bob"⟩],
         babblerWords := [⟨1, ""⟩, ⟨2, "7"⟩, ⟨3, " "⟩],
         babblerNodes := [⟨1, 1, 2, 1, 2⟩, ⟨2, 1, 3, 0, 0⟩],
         babblerArcs := [⟨1, 1, 2, 2⟩] }, none) ∧
    Fields (ToLower "007") = ["007"] ∧
    Sqlite.learned asWritten alice (Sqlite.learned asWritten alice Sqlite.twoSpeakers ["7", "7"]).1
        ["007", "007", "007"] =
      ({ babblers := [⟨1, "alice"⟩, ⟨2, "bob"⟩],
         babblerWords := [⟨1, ""⟩, ⟨2, "7"⟩, ⟨3, " "⟩],
         babblerNodes := [⟨1, 1, 2, 1, 5⟩, ⟨2, 1, 3, 0, 0⟩],
         babblerArcs := [⟨1, 1, 2, 5⟩] }, none) ∧
    Sqlite.getBabblerNode asWritten
        (Sqlite.learned asWritten alice
          (Sqlite.learned asWritten alice Sqlite.twoSpeakers ["7", "7"]).1
          ["007", "007", "007"]).1 alice "007" = .ok ⟨1, 1, 2, 1, 5⟩ := by
  decide

/-- One word learned repeatedly, on words kept as text: on a well-formed store
in which the speaker has no node for `w`,
learning an utterance whose only token is `w` `N ≥ 1` times leaves exactly one
word row with the text `w` and exactly one node row of the speaker for that
word, a root with `rootFrequency = N`. -/
theorem single_word_learned_repeatedly (db : DB) (hwf : WF db) (s : Babbler)
    (phrase w : String) (N : Nat) (hN : 1 ≤ N) (htok : Fields (ToLower phrase) = [w])
    (hnew : getBabblerNode db s w = .error .NEVER_SAID) :
    ∃ (x : BabblerWord) (n : BabblerNode),
      (learnTimes db s phrase N).babblerWords.filter (fun y => y.Word = w) = [x] ∧
      (learnTimes db s phrase N).babblerNodes.filter
        (fun m => m.BabblerId = s.BabblerId ∧ m.WordId = x.WordId) = [n] ∧
      n.RootFrequency = N ∧ n.Root = 1 := by
  obtain ⟨hwf', _, hroot⟩ := learnTimes_spec s phrase N db hwf
  have hcount : rootFrequencyOf (learnTimes db s phrase N) s w = N := by
    rw [hroot w]
    have h0 : rootFrequencyOf db s w = 0 := by
      unfold rootFrequencyOf
      rw [hnew]
    have htk : tokens phrase = [w] := htok
    rw [h0, htk]
    simp
  obtain ⟨n, hn, hnrf⟩ := rootFrequencyOf_pos (by rw [hcount]; exact hN)
  obtain ⟨x, hx, hmem, hbid, hwid, _⟩ := getBabblerNode_ok hn
  obtain ⟨hxmem, hxw⟩ := getWord_ok hx
  refine ⟨x, n, ?_, ?_, hnrf.trans hcount, ?_⟩
  · apply filter_eq_singleton _ (List.Nodup.of_map _ hwf'.wordTexts_nodup) hxmem
      (by simpa using hxw)
    intro y hy hyw
    have hyw : y.Word = w := by simpa using hyw
    exact List.inj_on_of_nodup_map hwf'.wordTexts_nodup hy hxmem (hyw.trans hxw.symm)
  · apply filter_eq_singleton _ (List.Nodup.of_map _ hwf'.nodeIds_nodup) hmem
      (by simpa using ⟨hbid, hwid⟩)
    intro m hm hmk
    have hmk : m.BabblerId = s.BabblerId ∧ m.WordId = x.WordId := by simpa using hmk
    apply List.inj_on_of_nodup_map hwf'.nodeKeys_nodup hm hmem
    simp only [Prod.mk.injEq]
    exact ⟨hmk.1.trans hbid.symm, hmk.2.trans hwid.symm⟩
  · rcases hwf'.node_root n hmem with h | h
    · exact h.1
    · have : n.RootFrequency = N := hnrf.trans hcount
      omega

theorem single_word_learned_repeatedly_witness :
    WF freshStore ∧ 1 ≤ 3 ∧ Fields (ToLower "Hi") = ["hi"] ∧
    getBabblerNode freshStore bob "hi" = .error .NEVER_SAID ∧
    ∃ (x : BabblerWord) (n : BabblerNode),
      (learnTimes freshStore bob "Hi" 3).babblerWords.filter (fun y => y.Word = "hi") = [x] ∧
      (learnTimes freshStore bob "Hi" 3).babblerNodes.filter
        (fun m => m.BabblerId = bob.BabblerId ∧ m.WordId = x.WordId) = [n] ∧
      n.RootFrequency = 3 ∧ n.Root = 1 :=
  ⟨WF_learnAll _, by decide, by decide, by decide,
    single_word_learned_repeatedly freshStore (WF_learnAll _) bob "Hi" "hi" 3 (by decide)
      (by decide) (by decide)⟩

/-- C21 (counterexample): the five-token line `merge babbler a or b`, whose
fourth token is not `and`, is passed to the merge handler, and the line
` merge babbler a and b`, whose tokens have the shape `merge babbler a and b`
and which starts with a blank, is passed to `addToBabbler`. -/
theorem merge_dispatch_counterexample :
    Fields (ToLower "merge babbler a or b") = ["merge", "babbler", "a", "or", "b"] ∧
    Message "merge babbler a or b" = .merge ∧
    Fields (ToLower " merge babbler a and b") = ["merge", "babbler", "a", "and", "b"] ∧
    Message " merge babbler a and b" = .addToBabbler := by
  decide

/-- C21 (amended): `Message` passes a chat line to the merge handler exactly
when the lower-cased line starts with the text `merge babbler` and has five
tokens; the first token then is `merge`, the second starts with `babbler` (so
it is not `says`), and the other three are any tokens. -/
theorem merge_dispatch (body : String) :
    (Message body = .merge ↔
      (Fields (ToLower body)).length = 5 ∧
        ∃ rest, (ToLower body).data = "merge babbler".data ++ rest) ∧
    (Message body = .merge →
      ∃ (t a c b : String) (r : List Char),
        Fields (ToLower body) = ["merge", t, a, c, b] ∧ t.data = "babbler".data ++ r) := by
  refine ⟨Message_merge_iff body, fun h => ?_⟩
  obtain ⟨hlen, rest, hr⟩ := (Message_merge_iff body).1 h
  obtain ⟨t, ts, r, h1, h2⟩ := fields_merge_babbler rest
  have hf : Fields (ToLower body) = "merge" :: t :: ts := by
    unfold Fields
    rw [hr, h1]
  rw [hf] at hlen
  match ts, hlen with
  | [a, c, b], _ => exact ⟨t, a, c, b, r, hf, h2⟩

/-- C22 (counterexample): the tokens of the line `initialize  babbler for bob`
(two blanks after the first word) are `initialize`, `babbler`, `for`, `bob`, and
the line is passed to `addToBabbler`, not to the initialize handler. -/
theorem initialize_dispatch_counterexample :
    Fields (ToLower "initialize  babbler for bob") = ["initialize", "babbler", "for", "bob"] ∧
    Message "initialize  babbler for bob" = .addToBabbler := by
  decide

/-- C22 (amended): `Message` passes a chat line to the initialize handler
exactly when the lower-cased line starts with the text
`initialize babbler for ` (single blanks, nothing before the first word) and
has four tokens; the tokens then are `initialize`, `babbler`, `for` and a name.
A line with another number of tokens is never passed to it. -/
theorem initialize_dispatch (body : String) :
    (Message body = .initializeBabbler ↔
      (Fields (ToLower body)).length = 4 ∧
        ∃ rest, (ToLower body).data = "initialize babbler for ".data ++ rest) ∧
    (Message body = .initializeBabbler →
      ∃ name : String, Fields (ToLower body) = ["initialize", "babbler", "for", name]) ∧
    ((Fields (ToLower body)).length ≠ 4 → Message body ≠ .initializeBabbler) := by
  refine ⟨Message_initialize_iff body, fun h => ?_, fun hlen h => ?_⟩
  · obtain ⟨hlen, rest, hr⟩ := (Message_initialize_iff body).1 h
    have hf : Fields (ToLower body) =
        "initialize" :: "babbler" :: "for" :: fieldsLoop rest [] := by
      unfold Fields
      rw [hr, fields_initialize_babbler_for]
    rw [hf] at hlen
    match hts : fieldsLoop rest [], hlen with
    | [name], _ => exact ⟨name, by rw [hf, hts]⟩
  · exact hlen ((Message_initialize_iff body).1 h).1

theorem initialize_dispatch_witness :
    Message "İnitialize Babbler for   Bob " = .initializeBabbler ∧
    ∃ name : String,
      Fields (ToLower "İnitialize Babbler for   Bob ") = ["initialize", "babbler", "for", name] :=
  ⟨by decide, (initialize_dispatch "İnitialize Babbler for   Bob ").2.1 (by decide)⟩

/-- C23: `LeftpadPlugin.Message` sends no message and returns `false` for every
message that is not a command, and for every command whose body is not the
word `leftpad` followed by at least three further parts, all separated by
single blanks; in the remaining case it sends one message and returns
`true`. -/
theorem leftpad_ignores_other_messages (fetch : String → String → String → Fetched)
    (message : bot.Message) :
    (message.Command = false → LeftpadPlugin.Message fetch message = ([], false)) ∧
    ((∀ (p1 p2 p3 : String) (rest : List String),
        message.Body ≠ Join ("leftpad" :: p1 :: p2 :: p3 :: rest) " ") →
      LeftpadPlugin.Message fetch message = ([], false)) ∧
    (LeftpadPlugin.Message fetch message ≠ ([], false) →
      (LeftpadPlugin.Message fetch message).2 = true ∧
        (LeftpadPlugin.Message fetch message).1.length = 1) := by
  refine ⟨fun h => ?_, fun h => ?_, fun h => ?_⟩
  · unfold LeftpadPlugin.Message
    rw [h]
    rfl
  · unfold LeftpadPlugin.Message
    split
    · rfl
    · simp only
      split
      · rename_i hparts
        exfalso
        have hjoin := Join_Split message.Body
        match hs : Split message.Body ' ', hparts with
        | p0 :: p1 :: p2 :: p3 :: rest, hp =>
          have h0 : p0 = "leftpad" := by simpa using hp.2
          rw [hs, h0] at hjoin
          exact h p1 p2 p3 rest hjoin.symm
        | [], hp => simp at hp
        | [_], hp => simp at hp
        | [_, _], hp => simp at hp
        | [_, _, _], hp => simp at hp
      · rfl
  · unfold LeftpadPlugin.Message at h ⊢
    split at h
    · exact absurd rfl h
    · rename_i hcmd
      rw [if_neg hcmd]
      simp only at h ⊢
      split at h
      · rename_i hparts
        rw [if_pos hparts]
        split <;> exact ⟨rfl, rfl⟩
      · exact absurd rfl h

theorem leftpad_ignores_other_messages_witness :
    (∀ (p1 p2 p3 : String) (rest : List String),
      "lololol" ≠ Join ("leftpad" :: p1 :: p2 :: p3 :: rest) " ") ∧
    LeftpadPlugin.Message (fun _ _ _ => .ok "padded") ⟨"test", "lololol", true⟩ = ([], false) ∧
    LeftpadPlugin.Message (fun _ _ _ => .ok "padded") ⟨"test", "leftpad test 8 test", false⟩ =
      ([], false) := by
  have hne : ∀ (p1 p2 p3 : String) (rest : List String),
      "lololol" ≠ Join ("leftpad" :: p1 :: p2 :: p3 :: rest) " " := by
    intro p1 p2 p3 rest hc
    have := congrArg String.data hc
    simp [Join, List.intercalate] at this
  exact ⟨hne, (leftpad_ignores_other_messages (fun _ _ _ => .ok "padded")
    ⟨"test", "lololol", true⟩).2.1 hne,
    (leftpad_ignores_other_messages (fun _ _ _ => .ok "padded")
      ⟨"test", "leftpad test 8 test", false⟩).1 rfl⟩

/-- C24 (defect of the code): after `alice` has learned the utterance `a a`, the
node of `a` has the arcs `a → a` and `a → " "`, both of frequency `1`, and every
draw selects the first: `babbleSeed(alice, ["a"])`, whose seed is an observed
path, and `babbleSeed(alice, [])` return for no random source and no amount of
fuel. -/
theorem walk_never_ends_after_repeated_word (rnd : Nat → Nat) (fuel : Nat) :
    observedPath loopStore alice ["a"] = true ∧
    arcFrequency loopStore alice "a" " " = 1 ∧
    babbleSeed loopStore "alice" ["a"] rnd fuel = none ∧
    babbleSeed loopStore "alice" [] rnd fuel = none := by
  refine ⟨by decide, by decide, ?_, ?_⟩
  · have h0 : babbleSeed loopStore "alice" ["a"] rnd fuel =
        babbleLoop loopStore rnd fuel 0 ⟨1, 1, 2, 1, 1⟩ ["a"] := rfl
    rw [h0]
    exact loopStore_walk rnd fuel 0 _
  · have h0 : babbleSeed loopStore "alice" [] rnd fuel =
        babbleLoop loopStore rnd fuel 1 ⟨1, 1, 2, 1, 1⟩ ["a"] := by
      unfold babbleSeed
      have hg : getBabbler loopStore "alice" = .ok alice := by decide
      rw [hg]
      simp only [loopStore_root]
      rfl
    rw [h0]
    exact loopStore_walk rnd fuel 1 _

/-- C25: in every store built by register and learn calls from the store `New`
creates, an arc leaves every node row whose word is not the terminal marker,
and `babbleSeed` does not fail with the `missing arcs` error for any speaker
name, any seed of words (the empty seed included), any random source and any
fuel.  A seed is made of tokens of a chat line, none of which is the terminal
marker `" "`; the theorem asks that of the last seed word only.  The same holds
of the calls on SQLite values, for every conversion, whatever the words and
the counters are (a call that ends with the error of a failing `Scan`
included); there the last seed word is one that the column does not keep as
the terminal marker. -/
theorem learned_store_has_no_dead_end (hist : History) :
    (∀ n ∈ (learnAll New hist).babblerNodes, ∀ w ∈ (learnAll New hist).babblerWords,
      w.WordId = n.WordId → w.Word ≠ " " →
      (learnAll New hist).babblerArcs.filter (fun a => a.FromNodeId = n.NodeId) ≠ []) ∧
    (∀ (name : String) (seed : List String) (rnd : Nat → Nat) (fuel : Nat) (out : String),
      seed.getLast? ≠ some " " →
      babbleSeed (learnAll New hist) name seed rnd fuel ≠ some (out, some .MISSING_ARCS)) ∧
    ∀ real : Conversion,
      (∀ n ∈ (Sqlite.learnAll real New hist).babblerNodes,
        ∀ w ∈ (Sqlite.learnAll real New hist).babblerWords,
        w.WordId = n.WordId → w.Word ≠ " " →
        (Sqlite.learnAll real New hist).babblerArcs.filter
          (fun a => a.FromNodeId = n.NodeId) ≠ []) ∧
      (∀ (name : String) (seed : List String) (rnd : Nat → Nat) (fuel : Nat) (out : String),
        (∀ l, seed.getLast? = some l → numericAffinity real l ≠ " ") →
        Sqlite.babbleSeed real (Sqlite.learnAll real New hist) name seed rnd fuel ≠
          some (out, some (.go .MISSING_ARCS))) := by
  have hwf := WF_learnAll hist
  refine ⟨?_, ?_, fun real => ?_⟩
  · intro n hn w hw hwn hsp
    have hlook : getBabblerNode (learnAll New hist) ⟨n.BabblerId, ""⟩ w.Word = .ok n :=
      (getBabblerNode_ok_iff hwf).2 ⟨hn, rfl, w, hw, rfl, hwn⟩
    exact learned_node_has_arcs hlook hsp
  · intro name seed rnd fuel out hlast h
    unfold babbleSeed at h
    cases hs : getBabbler (learnAll New hist) name with
    | error e =>
      rw [hs] at h
      cases h
    | ok s =>
    rw [hs] at h
    cases seed with
    | nil =>
      simp only at h
      cases hr : getWeightedRootNode (learnAll New hist) s (rnd 0) with
      | error e =>
        rw [hr] at h
        simp only at h
        injection h with h
        injection h with _ h
        injection h with h
        exact getWeightedRootNode_error hr h
      | ok p =>
        obtain ⟨cur, curWord⟩ := p
        rw [hr] at h
        simp only at h
        obtain ⟨hmem, hbid, hroot, hwmem, hwid⟩ := getWeightedRootNode_ok hr
        have hsp : curWord.Word ≠ " " := by
          intro hc
          have := (reachable_terminal (reachable_learnAll hist New Reachable.init)
            cur hmem curWord hwmem hwid hc).1
          omega
        have hlook : getBabblerNode (learnAll New hist) s curWord.Word = .ok cur :=
          (getBabblerNode_ok_iff hwf).2 ⟨hmem, hbid, curWord, hwmem, rfl, hwid⟩
        exact babbleLoop_no_missing_arcs rnd _ _ _ _ _ _ hlook hsp h
    | cons word rest =>
      simp only at h
      rcases getBabblerNode_cases (learnAll New hist) s word with ⟨first, hfirst⟩ | herr
      · rw [hfirst] at h
        simp only at h
        cases hl : seedLoop (learnAll New hist) s first rest with
        | error e =>
          rw [hl] at h
          simp only at h
          have hns : e = .NEVER_SAID := by
            cases hobs : observedPath (learnAll New hist) s (word :: rest) with
            | true =>
              obtain ⟨final, hfinal⟩ := (seedLoop_spec _ s rest first word hfirst).1 hobs
              rw [hfinal] at hl
              cases hl
            | false =>
              have := (seedLoop_spec _ s rest first word hfirst).2 hobs
              rw [this] at hl
              injection hl with hl
              exact hl.symm
          rw [hns] at h
          cases h
        | ok final =>
          rw [hl] at h
          simp only at h
          obtain ⟨l, hlst, hlook, _⟩ := seedLoop_sound rest first final word hfirst hl
          have hsp : l ≠ " " := by
            intro hc
            rw [hc] at hlst
            exact hlast hlst
          exact babbleLoop_no_missing_arcs rnd _ _ _ _ _ _ hlook hsp h
      · rw [herr] at h
        cases h
  · have hw := sqlite_learnAll_walkable real hist New walkable_New
    refine ⟨fun n hn w hw1 hid hsp hc => ?_, fun name seed rnd fuel out hlast =>
      sqlite_babbleSeed_no_missing_arcs real hw name seed rnd fuel out hlast⟩
    obtain ⟨a, ha, hfrom⟩ := walkable_has_arc hw hn (Or.inr ⟨w, hw1, hid, hsp⟩)
    have hmem : a ∈ (Sqlite.learnAll real New hist).babblerArcs.filter
        (fun a => a.FromNodeId = n.NodeId) := List.mem_filter.2 ⟨ha, by simpa using hfrom⟩
    rw [hc] at hmem
    cases hmem

/-- An instance: after `alice` has learned `hello world` and `hello there`, a
walk from the seed `hello` does not end with the `missing arcs` error; nor
does, on SQLite values, a walk from the seed `7` after she has learned
`007 08`. -/
theorem learned_store_has_no_dead_end_witness :
    ["hello"].getLast? ≠ some " " ∧
    babbleSeed (learnAll New
        [.register "alice", .learn alice "hello world", .learn alice "hello there"])
      "alice" ["hello"] (fun _ => 0) 2 ≠ some ("hello world", some .MISSING_ARCS) ∧
    (∀ l, ["7"].getLast? = some l → numericAffinity asWritten l ≠ " ") ∧
    Sqlite.babbleSeed asWritten
      (Sqlite.learnAll asWritten New [.register "alice", .learn alice "007 08"])
      "alice" ["7"] (fun _ => 0) 2 ≠ some ("7 8", some (.go .MISSING_ARCS)) :=
  ⟨by decide,
    (learned_store_has_no_dead_end
      [.register "alice", .learn alice "hello world", .learn alice "hello there"]).2.1
      "alice" ["hello"] (fun _ => 0) 2 "hello world" (by decide),
    by decide,
    ((learned_store_has_no_dead_end [.register "alice", .learn alice "007 08"]).2.2
      asWritten).2 "alice" ["7"] (fun _ => 0) 2 "7 8" (by decide)⟩

/-- C26 (defect of the code): on a well-formed store `incrementRootWordFrequency`
leaves the node row of the speaker for the word with its root flag set and its
`rootFrequency` one greater than before, and returns a node value with the id
and the `rootFrequency` of that row; but when the word was not a root of the
speaker before the call, the returned value has the root flag `0` where the
row has `1`. -/
theorem increment_root_returns_stale_flag {db : DB} (hwf : WF db) (b : Babbler)
    (word : String) :
    ∃ row : BabblerNode,
      getBabblerNode (incrementRootWordFrequency db b word).1 b word = .ok row ∧
      row.Root = 1 ∧ row.RootFrequency = rootFrequencyOf db b word + 1 ∧
      (incrementRootWordFrequency db b word).2.NodeId = row.NodeId ∧
      (incrementRootWordFrequency db b word).2.RootFrequency = row.RootFrequency ∧
      (rootFrequencyOf db b word = 0 →
        (incrementRootWordFrequency db b word).2.Root = 0 ∧
          (incrementRootWordFrequency db b word).2 ≠ row) := by
  cases hg : getOrCreateBabblerNode db b word with
  | mk db1 nd =>
    obtain ⟨hwf1, _, _, _, nd', hnd', hid, _, hcase⟩ :=
      getOrCreateBabblerNode_spec hwf b word db1 nd hg
    have heq : incrementRootWordFrequency db b word =
        ({ db1 with babblerNodes := updateRootById db1.babblerNodes nd.NodeId },
          { nd with RootFrequency := nd.RootFrequency + 1 }) := by
      unfold incrementRootWordFrequency
      rw [hg]
    rw [heq]
    simp only
    have hrow := getBabblerNode_updateRoot db1 nd.NodeId b word
    rw [hnd'] at hrow
    simp only [Except.map, if_pos hid] at hrow
    refine ⟨_, hrow, rfl, ?_, hid.symm, ?_, ?_⟩
    · rcases hcase with ⟨hdb, _⟩ | ⟨herr, _, _, _, hrf, _⟩
      · subst hdb
        simp only [rootFrequencyOf, hnd']
      · simp only [rootFrequencyOf, herr, hrf]
    · rcases hcase with ⟨_, hnn⟩ | ⟨herr, _, _, _, hrf, _⟩
      · rw [hnn]
      · have hc := getOrCreateBabblerNode_eq hwf b word
        rcases hc with ⟨n, hn, _⟩ | ⟨_, w, ws, _, _, _, hval⟩
        · rw [hn] at herr
          cases herr
        · rw [hg] at hval
          injection hval with _ hval
          rw [hval, hrf]
    · intro hzero
      have hroot : nd.Root = 0 := by
        rcases hcase with ⟨hdb, hnn⟩ | ⟨herr, _, _, _, _, _⟩
        · subst hdb
          subst hnn
          obtain ⟨_, _, hmem, _⟩ := getBabblerNode_ok hnd'
          simp only [rootFrequencyOf, hnd'] at hzero
          rcases hwf1.node_root _ hmem with h | h
          · omega
          · exact h.1
        · have hc := getOrCreateBabblerNode_eq hwf b word
          rcases hc with ⟨n, hn, _⟩ | ⟨_, w, ws, _, _, _, hval⟩
          · rw [hn] at herr
            cases herr
          · rw [hg] at hval
            injection hval with _ hval
            rw [hval]
      refine ⟨hroot, ?_⟩
      intro hc
      have := congrArg BabblerNode.Root hc
      simp only at this
      omega

theorem increment_root_returns_stale_flag_witness :
    WF New ∧
    getBabblerNode (incrementRootWordFrequency New alice "hello").1 alice "hello" =
      .ok ⟨1, 1, 2, 1, 1⟩ ∧
    (incrementRootWordFrequency New alice "hello").2 = ⟨1, 0, 2, 0, 1⟩ ∧
    ∃ row : BabblerNode,
      getBabblerNode (incrementRootWordFrequency New alice "hello").1 alice "hello" = .ok row ∧
      row.Root = 1 :=
  ⟨WF_New, by decide, by decide,
    (increment_root_returns_stale_flag WF_New alice "hello").imp fun _ h => ⟨h.1, h.2.1⟩⟩

theorem int64_rootDraw_no_exit {db : DB} (hwf : WF db) (hrange : Int64Store db) (b : Babbler)
    (r : Nat)
    (hsum : ((db.babblerNodes.filter
      (fun n => n.BabblerId = b.BabblerId ∧ n.Root = 1)).map (·.RootFrequency)).sum < 2 ^ 63) :
    Sqlite.getWeightedRootNode db b r ≠ .error (.go .FATAL) ∧
      Sqlite.getWeightedRootNode db b r ≠ .error (.go .PANIC) := by
  by_cases hne : db.babblerNodes.filter
      (fun n => n.BabblerId = b.BabblerId ∧ n.Root = 1) = []
  · have : Sqlite.getWeightedRootNode db b r = .error (.go .SAID_NOTHING) := by
      unfold Sqlite.getWeightedRootNode
      rw [hne]
      rfl
    rw [this]
    exact ⟨by decide, by decide⟩
  · obtain ⟨node, w, hres⟩ := (getWeightedRootNode_safe hwf b hne).2.2 r
    rw [int64_getWeightedRootNode hrange b r _ hsum hres]
    exact ⟨fun hc => (by cases hc), fun hc => (by cases hc)⟩

theorem int64_arcDraw_no_exit {db : DB} (hwf : WF db) (hrange : Int64Store db)
    (fromNode : BabblerNode) (r : Nat)
    (hsum : ((db.babblerArcs.filter
      (fun a => a.FromNodeId = fromNode.NodeId)).map (·.Frequency)).sum < 2 ^ 63) :
    Sqlite.getWeightedNextWord db fromNode r ≠ .error (.go .FATAL) ∧
      Sqlite.getWeightedNextWord db fromNode r ≠ .error (.go .PANIC) := by
  by_cases hne : db.babblerArcs.filter (fun a => a.FromNodeId = fromNode.NodeId) = []
  · have : Sqlite.getWeightedNextWord db fromNode r = .error (.go .MISSING_ARCS) := by
      unfold Sqlite.getWeightedNextWord
      rw [hne]
      rfl
    rw [this]
    exact ⟨by decide, by decide⟩
  · obtain ⟨node, w, hres⟩ := (getWeightedNextWord_safe hwf fromNode hne).2.2 r
    rw [int64_getWeightedNextWord hrange fromNode r _ hsum hres]
    exact ⟨fun hc => (by cases hc), fun hc => (by cases hc)⟩

theorem selfMerged_roots :
    Sqlite.selfMerged asWritten alice "alice" 62
        (Sqlite.learned asWritten alice Sqlite.twoSpeakers ["a", "b"]).1 =
      ({ babblers := [⟨1, "alice"⟩, ⟨2, "bob"⟩],
         babblerWords := [⟨1, ""⟩, ⟨2, "a"⟩, ⟨3, " "⟩, ⟨4, "b"⟩, ⟨5, "<alice>"⟩],
         babblerNodes := [⟨1, 1, 2, 1, 2 ^ 62⟩, ⟨2, 1, 3, 0, 0⟩, ⟨3, 1, 4, 1, 2 ^ 62⟩,
           ⟨4, 1, 5, 0, 0⟩],
         babblerArcs := [⟨1, 1, 2, 63⟩, ⟨2, 3, 2, 63⟩] }, none) := by
  decide!

/-- C27, as stated, fails where the total leaves the range of `int64`.  `alice`
has learned the utterances `a` and `b` and is merged into herself `62` times,
without error; every merge doubles the `rootFrequency` of her two root nodes,
which end at `2^62` each.  In `getWeightedRootNode` the `int64` total of the
two wraps around to `-2^63`, and `rand.Int63n` panics on that argument, for
every random value. -/
theorem draw_panics_after_doubling :
    (Sqlite.learned asWritten alice Sqlite.twoSpeakers ["a", "b"]).2 = none ∧
    Sqlite.selfMerged asWritten alice "alice" 62
        (Sqlite.learned asWritten alice Sqlite.twoSpeakers ["a", "b"]).1 =
      ({ babblers := [⟨1, "alice"⟩, ⟨2, "bob"⟩],
         babblerWords := [⟨1, ""⟩, ⟨2, "a"⟩, ⟨3, " "⟩, ⟨4, "b"⟩, ⟨5, "<alice>"⟩],
         babblerNodes := [⟨1, 1, 2, 1, 2 ^ 62⟩, ⟨2, 1, 3, 0, 0⟩, ⟨3, 1, 4, 1, 2 ^ 62⟩,
           ⟨4, 1, 5, 0, 0⟩],
         babblerArcs := [⟨1, 1, 2, 63⟩, ⟨2, 3, 2, 63⟩] }, none) ∧
    Sqlite.total64 [2 ^ 62, 2 ^ 62] = -2 ^ 63 ∧
    ∀ r : Nat, Sqlite.getWeightedRootNode
      (Sqlite.selfMerged asWritten alice "alice" 62
        (Sqlite.learned asWritten alice Sqlite.twoSpeakers ["a", "b"]).1).1 alice r =
        .error (.go .PANIC) := by
  refine ⟨by decide, selfMerged_roots, by decide, fun r => ?_⟩
  rw [selfMerged_roots]
  rfl

/-- C27, amended: in every store that register, learn and merge calls produce
from the store `New` creates and in which every counter is within the range of
`int64` (`hrange`), a non-empty list of root nodes of a speaker, and a
non-empty list of arcs that leave a node, whose frequencies sum to less than
`2^63` has an `int64` total of at least `1`, so that `rand.Int63n` gets a
positive argument; for every draw value below the total the selection loop
returns an element, and so do `getWeightedRootNode` and `getWeightedNextWord`
for every random value: neither the `shouldn't happen` exit nor the panic of
`rand.Int63n` is reached.  The calls and the draws are those on SQLite values
and `int64` sums. -/
theorem weighted_draw_is_safe (real : Conversion) {db : DB} (h : Sqlite.Reachable real db)
    (hrange : Int64Store db) :
    (∀ b : Babbler,
      db.babblerNodes.filter (fun n => n.BabblerId = b.BabblerId ∧ n.Root = 1) ≠ [] →
      ((db.babblerNodes.filter
          (fun n => n.BabblerId = b.BabblerId ∧ n.Root = 1)).map (·.RootFrequency)).sum < 2 ^ 63 →
      1 ≤ Sqlite.total64 ((db.babblerNodes.filter
          (fun n => n.BabblerId = b.BabblerId ∧ n.Root = 1)).map (·.RootFrequency)) ∧
      (∀ which : Nat, (which : Int) < Sqlite.total64 ((db.babblerNodes.filter
          (fun n => n.BabblerId = b.BabblerId ∧ n.Root = 1)).map (·.RootFrequency)) →
        ∃ node w, node ∈ db.babblerNodes.filter
            (fun n => n.BabblerId = b.BabblerId ∧ n.Root = 1) ∧
          Sqlite.rootLoop db which 0 (db.babblerNodes.filter
            (fun n => n.BabblerId = b.BabblerId ∧ n.Root = 1)) = .ok (node, w)) ∧
      ∀ r, ∃ node w, Sqlite.getWeightedRootNode db b r = .ok (node, w)) ∧
    (∀ fromNode : BabblerNode,
      db.babblerArcs.filter (fun a => a.FromNodeId = fromNode.NodeId) ≠ [] →
      ((db.babblerArcs.filter
          (fun a => a.FromNodeId = fromNode.NodeId)).map (·.Frequency)).sum < 2 ^ 63 →
      1 ≤ Sqlite.total64 ((db.babblerArcs.filter
          (fun a => a.FromNodeId = fromNode.NodeId)).map (·.Frequency)) ∧
      (∀ which : Nat, (which : Int) < Sqlite.total64 ((db.babblerArcs.filter
          (fun a => a.FromNodeId = fromNode.NodeId)).map (·.Frequency)) →
        ∃ node w, Sqlite.arcLoop db which 0 (db.babblerArcs.filter
            (fun a => a.FromNodeId = fromNode.NodeId)) = .ok (node, w)) ∧
      ∀ r, ∃ node w, Sqlite.getWeightedNextWord db fromNode r = .ok (node, w)) ∧
    (∀ (b : Babbler) (r : Nat),
      ((db.babblerNodes.filter
          (fun n => n.BabblerId = b.BabblerId ∧ n.Root = 1)).map (·.RootFrequency)).sum < 2 ^ 63 →
      Sqlite.getWeightedRootNode db b r ≠ .error (.go .FATAL) ∧
        Sqlite.getWeightedRootNode db b r ≠ .error (.go .PANIC)) ∧
    (∀ (fromNode : BabblerNode) (r : Nat),
      ((db.babblerArcs.filter
          (fun a => a.FromNodeId = fromNode.NodeId)).map (·.Frequency)).sum < 2 ^ 63 →
      Sqlite.getWeightedNextWord db fromNode r ≠ .error (.go .FATAL) ∧
        Sqlite.getWeightedNextWord db fromNode r ≠ .error (.go .PANIC)) := by
  have hwf := sreachable_WF real h hrange
  refine ⟨fun b hne hsum => ?_, fun fromNode hne hsum => ?_,
    fun b r hsum => int64_rootDraw_no_exit hwf hrange b r hsum,
    fun n r hsum => int64_arcDraw_no_exit hwf hrange n r hsum⟩
  · obtain ⟨hpos, hloop, hdraw⟩ := getWeightedRootNode_safe hwf b hne
    rw [total64_of_lt hsum]
    refine ⟨by exact_mod_cast hpos, fun which hw => ?_, fun r => ?_⟩
    · obtain ⟨node, w, hmem, hres⟩ := hloop which (by exact_mod_cast hw)
      exact ⟨node, w, hmem, int64_rootLoop which _ 0 _ (by rw [Nat.zero_add]; exact hsum) hres⟩
    · obtain ⟨node, w, hres⟩ := hdraw r
      exact ⟨node, w, int64_getWeightedRootNode hrange b r _ hsum hres⟩
  · obtain ⟨hpos, hloop, hdraw⟩ := getWeightedNextWord_safe hwf fromNode hne
    rw [total64_of_lt hsum]
    refine ⟨by exact_mod_cast hpos, fun which hw => ?_, fun r => ?_⟩
    · obtain ⟨node, w, hres⟩ := hloop which (by exact_mod_cast hw)
      exact ⟨node, w, int64_arcLoop hrange which _ 0 _ (by rw [Nat.zero_add]; exact hsum) hres⟩
    · obtain ⟨node, w, hres⟩ := hdraw r
      exact ⟨node, w, int64_getWeightedNextWord hrange fromNode r _ hsum hres⟩

theorem weighted_draw_is_safe_witness :
    Sqlite.Reachable asWritten mergedStore ∧ Int64Store mergedStore ∧
    ∀ r, ∃ node w, Sqlite.getWeightedRootNode mergedStore alice r = .ok (node, w) :=
  ⟨sreachable_mergedStore, by decide,
    ((weighted_draw_is_safe asWritten sreachable_mergedStore (by decide)).1 alice
      (by decide) (by decide)).2.2⟩

/-- C28: in every store that register, learn and merge calls produce from the
store `New` creates, both ends of every arc row are node rows of one speaker;
and `mergeBabblers` on such a store, for any two speakers, finds every arc
target in its mapping: it does not end with the panic of a `nil` node passed
to `incrementWordArc`.  The calls are those on SQLite values, and the counters
are any: the stores after a counter has left the range of `int64` are
included. -/
theorem arcs_stay_within_one_speaker (real : Conversion) {db : DB} (h : Sqlite.Reachable real db) :
    (∀ x ∈ db.babblerArcs, ∃ n1 ∈ db.babblerNodes, ∃ n2 ∈ db.babblerNodes,
      n1.NodeId = x.FromNodeId ∧ n2.NodeId = x.ToNodeId ∧ n1.BabblerId = n2.BabblerId) ∧
    (∀ (order : Mapping → Mapping), (∀ m, (order m).Perm m) →
      ∀ (a b : Babbler) (intoName otherName : String),
        (Sqlite.mergeBabblers real order db a b intoName otherName).2 ≠ some (.go .PANIC)) := by
  have hs := sreachable_scoped real h
  constructor
  · intro x hx
    obtain ⟨hfrom, hto⟩ := hs.arc_closed x hx
    obtain ⟨n1, hn1, hid1⟩ := List.mem_map.1 hfrom
    obtain ⟨n2, hn2, hid2⟩ := List.mem_map.1 hto
    exact ⟨n1, hn1, n2, hn2, hid1, hid2, hs.arc_speaker x hx n1 hn1 n2 hn2 hid1 hid2⟩
  · intro order horder a b intoName otherName
    exact (mergeBabblers_scoped real order horder hs a b intoName otherName).2

theorem arcs_stay_within_one_speaker_witness :
    Sqlite.Reachable asWritten mergedStore ∧
    (Sqlite.mergeBabblers asWritten id mergedStore alice bob "alice" "bob").2 ≠
      some (.go .PANIC) :=
  ⟨sreachable_mergedStore,
    (arcs_stay_within_one_speaker asWritten sreachable_mergedStore).2 id
      (fun m => List.Perm.refl m)
      alice bob "alice" "bob"⟩

end Catbase
